import Mathlib

/-!
# SeeC trace replay: the thread state mover

A shallow embedding of `lib/Trace/ThreadStateMover.cpp` (the event-by-event
state machine `addNextEvent` / `removePreviousEvent`) together with the parts
of `FunctionState`, `ProcessState`, `MemoryState` and the trace search
primitives that the mover calls.

Conventions.
* A thread's event log is a `List Event`; an `EventReference` is the position
  of a record in that list (the byte offsets of the file format are replaced by
  positions, `incrementNextEvent` is `+ 1`).
* 64-bit unsigned machine integers are `Nat`; where the source can wrap the
  operation is explicit (`add1`, `sub1`, `% U64`).
* A call that aborts the replay (a failed `assert`, `llvm_unreachable`, or
  undefined behaviour such as dereferencing an end iterator) is a value of
  `Fatal`; every mover operation returns `Except Fatal _`.
-/

namespace seec
namespace trace

/-! ## Machine integers and failures -/

/-- Modulus of the 64-bit unsigned integers (`uint64_t`, `offset_uint`). -/
def U64 : Nat := 18446744073709551616

/-- Unsigned 64-bit `x - 1`: it wraps to `2 ^ 64 - 1` at 0. On the values of
a `uint64_t` this is `(x + 2 ^ 64 - 1) % 2 ^ 64`. -/
def sub1 (x : Nat) : Nat := if x = 0 then U64 - 1 else x - 1

/-- Unsigned 64-bit `x + 1`: it wraps to 0 at `2 ^ 64 - 1`. -/
def add1 (x : Nat) : Nat := (x + 1) % U64

/-- Value used to represent an invalid or nonexistent offset (`noOffset()`). -/
def noOffset : Nat := 18446744073709551615

/-- ProcessTime used to refer to the initial state of the process. -/
def initialDataProcessTime : Nat := 0

/-- Ways in which a movement call can abort. -/
inductive Fatal where
  /-- An `assert(...)` of the source does not hold. -/
  | assertion
  /-- The source has undefined behaviour here (end iterator dereferenced,
  `back()` of an empty vector). -/
  | undefined
  /-- An `llvm_unreachable` is reached. -/
  | unreachable
  /-- A state inconsistency that the spec declares fatal. -/
  | inconsistent
deriving DecidableEq, Repr

/-! ## Event records -/

/-- Event records. `Events.def` is not part of the sources at hand: the kinds
are those for which `ThreadStateMoverImpl` declares `addEvent`/`removeEvent`,
and the members are the accessors these functions use. `Subservient` stands
for every kind with the `is_subservient` trait (the trailing detail records of
a runtime error). -/
inductive Event where
  | None
  | FunctionStart (FunctionIndex EventOffsetEnd ThreadTimeEntered ThreadTimeExited : Nat)
  | FunctionEnd (EventOffsetStart : Nat)
  | NewProcessTime (ProcessTime : Nat)
  | NewThreadTime
  | PreInstruction (Index : Nat)
  | Instruction (Index : Nat)
  | InstructionWithUInt8 (Index Value : Nat)
  | InstructionWithUInt16 (Index Value : Nat)
  | InstructionWithUInt32 (Index Value : Nat)
  | InstructionWithUInt64 (Index Value : Nat)
  | InstructionWithPtr (Index Value : Nat)
  | InstructionWithFloat (Index Value : Nat)
  | InstructionWithDouble (Index Value : Nat)
  | InstructionWithLongDouble (Index ValueWord1 ValueWord2 : Nat)
  | StackRestore (PopCount : Nat)
  | Alloca (ElementSize ElementCount : Nat)
  | Malloc (Size ProcessTime : Nat)
  | Free (Address ProcessTime : Nat)
  | Realloc (Address OldSize NewSize ProcessTime : Nat)
  | StateUntypedSmall (Address Size Data ProcessTime : Nat)
  | StateUntyped (Address DataOffset DataSize ProcessTime : Nat)
  | StateMemmove (SourceAddress DestinationAddress Size ProcessTime : Nat)
  | StateClear (Address ClearSize ProcessTime : Nat)
  | KnownRegionAdd (Address Size : Nat) (Readable Writable : Bool)
  | KnownRegionRemove (Address Size : Nat) (Readable Writable : Bool)
  | ByValRegionAdd (Argument Address Size : Nat)
  | FileOpen (FileAddress FilenameOffset ModeOffset ProcessTime : Nat)
  | FileWrite (FileAddress DataOffset DataSize ProcessTime : Nat)
  | FileWriteFromMemory (FileAddress DataAddress DataSize ProcessTime : Nat)
  | FileClose (FileAddress ProcessTime : Nat)
  | DirOpen (DirAddress DirnameOffset ProcessTime : Nat)
  | DirClose (DirAddress DirnameOffset ProcessTime : Nat)
  | RuntimeError (IsTopLevel : Bool)
  | Subservient (Kind : Nat)
deriving DecidableEq, Repr

namespace Event

/-- The value of this event's ProcessTime member, if it has one
(`EventRecordBase::getProcessTime`). -/
def getProcessTime : Event → Option Nat
  | NewProcessTime t => some t
  | Malloc _ t => some t
  | Free _ t => some t
  | Realloc _ _ _ t => some t
  | StateUntypedSmall _ _ _ t => some t
  | StateUntyped _ _ _ t => some t
  | StateMemmove _ _ _ t => some t
  | StateClear _ _ t => some t
  | FileOpen _ _ _ t => some t
  | FileWrite _ _ _ t => some t
  | FileWriteFromMemory _ _ _ t => some t
  | FileClose _ t => some t
  | DirOpen _ _ t => some t
  | DirClose _ _ t => some t
  | _ => none

/-- The value of this event's Index member, if it has one
(`EventRecordBase::getIndex`). -/
def getIndex : Event → Option Nat
  | PreInstruction i => some i
  | Instruction i => some i
  | InstructionWithUInt8 i _ => some i
  | InstructionWithUInt16 i _ => some i
  | InstructionWithUInt32 i _ => some i
  | InstructionWithUInt64 i _ => some i
  | InstructionWithPtr i _ => some i
  | InstructionWithFloat i _ => some i
  | InstructionWithDouble i _ => some i
  | InstructionWithLongDouble i _ _ => some i
  | _ => none

/-- Modelled from the spec: the `is_instruction` trait of `Events.def`
(events that set the currently active instruction). -/
def isInstruction (e : Event) : Bool := e.getIndex.isSome

/-- Modelled from the spec: the `is_subservient` trait of `Events.def`
(events that contain additional information for a preceding event). -/
def isSubservient : Event → Bool
  | Subservient _ => true
  | _ => false

/-- Modelled from the spec: the `is_function_level` trait of `Events.def`
(events that affect the currently active function and need a live frame). -/
def isFunctionLevel : Event → Bool
  | FunctionEnd _ => true
  | PreInstruction _ => true
  | Instruction _ => true
  | InstructionWithUInt8 _ _ => true
  | InstructionWithUInt16 _ _ => true
  | InstructionWithUInt32 _ _ => true
  | InstructionWithUInt64 _ _ => true
  | InstructionWithPtr _ _ => true
  | InstructionWithFloat _ _ => true
  | InstructionWithDouble _ _ => true
  | InstructionWithLongDouble _ _ _ => true
  | StackRestore _ => true
  | Alloca _ _ => true
  | ByValRegionAdd _ _ _ => true
  | _ => false

/-- Whether the record is a `FunctionStart`. -/
def isFunctionStart : Event → Bool
  | FunctionStart _ _ _ _ => true
  | _ => false

/-- Whether the record is a `FunctionEnd`. -/
def isFunctionEnd : Event → Bool
  | FunctionEnd _ => true
  | _ => false

/-- Whether the record is a `PreInstruction`. -/
def isPreInstruction : Event → Bool
  | PreInstruction _ => true
  | _ => false

/-- Whether the record is an `InstructionWithPtr`. -/
def isInstructionWithPtr : Event → Bool
  | InstructionWithPtr _ _ => true
  | _ => false

/-- The value-producing instruction events (`InstructionWith...`). -/
def isInstructionWithValue : Event → Bool
  | InstructionWithUInt8 _ _ => true
  | InstructionWithUInt16 _ _ => true
  | InstructionWithUInt32 _ _ => true
  | InstructionWithUInt64 _ _ => true
  | InstructionWithPtr _ _ => true
  | InstructionWithFloat _ _ => true
  | InstructionWithDouble _ _ => true
  | InstructionWithLongDouble _ _ _ => true
  | _ => false

end Event

/-! ## Traces (read-only during replay) -/

/-- Indexed view of one function of the module: the number of instructions and
the indices of the instructions whose type is `x86_fp80`. -/
structure FunctionIndex where
  InstructionCount : Nat
  X86FP80 : List Nat
deriving DecidableEq, Repr

/-- The process-wide read-only data: the module index and the shared data
block that events refer to by offset. -/
structure ProcessTrace where
  Module : List FunctionIndex
  Data : List Nat

/-- The read-only trace of one thread. -/
structure ThreadTrace where
  ThreadID : Nat
  events : List Event
  getCaughtSignalsAtTime : Nat → Option (List Nat)

/-- Per-invocation record (`FunctionTrace`). -/
structure FunctionTrace where
  Index : Nat
  EventStart : Nat
  EventEnd : Nat
  ThreadTimeEntered : Nat
  ThreadTimeExited : Nat
deriving DecidableEq, Repr

/-- Bytes `[Offset, Offset + Size)` of the process data (`getData`); reading
past the end of the block is undefined. -/
def ProcessTrace.getData (P : ProcessTrace) (Offset Size : Nat) : Except Fatal (List Nat) :=
  if Offset + Size ≤ P.Data.length then .ok ((P.Data.drop Offset).take Size) else .error .undefined

/-- The zero-terminated string starting at `Offset` (`getDataRaw`). -/
def ProcessTrace.getDataRaw (P : ProcessTrace) (Offset : Nat) : List Nat :=
  (P.Data.drop Offset).takeWhile (fun b => b != 0)

/-! ## Function state -/

/-- Per-instruction runtime value slot: a tagged union over the primitive
representations the tracer emits, plus "unassigned". Floating point payloads
are kept as their bit patterns. -/
inductive RuntimeValue where
  | unassigned
  | UInt64 (Value : Nat)
  | Ptr (Value : Nat)
  | Float (Bits : Nat)
  | Double (Bits : Nat)
  | APFloat (Word1 Word2 : Nat)
deriving DecidableEq, Repr

/-- Whether the slot holds a value (`RuntimeValue::assigned`). -/
def RuntimeValue.assigned : RuntimeValue → Bool
  | .unassigned => false
  | _ => true

/-- A contiguous range of addresses (`MemoryArea`). -/
structure MemoryArea where
  Address : Nat
  Length : Nat
deriving DecidableEq, Repr

/-- The result of a single alloca instruction (`AllocaState`). -/
structure AllocaState where
  InstructionIndex : Nat
  Address : Nat
  ElementSize : Nat
  ElementCount : Nat
deriving DecidableEq, Repr

/-- The total size of this allocation (`size_t` product). -/
def AllocaState.getTotalSize (a : AllocaState) : Nat :=
  (a.ElementSize * a.ElementCount) % U64

/-- The region `(getAddress(), getTotalSize())` of an alloca. -/
def AllocaState.area (a : AllocaState) : MemoryArea :=
  ⟨a.Address, a.getTotalSize⟩

/-- A by-value argument's backing area (`ParamByValState`). -/
structure ParamByValState where
  Argument : Nat
  Area : MemoryArea
deriving DecidableEq, Repr

/-- A runtime error attached to a frame: the position of its top-level
`RuntimeError` record and the detail records read after it. -/
structure RuntimeErrorState where
  Position : Nat
  Details : List Event
deriving DecidableEq, Repr

/-- State of a function invocation (`FunctionState`). The fields `Index`,
`Trace`, `ActiveInstruction`, `InstructionValues` and `Allocas` are those of
`FunctionState.hpp`; `ActiveInstructionComplete`, `ClearedAllocas`,
`ParamByVals` and `RuntimeErrors` are modelled from the spec. -/
structure FunctionState where
  Index : Nat
  Trace : FunctionTrace
  ActiveInstruction : Option Nat
  ActiveInstructionComplete : Bool
  InstructionValues : List RuntimeValue
  Allocas : List AllocaState
  ClearedAllocas : List AllocaState
  ParamByVals : List ParamByValState
  RuntimeErrors : List RuntimeErrorState
deriving DecidableEq, Repr

namespace FunctionState

/-- The constructor of `FunctionState.cpp`: one unassigned slot per instruction
of the function, no active instruction, no allocas. -/
def create (Index : Nat) (Function : FunctionIndex) (Trace : FunctionTrace) : FunctionState :=
  { Index := Index
    Trace := Trace
    ActiveInstruction := none
    ActiveInstructionComplete := false
    InstructionValues := List.replicate Function.InstructionCount .unassigned
    Allocas := []
    ClearedAllocas := []
    ParamByVals := []
    RuntimeErrors := [] }

/-- The number of instructions (`getInstructionCount`). -/
def getInstructionCount (f : FunctionState) : Nat := f.InstructionValues.length

/-- The instruction at an index, absent (`nullptr`) when the index is not below
the number of slots (`getInstruction` of `FunctionState.cpp`). -/
def getInstruction (f : FunctionState) (Index : Nat) : Option Nat :=
  if Index ≥ f.InstructionValues.length then none else some Index

/-- The active instruction, if there is one (`getActiveInstruction`). -/
def getActiveInstruction (f : FunctionState) : Option Nat := f.ActiveInstruction

/-- Clear the currently active instruction (`clearActiveInstruction`). -/
def clearActiveInstruction (f : FunctionState) : FunctionState :=
  { f with ActiveInstruction := none }

/-- Modelled from the spec: `setActiveInstructionComplete` of the absent
`FunctionState.hpp` revision ("set active instruction to i, marked complete"). -/
def setActiveInstructionComplete (f : FunctionState) (Index : Nat) : FunctionState :=
  { f with ActiveInstruction := some Index, ActiveInstructionComplete := true }

/-- Modelled from the spec: `setActiveInstructionIncomplete` of the absent
`FunctionState.hpp` revision ("set top frame's active instruction to i, marked
incomplete"). -/
def setActiveInstructionIncomplete (f : FunctionState) (Index : Nat) : FunctionState :=
  { f with ActiveInstruction := some Index, ActiveInstructionComplete := false }

/-- Modelled from the spec: `forwardingToInstruction` of the absent
`FunctionState.cpp` revision. The spec gives a frame no basic-block component,
so the call leaves every modelled component unchanged. -/
def forwardingToInstruction (f : FunctionState) (_Index : Nat) : FunctionState := f

/-- Modelled from the spec: `rewindingToInstruction` of the absent
`FunctionState.cpp` revision; as `forwardingToInstruction`. -/
def rewindingToInstruction (f : FunctionState) (_Index : Nat) : FunctionState := f

/-- Modelled from the spec: the `setValueUInt64`/`setValuePtr`/... family of
the absent `FunctionState.hpp` revision. "Setting a value replaces the slot";
a value for a nonexistent instruction (`getInstruction` returned `nullptr`) is
a fatal state inconsistency. -/
def setValue (f : FunctionState) (Instruction : Option Nat) (v : RuntimeValue) :
    Except Fatal FunctionState :=
  match Instruction with
  | none => .error .inconsistent
  | some i => .ok { f with InstructionValues := f.InstructionValues.set i v }

/-- Modelled from the spec: `removeAllocas` of the absent `FunctionState.cpp`
revision: remove the top `Count` allocas, keep them for `unremoveAllocas`, and
return them in their original order. Removing more than there are is
undefined. -/
def removeAllocas (f : FunctionState) (Count : Nat) :
    Except Fatal (FunctionState × List AllocaState) :=
  if Count ≤ f.Allocas.length then
    let Removed := f.Allocas.drop (f.Allocas.length - Count)
    .ok ({ f with Allocas := f.Allocas.take (f.Allocas.length - Count)
                  ClearedAllocas := f.ClearedAllocas ++ Removed }, Removed)
  else .error .undefined

/-- Modelled from the spec: `unremoveAllocas` of the absent
`FunctionState.cpp` revision: reinstate the `Count` most recently removed
allocas and return them in their original order. -/
def unremoveAllocas (f : FunctionState) (Count : Nat) :
    Except Fatal (FunctionState × List AllocaState) :=
  if Count ≤ f.ClearedAllocas.length then
    let Restored := f.ClearedAllocas.drop (f.ClearedAllocas.length - Count)
    .ok ({ f with Allocas := f.Allocas ++ Restored
                  ClearedAllocas := f.ClearedAllocas.take (f.ClearedAllocas.length - Count) },
         Restored)
  else .error .undefined

/-- Modelled from the spec: `addByValArea` of the absent `FunctionState.cpp`
revision ("top frame adds byval entry"). -/
def addByValArea (f : FunctionState) (Argument Address Size : Nat) : FunctionState :=
  { f with ParamByVals := f.ParamByVals ++ [⟨Argument, ⟨Address, Size⟩⟩] }

/-- Modelled from the spec: `removeByValArea` of the absent
`FunctionState.cpp` revision: drop the most recently added entry whose area
starts at `Address`. -/
def removeByValArea (f : FunctionState) (Address : Nat) : FunctionState :=
  { f with ParamByVals :=
      (f.ParamByVals.reverse.eraseP (fun b => b.Area.Address == Address)).reverse }

/-- Modelled from the spec: `addRuntimeError` of the absent
`FunctionState.cpp` revision: errors are "ordered by occurrence". -/
def addRuntimeError (f : FunctionState) (e : RuntimeErrorState) : FunctionState :=
  { f with RuntimeErrors := f.RuntimeErrors ++ [e] }

/-- Modelled from the spec: `removeLastRuntimeError` of the absent
`FunctionState.cpp` revision; popping from an empty sequence is undefined. -/
def removeLastRuntimeError (f : FunctionState) : Except Fatal FunctionState :=
  if f.RuntimeErrors = [] then .error .undefined
  else .ok { f with RuntimeErrors := f.RuntimeErrors.dropLast }

end FunctionState

/-! ## Memory state -/

namespace MemoryArea

/-- Whether an address lies in the area. -/
def contains (a : MemoryArea) (x : Nat) : Bool :=
  decide (a.Address ≤ x) && decide (x < a.Address + a.Length)

/-- Whether two areas share a byte. -/
def intersects (a b : MemoryArea) : Bool :=
  decide (a.Address < b.Address + b.Length) && decide (b.Address < a.Address + a.Length)
    && decide (0 < a.Length) && decide (0 < b.Length)

/-- Whether adding `a` next to a live `b` is an overlap: they share a byte or
are the same region. -/
def overlaps (a b : MemoryArea) : Bool := decide (a = b) || a.intersects b

end MemoryArea

/-- One entry of the memory journal: the byte values and initialization bits
that a region held before a forward operation. -/
structure JournalEntry where
  Values : List Nat
  Inits : List Bool
deriving DecidableEq, Repr

/-- Modelled from the spec: `MemoryState` (its sources are absent). "A sparse
byte array with: allocations, a set of live regions; for each address a value
byte and an initialization bit; a stack of prior operations sufficient to
invert each in reverse order." -/
structure MemoryState where
  Allocations : Finset MemoryArea
  Value : Nat → Nat
  Init : Nat → Bool
  Journal : List JournalEntry

namespace MemoryState

/-- The memory state of a fresh session. -/
def empty : MemoryState := ⟨∅, fun _ => 0, fun _ => false, []⟩

/-- Byte values of a region (`Region::getByteValues`). -/
def getValues (m : MemoryState) (a : MemoryArea) : List Nat :=
  (List.range a.Length).map (fun i => m.Value (a.Address + i))

/-- Initialization bits of a region. -/
def getInits (m : MemoryState) (a : MemoryArea) : List Bool :=
  (List.range a.Length).map (fun i => m.Init (a.Address + i))

/-- Whether every byte of the region is initialized
(`Region::isCompletelyInitialized`). -/
def isCompletelyInitialized (m : MemoryState) (a : MemoryArea) : Bool :=
  (m.getInits a).all id

/-- Whether the region is a live allocation. -/
def isAllocated (m : MemoryState) (a : MemoryArea) : Bool := decide (a ∈ m.Allocations)

/-- The journal entry that records the present contents of a region. -/
def saved (m : MemoryState) (a : MemoryArea) : JournalEntry := ⟨m.getValues a, m.getInits a⟩

/-- Push one journal entry. -/
def push (m : MemoryState) (j : JournalEntry) : MemoryState := { m with Journal := j :: m.Journal }

/-- Consume the top of the journal and write the recorded contents back over
the region; with an empty journal nothing is written. -/
def popRestore (m : MemoryState) (a : MemoryArea) : MemoryState :=
  match m.Journal with
  | [] => m
  | j :: rest =>
    { m with
      Value := fun x => if a.contains x then j.Values.getD (x - a.Address) (m.Value x) else m.Value x
      Init := fun x => if a.contains x then j.Inits.getD (x - a.Address) (m.Init x) else m.Init x
      Journal := rest }

/-- Mark the bytes of a region uninitialized. -/
def clearInit (m : MemoryState) (a : MemoryArea) : MemoryState :=
  { m with Init := fun x => if a.contains x then false else m.Init x }

/-- Forward `allocationAdd(addr, len)`: mark the region live. "Allocation add
of a region overlapping a live allocation is a fatal trace inconsistency." -/
def allocationAdd (m : MemoryState) (Address Length : Nat) : Except Fatal MemoryState :=
  if ∃ b ∈ m.Allocations, (MemoryArea.mk Address Length).overlaps b = true then .error .inconsistent
  else .ok ({ m with Allocations := insert (MemoryArea.mk Address Length) m.Allocations }.push ⟨[], []⟩)

/-- Inverse `allocationUnadd(addr, len)`. -/
def allocationUnadd (m : MemoryState) (Address Length : Nat) : MemoryState :=
  { m with Allocations := m.Allocations.erase ⟨Address, Length⟩, Journal := m.Journal.tail }

/-- Forward `allocationRemove(addr, len)`: mark the region dead, journalling
its contents; removing a region that is not live is a fatal inconsistency. -/
def allocationRemove (m : MemoryState) (Address Length : Nat) : Except Fatal MemoryState :=
  if (⟨Address, Length⟩ : MemoryArea) ∈ m.Allocations then
    .ok ({ (m.clearInit ⟨Address, Length⟩) with
            Allocations := m.Allocations.erase ⟨Address, Length⟩ }.push (m.saved ⟨Address, Length⟩))
  else .error .inconsistent

/-- Inverse `allocationUnremove(addr, len)`. -/
def allocationUnremove (m : MemoryState) (Address Length : Nat) : MemoryState :=
  { (m.popRestore ⟨Address, Length⟩) with Allocations := insert (MemoryArea.mk Address Length) m.Allocations }

/-- Forward `allocationResize(addr, old, new)`: the bytes beyond the new size
die, the overlapping contents are preserved. Resizing a region that is not
live, or onto another live region, is a fatal inconsistency. -/
def allocationResize (m : MemoryState) (Address OldSize NewSize : Nat) : Except Fatal MemoryState :=
  if (⟨Address, OldSize⟩ : MemoryArea) ∈ m.Allocations ∧
      ¬ ∃ b ∈ m.Allocations.erase ⟨Address, OldSize⟩, (MemoryArea.mk Address NewSize).overlaps b = true then
    .ok ({ (m.clearInit ⟨Address + NewSize, OldSize - NewSize⟩) with
            Allocations := insert (MemoryArea.mk Address NewSize) (m.Allocations.erase ⟨Address, OldSize⟩) }.push
          (m.saved ⟨Address, OldSize⟩))
  else .error .inconsistent

/-- Inverse `allocationUnresize(addr, new, old)`. -/
def allocationUnresize (m : MemoryState) (Address NewSize OldSize : Nat) : MemoryState :=
  { (m.popRestore ⟨Address, OldSize⟩) with
    Allocations := insert (MemoryArea.mk Address OldSize) (m.Allocations.erase ⟨Address, NewSize⟩) }

/-- Forward `addBlock(addr, len, bytes)`: overwrite the region and mark all
its bytes initialized, journalling the previous contents. -/
def addBlock (m : MemoryState) (Address Length : Nat) (Bytes : List Nat) : MemoryState :=
  { m with
    Value := fun x => if (MemoryArea.mk Address Length).contains x then Bytes.getD (x - Address) 0
                      else m.Value x
    Init := fun x => if (MemoryArea.mk Address Length).contains x then true else m.Init x
    Journal := m.saved ⟨Address, Length⟩ :: m.Journal }

/-- Inverse `removeBlock(area)`. -/
def removeBlock (m : MemoryState) (a : MemoryArea) : MemoryState := m.popRestore a

/-- Forward `addCopy(src, dst, len)`: byte-for-byte copy with init bits,
journalling the previous contents of the destination. -/
def addCopy (m : MemoryState) (Source Destination Length : Nat) : MemoryState :=
  { m with
    Value := fun x => if (MemoryArea.mk Destination Length).contains x
                      then m.Value (Source + (x - Destination)) else m.Value x
    Init := fun x => if (MemoryArea.mk Destination Length).contains x
                     then m.Init (Source + (x - Destination)) else m.Init x
    Journal := m.saved ⟨Destination, Length⟩ :: m.Journal }

/-- Inverse `removeCopy(src, dst, len)`. -/
def removeCopy (m : MemoryState) (_Source Destination Length : Nat) : MemoryState :=
  m.popRestore ⟨Destination, Length⟩

/-- Forward `addClear(area)`: mark the bytes uninitialized, journalling the
previous contents. -/
def addClear (m : MemoryState) (a : MemoryArea) : MemoryState :=
  (m.clearInit a).push (m.saved a)

/-- Inverse `removeClear(area)`. -/
def removeClear (m : MemoryState) (a : MemoryArea) : MemoryState := m.popRestore a

end MemoryState

/-! ## Process state -/

/-- A dynamic allocation: its size and the stack of allocator instructions
(function index, instruction index; absent for a null instruction). -/
structure MallocState where
  Size : Nat
  Allocators : List (Option (Nat × Nat))
deriving DecidableEq, Repr

/-- An open `FILE` stream: handle address, file name, mode and the text
written so far. -/
structure StreamState where
  Address : Nat
  Filename : List Nat
  Mode : List Nat
  Written : List Nat
deriving DecidableEq, Repr

/-- Append to the write buffer (`StreamState::write`). -/
def StreamState.write (s : StreamState) (Data : List Nat) : StreamState :=
  { s with Written := s.Written ++ Data }

/-- Remove the last `n` bytes of the write buffer (`StreamState::unwrite`). -/
def StreamState.unwrite (s : StreamState) (n : Nat) : StreamState :=
  { s with Written := s.Written.take (s.Written.length - n) }

/-- An open `DIR` handle: handle address and directory name. -/
structure DIRState where
  Address : Nat
  Dirname : List Nat
deriving DecidableEq, Repr

/-- Access permission of a known region. -/
inductive MemoryPermission where
  | None
  | ReadOnly
  | WriteOnly
  | ReadWrite
deriving DecidableEq, Repr

/-- Modelled from the spec: `ProcessState` (its sources are absent).
"Maintains: process_time, mallocs, streams, dirs, known_regions", the memory
state, and the removed mallocs and closed streams that the un-forms restore. -/
structure ProcessState where
  ProcessTime : Nat
  Mallocs : Nat → Option MallocState
  PreviousMallocs : List (Nat × MallocState)
  Streams : Nat → Option StreamState
  StreamsClosed : List (Nat × StreamState)
  Dirs : Nat → Option DIRState
  KnownMemory : Nat → Option (Nat × MemoryPermission)
  Memory : MemoryState

namespace ProcessState

/-- The process state of a fresh session. -/
def empty : ProcessState :=
  { ProcessTime := initialDataProcessTime
    Mallocs := fun _ => none
    PreviousMallocs := []
    Streams := fun _ => none
    StreamsClosed := []
    Dirs := fun _ => none
    KnownMemory := fun _ => none
    Memory := MemoryState.empty }

/-- Forward `addMalloc(addr, size, allocator)`; keys are unique, so a second
entry for a live address is a fatal inconsistency. -/
def addMalloc (p : ProcessState) (Address Size : Nat) (Allocator : Option (Nat × Nat)) :
    Except Fatal ProcessState :=
  match p.Mallocs Address with
  | some _ => .error .inconsistent
  | none => .ok { p with Mallocs := Function.update p.Mallocs Address (some ⟨Size, [Allocator]⟩) }

/-- Inverse `unaddMalloc(addr)`. -/
def unaddMalloc (p : ProcessState) (Address : Nat) : ProcessState :=
  { p with Mallocs := Function.update p.Mallocs Address none }

/-- Forward `removeMalloc(addr)`: the entry is kept aside for `unremoveMalloc`;
removing an unknown address is a fatal inconsistency. -/
def removeMalloc (p : ProcessState) (Address : Nat) : Except Fatal ProcessState :=
  match p.Mallocs Address with
  | none => .error .inconsistent
  | some e => .ok { p with Mallocs := Function.update p.Mallocs Address none
                           PreviousMallocs := (Address, e) :: p.PreviousMallocs }

/-- Inverse `unremoveMalloc(addr)`: reinstate the most recently removed
entry. -/
def unremoveMalloc (p : ProcessState) (Address : Nat) : ProcessState :=
  match p.PreviousMallocs with
  | [] => p
  | (_, e) :: rest =>
    { p with Mallocs := Function.update p.Mallocs Address (some e), PreviousMallocs := rest }

/-- Forward `addStream(stream)`; keys are unique while open. -/
def addStream (p : ProcessState) (s : StreamState) : Except Fatal ProcessState :=
  match p.Streams s.Address with
  | some _ => .error .inconsistent
  | none => .ok { p with Streams := Function.update p.Streams s.Address (some s) }

/-- Inverse of `addStream`: `removeStream(addr)`. -/
def removeStream (p : ProcessState) (Address : Nat) : ProcessState :=
  { p with Streams := Function.update p.Streams Address none }

/-- The stream of a handle (`getStream`), absent when not open. -/
def getStream (p : ProcessState) (Address : Nat) : Option StreamState := p.Streams Address

/-- Replace the stream of a handle (the effect of mutating through the pointer
that `getStream` returns). -/
def setStream (p : ProcessState) (Address : Nat) (s : StreamState) : ProcessState :=
  { p with Streams := Function.update p.Streams Address (some s) }

/-- Forward `closeStream(addr)`: "stream close preserves the pre-close handle
so it can be restored on backward motion"; closing a handle that is not open
is a fatal inconsistency. -/
def closeStream (p : ProcessState) (Address : Nat) : Except Fatal ProcessState :=
  match p.Streams Address with
  | none => .error .inconsistent
  | some s => .ok { p with Streams := Function.update p.Streams Address none
                           StreamsClosed := (Address, s) :: p.StreamsClosed }

/-- Inverse `restoreStream(addr)`: reopen the most recently closed stream when
it is the one of this handle; the result tells whether a stream was
restored. -/
def restoreStream (p : ProcessState) (Address : Nat) : ProcessState × Bool :=
  match p.StreamsClosed with
  | [] => (p, false)
  | (Handle, s) :: rest =>
    if Handle = Address then
      ({ p with Streams := Function.update p.Streams Address (some s), StreamsClosed := rest }, true)
    else (p, false)

/-- Forward `addDir(dir)`; keys are unique while open. -/
def addDir (p : ProcessState) (d : DIRState) : Except Fatal ProcessState :=
  match p.Dirs d.Address with
  | some _ => .error .inconsistent
  | none => .ok { p with Dirs := Function.update p.Dirs d.Address (some d) }

/-- Remove the directory of a handle (`removeDir`). -/
def removeDir (p : ProcessState) (Address : Nat) : ProcessState :=
  { p with Dirs := Function.update p.Dirs Address none }

/-- Forward `addKnownMemory(addr, size, access)`; regions are disjoint, keyed
by their address. -/
def addKnownMemory (p : ProcessState) (Address Size : Nat) (Access : MemoryPermission) :
    Except Fatal ProcessState :=
  match p.KnownMemory Address with
  | some _ => .error .inconsistent
  | none => .ok { p with KnownMemory := Function.update p.KnownMemory Address (some (Size, Access)) }

/-- Remove the known region at an address (`removeKnownMemory`). -/
def removeKnownMemory (p : ProcessState) (Address : Nat) : ProcessState :=
  { p with KnownMemory := Function.update p.KnownMemory Address none }

end ProcessState

/-! ## Thread state -/

/-- State of one thread (`ThreadState`). `Parent` and `Trace` are references in
the source and are passed alongside (see `State`). The vectors `CallStack` and
`m_CompletedFunctions` are used as stacks: the head of the list is `back()`,
`emplace_back` is `::` and `pop_back` is `tail`. -/
structure ThreadState where
  NextEvent : Nat
  ProcessTime : Nat
  ThreadTime : Nat
  CallStack : List FunctionState
  m_CompletedFunctions : List FunctionState
  m_CaughtSignals : List Nat
deriving DecidableEq, Repr

/-- The constructor of `ThreadState.cpp`: the next event is the first record,
the view of process time is the parent's, thread time 0, empty call stack. -/
def ThreadState.create (Parent : ProcessState) : ThreadState :=
  { NextEvent := 0
    ProcessTime := Parent.ProcessTime
    ThreadTime := 0
    CallStack := []
    m_CompletedFunctions := []
    m_CaughtSignals := [] }

/-- What a movement call on one thread reads and writes: the thread state
`m_State` and the shared process state `m_State.Parent`. -/
structure State where
  Parent : ProcessState
  Thread : ThreadState

/-- The state before any event of the thread has been applied. -/
def State.initial (Parent : ProcessState) : State := ⟨Parent, ThreadState.create Parent⟩

/-! ## Trace search -/

/-- Modelled from the spec: `rfind` of the absent `TraceSearch.hpp`
("find_backward(range, predicate): linear scan"). `rfind p events n` scans the
positions below `n` backwards: `rangeBefore(events, ref)` is `n = ref` and
`rangeBeforeIncluding(events, ref)` is `n = ref + 1`. -/
def rfind (p : Event → Bool) (events : List Event) : Nat → Option Nat
  | 0 => none
  | n + 1 =>
    match events[n]? with
    | some e => if p e then some n else rfind p events n
    | none => rfind p events n

/-- Backward scan that stays in one function invocation: the events of child
invocations (between a `FunctionEnd` and its `FunctionStart`) are skipped and
the scan stops at the `FunctionStart` of the invocation itself. -/
def rfindInFunctionAux (p : Event → Bool) (events : List Event) : Nat → Nat → Option Nat
  | 0, _ => none
  | n + 1, depth =>
    match events[n]? with
    | some (.FunctionEnd _) => rfindInFunctionAux p events n (depth + 1)
    | some (.FunctionStart _ _ _ _) =>
      if depth = 0 then none else rfindInFunctionAux p events n (depth - 1)
    | some e => if depth = 0 ∧ p e = true then some n else rfindInFunctionAux p events n depth
    | none => rfindInFunctionAux p events n depth

/-- Modelled from the spec: `rfindInFunction` of the absent `TraceSearch.hpp`
("scans backward in the same function invocation"), over the positions below
`n`. -/
def rfindInFunction (p : Event → Bool) (events : List Event) (n : Nat) : Option Nat :=
  rfindInFunctionAux p events n 0

/-! ## Helpers of the mover -/

/-- The checked conditions of the source: `assert(c)`. -/
def assert (c : Bool) : Except Fatal Unit := if c then .ok () else .error .assertion

/-- Apply a fallible update to `*(m_State.CallStack.back())`; `back()` of an
empty call stack is undefined. -/
def State.withTop (s : State) (g : FunctionState → Except Fatal FunctionState) :
    Except Fatal State :=
  match s.Thread.CallStack with
  | [] => .error .undefined
  | top :: rest =>
    match g top with
    | .error e => .error e
    | .ok top1 => .ok { s with Thread := { s.Thread with CallStack := top1 :: rest } }

/-- Replace the memory state of the parent. -/
def State.setMemory (s : State) (m : MemoryState) : State :=
  { s with Parent := { s.Parent with Memory := m } }

/-- The two assignments `Parent.ProcessTime = t; m_State.ProcessTime = t`. -/
def State.setProcessTimes (s : State) (t : Nat) : State :=
  { Parent := { s.Parent with ProcessTime := t }, Thread := { s.Thread with ProcessTime := t } }

/-- The assignment `Parent.ProcessTime = Ev.getProcessTime() - 1` (unsigned
64-bit subtraction). -/
def State.setParentProcessTimeBefore (s : State) (t : Nat) : State :=
  { s with Parent := { s.Parent with ProcessTime := sub1 t } }

/-- `allocationRemove` for each area, in list order. -/
def allocationRemoveAll (m : MemoryState) : List MemoryArea → Except Fatal MemoryState
  | [] => .ok m
  | a :: rest =>
    match m.allocationRemove a.Address a.Length with
    | .error e => .error e
    | .ok m1 => allocationRemoveAll m1 rest

/-- `allocationUnremove` for each area, in list order. -/
def allocationUnremoveAll (m : MemoryState) : List MemoryArea → MemoryState
  | [] => m
  | a :: rest => allocationUnremoveAll (m.allocationUnremove a.Address a.Length) rest

/-- The permission of a known region from its two flags. -/
def accessOf (Readable Writable : Bool) : MemoryPermission :=
  if Readable then (if Writable then .ReadWrite else .ReadOnly)
  else (if Writable then .WriteOnly else .None)

/-- The record as a function trace (`getFunctionTrace(Ev)`): the members of
the `FunctionStart` record at position `EvRef`. -/
def getFunctionTrace (EvRef : Nat) (FunctionIndex EventOffsetEnd Entered Exited : Nat) :
    FunctionTrace :=
  ⟨FunctionIndex, EvRef, EventOffsetEnd, Entered, Exited⟩

/-- Modelled from the spec: `deserializeRuntimeError` (absent): the error read
from the top-level record at `Position` and the detail records after it. -/
def deserializeRuntimeError (events : List Event) (Position : Nat) : RuntimeErrorState :=
  ⟨Position, (events.drop (Position + 1)).takeWhile Event.isSubservient⟩

/-- The eight bytes of a `StateUntypedSmall` payload, lowest first. -/
def smallData (Data : Nat) : List Nat := (List.range 8).map (fun i => Data / 256 ^ i % 256)

/-! ## Adding events -/

/-- `ThreadStateMoverImpl::setThreadTime`. -/
def setThreadTime (T : ThreadTrace) (s : State) (ThreadTime : Nat) : State :=
  { s with Thread := { s.Thread with
      ThreadTime := ThreadTime
      m_CaughtSignals := (T.getCaughtSignalsAtTime ThreadTime).getD [] } }

/-- `ThreadStateMoverImpl::incrementThreadTime`. -/
def incrementThreadTime (T : ThreadTrace) (s : State) : State :=
  setThreadTime T s (add1 s.Thread.ThreadTime)

/-- `ThreadStateMoverImpl::decrementThreadTime`. -/
def decrementThreadTime (T : ThreadTrace) (s : State) : State :=
  setThreadTime T s (sub1 s.Thread.ThreadTime)

/-- The common body of the `addEvent` overloads for value-producing
instructions: forward to the instruction, write the value, mark it complete,
increment the thread time. -/
def addInstructionWithValue (T : ThreadTrace) (s : State) (Index : Nat) (v : RuntimeValue) :
    Except Fatal State := do
  let s1 ← s.withTop (fun f => do
    let f1 := f.forwardingToInstruction Index
    let f2 ← f1.setValue (f1.getInstruction Index) v
    pure (f2.setActiveInstructionComplete Index))
  pure (incrementThreadTime T s1)

/-- `ThreadStateMoverImpl::addEvent(EventRecord<EventType::RuntimeError>)` for
the record at `Position`. -/
def addRuntimeErrorEvent (T : ThreadTrace) (s : State) (Position : Nat) (IsTopLevel : Bool) :
    Except Fatal State :=
  if !IsTopLevel then .ok s
  else s.withTop (fun f => .ok (f.addRuntimeError (deserializeRuntimeError T.events Position)))

/-- `ThreadStateMoverImpl::addEvent`, one case per overload; `EvRef` is
`m_EvRef`, the position of the record. -/
def addEvent (P : ProcessTrace) (T : ThreadTrace) (EvRef : Nat) (s : State) :
    Event → Except Fatal State
  | .None => .ok s
  | .Subservient _ => .ok s
  | .FunctionStart FunctionIndex EventOffsetEnd Entered Exited =>
    match P.Module[FunctionIndex]? with
    | none => .error .assertion
    | some MappedFunction =>
      let Info := getFunctionTrace EvRef FunctionIndex EventOffsetEnd Entered Exited
      let St := FunctionState.create FunctionIndex MappedFunction Info
      .ok (setThreadTime T
        { s with Thread := { s.Thread with CallStack := St :: s.Thread.CallStack } } Entered)
  | .FunctionEnd EventOffsetStart =>
    match T.events[EventOffsetStart]? with
    | some (.FunctionStart Index _ _ Exited) =>
      match s.Thread.CallStack with
      | [] => .error .assertion
      | top :: rest => do
        assert (top.Index == Index)
        let m1 ← allocationRemoveAll s.Parent.Memory (top.ParamByVals.map (fun b => b.Area))
        let m2 ← allocationRemoveAll m1 (top.Allocas.map AllocaState.area)
        pure (setThreadTime T
          { Parent := { s.Parent with Memory := m2 }
            Thread := { s.Thread with
              CallStack := rest
              m_CompletedFunctions := top :: s.Thread.m_CompletedFunctions } } Exited)
    | _ => .error .undefined
  | .NewProcessTime t => .ok { s with Thread := { s.Thread with ProcessTime := t } }
  | .NewThreadTime => .ok (incrementThreadTime T s)
  | .PreInstruction Index => do
    let s1 ← s.withTop (fun f =>
      .ok ((f.forwardingToInstruction Index).setActiveInstructionIncomplete Index))
    pure (incrementThreadTime T s1)
  | .Instruction Index => do
    let s1 ← s.withTop (fun f =>
      .ok ((f.forwardingToInstruction Index).setActiveInstructionComplete Index))
    pure (incrementThreadTime T s1)
  | .InstructionWithUInt8 Index Value => addInstructionWithValue T s Index (.UInt64 Value)
  | .InstructionWithUInt16 Index Value => addInstructionWithValue T s Index (.UInt64 Value)
  | .InstructionWithUInt32 Index Value => addInstructionWithValue T s Index (.UInt64 Value)
  | .InstructionWithUInt64 Index Value => addInstructionWithValue T s Index (.UInt64 Value)
  | .InstructionWithPtr Index Value => addInstructionWithValue T s Index (.Ptr Value)
  | .InstructionWithFloat Index Value => addInstructionWithValue T s Index (.Float Value)
  | .InstructionWithDouble Index Value => addInstructionWithValue T s Index (.Double Value)
  | .InstructionWithLongDouble Index Word1 Word2 => do
    let s1 ← s.withTop (fun f => do
      let f1 := f.forwardingToInstruction Index
      match f1.getInstruction Index, P.Module[f1.Index]? with
      | some i, some Lookup =>
        if i ∈ Lookup.X86FP80 then do
          let f2 ← f1.setValue (some i) (.APFloat Word1 Word2)
          pure (f2.setActiveInstructionComplete Index)
        else .error .unreachable
      | _, _ => .error .undefined)
    pure (incrementThreadTime T s1)
  | .StackRestore PopCount =>
    match s.Thread.CallStack with
    | [] => .error .undefined
    | top :: rest => do
      let (top1, Removed) ← top.removeAllocas PopCount
      let m1 ← allocationRemoveAll s.Parent.Memory (Removed.map AllocaState.area)
      pure { Parent := { s.Parent with Memory := m1 }
             Thread := { s.Thread with CallStack := top1 :: rest } }
  | .Alloca ElementSize ElementCount => do
    assert (EvRef != 0)
    match rfind Event.isInstructionWithPtr T.events (EvRef + 1) with
    | none => .error .assertion
    | some InstrRef =>
      match T.events[InstrRef]? with
      | some (.InstructionWithPtr Index Value) =>
        match s.Thread.CallStack with
        | [] => .error .undefined
        | top :: rest => do
          let Alloca : AllocaState := ⟨Index, Value, ElementSize, ElementCount⟩
          let m1 ← s.Parent.Memory.allocationAdd Alloca.Address Alloca.getTotalSize
          pure { Parent := { s.Parent with Memory := m1 }
                 Thread := { s.Thread with
                   CallStack := { top with Allocas := top.Allocas ++ [Alloca] } :: rest } }
      | _ => .error .undefined
  | .Malloc Size t =>
    match rfind Event.isInstructionWithPtr T.events (EvRef + 1) with
    | none => .error .assertion
    | some InstrRef =>
      match T.events[InstrRef]? with
      | some (.InstructionWithPtr Index Address) => do
        let Allocator : Option (Nat × Nat) :=
          match s.Thread.CallStack with
          | [] => none
          | top :: _ => (top.getInstruction Index).map (fun i => (top.Index, i))
        let p1 ← s.Parent.addMalloc Address Size Allocator
        let m1 ← p1.Memory.allocationAdd Address Size
        pure ({ s with Parent := { p1 with Memory := m1 } }.setProcessTimes t)
      | _ => .error .undefined
  | .Free Address t =>
    match s.Parent.Mallocs Address with
    | none => .error .undefined
    | some Entry => do
      let p1 ← s.Parent.removeMalloc Address
      let m1 ← p1.Memory.allocationRemove Address Entry.Size
      pure ({ s with Parent := { p1 with Memory := m1 } }.setProcessTimes t)
  | .Realloc Address OldSize NewSize t =>
    match s.Parent.Mallocs Address with
    | none => .error .assertion
    | some Entry =>
      match s.Thread.CallStack with
      | [] => .error .undefined
      | top :: _ => do
        let Entry1 : MallocState :=
          ⟨NewSize, Entry.Allocators ++ [top.getActiveInstruction.map (fun i => (top.Index, i))]⟩
        let m1 ← s.Parent.Memory.allocationResize Address OldSize NewSize
        pure ({ s with Parent := { s.Parent with
                  Mallocs := Function.update s.Parent.Mallocs Address (some Entry1)
                  Memory := m1 } }.setProcessTimes t)
  | .StateUntypedSmall Address Size Data t =>
    if Size ≤ 8 then
      .ok ((s.setMemory (s.Parent.Memory.addBlock Address Size (smallData Data))).setProcessTimes t)
    else .error .undefined
  | .StateUntyped Address DataOffset DataSize t => do
    let Data ← P.getData DataOffset DataSize
    pure ((s.setMemory (s.Parent.Memory.addBlock Address DataSize Data)).setProcessTimes t)
  | .StateMemmove Source Destination Size t =>
    .ok ((s.setMemory (s.Parent.Memory.addCopy Source Destination Size)).setProcessTimes t)
  | .StateClear Address ClearSize t =>
    .ok ((s.setMemory (s.Parent.Memory.addClear ⟨Address, ClearSize⟩)).setProcessTimes t)
  | .KnownRegionAdd Address Size Readable Writable => do
    let p1 ← s.Parent.addKnownMemory Address Size (accessOf Readable Writable)
    let m1 ← p1.Memory.allocationAdd Address Size
    pure { s with Parent := { p1 with Memory := m1 } }
  | .KnownRegionRemove Address Size _ _ => do
    let p1 := s.Parent.removeKnownMemory Address
    let m1 ← p1.Memory.allocationRemove Address Size
    pure { s with Parent := { p1 with Memory := m1 } }
  | .ByValRegionAdd Argument Address Size => do
    let s1 ← s.withTop (fun f => .ok (f.addByValArea Argument Address Size))
    let m1 ← s1.Parent.Memory.allocationAdd Address Size
    pure (s1.setMemory m1)
  | .FileOpen FileAddress FilenameOffset ModeOffset t => do
    let p1 ← s.Parent.addStream
      ⟨FileAddress, P.getDataRaw FilenameOffset, P.getDataRaw ModeOffset, []⟩
    pure ({ s with Parent := p1 }.setProcessTimes t)
  | .FileWrite FileAddress DataOffset DataSize t =>
    match s.Parent.getStream FileAddress with
    | none => .error .assertion
    | some Stream => do
      let Data ← P.getData DataOffset DataSize
      pure ({ s with Parent := s.Parent.setStream FileAddress (Stream.write Data) }.setProcessTimes t)
  | .FileWriteFromMemory FileAddress DataAddress DataSize t =>
    match s.Parent.getStream FileAddress with
    | none => .error .assertion
    | some Stream => do
      let Region : MemoryArea := ⟨DataAddress, DataSize⟩
      assert (DataSize == 0 || s.Parent.Memory.isCompletelyInitialized Region)
      let Stream1 := Stream.write (s.Parent.Memory.getValues Region)
      pure ({ s with Parent := s.Parent.setStream FileAddress Stream1 }.setProcessTimes t)
  | .FileClose FileAddress t => do
    let p1 ← s.Parent.closeStream FileAddress
    pure ({ s with Parent := p1 }.setProcessTimes t)
  | .DirOpen DirAddress DirnameOffset t => do
    let p1 ← s.Parent.addDir ⟨DirAddress, P.getDataRaw DirnameOffset⟩
    pure ({ s with Parent := p1 }.setProcessTimes t)
  | .DirClose DirAddress _ t =>
    .ok ({ s with Parent := s.Parent.removeDir DirAddress }.setProcessTimes t)
  | .RuntimeError IsTopLevel => addRuntimeErrorEvent T s EvRef IsTopLevel

/-- `addNextEvent(ThreadState &)`: dispatch on the type of the next event
(`ThreadMovementDispatcher::addNextEventForwarder`, which applies nothing for
subservient events), then `incrementNextEvent`. -/
def addNextEvent (P : ProcessTrace) (T : ThreadTrace) (s : State) : Except Fatal State :=
  match T.events[s.Thread.NextEvent]? with
  | none => .error .undefined
  | some Ev => do
    assert (!Ev.isFunctionLevel || !s.Thread.CallStack.isEmpty)
    let s1 ← if Ev.isSubservient then pure s else addEvent P T s.Thread.NextEvent s Ev
    pure { s1 with Thread := { s1.Thread with NextEvent := s1.Thread.NextEvent + 1 } }

/-! ## Removing events -/

/-- The loop of `makePreviousInstructionActive` over `EventRange(Ref, PriorTo)`:
every `RuntimeError` record at the given positions is added again. -/
def readdRuntimeErrors (T : ThreadTrace) (s : State) : List Nat → Except Fatal State
  | [] => .ok s
  | k :: rest =>
    match T.events[k]? with
    | some (.RuntimeError IsTopLevel) =>
      match addRuntimeErrorEvent T s k IsTopLevel with
      | .error e => .error e
      | .ok s1 => readdRuntimeErrors T s1 rest
    | _ => readdRuntimeErrors T s rest

/-- `ThreadStateMoverImpl::makePreviousInstructionActive`. -/
def makePreviousInstructionActive (T : ThreadTrace) (s : State) (PriorTo : Nat) :
    Except Fatal State :=
  match s.Thread.CallStack with
  | [] => .error .undefined
  | _ :: _ =>
    match rfindInFunction Event.isInstruction T.events PriorTo with
    | none => s.withTop (fun f => .ok f.clearActiveInstruction)
    | some Ref =>
      match T.events[Ref]? with
      | none => .error .undefined
      | some Ev =>
        match Ev.getIndex with
        | none => .error .assertion
        | some Index => do
          let s1 ← s.withTop (fun f =>
            let f1 := f.rewindingToInstruction Index
            if !Ev.isPreInstruction then .ok (f1.setActiveInstructionComplete Index)
            else .ok (f1.setActiveInstructionIncomplete Index))
          readdRuntimeErrors T s1 (List.range' Ref (PriorTo - Ref))

/-- `ThreadStateMoverImpl::setPreviousViewOfProcessTime`. -/
def setPreviousViewOfProcessTime (T : ThreadTrace) (s : State) (PriorTo : Nat) : State :=
  match rfind (fun Ev => Ev.getProcessTime.isSome) T.events PriorTo with
  | none => { s with Thread := { s.Thread with ProcessTime := 0 } }
  | some Ref =>
    match T.events[Ref]? with
    | some Ev =>
      match Ev.getProcessTime with
      | some t => { s with Thread := { s.Thread with ProcessTime := t } }
      | none => s
    | none => s

/-- The common tail of the removers of events that carry a process time:
`Parent.ProcessTime = Ev.getProcessTime() - 1;
setPreviousViewOfProcessTime(m_EvRef)`. -/
def restoreProcessTimes (T : ThreadTrace) (EvRef : Nat) (s : State) (t : Nat) : State :=
  setPreviousViewOfProcessTime T (s.setParentProcessTimeBefore t) EvRef

/-- The body shared by the removers of `PreInstruction`, `Instruction` and the
`SEEC_IMPLEMENT_REMOVE_INSTRUCTION` overloads. -/
def removeInstruction (T : ThreadTrace) (EvRef : Nat) (s : State) : Except Fatal State := do
  let s1 ← makePreviousInstructionActive T s EvRef
  pure (decrementThreadTime T s1)

/-- `ThreadStateMoverImpl::removeEvent`, one case per overload. -/
def removeEvent (P : ProcessTrace) (T : ThreadTrace) (EvRef : Nat) (s : State) :
    Event → Except Fatal State
  | .None => .ok s
  | .Subservient _ => .ok s
  | .FunctionStart FunctionIndex _ Entered _ =>
    match s.Thread.CallStack with
    | [] => .error .assertion
    | top :: rest => do
      assert (top.Index == FunctionIndex)
      pure (setThreadTime T { s with Thread := { s.Thread with CallStack := rest } }
        (sub1 Entered))
  | .FunctionEnd _ =>
    match s.Thread.m_CompletedFunctions with
    | [] => .error .undefined
    | StateRef :: rest =>
      let m1 := allocationUnremoveAll s.Parent.Memory (StateRef.Allocas.map AllocaState.area).reverse
      let m2 := allocationUnremoveAll m1 (StateRef.ParamByVals.map (fun b => b.Area)).reverse
      .ok (setThreadTime T
        { Parent := { s.Parent with Memory := m2 }
          Thread := { s.Thread with
            CallStack := StateRef :: s.Thread.CallStack
            m_CompletedFunctions := rest } }
        (sub1 StateRef.Trace.ThreadTimeExited))
  | .NewProcessTime _ => .ok (setPreviousViewOfProcessTime T s EvRef)
  | .NewThreadTime => .ok (decrementThreadTime T s)
  | .PreInstruction _ => removeInstruction T EvRef s
  | .Instruction _ => removeInstruction T EvRef s
  | .InstructionWithUInt8 _ _ => removeInstruction T EvRef s
  | .InstructionWithUInt16 _ _ => removeInstruction T EvRef s
  | .InstructionWithUInt32 _ _ => removeInstruction T EvRef s
  | .InstructionWithUInt64 _ _ => removeInstruction T EvRef s
  | .InstructionWithPtr _ _ => removeInstruction T EvRef s
  | .InstructionWithFloat _ _ => removeInstruction T EvRef s
  | .InstructionWithDouble _ _ => removeInstruction T EvRef s
  | .InstructionWithLongDouble _ _ _ => removeInstruction T EvRef s
  | .StackRestore PopCount =>
    match s.Thread.CallStack with
    | [] => .error .undefined
    | top :: rest => do
      let (top1, Restored) ← top.unremoveAllocas PopCount
      let m1 := allocationUnremoveAll s.Parent.Memory (Restored.map AllocaState.area).reverse
      pure { Parent := { s.Parent with Memory := m1 }
             Thread := { s.Thread with CallStack := top1 :: rest } }
  | .Alloca _ _ =>
    match s.Thread.CallStack with
    | [] => .error .undefined
    | top :: rest =>
      match top.Allocas.getLast? with
      | none => .error .assertion
      | some Alloca =>
        .ok { Parent := { s.Parent with
                Memory := s.Parent.Memory.allocationUnadd Alloca.Address Alloca.getTotalSize }
              Thread := { s.Thread with
                CallStack := { top with Allocas := top.Allocas.dropLast } :: rest } }
  | .Malloc Size t =>
    match rfind Event.isInstructionWithPtr T.events (EvRef + 1) with
    | none => .error .assertion
    | some InstrRef =>
      match T.events[InstrRef]? with
      | some (.InstructionWithPtr _ Address) =>
        let p1 := s.Parent.unaddMalloc Address
        let p2 := { p1 with Memory := p1.Memory.allocationUnadd Address Size }
        .ok (restoreProcessTimes T EvRef { s with Parent := p2 } t)
      | _ => .error .undefined
  | .Free Address t =>
    let p1 := s.Parent.unremoveMalloc Address
    match p1.Mallocs Address with
    | none => .error .undefined
    | some Entry =>
      let p2 := { p1 with Memory := p1.Memory.allocationUnremove Address Entry.Size }
      .ok (restoreProcessTimes T EvRef { s with Parent := p2 } t)
  | .Realloc Address OldSize NewSize t =>
    match s.Parent.Mallocs Address with
    | none => .error .assertion
    | some Entry =>
      let p1 := { s.Parent with
        Mallocs := Function.update s.Parent.Mallocs Address (some { Entry with Size := OldSize })
        Memory := s.Parent.Memory.allocationUnresize Address NewSize OldSize }
      .ok (restoreProcessTimes T EvRef { s with Parent := p1 } t)
  | .StateUntypedSmall Address Size _ t =>
    .ok (restoreProcessTimes T EvRef
      (s.setMemory (s.Parent.Memory.removeBlock ⟨Address, Size⟩)) t)
  | .StateUntyped Address _ DataSize t =>
    .ok (restoreProcessTimes T EvRef
      (s.setMemory (s.Parent.Memory.removeBlock ⟨Address, DataSize⟩)) t)
  | .StateMemmove Source Destination Size t =>
    .ok (restoreProcessTimes T EvRef
      (s.setMemory (s.Parent.Memory.removeCopy Source Destination Size)) t)
  | .StateClear Address ClearSize t =>
    .ok (restoreProcessTimes T EvRef
      (s.setMemory (s.Parent.Memory.removeClear ⟨Address, ClearSize⟩)) t)
  | .KnownRegionAdd Address Size _ _ =>
    let p1 := s.Parent.removeKnownMemory Address
    .ok { s with Parent := { p1 with Memory := p1.Memory.allocationUnadd Address Size } }
  | .KnownRegionRemove Address Size Readable Writable => do
    let p1 ← s.Parent.addKnownMemory Address Size (accessOf Readable Writable)
    pure { s with Parent := { p1 with Memory := p1.Memory.allocationUnremove Address Size } }
  | .ByValRegionAdd _ Address Size => do
    let s1 ← s.withTop (fun f => .ok (f.removeByValArea Address))
    pure (s1.setMemory (s1.Parent.Memory.allocationUnadd Address Size))
  | .FileOpen FileAddress _ _ t =>
    .ok (restoreProcessTimes T EvRef { s with Parent := s.Parent.removeStream FileAddress } t)
  | .FileWrite FileAddress _ DataSize t =>
    match s.Parent.getStream FileAddress with
    | none => .error .assertion
    | some Stream =>
      .ok (restoreProcessTimes T EvRef
        { s with Parent := s.Parent.setStream FileAddress (Stream.unwrite DataSize) } t)
  | .FileWriteFromMemory FileAddress _ DataSize t =>
    match s.Parent.getStream FileAddress with
    | none => .error .assertion
    | some Stream =>
      .ok (restoreProcessTimes T EvRef
        { s with Parent := s.Parent.setStream FileAddress (Stream.unwrite DataSize) } t)
  | .FileClose FileAddress t =>
    match s.Parent.restoreStream FileAddress with
    | (_, false) => .error .assertion
    | (p1, true) => .ok (restoreProcessTimes T EvRef { s with Parent := p1 } t)
  | .DirOpen DirAddress _ t =>
    .ok (restoreProcessTimes T EvRef { s with Parent := s.Parent.removeDir DirAddress } t)
  | .DirClose DirAddress DirnameOffset t => do
    let p1 ← s.Parent.addDir ⟨DirAddress, P.getDataRaw DirnameOffset⟩
    pure (restoreProcessTimes T EvRef { s with Parent := p1 } t)
  | .RuntimeError IsTopLevel =>
    if !IsTopLevel then .ok s else s.withTop (fun f => f.removeLastRuntimeError)

/-- `removePreviousEvent(ThreadState &)`: `decrementNextEvent`, then dispatch
on the type of the record now referred to
(`ThreadMovementDispatcher::removePreviousEventForwarder`, which removes
nothing for subservient events). Stepping back from the first record is
undefined. -/
def removePreviousEvent (P : ProcessTrace) (T : ThreadTrace) (s : State) : Except Fatal State :=
  match s.Thread.NextEvent with
  | 0 => .error .undefined
  | n + 1 =>
    let s1 : State := { s with Thread := { s.Thread with NextEvent := n } }
    match T.events[n]? with
    | none => .error .undefined
    | some Ev => if Ev.isSubservient then .ok s1 else removeEvent P T n s1 Ev

/-! ## Replaying a log -/

/-- Apply `addNextEvent` `k` times. -/
def advance (P : ProcessTrace) (T : ThreadTrace) : Nat → State → Except Fatal State
  | 0, s => .ok s
  | k + 1, s =>
    match advance P T k s with
    | .error e => .error e
    | .ok s1 => addNextEvent P T s1

/-- The state reached by applying the first `k` events of the thread's log to
the state of a fresh thread of the process `Parent`. -/
def replay (P : ProcessTrace) (T : ThreadTrace) (Parent : ProcessState) (k : Nat) :
    Except Fatal State :=
  advance P T k (State.initial Parent)

/-! ## Well-formed logs (the tracer contract) -/

/-- The process-time stamps of a log, in log order. -/
def stamps (events : List Event) : List Nat := events.filterMap Event.getProcessTime

/-- Whether a list of stamps never decreases and starts at or above `lo`. -/
def stampsFrom : Nat → List Nat → Bool
  | _, [] => true
  | lo, t :: rest => decide (lo ≤ t) && stampsFrom t rest

/-- What the tracer guarantees about the record `Ev` that is about to be
applied in state `s`:
* a `FunctionStart` is stamped with the thread time it produces, one more than
  the current thread time;
* a `FunctionEnd` refers to the `FunctionStart` record of the frame it ends,
  whose exit time is one more than the current thread time;
* a `Realloc` names the current size of the allocation as its old size;
* a `KnownRegionRemove` repeats the size and flags the region was added with;
* a `DirClose` repeats the name the directory was opened with. -/
def stepContract (P : ProcessTrace) (T : ThreadTrace) (s : State) : Event → Bool
  | .FunctionStart _ _ Entered _ => Entered == s.Thread.ThreadTime + 1
  | .FunctionEnd EventOffsetStart =>
    match T.events[EventOffsetStart]?, s.Thread.CallStack with
    | some (.FunctionStart _ _ _ Exited), top :: _ =>
      Exited == s.Thread.ThreadTime + 1 && top.Trace.ThreadTimeExited == Exited
    | _, _ => false
  | .Realloc Address OldSize _ _ =>
    (s.Parent.Mallocs Address).map (fun e => e.Size) == some OldSize
  | .KnownRegionRemove Address Size Readable Writable =>
    s.Parent.KnownMemory Address == some (Size, accessOf Readable Writable)
  | .DirClose DirAddress DirnameOffset _ =>
    s.Parent.Dirs DirAddress == some ⟨DirAddress, P.getDataRaw DirnameOffset⟩
  | _ => true

/-- Whether the `k`-th record can be applied after the first `k`: the replay
of the first `k` records succeeds, the record honours the tracer contract
there, and applying it raises no fatal error. -/
def stepOK (P : ProcessTrace) (T : ThreadTrace) (Parent : ProcessState) (k : Nat) : Bool :=
  match replay P T Parent k, T.events[k]? with
  | .ok s, some Ev =>
    stepContract P T s Ev &&
      (match addNextEvent P T s with
       | .ok _ => true
       | .error _ => false)
  | _, _ => false

/-- A well-formed thread event log, replayed from the process state `Parent`:
positions fit 64 bits, the process starts at process time 0, the process-time
stamps are at least 1 and never decrease along the log, and every record can
be applied in turn (`stepOK`). -/
def WellFormed (P : ProcessTrace) (T : ThreadTrace) (Parent : ProcessState) : Prop :=
  T.events.length < U64 ∧ Parent.ProcessTime = 0 ∧
    stampsFrom 1 (stamps T.events) = true ∧
    ∀ k < T.events.length, stepOK P T Parent k = true

instance (P : ProcessTrace) (T : ThreadTrace) (Parent : ProcessState) :
    Decidable (WellFormed P T Parent) :=
  inferInstanceAs (Decidable (T.events.length < U64 ∧ Parent.ProcessTime = 0 ∧
    stampsFrom 1 (stamps T.events) = true ∧
    ∀ k < T.events.length, stepOK P T Parent k = true))

/-- Read a component of the resulting state of a movement; absent when the
movement aborted. -/
def observe {α : Type} (r : Except Fatal State) (f : State → α) : Option α :=
  match r with
  | .ok s => some (f s)
  | .error _ => none

/-! ## What applying an event does to times and depth -/

/-- The thread time after `Ev` has been applied at thread time `tt`:
`FunctionStart` sets it to the record's entry time, `FunctionEnd` to the exit
time of the `FunctionStart` record it refers to, `NewThreadTime` and the
instruction events add one, every other event leaves it. -/
def threadTimeAfter (events : List Event) (Ev : Event) (tt : Nat) : Nat :=
  match Ev with
  | .FunctionStart _ _ Entered _ => Entered
  | .FunctionEnd EventOffsetStart =>
    match events[EventOffsetStart]? with
    | some (.FunctionStart _ _ _ Exited) => Exited
    | _ => tt
  | .NewThreadTime => add1 tt
  | Ev => if Ev.isInstruction then add1 tt else tt

/-- The call-stack depth after `Ev` has been applied at depth `d`. -/
def depthAfter (Ev : Event) (d : Nat) : Nat :=
  match Ev with
  | .FunctionStart _ _ _ _ => d + 1
  | .FunctionEnd _ => d - 1
  | _ => d

/-! ## What a retraction restores -/

/-- The process-time stamp of the nearest record strictly before position `k`
that carries a process time, and 0 when there is none. -/
def lastStamp (events : List Event) (k : Nat) : Nat :=
  (stamps (events.take k)).getLast?.getD 0

/-- The stamp that an event writes to `ProcessState.ProcessTime` when it is
applied: the stamp of every stamped kind except `NewProcessTime`, which only
updates the thread's view. -/
def Event.sharedProcessTime : Event → Option Nat
  | .NewProcessTime _ => none
  | Ev => Ev.getProcessTime

/-- The stamp most recently written to `ProcessState.ProcessTime` by the
records strictly before position `k` (see `Event.sharedProcessTime`), and 0
when there is none. -/
def lastShared (events : List Event) (k : Nat) : Nat :=
  ((events.take k).filterMap Event.sharedProcessTime).getLast?.getD 0

/-- A frame without the components that the retraction of an instruction
event rebuilds from the log or leaves as they are: the active instruction,
the values of the slots and the attached runtime errors. -/
def FunctionState.layout (f : FunctionState) : FunctionState :=
  { f with
    ActiveInstruction := none
    ActiveInstructionComplete := false
    InstructionValues := List.replicate f.InstructionValues.length .unassigned
    RuntimeErrors := [] }

/-- The size of the dynamic allocation at an address, if there is one. -/
def ProcessState.mallocSize (p : ProcessState) (a : Nat) : Option Nat :=
  (p.Mallocs a).map (fun e => e.Size)

/-- The relation between the state `s` before an event `Ev` is applied and the
state `s2` after it has been applied and retracted again. -/
structure Restored (Ev : Event) (s s2 : State) : Prop where
  NextEvent : s2.Thread.NextEvent = s.Thread.NextEvent
  ThreadTime : s2.Thread.ThreadTime = s.Thread.ThreadTime
  ViewOfProcessTime : s2.Thread.ProcessTime = s.Thread.ProcessTime
  Completed : s2.Thread.m_CompletedFunctions = s.Thread.m_CompletedFunctions
  Frames : s2.Thread.CallStack.map FunctionState.layout
    = s.Thread.CallStack.map FunctionState.layout
  Callers : s2.Thread.CallStack.tail = s.Thread.CallStack.tail
  CallStack : Ev.isInstruction = false → s2.Thread.CallStack = s.Thread.CallStack
  ProcessTime : s2.Parent.ProcessTime =
    match Ev.sharedProcessTime with
    | some t => sub1 t
    | none => s.Parent.ProcessTime
  MallocSizes : ∀ a, s2.Parent.mallocSize a = s.Parent.mallocSize a
  Mallocs : (∀ a o n t, Ev ≠ .Realloc a o n t) → s2.Parent.Mallocs = s.Parent.Mallocs
  PreviousMallocs : s2.Parent.PreviousMallocs = s.Parent.PreviousMallocs
  Streams : s2.Parent.Streams = s.Parent.Streams
  StreamsClosed : s2.Parent.StreamsClosed = s.Parent.StreamsClosed
  Dirs : s2.Parent.Dirs = s.Parent.Dirs
  KnownMemory : s2.Parent.KnownMemory = s.Parent.KnownMemory
  Memory : s2.Parent.Memory = s.Parent.Memory

/-- Applying `Ev` at position `k` in state `s` and retracting it again
succeeds and restores the state in the sense of `Restored`. -/
def RoundTrip (P : ProcessTrace) (T : ThreadTrace) (k : Nat) (s : State) (Ev : Event) : Prop :=
  ∀ sA, addEvent P T k s Ev = .ok sA →
    ∃ s2, removeEvent P T k sA Ev = .ok s2 ∧ Restored Ev s s2

/-- What `addEvent` does to the next-event position, the two process times,
the thread time and the call-stack depth. -/
def Effect (T : ThreadTrace) (Ev : Event) (s sA : State) : Prop :=
  sA.Thread.NextEvent = s.Thread.NextEvent ∧
  sA.Thread.ProcessTime = (Ev.getProcessTime).getD s.Thread.ProcessTime ∧
  sA.Parent.ProcessTime = (Ev.sharedProcessTime).getD s.Parent.ProcessTime ∧
  sA.Thread.ThreadTime = threadTimeAfter T.events Ev s.Thread.ThreadTime ∧
  sA.Thread.CallStack.length = depthAfter Ev s.Thread.CallStack.length

/-! ## Several threads of one process -/

/-- A process under replay: the shared `ProcessState` and the `ThreadState` of
each of its threads, in thread order. -/
structure ProcessView where
  Parent : ProcessState
  Threads : List ThreadState

/-- Run a movement call on thread `i` of the process: the call receives that
thread's state together with the shared process state, and its results
replace them. A thread that does not exist is undefined. -/
def ProcessView.move (w : ProcessView) (i : Nat) (call : State → Except Fatal State) :
    Except Fatal ProcessView :=
  match w.Threads[i]? with
  | none => .error .undefined
  | some Thread =>
    match call ⟨w.Parent, Thread⟩ with
    | .error e => .error e
    | .ok s => .ok ⟨s.Parent, w.Threads.set i s.Thread⟩

/-- `addNextEvent` on thread `i` of a process, whose trace is `T`. -/
def ProcessView.addNextEvent (P : ProcessTrace) (T : ThreadTrace) (w : ProcessView) (i : Nat) :
    Except Fatal ProcessView :=
  w.move i (trace.addNextEvent P T)

/-- `removePreviousEvent` on thread `i` of a process, whose trace is `T`. -/
def ProcessView.removePreviousEvent (P : ProcessTrace) (T : ThreadTrace) (w : ProcessView)
    (i : Nat) : Except Fatal ProcessView :=
  w.move i (trace.removePreviousEvent P T)

/-- Read a component of a process after a movement; absent when the movement
aborted. -/
def observeProcess {α : Type} (r : Except Fatal ProcessView) (f : ProcessView → α) : Option α :=
  match r with
  | .ok w => some (f w)
  | .error _ => none

/-! ## Example traces -/

/-- A module with one function (`main`, index 0) of 20 instructions. -/
def exampleProcess : ProcessTrace := ⟨[⟨20, []⟩], []⟩

/-- The log of the minimal malloc/free round trip:
`FunctionStart(main); InstructionWithPtr(i=7, v=0x1000); Malloc(size=16, pt=1);
InstructionWithPtr(i=12, v=0x1000); Free(pt=2); FunctionEnd`. -/
def mallocFreeLog : ThreadTrace :=
  { ThreadID := 1
    events := [.FunctionStart 0 5 1 4, .InstructionWithPtr 7 0x1000, .Malloc 16 1,
               .InstructionWithPtr 12 0x1000, .Free 0x1000 2, .FunctionEnd 0]
    getCaughtSignalsAtTime := fun _ => none }

/-- The log `FunctionStart(main); InstructionWithUInt64(i=0, v=5);
InstructionWithUInt64(i=0, v=9)`: slot 0 is written twice. -/
def valueLog : ThreadTrace :=
  { ThreadID := 1
    events := [.FunctionStart 0 3 1 4, .InstructionWithUInt64 0 5, .InstructionWithUInt64 0 9]
    getCaughtSignalsAtTime := fun _ => none }

/-- The log of scenario 1 with the stamps of a thread that is not alone in its
process: the `Malloc` carries process time 3 and the `Free` process time 7. -/
def gapLog : ThreadTrace :=
  { ThreadID := 1
    events := [.FunctionStart 0 5 1 4, .InstructionWithPtr 7 0x1000, .Malloc 16 3,
               .InstructionWithPtr 12 0x1000, .Free 0x1000 7, .FunctionEnd 0]
    getCaughtSignalsAtTime := fun _ => none }

/-- A log whose only record is `NewProcessTime(5)`. -/
def newProcessTimeLog : ThreadTrace :=
  { ThreadID := 1
    events := [.NewProcessTime 5]
    getCaughtSignalsAtTime := fun _ => none }

/-- A log whose only record is a `Free` of `0x1000` at process time 1. -/
def freeUnknownLog : ThreadTrace :=
  { ThreadID := 1
    events := [.Free 0x1000 1]
    getCaughtSignalsAtTime := fun _ => none }

/-- A log whose only record is a `Realloc` of `0x1000` at process time 1. -/
def reallocUnknownLog : ThreadTrace :=
  { ThreadID := 1
    events := [.Realloc 0x1000 16 32 1]
    getCaughtSignalsAtTime := fun _ => none }

/-- Thread T1 of the multithreaded-free scenario: it mallocs `0x4000` at
process time 3. -/
def threadOneLog : ThreadTrace :=
  { ThreadID := 1
    events := [.FunctionStart 0 3 1 3, .InstructionWithPtr 7 0x4000, .Malloc 16 3]
    getCaughtSignalsAtTime := fun _ => none }

/-- Thread T2 of the multithreaded-free scenario: it frees `0x4000` at process
time 7 and then observes process time 9. -/
def threadTwoLog : ThreadTrace :=
  { ThreadID := 2
    events := [.Free 0x4000 7, .NewProcessTime 9]
    getCaughtSignalsAtTime := fun _ => none }

/-- The two-thread process before any event has been applied. -/
def twoThreads : ProcessView :=
  ⟨ProcessState.empty, [ThreadState.create ProcessState.empty, ThreadState.create ProcessState.empty]⟩

/-- Apply `addNextEvent` to thread `i` of a process `n` times. -/
def ProcessView.advance (P : ProcessTrace) (T : ThreadTrace) (i : Nat) :
    Nat → ProcessView → Except Fatal ProcessView
  | 0, w => .ok w
  | n + 1, w =>
    match ProcessView.advance P T i n w with
    | .error e => .error e
    | .ok w1 => w1.addNextEvent P T i

/-- The state a movement resulted in; the initial state of an empty process
when the movement aborted. -/
def stateOf (r : Except Fatal State) : State :=
  match r with
  | .ok s => s
  | .error _ => State.initial ProcessState.empty

/-- The process a movement resulted in; the two-thread process before any
event when the movement aborted. -/
def processOf (r : Except Fatal ProcessView) : ProcessView :=
  match r with
  | .ok w => w
  | .error _ => twoThreads

/-- A log of a runtime error's detail records: a `RuntimeError` record that is
not top-level, followed by a subservient record. -/
def errorDetailLog : ThreadTrace :=
  { ThreadID := 1
    events := [.RuntimeError false, .Subservient 0]
    getCaughtSignalsAtTime := fun _ => none }

/-- A log in which `main` calls a function that produces the pointer `0x200`
(instruction 2) and returns, after which `main` records an `Alloca`; the last
pointer-producing instruction of `main` itself is instruction 1, with value
`0x100`. -/
def calleeAllocaLog : ThreadTrace :=
  { ThreadID := 1
    events := [.FunctionStart 0 6 1 0, .InstructionWithPtr 1 0x100, .FunctionStart 0 4 3 5,
               .InstructionWithPtr 2 0x200, .FunctionEnd 2, .Alloca 4 1]
    getCaughtSignalsAtTime := fun _ => none }

/-! ## The tracer's record of a function's stack (`TracedFunction.cpp`) -/

/-- Unsigned 64-bit `a - b` (`uintptr_t`), on values below `2 ^ 64`. -/
def sub64 (a b : Nat) : Nat := if b ≤ a then a - b else a + U64 - b

/-- Modelled from the spec: `MemoryArea::lastAddress` of the absent
`MemoryArea.hpp`, the address of the last byte of the area:
`address + length - 1` in `uintptr_t`. -/
def MemoryArea.lastAddress (a : MemoryArea) : Nat := sub1 ((a.Address + a.Length) % U64)

/-- Modelled from the spec: `TracedAlloca` of the absent `TracedFunction.hpp`,
the tracer's record of one executed alloca: its instruction, address, element
size and element count; two records are equal when all four agree. -/
structure TracedAlloca where
  Instruction : Nat
  Address : Nat
  ElementSize : Nat
  ElementCount : Nat
deriving DecidableEq, Repr

/-- The region of an alloca (`TracedAlloca::area`): its address and
`ElementSize * ElementCount` bytes. -/
def TracedAlloca.area (a : TracedAlloca) : MemoryArea :=
  ⟨a.Address, (a.ElementSize * a.ElementCount) % U64⟩

/-- The target of a pointer (`PointerTarget`, whose header is not part of the
sources): the base address of the object pointed into and the time at which
that object was made. `PointerTarget(0, 0)` is the null target. -/
structure PointerTarget where
  Base : Nat
  Time : Nat
deriving DecidableEq, Repr

/-- A by-value argument and the area that holds it (an element of
`ByValArgs`). -/
structure ByValArg where
  Argument : Nat
  Area : MemoryArea
deriving DecidableEq, Repr

/-- The members of `TracedFunction` that the stack mutators and the accessors
of `TracedFunction.cpp` use. `StackSaves` is the map from a key to the alloca
list saved under it; `PointerObjects` and `ArgPointerObjects` are the maps
from an instruction and from an argument to its pointer target. -/
structure TracedFunction where
  StackLow : Nat
  StackHigh : Nat
  Allocas : List TracedAlloca
  StackSaves : Nat → Option (List TracedAlloca)
  ByValArgs : List ByValArg
  PointerObjects : Nat → Option PointerTarget
  ArgPointerObjects : Nat → Option PointerTarget

namespace TracedFunction

/-- A function record with no allocas and no saves. -/
def empty : TracedFunction := ⟨0, 0, [], fun _ => none, [], fun _ => none, fun _ => none⟩

/-- `TracedFunction::addAlloca`. -/
def addAlloca (f : TracedFunction) (Alloca : TracedAlloca) : TracedFunction :=
  let Area := Alloca.area
  let Low := if Area.Address < f.StackLow || f.StackLow == 0 then Area.Address else f.StackLow
  let High :=
    if Area.lastAddress > f.StackHigh || f.StackHigh == 0 then Area.lastAddress else f.StackHigh
  { f with StackLow := Low, StackHigh := High, Allocas := f.Allocas ++ [Alloca] }

/-- `TracedFunction::stackSave`: `StackSaves[Key] = Allocas`. -/
def stackSave (f : TracedFunction) (Key : Nat) : TracedFunction :=
  { f with StackSaves := Function.update f.StackSaves Key (some f.Allocas) }

/-- The loop of `stackRestore`: the first alloca of the current list, by
position, that is beyond the end of the saved list or differs from the saved
alloca at the same position. -/
def firstCleared : List TracedAlloca → List TracedAlloca → Option TracedAlloca
  | [], _ => none
  | a :: _, [] => some a
  | a :: rest, r :: saved => if a ≠ r then some a else firstCleared rest saved

/-- `TracedFunction::stackRestore`: the returned area and the function record
afterwards. `StackSaves[Key]` creates an empty list for a key that is not in
the map. The area spans the first cleared alloca and the last alloca of the
current list; it is `MemoryArea(0, 1)` when no alloca is cleared. -/
def stackRestore (f : TracedFunction) (Key : Nat) : MemoryArea × TracedFunction :=
  let RestoreAllocas := (f.StackSaves Key).getD []
  let Saves := Function.update f.StackSaves Key (some RestoreAllocas)
  let Clear : Nat × Nat :=
    match firstCleared f.Allocas RestoreAllocas with
    | none => (0, 0)
    | some First =>
      let FirstArea := First.area
      let FinalArea := (f.Allocas.getLastD First).area
      (min FirstArea.Address FinalArea.Address, max FirstArea.lastAddress FinalArea.lastAddress)
  (⟨Clear.1, add1 (sub64 Clear.2 Clear.1)⟩,
    { f with Allocas := RestoreAllocas, StackSaves := Saves })

end TracedFunction

/-- One call of a stack mutator of `TracedFunction`. -/
inductive StackOp where
  | addAlloca (Alloca : TracedAlloca)
  | stackSave (Key : Nat)
  | stackRestore (Key : Nat)
deriving DecidableEq, Repr

/-- Perform one stack mutator call. -/
def TracedFunction.call (f : TracedFunction) : StackOp → TracedFunction
  | .addAlloca Alloca => f.addAlloca Alloca
  | .stackSave Key => f.stackSave Key
  | .stackRestore Key => (f.stackRestore Key).2

/-- Perform a sequence of stack mutator calls, in order. -/
def TracedFunction.run (f : TracedFunction) (ops : List StackOp) : TracedFunction :=
  ops.foldl TracedFunction.call f

/-- Three allocas of 10 bytes whose addresses are not monotonic: 100, 500,
200. -/
def scatteredAllocas : List StackOp :=
  [.addAlloca ⟨1, 100, 10, 1⟩, .addAlloca ⟨2, 500, 10, 1⟩, .addAlloca ⟨3, 200, 10, 1⟩]

/-- Modelled from the spec: `ProcessState::getContainingMemoryArea` of the
absent `ProcessState.cpp`, "the allocation containing" an address: the live
allocation that holds the address (the one that starts lowest, and of these the
longest, should several hold it). -/
def ProcessState.getContainingMemoryArea (p : ProcessState) (Address : Nat) :
    Option MemoryArea :=
  let Holding := p.Memory.Allocations.filter (fun a => a.contains Address)
  match (Holding.image (fun a => a.Address)).min with
  | none => none
  | some Start =>
    match ((Holding.filter (fun a => a.Address = Start)).image (fun a => a.Length)).max with
    | none => none
    | some Length => some ⟨Start, Length⟩

/-- Modelled from the spec: `MemoryArea::withStart` of the absent
`MemoryArea.hpp`: the part of the area from `Start` to its end. -/
def MemoryArea.withStart (a : MemoryArea) (Start : Nat) : MemoryArea :=
  ⟨Start, a.Address + a.Length - Start⟩

/-- Modelled from the spec: `MemoryStateRegion::isAllocated` of the absent
`MemoryState.hpp`: whether the bytes of the region lie in a live allocation. -/
def MemoryState.isRegionAllocated (m : MemoryState) (a : MemoryArea) : Bool :=
  decide (∃ b ∈ m.Allocations, b.Address ≤ a.Address ∧ a.Address + a.Length ≤ b.Address + b.Length)

end trace

namespace cm

/-! ## Source-level values (`lib/Clang/MappedValue.cpp`) -/

/-- Modulus of `unsigned` (32 bits). -/
def U32 : Nat := 4294967296

/-- Size of a pointer in the recorded process (`sizeof(void const *)`). -/
def pointerSize : Nat := 8

/-- The types of the source program, as far as `MappedValue.cpp` distinguishes
them (`clang::QualType`, without qualifiers). A type without `TypedefType` nodes is
canonical. `Unhandled` stands for the type classes for which `createValue`
makes no value (`Complex`, `Vector`, the function types, the classes of other
languages). -/
inductive QualType where
  | null
  | TypedefType (Name : String) (Underlying : QualType)
  | Builtin (Kind : Nat)
  | Atomic (ValueType : QualType)
  | Enum (Decl : Nat)
  | Pointer (Pointee : QualType)
  | Record (Decl : Nat)
  | ConstantArray (Element : QualType) (Size : Nat)
  | IncompleteArray (Element : QualType)
  | VariableArray (Element : QualType)
  | Unhandled (Class : Nat)
deriving DecidableEq, Repr

namespace QualType

/-- The canonical type (`QualType::getCanonicalType`): all sugar removed. -/
def getCanonicalType : QualType → QualType
  | null => null
  | TypedefType _ Underlying => Underlying.getCanonicalType
  | Builtin Kind => Builtin Kind
  | Atomic ValueType => Atomic ValueType.getCanonicalType
  | Enum Decl => Enum Decl
  | Pointer Pointee => Pointer Pointee.getCanonicalType
  | Record Decl => Record Decl
  | ConstantArray Element Size => ConstantArray Element.getCanonicalType Size
  | IncompleteArray Element => IncompleteArray Element.getCanonicalType
  | VariableArray Element => VariableArray Element.getCanonicalType
  | Unhandled Class => Unhandled Class

/-- Whether the type pointer is null (`!getTypePtr()`). -/
def isNull : QualType → Bool
  | null => true
  | _ => false

/-- The pointee of a pointer type, looking through sugar
(`getAs<PointerType>()->getPointeeType()`). -/
def getPointeeType : QualType → Option QualType
  | TypedefType _ Underlying => Underlying.getPointeeType
  | Pointer Pointee => some Pointee
  | _ => none

/-- The declaration of a record type, looking through sugar
(`getAs<RecordType>()->getDecl()`). -/
def getAsRecordDecl : QualType → Option Nat
  | TypedefType _ Underlying => Underlying.getAsRecordDecl
  | Record Decl => some Decl
  | _ => none

end QualType

/-- A field of a record (`clang::FieldDecl`); its field index is its position
in the declaration. -/
structure FieldDecl where
  Name : String
  FieldType : QualType
deriving DecidableEq, Repr

/-- The definition of a record (`clang::RecordDecl`). -/
structure RecordDecl where
  Fields : List FieldDecl
  HasFlexibleArrayMember : Bool
deriving DecidableEq, Repr

/-- What `MappedValue.cpp` asks of the source context (`clang::ASTContext` and
the declarations it owns): type sizes in chars and in bits, completeness, the
definition of a record declaration, the field offsets in bits of its layout
(`getASTRecordLayout`), the size in chars of a variable-length element
type resolved in the owning function (`calculateElementTypeSize`), and whether
the floating-point semantics of a type (`getFloatTypeSemantics`) are
`x87DoubleExtended`. -/
structure ASTContext where
  getTypeSizeInChars : QualType → Nat
  getTypeSize : QualType → Nat
  isIncompleteType : QualType → Bool
  getDefinition : Nat → Option RecordDecl
  getFieldOffsets : Nat → List Nat
  calculateElementTypeSize : QualType → Option Nat
  isX87DoubleExtended : QualType → Bool

/-- The builtin kind `clang::BuiltinType::LongDouble`. -/
def LongDouble : Nat := 3

/-- The size that `createValue` gives a scalar value: the size of the type in
chars, corrected for a `long double` with x87 semantics "to only consider the
used bytes", which are 10. -/
def scalarTypeSize (AST : ASTContext) (CanonicalType : QualType) : Nat :=
  match CanonicalType with
  | .Builtin Kind =>
    if Kind = LongDouble ∧ AST.isX87DoubleExtended CanonicalType = true then 10
    else AST.getTypeSizeInChars CanonicalType
  | _ => AST.getTypeSizeInChars CanonicalType

/-- The unsigned integer held by bytes in little-endian order. -/
def littleEndian : List Nat → Nat
  | [] => 0
  | b :: rest => b % 256 + 256 * littleEndian rest

/-- `readAPIntFromMemory`: the integer of the type's width at an address, when
the bytes of the type are allocated and completely initialized and the width
is 8, 16, 32 or 64 bits. -/
def readAPIntFromMemory (AST : ASTContext) (T : QualType) (Address : Nat)
    (Memory : trace.MemoryState) : Option Nat :=
  let Size := AST.getTypeSizeInChars T
  let Region : trace.MemoryArea := ⟨Address, Size⟩
  if !Memory.isRegionAllocated Region || !Memory.isCompletelyInitialized Region then none
  else
    let BitWidth := AST.getTypeSize T
    if BitWidth = 8 ∨ BitWidth = 16 ∨ BitWidth = 32 ∨ BitWidth = 64 then
      some (littleEndian (Memory.getValues ⟨Address, BitWidth / 8⟩))
    else none

/-- The members of `ValueByMemoryForScalar`. -/
structure ValueByMemoryForScalar where
  CanonicalType : QualType
  Address : Nat
  Size : Nat
deriving DecidableEq, Repr

/-- The members of `ValueByMemoryForPointer`. -/
structure ValueByMemoryForPointer where
  CanonicalType : QualType
  Address : Nat
  PointeeSize : Nat
  RawValue : Nat
deriving DecidableEq, Repr

/-- The members of `ValueByMemoryForRecord`; `Layout` holds the field offsets
in bits of the record layout. -/
structure ValueByMemoryForRecord where
  Layout : List Nat
  CanonicalType : QualType
  Address : Nat
deriving DecidableEq, Repr

/-- The members of `ValueByMemoryForArray`. -/
structure ValueByMemoryForArray where
  CanonicalType : QualType
  Address : Nat
  ElementSize : Nat
  ElementCount : Nat
deriving DecidableEq, Repr

/-- The members of `ValueByRuntimeValueForPointer`; `Expression` is the type of
the expression the value is for. -/
structure ValueByRuntimeValueForPointer where
  Expression : QualType
  PtrValue : Nat
  PointeeSize : Nat
deriving DecidableEq, Repr

/-- The classes of `Value` that the claims are about. -/
inductive Value where
  | Scalar (V : ValueByMemoryForScalar)
  | Pointer (V : ValueByMemoryForPointer)
  | Record (V : ValueByMemoryForRecord)
  | Array (V : ValueByMemoryForArray)
  | RuntimePointer (V : ValueByRuntimeValueForPointer)
deriving DecidableEq, Repr

/-- A `std::shared_ptr<Value const>` that is not null: the identity of the
object it points to (the number of objects the store had created before it)
and the object. Two shared pointers are the same instance when their `Id`
agrees. -/
structure Node where
  Id : Nat
  Val : Value
deriving DecidableEq, Repr

/-- `ValueByMemoryForPointer::create`. -/
def ValueByMemoryForPointer.create (AST : ASTContext) (CanonicalType : QualType)
    (Address : Nat) (ProcessState : trace.ProcessState) :
    Except trace.Fatal ValueByMemoryForPointer :=
  match CanonicalType.getPointeeType with
  | none => .error .assertion
  | some Pointee =>
    let PointeeQType := Pointee.getCanonicalType
    let PointeeSize :=
      if AST.isIncompleteType PointeeQType then 0 else AST.getTypeSizeInChars PointeeQType
    let MaybeValue := readAPIntFromMemory AST CanonicalType Address ProcessState.Memory
    let PtrValue := MaybeValue.getD 0
    .ok ⟨CanonicalType, Address, PointeeSize, PtrValue % trace.U64⟩

/-- `ValueByMemoryForRecord::create`: no value when the record has no
definition. -/
def ValueByMemoryForRecord.create (AST : ASTContext) (CanonicalType : QualType)
    (Address : Nat) : Except trace.Fatal (Option ValueByMemoryForRecord) :=
  match CanonicalType.getAsRecordDecl with
  | none => .error .assertion
  | some Decl =>
    match AST.getDefinition Decl with
    | none => .ok none
    | some _ => .ok (some ⟨AST.getFieldOffsets Decl, CanonicalType, Address⟩)

/-- `ValueByMemoryForArray::create` (called with a store that exists): the
element size is the size of the element type, or the one calculated in the
owning function when that is zero;
the element count is the size of a constant array and otherwise what fills the
memory area that holds the address. -/
def ValueByMemoryForArray.create (AST : ASTContext) (CanonicalType : QualType)
    (Address : Nat) (ProcessState : trace.ProcessState)
    (OwningFunction : Option trace.FunctionState) :
    Except trace.Fatal (Option ValueByMemoryForArray) :=
  let make (ElementTy : QualType) (Count : Nat → Nat) :
      Except trace.Fatal (Option ValueByMemoryForArray) :=
    let Size0 := AST.getTypeSizeInChars ElementTy % U32
    let ElementSize :=
      if Size0 ≠ 0 then Size0
      else
        match OwningFunction with
        | some _ => ((AST.calculateElementTypeSize ElementTy).getD 0) % U32
        | none => 0
    if ElementSize = 0 then .ok none
    else .ok (some ⟨CanonicalType, Address, ElementSize, Count ElementSize % U32⟩)
  let fill (ElementSize : Nat) : Nat :=
    match ProcessState.getContainingMemoryArea Address with
    | some Area => (Area.withStart Address).Length / ElementSize
    | none => 0
  match CanonicalType with
  | .ConstantArray Element Size => make Element (fun _ => Size)
  | .IncompleteArray Element => make Element fill
  | .VariableArray Element => make Element fill
  | _ => .error .assertion

/-- `createValue` from a type and an address: no value for an incomplete type
and for the unhandled type classes. -/
def createValue (AST : ASTContext) (T : QualType) (Address : Nat)
    (ProcessState : trace.ProcessState) (OwningFunction : Option trace.FunctionState) :
    Except trace.Fatal (Option Value) :=
  if T.isNull then .error .unreachable
  else
    let CanonicalType := T.getCanonicalType
    if AST.isIncompleteType CanonicalType then .ok none
    else
      let TypeSize := AST.getTypeSizeInChars CanonicalType
      match CanonicalType with
      | .Builtin _ =>
        .ok (some (.Scalar ⟨CanonicalType, Address, scalarTypeSize AST CanonicalType⟩))
      | .Atomic _ => .ok (some (.Scalar ⟨CanonicalType, Address, TypeSize⟩))
      | .Enum _ => .ok (some (.Scalar ⟨CanonicalType, Address, TypeSize⟩))
      | .Pointer _ =>
        match ValueByMemoryForPointer.create AST CanonicalType Address ProcessState with
        | .error e => .error e
        | .ok V => .ok (some (.Pointer V))
      | .Record _ =>
        match ValueByMemoryForRecord.create AST CanonicalType Address with
        | .error e => .error e
        | .ok V => .ok (V.map Value.Record)
      | .ConstantArray _ _ | .IncompleteArray _ | .VariableArray _ =>
        match ValueByMemoryForArray.create AST CanonicalType Address ProcessState
            OwningFunction with
        | .error e => .error e
        | .ok V => .ok (V.map Value.Array)
      | .Unhandled _ => .ok none
      | .null => .error .unreachable
      | .TypedefType _ _ => .error .unreachable

/-- Modelled from the spec: `MatchType` of the absent `TypeMatch.hpp`, the key
of the second stage of the store: "the store keys by (address, canonical type)
but uses structural type equality". -/
structure MatchType where
  CanonicalType : QualType
deriving DecidableEq, Repr

/-- The pairs of a type and the value made for it at one address
(`TypedValueSet`). -/
structure TypedValueSet where
  Items : List (MatchType × Node)
deriving DecidableEq, Repr

namespace TypedValueSet

/-- `TypedValueSet::getShared`: the value of the first pair whose type matches,
or null. -/
def getShared (t : TypedValueSet) (ForType : MatchType) : Option Node :=
  (t.Items.find? (fun Pair => Pair.1 == ForType)).map (fun Pair => Pair.2)

/-- `TypedValueSet::add`. -/
def add (t : TypedValueSet) (ForType : MatchType) (Val : Node) : TypedValueSet :=
  ⟨t.Items ++ [(ForType, Val)]⟩

end TypedValueSet

/-- The members of `ValueStoreImpl`: the two-stage lookup table, in which an
address without an entry has the empty set, and the number of `Value` objects
created so far, which is the identity of the next one. -/
structure ValueStoreImpl where
  Store : Nat → TypedValueSet
  Created : Nat

/-- The store of a fresh state view. -/
def ValueStoreImpl.empty : ValueStoreImpl := ⟨fun _ => ⟨[]⟩, 0⟩

/-- `ValueStoreImpl::getValue`: the value found or made, or null, and the store
afterwards. -/
def ValueStoreImpl.getValue (S : ValueStoreImpl) (AST : ASTContext) (T : QualType)
    (Address : Nat) (ProcessState : trace.ProcessState)
    (OwningFunction : Option trace.FunctionState) :
    Except trace.Fatal (Option Node × ValueStoreImpl) :=
  let CanonicalType := T.getCanonicalType
  if CanonicalType.isNull then .ok (none, S)
  else
    let TypeMap := S.Store Address
    let Matcher : MatchType := ⟨CanonicalType⟩
    match TypeMap.getShared Matcher with
    | some Existing => .ok (some Existing, S)
    | none =>
      match createValue AST T Address ProcessState OwningFunction with
      | .error e => .error e
      | .ok none => .ok (none, S)
      | .ok (some V) =>
        let SharedPtr : Node := ⟨S.Created, V⟩
        .ok (some SharedPtr,
          { Store := Function.update S.Store Address (TypeMap.add Matcher SharedPtr)
            Created := S.Created + 1 })

/-- The free function `getValue(Store, QualType, ASTContext, Address,
ProcessState, OwningFunction)`. -/
def getValue (Store : ValueStoreImpl) (T : QualType) (AST : ASTContext) (Address : Nat)
    (ProcessState : trace.ProcessState) (OwningFunction : Option trace.FunctionState) :
    Except trace.Fatal (Option Node × ValueStoreImpl) :=
  Store.getValue AST T Address ProcessState OwningFunction

/-- Whether the pointee of a pointer type is a record whose definition has a
flexible array member. -/
def pointeeHasFlexibleArrayMember (AST : ASTContext) (PointerType : QualType) : Bool :=
  match PointerType.getPointeeType with
  | none => false
  | some PointeeTy =>
    match PointeeTy.getAsRecordDecl with
    | none => false
    | some Decl =>
      match AST.getDefinition Decl with
      | none => false
      | some RecordDecl => RecordDecl.HasFlexibleArrayMember

namespace ValueByMemoryForPointer

/-- `ValueByMemoryForPointer::isCompletelyInitialized`. -/
def isCompletelyInitialized (p : ValueByMemoryForPointer) (ProcessState : trace.ProcessState) :
    Bool :=
  ProcessState.Memory.isCompletelyInitialized ⟨p.Address, pointerSize⟩

/-- `ValueByMemoryForPointer::getDereferenceIndexLimit`. -/
def getDereferenceIndexLimit (p : ValueByMemoryForPointer) (AST : ASTContext)
    (ProcessState : trace.ProcessState) : Nat :=
  if !p.isCompletelyInitialized ProcessState then 0
  else
    match ProcessState.getContainingMemoryArea p.RawValue with
    | none => 0
    | some MaybeArea =>
      if p.PointeeSize = 0 then 0
      else if pointeeHasFlexibleArrayMember AST p.CanonicalType then 1
      else ((MaybeArea.withStart p.RawValue).Length / p.PointeeSize) % U32

/-- `ValueByMemoryForPointer::getDereferenced`; `Store` is what the weak
pointer to the store locks to. -/
def getDereferenced (p : ValueByMemoryForPointer) (AST : ASTContext)
    (ProcessState : trace.ProcessState) (Store : Option ValueStoreImpl) (Index : Nat) :
    Except trace.Fatal (Option Node × Option ValueStoreImpl) :=
  match Store with
  | none => .ok (none, none)
  | some StorePtr =>
    let Address := (p.RawValue + Index * p.PointeeSize) % trace.U64
    match p.CanonicalType.getPointeeType with
    | none => .error .undefined
    | some Pointee =>
      match getValue StorePtr Pointee AST Address ProcessState none with
      | .error e => .error e
      | .ok (V, S) => .ok (V, some S)

end ValueByMemoryForPointer

namespace ValueByRuntimeValueForPointer

/-- `ValueByRuntimeValueForPointer::getDereferenceIndexLimit`. -/
def getDereferenceIndexLimit (p : ValueByRuntimeValueForPointer) (AST : ASTContext)
    (ProcessState : trace.ProcessState) : Nat :=
  match ProcessState.getContainingMemoryArea p.PtrValue with
  | none => 0
  | some MaybeArea =>
    if p.PointeeSize = 0 then 0
    else if pointeeHasFlexibleArrayMember AST p.Expression then 1
    else ((MaybeArea.withStart p.PtrValue).Length / p.PointeeSize) % U32

/-- `ValueByRuntimeValueForPointer::getDereferenced`. -/
def getDereferenced (p : ValueByRuntimeValueForPointer) (AST : ASTContext)
    (ProcessState : trace.ProcessState) (Store : Option ValueStoreImpl) (Index : Nat) :
    Except trace.Fatal (Option Node × Option ValueStoreImpl) :=
  match Store with
  | none => .ok (none, none)
  | some StorePtr =>
    let Address := (p.PtrValue + Index * p.PointeeSize) % trace.U64
    match p.Expression.getPointeeType with
    | none => .error .undefined
    | some Pointee =>
      match getValue StorePtr Pointee AST Address ProcessState none with
      | .error e => .error e
      | .ok (V, S) => .ok (V, some S)

end ValueByRuntimeValueForPointer

namespace ValueByMemoryForRecord

/-- `ValueByMemoryForRecord::getChildCount`. -/
def getChildCount (r : ValueByMemoryForRecord) : Nat := r.Layout.length

/-- The loop of `getChildAt` over the fields of the definition: the first
field whose field index is `Index`. -/
def findField : List FieldDecl → Nat → Nat → Option FieldDecl
  | [], _, _ => none
  | Field :: rest, FieldIndex, Index =>
    if FieldIndex = Index then some Field else findField rest (FieldIndex + 1) Index

/-- `ValueByMemoryForRecord::getChildAt`. -/
def getChildAt (r : ValueByMemoryForRecord) (AST : ASTContext)
    (ProcessState : trace.ProcessState) (Store : Option ValueStoreImpl) (Index : Nat) :
    Except trace.Fatal (Option Node × Option ValueStoreImpl) :=
  if ¬ Index < r.getChildCount then .error .assertion
  else
    match Store with
    | none => .ok (none, none)
    | some StorePtr =>
      match r.CanonicalType.getAsRecordDecl with
      | none => .error .assertion
      | some DeclId =>
        match AST.getDefinition DeclId with
        | none => .error .undefined
        | some Decl =>
          match findField Decl.Fields 0 Index with
          | none => .ok (none, some StorePtr)
          | some Field =>
            let BitOffset := r.Layout.getD Index 0
            if BitOffset % 8 ≠ 0 then .ok (none, some StorePtr)
            else
              match getValue StorePtr Field.FieldType AST
                  ((r.Address + BitOffset / 8) % trace.U64) ProcessState none with
              | .error e => .error e
              | .ok (V, S) => .ok (V, some S)

end ValueByMemoryForRecord

/-- One `getValue` request: the type, the address and the owning function. -/
structure Query where
  T : QualType
  Address : Nat
  OwningFunction : Option trace.FunctionState

/-- The store after a sequence of `getValue` requests in one state view; a
request that aborts leaves the store as it was. -/
def ValueStoreImpl.after (S : ValueStoreImpl) (AST : ASTContext)
    (ProcessState : trace.ProcessState) : List Query → ValueStoreImpl
  | [] => S
  | q :: rest =>
    match cm.getValue S q.T AST q.Address ProcessState q.OwningFunction with
    | .ok (_, S1) => S1.after AST ProcessState rest
    | .error _ => S.after AST ProcessState rest

/-- The type classes for which `createValue` makes a scalar value: `Builtin`,
`Atomic` and `Enum`. -/
def QualType.isScalarClass : QualType → Bool
  | .Builtin _ => true
  | .Atomic _ => true
  | .Enum _ => true
  | _ => false

/-- What a call returned, without the store; absent when the call aborted. -/
def resultOf {α σ : Type} (r : Except trace.Fatal (α × σ)) : Option α :=
  match r with
  | .ok x => some x.1
  | .error _ => none

/-- The store after a `getValue` call; the empty store when the call
aborted. -/
def storeOf {α : Type} (r : Except trace.Fatal (α × ValueStoreImpl)) : ValueStoreImpl :=
  match r with
  | .ok x => x.2
  | .error _ => ValueStoreImpl.empty

/-- `struct Foo { int a; double b; char c; }`. -/
def recordFoo : RecordDecl :=
  ⟨[⟨"a", .Builtin 0⟩, ⟨"b", .TypedefType "real" (.Builtin 2)⟩, ⟨"c", .Builtin 1⟩], false⟩

/-- `struct Flex { int n; char data[]; }`. -/
def recordFlex : RecordDecl :=
  ⟨[⟨"n", .Builtin 0⟩, ⟨"data", .IncompleteArray (.Builtin 1)⟩], true⟩

/-- `struct Bits { int a : 3; int b : 5; int c; }`. -/
def recordBits : RecordDecl :=
  ⟨[⟨"a", .Builtin 0⟩, ⟨"b", .Builtin 0⟩, ⟨"c", .Builtin 0⟩], false⟩

/-- Sizes in chars of the example context: `int` (builtin 0) 4, `char`
(builtin 1) 1, `double` (builtin 2) 8, `long double` (builtin 3) 16,
pointers 8, `struct Foo` 24,
`struct Flex` 4, `struct Bits` 8, an unhandled class (such as
`_Complex double`) 16. -/
def exampleSize : QualType → Nat
  | .Builtin 0 => 4
  | .Builtin 1 => 1
  | .Builtin 2 => 8
  | .Builtin 3 => 16
  | .Pointer _ => 8
  | .Record 0 => 24
  | .Record 1 => 4
  | .Record 2 => 8
  | .Unhandled _ => 16
  | _ => 0

/-- A source context with the three example records, laid out
`{a@0, b@64, c@128}`, `{n@0, data@32}` and `{a@0, b@3, c@32}` (in bits). -/
def exampleAST : ASTContext :=
  { getTypeSizeInChars := exampleSize
    getTypeSize := fun T => 8 * exampleSize T
    isIncompleteType := fun T =>
      match T with
      | .null => true
      | .IncompleteArray _ => true
      | .Record 3 => true
      | _ => false
    getDefinition := fun Decl =>
      match Decl with
      | 0 => some recordFoo
      | 1 => some recordFlex
      | 2 => some recordBits
      | _ => none
    getFieldOffsets := fun Decl =>
      match Decl with
      | 0 => [0, 64, 128]
      | 1 => [0, 32]
      | 2 => [0, 3, 32]
      | _ => []
    calculateElementTypeSize := fun _ => none
    isX87DoubleExtended := fun T => T == .Builtin 3 }

/-- A process state with four live allocations: 4 bytes at `0x1000`, 24 bytes
at `0x3000`, 2 bytes at `0x5000` and `2 ^ 32` bytes at `0x100000000`. -/
def exampleMemory : trace.ProcessState :=
  { trace.ProcessState.empty with
    Memory := { trace.MemoryState.empty with
      Allocations := {⟨0x1000, 4⟩, ⟨0x3000, 24⟩, ⟨0x5000, 2⟩, ⟨0x100000000, 4294967296⟩} } }

/-! ## Aggregate values -/

/-- The element type of an array type (`ArrayType::getElementType`). -/
def QualType.getElementType : QualType → Option QualType
  | .ConstantArray Element _ => some Element
  | .IncompleteArray Element => some Element
  | .VariableArray Element => some Element
  | _ => none

namespace ValueByMemoryForArray

/-- `ValueByMemoryForArray::getChildCount`. -/
def getChildCount (a : ValueByMemoryForArray) : Nat := a.ElementCount

/-- `ValueByMemoryForArray::getChildAt`: the product of the index and the
element size is one of two `unsigned` values. -/
def getChildAt (a : ValueByMemoryForArray) (AST : ASTContext)
    (ProcessState : trace.ProcessState) (OwningFunction : Option trace.FunctionState)
    (Store : Option ValueStoreImpl) (Index : Nat) :
    Except trace.Fatal (Option Node × Option ValueStoreImpl) :=
  if ¬ Index < a.ElementCount then .error .assertion
  else
    match Store with
    | none => .ok (none, none)
    | some StorePtr =>
      let ChildAddress := (a.Address + (Index * a.ElementSize) % U32) % trace.U64
      match a.CanonicalType.getElementType with
      | none => .error .assertion
      | some ElementType =>
        match getValue StorePtr ElementType AST ChildAddress ProcessState OwningFunction with
        | .error e => .error e
        | .ok (V, S) => .ok (V, some S)

end ValueByMemoryForArray

/-- What an aggregate asks of a child it got from `getChildAt`, through the
`Value` interface. -/
structure ChildValue where
  isCompletelyInitialized : Bool
  isPartiallyInitialized : Bool
  getValueAsStringFull : String
deriving DecidableEq, Repr

/-- The loop of `isCompletelyInitialized` of the two aggregate classes, with
`Remaining` children to visit from index `i`: a child that is present and not
completely initialized ends it with false. -/
def isCompletelyInitializedLoop (getChildAt : Nat → Option ChildValue) : Nat → Nat → Bool
  | 0, _ => true
  | Remaining + 1, i =>
    match getChildAt i with
    | some Child =>
      if !Child.isCompletelyInitialized then false
      else isCompletelyInitializedLoop getChildAt Remaining (i + 1)
    | none => isCompletelyInitializedLoop getChildAt Remaining (i + 1)

/-- The loop of `isPartiallyInitialized` of the two aggregate classes: a child
that is present and partially initialized ends it with true. -/
def isPartiallyInitializedLoop (getChildAt : Nat → Option ChildValue) : Nat → Nat → Bool
  | 0, _ => false
  | Remaining + 1, i =>
    match getChildAt i with
    | some Child =>
      if Child.isPartiallyInitialized then true
      else isPartiallyInitializedLoop getChildAt Remaining (i + 1)
    | none => isPartiallyInitializedLoop getChildAt Remaining (i + 1)

/-- `ValueByMemoryForRecord::isCompletelyInitialized`, for the children that
`getChildAt` returns. -/
def ValueByMemoryForRecord.isCompletelyInitialized (r : ValueByMemoryForRecord)
    (getChildAt : Nat → Option ChildValue) : Bool :=
  isCompletelyInitializedLoop getChildAt r.getChildCount 0

/-- `ValueByMemoryForRecord::isPartiallyInitialized`. -/
def ValueByMemoryForRecord.isPartiallyInitialized (r : ValueByMemoryForRecord)
    (getChildAt : Nat → Option ChildValue) : Bool :=
  isPartiallyInitializedLoop getChildAt r.getChildCount 0

/-- `ValueByMemoryForArray::isCompletelyInitialized`. -/
def ValueByMemoryForArray.isCompletelyInitialized (a : ValueByMemoryForArray)
    (getChildAt : Nat → Option ChildValue) : Bool :=
  isCompletelyInitializedLoop getChildAt a.getChildCount 0

/-- `ValueByMemoryForArray::isPartiallyInitialized`. -/
def ValueByMemoryForArray.isPartiallyInitialized (a : ValueByMemoryForArray)
    (getChildAt : Nat → Option ChildValue) : Bool :=
  isPartiallyInitializedLoop getChildAt a.getChildCount 0

/-- The loop of `ValueByMemoryForRecord::getValueAsStringFull` over the fields
of the definition, from the field with index `FieldIndex`. -/
def getValueAsStringFullLoop (getChildAt : Nat → Option ChildValue) :
    List FieldDecl → Nat → Bool → String → String
  | [], _, _, Stream => Stream
  | Field :: rest, FieldIndex, FirstField, Stream =>
    match getChildAt FieldIndex with
    | none => getValueAsStringFullLoop getChildAt rest (FieldIndex + 1) FirstField Stream
    | some Child =>
      let Stream1 := if !FirstField then Stream ++ "," else Stream
      getValueAsStringFullLoop getChildAt rest (FieldIndex + 1) false
        (Stream1 ++ " ." ++ Field.Name ++ " = " ++ Child.getValueAsStringFull)

/-- `ValueByMemoryForRecord::getValueAsStringFull`, for the children that
`getChildAt` returns. -/
def ValueByMemoryForRecord.getValueAsStringFull (r : ValueByMemoryForRecord)
    (AST : ASTContext) (getChildAt : Nat → Option ChildValue) : Except trace.Fatal String :=
  match r.CanonicalType.getAsRecordDecl with
  | none => .error .assertion
  | some DeclId =>
    match AST.getDefinition DeclId with
    | none => .error .undefined
    | some Decl =>
      .ok (getValueAsStringFullLoop getChildAt Decl.Fields 0 true ("\x7b") ++ " \x7d")

/-- The entries of the full string of a record as the specification words
them: " .f = s" for each field `f` whose child is present with full string
`s`, in declaration order. -/
def recordEntries (getChildAt : Nat → Option ChildValue) : List FieldDecl → Nat → List String
  | [], _ => []
  | Field :: rest, FieldIndex =>
    match getChildAt FieldIndex with
    | none => recordEntries getChildAt rest (FieldIndex + 1)
    | some Child =>
      (" ." ++ Field.Name ++ " = " ++ Child.getValueAsStringFull)
        :: recordEntries getChildAt rest (FieldIndex + 1)

/-- Consecutive entries separated by ",". -/
def commaSeparated : List String → String
  | [] => ""
  | [a] => a
  | a :: b :: rest => a ++ "," ++ commaSeparated (b :: rest)

/-- The full string of a record as the specification words it. -/
def recordFullStringSpec (Fields : List FieldDecl) (getChildAt : Nat → Option ChildValue) :
    String :=
  "\x7b" ++ commaSeparated (recordEntries getChildAt Fields 0) ++ " \x7d"

/-- The children of `struct Foo` holding `a = 5`, `b = 10.0`, `c = 'c'`, all
initialized, with the full strings of the three scalars. -/
def fooChildren (i : Nat) : Option ChildValue :=
  [(⟨true, true, "5"⟩ : ChildValue), ⟨true, true, "10.000000"⟩, ⟨true, true, "c"⟩][i]?

/-! ## Pointers that reference the same value -/

/-- `Value::getTypeSizeInChars`, as each class implements it. -/
def Value.getTypeSizeInChars (V : Value) (AST : ASTContext) : Nat :=
  match V with
  | .Scalar V => V.Size
  | .Pointer V => AST.getTypeSizeInChars V.CanonicalType
  | .Record V => AST.getTypeSizeInChars V.CanonicalType
  | .Array V => AST.getTypeSizeInChars V.CanonicalType
  | .RuntimePointer V => AST.getTypeSizeInChars V.Expression

/-- The address and the canonical type of a value in memory. -/
def Value.key (V : Value) : Option (Nat × QualType) :=
  match V with
  | .Scalar V => some (V.Address, V.CanonicalType)
  | .Pointer V => some (V.Address, V.CanonicalType)
  | .Record V => some (V.Address, V.CanonicalType)
  | .Array V => some (V.Address, V.CanonicalType)
  | .RuntimePointer _ => none

/-- The two classes of `ValueOfPointer`. -/
inductive ValueOfPointer where
  | InMemory (V : ValueByMemoryForPointer)
  | Runtime (V : ValueByRuntimeValueForPointer)
deriving DecidableEq, Repr

namespace ValueOfPointer

/-- `getRawValue`. -/
def getRawValue : ValueOfPointer → Nat
  | InMemory V => V.RawValue
  | Runtime V => V.PtrValue

/-- The member `PointeeSize`. -/
def getPointeeSize : ValueOfPointer → Nat
  | InMemory V => V.PointeeSize
  | Runtime V => V.PointeeSize

/-- The pointee type that `getDereferenced` asks `getValue` for. -/
def getPointeeType : ValueOfPointer → Option QualType
  | InMemory V => V.CanonicalType.getPointeeType
  | Runtime V => V.Expression.getPointeeType

/-- `getDereferenceIndexLimit`. -/
def getDereferenceIndexLimit (p : ValueOfPointer) (AST : ASTContext)
    (ProcessState : trace.ProcessState) : Nat :=
  match p with
  | InMemory V => V.getDereferenceIndexLimit AST ProcessState
  | Runtime V => V.getDereferenceIndexLimit AST ProcessState

/-- `getDereferenced`. -/
def getDereferenced (p : ValueOfPointer) (AST : ASTContext)
    (ProcessState : trace.ProcessState) (Store : Option ValueStoreImpl) (Index : Nat) :
    Except trace.Fatal (Option Node × Option ValueStoreImpl) :=
  match p with
  | InMemory V => V.getDereferenced AST ProcessState Store Index
  | Runtime V => V.getDereferenced AST ProcessState Store Index

end ValueOfPointer

/-- Comparison of two shared pointers, the second of which is not null: whether
they point to the same object. -/
def sameInstance (D : Option Node) (R0 : Node) : Bool :=
  match D with
  | some N => N.Id == R0.Id
  | none => false

/-- `doReferenceSameValue`. A null `L0` or `R0` is dereferenced, and so is
undefined, and so is the division by a size of zero. `Offset` is below the
limit where it is passed on as an index, so its conversion to `unsigned` keeps
its value. -/
def doReferenceSameValue (LHS RHS : ValueOfPointer) (AST : ASTContext)
    (ProcessState : trace.ProcessState) (Store : Option ValueStoreImpl) :
    Except trace.Fatal (Bool × Option ValueStoreImpl) :=
  let LLim := LHS.getDereferenceIndexLimit AST ProcessState
  let RLim := RHS.getDereferenceIndexLimit AST ProcessState
  if LLim = 0 ∨ RLim = 0 then .ok (false, Store)
  else
    match LHS.getDereferenced AST ProcessState Store 0 with
    | .error e => .error e
    | .ok (L0, Store1) =>
      match RHS.getDereferenced AST ProcessState Store1 0 with
      | .error e => .error e
      | .ok (R0, Store2) =>
        match L0, R0 with
        | some L0, some R0 =>
          let L0Size := L0.Val.getTypeSizeInChars AST
          let R0Size := R0.Val.getTypeSizeInChars AST
          if L0Size ≠ R0Size then .ok (false, Store2)
          else if LHS.getRawValue ≤ RHS.getRawValue then
            if L0Size = 0 then .error .undefined
            else
              let Offset := (RHS.getRawValue - LHS.getRawValue) / L0Size
              let Limit := LHS.getDereferenceIndexLimit AST ProcessState
              if Offset < Limit then
                match LHS.getDereferenced AST ProcessState Store2 Offset with
                | .error e => .error e
                | .ok (D, Store3) => .ok (sameInstance D R0, Store3)
              else .ok (false, Store2)
          else
            if R0Size = 0 then .error .undefined
            else
              let Offset := (LHS.getRawValue - RHS.getRawValue) / R0Size
              let Limit := RHS.getDereferenceIndexLimit AST ProcessState
              if Offset < Limit then
                match RHS.getDereferenced AST ProcessState Store2 Offset with
                | .error e => .error e
                | .ok (D, Store3) => .ok (sameInstance D L0, Store3)
              else .ok (false, Store2)
        | _, _ => .error .undefined

/-- What holds of a store in one state view: every value in it has an identity
below the number of objects created, is the value of its address and type,
has the size that `createValue` gave it, and is of a complete type; and no two
values in it share an identity. -/
def ValueStoreImpl.Coherent (S : ValueStoreImpl) (AST : ASTContext) : Prop :=
  (∀ A M N, (S.Store A).getShared M = some N →
    N.Id < S.Created ∧ N.Val.key = some (A, M.CanonicalType) ∧
    N.Val.getTypeSizeInChars AST = scalarTypeSize AST M.CanonicalType ∧
    AST.isIncompleteType M.CanonicalType = false) ∧
  (∀ A M N A2 M2 N2, (S.Store A).getShared M = some N →
    (S.Store A2).getShared M2 = some N2 → N.Id = N2.Id → N = N2)

/-- An `int *` with the given value, as the value of an expression. -/
def pointerToInt (PtrValue : Nat) : ValueOfPointer :=
  .Runtime ⟨.Pointer (.Builtin 0), PtrValue, 4⟩

/-! ## The string of a scalar value in memory -/

/-- The builtin kind `clang::BuiltinType::Char_S`, the `char` of a target on
which `char` is signed. -/
def Char_S : Nat := 1

/-- The builtin kind `clang::BuiltinType::Char_U`, the `char` of a target on
which `char` is unsigned. -/
def Char_U : Nat := 4

/-- The value of the host's `char` that a byte holds
(`*reinterpret_cast<char const *>(Bytes.data())`): the byte itself, and for a
byte of 128 or more on a host whose `char` is signed the byte minus 256. -/
def charOfByte (CharIsSigned : Bool) (Byte : Nat) : Int :=
  let Unsigned : Nat := Byte % 256
  if CharIsSigned && decide (128 ≤ Unsigned) then (Unsigned : Int) - 256 else (Unsigned : Int)

/-- What `MappedValue.cpp` takes from the host library and does not define:
whether `char` is signed, `std::isprint`, and the strings of the builtin kinds
other than `char` (`std::to_string` and the stream operators) and of the
canonical types that are not builtin. -/
structure HostLibrary where
  CharIsSigned : Bool
  isprint : Int → Bool
  formatBuiltin : Nat → Nat → List Nat → String
  formatOther : QualType → Nat → List Nat → String

/-- `GetMemoryOfBuiltinAsString<char>::impl`, for a region of the given length
and byte values. -/
def GetMemoryOfBuiltinAsString.char (Host : HostLibrary) (Length : Nat) (Bytes : List Nat) :
    String :=
  if Length ≠ 1 then "<size mismatch>"
  else
    match Bytes with
    | [] => ""
    | Byte :: _ =>
      let Character := charOfByte Host.CharIsSigned Byte
      if Host.isprint Character then String.singleton (Char.ofNat (Byte % 256))
      else
        "\\" ++
          (if Character = 9 then "t"
           else if Character = 12 then "f"
           else if Character = 11 then "v"
           else if Character = 10 then "n"
           else if Character = 13 then "r"
           else toString Character)

/-- `getScalarValueAsString(clang::BuiltinType const *, Region)`: the kinds
`Char_U` and `Char_S` are handled with the host type `char`. -/
def getScalarValueAsStringBuiltin (Host : HostLibrary) (Kind Length : Nat) (Bytes : List Nat) :
    String :=
  if Kind = Char_U ∨ Kind = Char_S then GetMemoryOfBuiltinAsString.char Host Length Bytes
  else Host.formatBuiltin Kind Length Bytes

/-- `getScalarValueAsString(clang::Type const *, Region)` on a canonical type:
a builtin type by its kind, an atomic type as its value type. -/
def getScalarValueAsStringCanonical (Host : HostLibrary) :
    QualType → Nat → List Nat → String
  | .Builtin Kind, Length, Bytes => getScalarValueAsStringBuiltin Host Kind Length Bytes
  | .Atomic ValueType, Length, Bytes =>
    getScalarValueAsStringCanonical Host ValueType Length Bytes
  | T, Length, Bytes => Host.formatOther T Length Bytes

/-- `getScalarValueAsString(clang::Type const *, Region)`. -/
def getScalarValueAsString (Host : HostLibrary) (T : QualType) (Length : Nat)
    (Bytes : List Nat) : String :=
  getScalarValueAsStringCanonical Host T.getCanonicalType Length Bytes

namespace ValueByMemoryForScalar

/-- `ValueByMemoryForScalar::isCompletelyInitialized`. -/
def isCompletelyInitialized (v : ValueByMemoryForScalar) (Memory : trace.MemoryState) : Bool :=
  Memory.isCompletelyInitialized ⟨v.Address, v.Size⟩

/-- `ValueByMemoryForScalar::getValueAsStringShort`. -/
def getValueAsStringShort (v : ValueByMemoryForScalar) (Host : HostLibrary)
    (Memory : trace.MemoryState) : String :=
  if !v.isCompletelyInitialized Memory then "<uninitialized>"
  else
    let Length := v.Size
    getScalarValueAsString Host v.CanonicalType Length (Memory.getValues ⟨v.Address, Length⟩)

/-- `ValueByMemoryForScalar::getValueAsStringFull`. -/
def getValueAsStringFull (v : ValueByMemoryForScalar) (Host : HostLibrary)
    (Memory : trace.MemoryState) : String :=
  v.getValueAsStringShort Host Memory

end ValueByMemoryForScalar

/-- A host with a signed `char` and the `isprint` of the "C" locale, for which
the characters from the space to the tilde are printable. -/
def hostC : HostLibrary :=
  { CharIsSigned := true
    isprint := fun c => decide (32 ≤ c) && decide (c ≤ 126)
    formatBuiltin := fun _ _ _ => ""
    formatOther := fun _ _ _ => "" }

/-- A memory state whose byte at `0x1000` is initialized and holds `Byte`. -/
def memoryWithByte (Byte : Nat) : trace.MemoryState :=
  { trace.MemoryState.empty with
    Allocations := {⟨0x1000, 1⟩}
    Value := fun x => if x = 0x1000 then Byte else 0
    Init := fun x => decide (x = 0x1000) }

/-- `ValueByMemoryForRecord::getChildField`. Advancing the field iterator past
the end of the fields is undefined, and so is reading the field at the end. -/
def ValueByMemoryForRecord.getChildField (r : ValueByMemoryForRecord) (AST : ASTContext)
    (Index : Nat) : Except trace.Fatal (Option FieldDecl) :=
  if Index > r.Layout.length then .ok none
  else
    match r.CanonicalType.getAsRecordDecl with
    | none => .error .assertion
    | some DeclId =>
      match AST.getDefinition DeclId with
      | none => .error .undefined
      | some Decl =>
        match Decl.Fields[Index]? with
        | some Field => .ok (some Field)
        | none => .error .undefined

/-! ## `doReferenceSameValue` in terms of the store before the call -/

/-- The value that a call returned, apart from its identity: absent when the
call aborted, and `none` inside when it returned null. -/
def valOf {σ : Type} (r : Except trace.Fatal (Option Node × σ)) : Option (Option Value) :=
  match r with
  | .ok x => some (x.1.map (fun N => N.Val))
  | .error _ => none

/-- What `doReferenceSameValue(LHS, RHS)` returns, in terms of the
dereferences of the two pointers in the store before the call: absent when the
call aborts. -/
def sameValueOutcome (LHS RHS : ValueOfPointer) (AST : ASTContext)
    (ProcessState : trace.ProcessState) (S : ValueStoreImpl) : Option Bool :=
  if LHS.getDereferenceIndexLimit AST ProcessState = 0 ∨
      RHS.getDereferenceIndexLimit AST ProcessState = 0 then some false
  else
    match valOf (LHS.getDereferenced AST ProcessState (some S) 0),
        valOf (RHS.getDereferenced AST ProcessState (some S) 0) with
    | some (some L0), some (some R0) =>
      if L0.getTypeSizeInChars AST ≠ R0.getTypeSizeInChars AST then some false
      else if LHS.getRawValue ≤ RHS.getRawValue then
        if L0.getTypeSizeInChars AST = 0 then none
        else
          let Offset := (RHS.getRawValue - LHS.getRawValue) / L0.getTypeSizeInChars AST
          if Offset < LHS.getDereferenceIndexLimit AST ProcessState then
            match valOf (LHS.getDereferenced AST ProcessState (some S) Offset) with
            | none => none
            | some _ =>
              some (decide (LHS.getPointeeType.map QualType.getCanonicalType
                    = RHS.getPointeeType.map QualType.getCanonicalType ∧
                  (LHS.getRawValue + Offset * LHS.getPointeeSize) % trace.U64
                    = RHS.getRawValue))
          else some false
      else
        if R0.getTypeSizeInChars AST = 0 then none
        else
          let Offset := (LHS.getRawValue - RHS.getRawValue) / R0.getTypeSizeInChars AST
          if Offset < RHS.getDereferenceIndexLimit AST ProcessState then
            match valOf (RHS.getDereferenced AST ProcessState (some S) Offset) with
            | none => none
            | some _ =>
              some (decide (RHS.getPointeeType.map QualType.getCanonicalType
                    = LHS.getPointeeType.map QualType.getCanonicalType ∧
                  (RHS.getRawValue + Offset * RHS.getPointeeSize) % trace.U64
                    = LHS.getRawValue))
          else some false
    | _, _ => none

end cm

namespace trace

/-! ## Event locations (`TraceFormat.hpp`) -/

/-- Holds the thread and offset of an event record (`EventLocation`). -/
structure EventLocation where
  ThreadID : Nat
  Offset : Nat
deriving DecidableEq, Repr

namespace EventLocation

/-- `EventLocation()`: a new empty location. -/
def empty : EventLocation := ⟨0, noOffset⟩

/-- `hasOffset`: whether the location has a legitimate offset. -/
def hasOffset (a : EventLocation) : Bool := a.Offset != noOffset

/-- `operator==`. -/
def eq (a RHS : EventLocation) : Bool := a.ThreadID == RHS.ThreadID && a.Offset == RHS.Offset

/-- `operator!=`. -/
def ne (a RHS : EventLocation) : Bool := !(a.eq RHS)

end EventLocation

/-- A log in which the allocation made by instruction 7 is resized by
instruction 9: `FunctionStart(main); InstructionWithPtr(i=7, v=0x1000);
Malloc(size=16, pt=1); InstructionWithPtr(i=9, v=0x1000);
Realloc(0x1000, 16, 32, pt=2)`. -/
def reallocLog : ThreadTrace :=
  { ThreadID := 1
    events := [.FunctionStart 0 5 1 0, .InstructionWithPtr 7 0x1000, .Malloc 16 1,
               .InstructionWithPtr 9 0x1000, .Realloc 0x1000 16 32 2]
    getCaughtSignalsAtTime := fun _ => none }

/-! ## The discriminated union `Maybe` (`Util/Maybe.hpp`) -/

/-- An element type of a `Maybe<Elems...>`: the identity of the type, whether
it is default constructible, and the value of a default-constructed object. -/
structure ElemType where
  Id : Nat
  IsDefaultConstructible : Bool
  Default : Nat
deriving DecidableEq, Repr

/-- `MaybeIndexByType<Element, MaybeStore<...>>::Index`: 0 when the head is the
type, otherwise one more than the index in the tail; absent when the type is
not listed (the `static_assert` fails). -/
def MaybeIndexByType (Element : Nat) : List ElemType → Option Nat
  | [] => none
  | Head :: Tail =>
    if Head.Id = Element then some 0 else (MaybeIndexByType Element Tail).map (fun i => 1 + i)

/-- The index that `MaybeStore::assign` returns for a value of type `T`: the
overloads for the head type return 0, the template for another type returns
one more than `TailItems.assign`; absent when no overload exists. -/
def MaybeStore.assign (T : Nat) : List ElemType → Option Nat
  | [] => none
  | Head :: Tail =>
    if Head.Id = T then some 0 else (MaybeStore.assign T Tail).map (fun i => 1 + i)

/-- A `Maybe<Elems...>`: `Which` is 0 when no element is active and otherwise
one more than the index of the active element; `Store` holds the object of the
active element. -/
structure Maybe (Elems : List ElemType) where
  Which : Nat
  Store : Option Nat
deriving DecidableEq, Repr

namespace Maybe

variable {Elems : List ElemType}

/-- `Maybe()`: construct with no active element. -/
def empty : Maybe Elems := ⟨0, none⟩

/-- `assigned()`: whether an element is active. -/
def assigned (m : Maybe Elems) : Bool := m.Which != 0

/-- `assigned<T>()`: whether the first element of type `T` is the active one;
absent when `T` is not listed. -/
def assignedAs (m : Maybe Elems) (T : Nat) : Option Bool :=
  (MaybeIndexByType T Elems).map (fun i => m.Which != 0 && m.Which - 1 == i)

/-- `which()`. -/
def which (m : Maybe Elems) : Nat := m.Which

/-- `reset()`: destroy the active object, if any, and set `Which` to 0. -/
def reset (_m : Maybe Elems) : Maybe Elems := ⟨0, none⟩

/-- `assign(T &&Value)`: reset, then `Which = 1 + Store.assign(Value)` as a
`uint8_t`; absent when `T` is not listed. -/
def assign (m : Maybe Elems) (T Value : Nat) : Option (Maybe Elems) :=
  let m1 := m.reset
  (MaybeStore.assign T Elems).map
    (fun i => { m1 with Which := (1 + i) % 256, Store := some Value })

/-- `EnsureActive<I>()` followed by the access, for `get<I>() &`: with no
active element, a default-constructible element `I` is default constructed and
made active; in every other case element `I` must be the active one. Returns
the object and the `Maybe` afterwards. -/
def get (m : Maybe Elems) (I : Nat) : Except Fatal (Nat × Maybe Elems) :=
  match Elems[I]? with
  | none => .error .undefined
  | some E =>
    if E.IsDefaultConstructible then
      if m.Which = 0 then .ok (E.Default, ⟨(I + 1) % 256, some E.Default⟩)
      else if m.Which = I + 1 then .ok (m.Store.getD 0, m) else .error .assertion
    else if m.Which = I + 1 then .ok (m.Store.getD 0, m) else .error .assertion

/-- `AssertActive(I)` followed by the access, for `get<I>() const &`. -/
def getConst (m : Maybe Elems) (I : Nat) : Except Fatal Nat :=
  match Elems[I]? with
  | none => .error .undefined
  | some _ => if m.Which = I + 1 then .ok (m.Store.getD 0) else .error .assertion

/-- `get<T>() &`: `get<IndexOf<T>()>()`. -/
def getAs (m : Maybe Elems) (T : Nat) : Except Fatal (Nat × Maybe Elems) :=
  match MaybeIndexByType T Elems with
  | none => .error .undefined
  | some I => m.get I

/-- `operator=(T &&Value)`: when the first element of type `T` is active its
object is assigned to, otherwise the `Maybe` is reset and `Value` assigned;
absent when `T` is not listed. -/
def assignValue (m : Maybe Elems) (T Value : Nat) : Option (Maybe Elems) :=
  match MaybeIndexByType T Elems with
  | none => none
  | some I =>
    if m.Which != 0 && m.Which - 1 == I then some { m with Store := some Value }
    else m.reset.assign T Value

end Maybe

/-- `get<I>() const &` by type: `get<IndexOf<T>()>()`. -/
def Maybe.getConstAs {Elems : List ElemType} (m : Maybe Elems) (T : Nat) : Except Fatal Nat :=
  match MaybeIndexByType T Elems with
  | none => .error .undefined
  | some I => m.getConst I

/-- `Maybe<uint32_t>`, the type of `FunctionState::ActiveInstruction`. -/
def maybeUInt32 : List ElemType := [⟨0, true, 0⟩]

/-- `getRuntimeValueAs<T>` of `FunctionState.hpp`. The conversion `getAs<T>`
of a slot for an instruction's type is declared in a header that is not part
of the sources and is a parameter here. -/
def FunctionState.getRuntimeValueAs {T : ElemType}
    (getAs : RuntimeValue → Nat → Except Fatal (Maybe [T]))
    (f : FunctionState) (Index : Nat) : Except Fatal (Maybe [T]) :=
  match f.InstructionValues[Index]? with
  | none => .error .assertion
  | some RTValue =>
    if !RTValue.assigned then .ok Maybe.empty
    else
      match f.getInstruction Index with
      | none => .error .assertion
      | some Inst => getAs RTValue Inst

/-- A conversion for 64-bit unsigned integers: an integer slot converts, any
other assigned slot is a type mismatch. -/
def getAsUInt64 (v : RuntimeValue) (_Inst : Nat) : Except Fatal (Maybe [(⟨1, true, 0⟩ : ElemType)]) :=
  match v with
  | .UInt64 x => .ok ⟨1, some x⟩
  | _ => .error .assertion

/-! ## The regions of a frame that leave and re-enter the memory state -/

/-- The regions that `addEvent` passes to `MemoryState::allocationRemove`, in
the order of the calls, for the two events that remove the regions of a frame:
`FunctionEnd` passes the byval areas and then the allocas of
`CallStack.back()`, `StackRestore` the allocas that `removeAllocas` returns.
Absent for every other event and when the event cannot be applied. -/
def allocationRemoveCalls (s : State) : Event → Option (List MemoryArea)
  | .FunctionEnd _ =>
    match s.Thread.CallStack with
    | [] => none
    | top :: _ =>
      some (top.ParamByVals.map (fun b => b.Area) ++ top.Allocas.map AllocaState.area)
  | .StackRestore PopCount =>
    match s.Thread.CallStack with
    | [] => none
    | top :: _ =>
      match top.removeAllocas PopCount with
      | .ok (_, Removed) => some (Removed.map AllocaState.area)
      | .error _ => none
  | _ => none

/-- The regions that `removeEvent` passes to `MemoryState::allocationUnremove`,
in the order of the calls, for the same two events: `FunctionEnd` passes the
allocas of the frame it takes back from `m_CompletedFunctions`, reversed, and
then its byval areas, reversed; `StackRestore` the allocas that
`unremoveAllocas` returns, reversed. -/
def allocationUnremoveCalls (s : State) : Event → Option (List MemoryArea)
  | .FunctionEnd _ =>
    match s.Thread.m_CompletedFunctions with
    | [] => none
    | StateRef :: _ =>
      some ((StateRef.Allocas.map AllocaState.area).reverse
        ++ (StateRef.ParamByVals.map (fun b => b.Area)).reverse)
  | .StackRestore PopCount =>
    match s.Thread.CallStack with
    | [] => none
    | top :: _ =>
      match top.unremoveAllocas PopCount with
      | .ok (_, Restored) => some (Restored.map AllocaState.area).reverse
      | .error _ => none
  | _ => none

/-- A frame of `main` with two allocas and one byval area, all live, on which a
`StackRestore` that pops one alloca and a `FunctionEnd` can be applied. -/
def frameState : State :=
  { Parent := { ProcessState.empty with
      Memory := { MemoryState.empty with
        Allocations := {⟨0x7000, 8⟩, ⟨0x7010, 4⟩, ⟨0x7020, 4⟩} } }
    Thread := { ThreadState.create ProcessState.empty with
      CallStack := [{ FunctionState.create 0 ⟨20, []⟩ ⟨0, 0, 1, 1, 4⟩ with
        Allocas := [⟨1, 0x7010, 4, 1⟩, ⟨2, 0x7020, 4, 1⟩]
        ParamByVals := [⟨0, ⟨0x7000, 8⟩⟩] }] } }

/-- The log of `frameState`: the `FunctionStart` of `main` and its
`FunctionEnd`. -/
def frameLog : ThreadTrace :=
  { ThreadID := 1
    events := [.FunctionStart 0 1 1 4, .FunctionEnd 0]
    getCaughtSignalsAtTime := fun _ => none }

/-! ## Accessors of `TracedFunction` -/

/-- The values that `getPointerObject` distinguishes (`llvm::Value`): an
instruction, an argument, a constant expression with its first operand, and
any other value. -/
inductive LLVMValue where
  | Instruction (I : Nat)
  | Argument (A : Nat)
  | ConstantExpr (isCast isGEPWithNoNotionalOverIndexing : Bool) (Operand0 : LLVMValue)
  | Other (Id : Nat)
deriving DecidableEq, Repr

namespace TracedFunction

/-- `TracedFunction::getContainingMemoryArea`: outside of the stack range the
byval areas are searched, inside of it the allocas. -/
def getContainingMemoryArea (f : TracedFunction) (Address : Nat) : Option MemoryArea :=
  if Address < f.StackLow ∨ Address > f.StackHigh then
    (f.ByValArgs.find? (fun Arg => Arg.Area.contains Address)).map (fun Arg => Arg.Area)
  else
    (f.Allocas.find? (fun Alloca => Alloca.area.contains Address)).map TracedAlloca.area

/-- `TracedFunction::addByValArg`; `makePointerObject` is that of the process
listener, which is not part of the sources. -/
def addByValArg (f : TracedFunction) (makePointerObject : Nat → PointerTarget) (Arg : Nat)
    (Area : MemoryArea) : TracedFunction :=
  { f with
    ArgPointerObjects :=
      Function.update f.ArgPointerObjects Arg (some (makePointerObject Area.Address))
    ByValArgs := f.ByValArgs ++ [⟨Arg, Area⟩] }

/-- `getPointerObject(llvm::Argument const *)`. -/
def getPointerObjectArgument (f : TracedFunction) (A : Nat) : PointerTarget :=
  (f.ArgPointerObjects A).getD ⟨0, 0⟩

/-- `setPointerObject(llvm::Argument const *, PointerTarget const &)`. -/
def setPointerObjectArgument (f : TracedFunction) (A : Nat) (Object : PointerTarget) :
    TracedFunction :=
  { f with ArgPointerObjects := Function.update f.ArgPointerObjects A (some Object) }

/-- `getPointerObject(llvm::Instruction const *)`. -/
def getPointerObjectInstruction (f : TracedFunction) (I : Nat) : PointerTarget :=
  (f.PointerObjects I).getD ⟨0, 0⟩

/-- `setPointerObject(llvm::Instruction const *, PointerTarget const &)`. -/
def setPointerObject (f : TracedFunction) (I : Nat) (Object : PointerTarget) : TracedFunction :=
  { f with PointerObjects := Function.update f.PointerObjects I (some Object) }

/-- `getPointerObject(llvm::Value const *)`; `Process` is `getPointerObject` of
the process listener, which is not part of the sources. -/
def getPointerObject (f : TracedFunction) (Process : LLVMValue → PointerTarget) :
    LLVMValue → PointerTarget
  | .Instruction I => f.getPointerObjectInstruction I
  | .Argument A => f.getPointerObjectArgument A
  | .ConstantExpr isCast isGEPWithNoNotionalOverIndexing Operand0 =>
    if isCast then getPointerObject f Process Operand0
    else if isGEPWithNoNotionalOverIndexing then getPointerObject f Process Operand0
    else Process (.ConstantExpr isCast isGEPWithNoNotionalOverIndexing Operand0)
  | .Other Id => Process (.Other Id)

/-- `TracedFunction::transferPointerObject`; `toBool` is the conversion of a
`PointerTarget` to `bool`, which is declared with the type. -/
def transferPointerObject (f : TracedFunction) (Process : LLVMValue → PointerTarget)
    (toBool : PointerTarget → Bool) (From : LLVMValue) (To : Nat) :
    PointerTarget × TracedFunction :=
  let Object := f.getPointerObject Process From
  if toBool Object then (Object, f.setPointerObject To Object) else (Object, f)

/-- The stack range of a frame covers its allocas, the current ones and the
saved ones, and a bound that is still 0 means that there is no alloca. -/
def Bounded (f : TracedFunction) : Prop :=
  (∀ a ∈ f.Allocas, f.StackLow ≤ a.Address ∧ a.area.lastAddress ≤ f.StackHigh) ∧
  (∀ Key l, f.StackSaves Key = some l →
    ∀ a ∈ l, f.StackLow ≤ a.Address ∧ a.area.lastAddress ≤ f.StackHigh) ∧
  (f.StackLow = 0 ∨ f.StackHigh = 0 →
    f.Allocas = [] ∧ ∀ Key l, f.StackSaves Key = some l → l = [])

end TracedFunction

/-- A frame with allocas at 100 and 500 (10 bytes each) and a byval argument
whose area of 16 bytes at 200 lies between them. -/
def byValBetween : TracedFunction :=
  ((TracedFunction.empty.addAlloca ⟨1, 100, 10, 1⟩).addAlloca ⟨2, 500, 10, 1⟩).addByValArg
    (fun a => ⟨a, 1⟩) 0 ⟨200, 16⟩

/-! ## States reached by retractions -/

/-- What two frames share when one is the frame of a state reached by
retractions and the other the frame of the replayed state at the same
position: the function, the allocas and the cleared allocas; the former has at
least as many runtime errors attached. -/
structure FrameSim (a b : FunctionState) : Prop where
  Index : a.Index = b.Index
  Allocas : a.Allocas = b.Allocas
  ClearedAllocas : a.ClearedAllocas = b.ClearedAllocas
  Errors : b.RuntimeErrors.length ≤ a.RuntimeErrors.length

/-- What a state reached by retractions shares with the replayed state at the
same position, as far as a further retraction reads it. -/
structure Sim (s r : State) : Prop where
  NextEvent : s.Thread.NextEvent = r.Thread.NextEvent
  Completed : s.Thread.m_CompletedFunctions = r.Thread.m_CompletedFunctions
  Frames : List.Forall₂ FrameSim s.Thread.CallStack r.Thread.CallStack
  MallocSizes : ∀ a, s.Parent.mallocSize a = r.Parent.mallocSize a
  PreviousMallocs : s.Parent.PreviousMallocs = r.Parent.PreviousMallocs
  Streams : s.Parent.Streams = r.Parent.Streams
  StreamsClosed : s.Parent.StreamsClosed = r.Parent.StreamsClosed
  Dirs : s.Parent.Dirs = r.Parent.Dirs
  KnownMemory : s.Parent.KnownMemory = r.Parent.KnownMemory

/-! ## Movement to a process time (`StateMovement.hpp`) -/

/-- Modelled from the spec: the search of `nextShared` through the records
from position `j` on. -/
def nextSharedFrom : List Event → Nat → Option (Nat × Nat)
  | [], _ => none
  | e :: rest, j =>
    match e.sharedProcessTime with
    | some p => some (j, p)
    | none => nextSharedFrom rest (j + 1)

/-- Modelled from the spec: "the next process time" of `moveForward`, ahead of
position `k`: the position and the stamp of the first record at or after `k`
that writes the shared process time. -/
def nextShared (events : List Event) (k : Nat) : Option (Nat × Nat) :=
  nextSharedFrom (events.drop k) k

/-- Modelled from the spec: `moveForward(ProcessState &)` of the absent
`StateMovement.cpp`, "Move State forward to the next process time. Return true
iff the State was moved", over the mover of `ThreadStateMover.cpp`: the
records up to and including the next one that writes the shared process time
are applied with `addNextEvent`. -/
def moveForward (P : ProcessTrace) (T : ThreadTrace) (s : State) : Except Fatal (Bool × State) :=
  match nextShared T.events s.Thread.NextEvent with
  | none => .ok (false, s)
  | some (j, _) =>
    match advance P T (j + 1 - s.Thread.NextEvent) s with
    | .error e => .error e
    | .ok s1 => .ok (true, s1)

/-- Modelled from the spec: the advances of `moveToTime`, "shortest sequence
of advances ... that reaches the target time; if the exact time is
unreachable, stops at the closest reachable time on the correct side"
(`currentProcessTime() ≤ t`): step forward to the next process time as long as
that time is not above `t`. The flag tells whether a step was made. -/
def moveForwardTo (P : ProcessTrace) (T : ThreadTrace) (t : Nat) :
    Nat → State → Except Fatal (Bool × State)
  | 0, s => .ok (false, s)
  | fuel + 1, s =>
    match nextShared T.events s.Thread.NextEvent with
    | none => .ok (false, s)
    | some (j, p) =>
      if p ≤ t then
        match advance P T (j + 1 - s.Thread.NextEvent) s with
        | .error e => .error e
        | .ok s1 =>
          match moveForwardTo P T t fuel s1 with
          | .error e => .error e
          | .ok (_, s2) => .ok (true, s2)
      else .ok (false, s)

/-- Modelled from the spec: the retractions of `moveToTime`, "shortest
sequence of ... retractions that reaches the target time": records are
retracted with `removePreviousEvent` until the shared process time is not
above `t` or no applied record is left. The flag tells whether a record was
retracted. -/
def moveBackwardTo (P : ProcessTrace) (T : ThreadTrace) (t : Nat) :
    Nat → State → Except Fatal (Bool × State)
  | 0, s => .ok (false, s)
  | fuel + 1, s =>
    if s.Parent.ProcessTime ≤ t ∨ s.Thread.NextEvent = 0 then .ok (false, s)
    else
      match removePreviousEvent P T s with
      | .error e => .error e
      | .ok s1 =>
        match moveBackwardTo P T t fuel s1 with
        | .error e => .error e
        | .ok (_, s2) => .ok (true, s2)

/-- Modelled from the spec: `moveToTime(ProcessState &, uint64_t)` of the
absent `StateMovement.cpp`, "Move State to the given process time. If State
cannot assume the given process time, it will be moved as close as possible.
Return true iff the State was moved": advances when the shared process time is
below `t`, retractions when it is above `t`, each with as many steps as there
are records on that side. -/
def moveToTime (P : ProcessTrace) (T : ThreadTrace) (s : State) (t : Nat) :
    Except Fatal (Bool × State) :=
  if s.Parent.ProcessTime < t then
    moveForwardTo P T t (T.events.length - s.Thread.NextEvent) s
  else if t < s.Parent.ProcessTime then
    moveBackwardTo P T t s.Thread.NextEvent s
  else .ok (false, s)

/-- A log of four `StateClear` records with the process-time stamps 1, 2, 5
and 8; with the time 0 of the initial state, a state replayed from it assumes
the process times 0, 1, 2, 5, 8. -/
def stampLog : ThreadTrace :=
  { ThreadID := 1
    events := [.StateClear 0x1000 4 1, .StateClear 0x1000 4 2, .StateClear 0x1000 4 5,
               .StateClear 0x1000 4 8]
    getCaughtSignalsAtTime := fun _ => none }

/-- The result of a movement call: the flag, the next-event position and the
shared process time afterwards; absent when the call aborted. -/
def movedTo (r : Except Fatal (Bool × State)) : Option (Bool × Nat × Nat) :=
  match r with
  | .ok (b, s) => some (b, s.Thread.NextEvent, s.Parent.ProcessTime)
  | .error _ => none

/-! # Theorems -/

/-! ## Basic facts -/

theorem assert_eq_ok {c : Bool} {u : Unit} : assert c = .ok u ↔ c = true := by
  unfold assert
  cases c <;> simp

theorem bind_eq_ok {α β : Type} {x : Except Fatal α} {f : α → Except Fatal β} {b : β} :
    (x >>= f) = .ok b ↔ ∃ a, x = .ok a ∧ f a = .ok b := by
  cases x <;> simp [bind, Except.bind]

theorem mallocFreeLog_wellFormed : WellFormed exampleProcess mallocFreeLog ProcessState.empty := by
  decide

/-! ## Memory: every inverse undoes its forward operation -/

theorem contains_iff (a : MemoryArea) (x : Nat) :
    a.contains x = true ↔ a.Address ≤ x ∧ x < a.Address + a.Length := by
  simp [MemoryArea.contains]

theorem getD_map_range {α : Type} (f : Nat → α) (n i : Nat) (d : α) (h : i < n) :
    ((List.range n).map f).getD i d = f i := by
  simp [List.getD_eq_getElem?_getD, List.getElem?_map, List.getElem?_range h]

theorem restore_values (m : MemoryState) (a : MemoryArea) (V : Nat → Nat)
    (hV : ∀ x, a.contains x = false → V x = m.Value x) :
    (fun x => if a.contains x = true then (m.getValues a).getD (x - a.Address) (V x) else V x)
      = m.Value := by
  funext x
  by_cases hx : a.contains x = true
  · have hx2 := (contains_iff a x).1 hx
    simp only [hx, if_true, MemoryState.getValues]
    rw [getD_map_range _ _ _ _ (by omega)]
    congr 1
    omega
  · simp only [hx]
    exact hV x (by simpa using hx)

theorem restore_inits (m : MemoryState) (a : MemoryArea) (I : Nat → Bool)
    (hI : ∀ x, a.contains x = false → I x = m.Init x) :
    (fun x => if a.contains x = true then (m.getInits a).getD (x - a.Address) (I x) else I x)
      = m.Init := by
  funext x
  by_cases hx : a.contains x = true
  · have hx2 := (contains_iff a x).1 hx
    simp only [hx, if_true, MemoryState.getInits]
    rw [getD_map_range _ _ _ _ (by omega)]
    congr 1
    omega
  · simp only [hx]
    exact hI x (by simpa using hx)

theorem popRestore_push_saved (m : MemoryState) (a : MemoryArea) (A : Finset MemoryArea)
    (V : Nat → Nat) (I : Nat → Bool)
    (hV : ∀ x, a.contains x = false → V x = m.Value x)
    (hI : ∀ x, a.contains x = false → I x = m.Init x) :
    MemoryState.popRestore ⟨A, V, I, m.saved a :: m.Journal⟩ a = ⟨A, m.Value, m.Init, m.Journal⟩ := by
  simp only [MemoryState.popRestore, MemoryState.saved, MemoryState.mk.injEq, true_and, and_true]
  exact ⟨restore_values m a V hV, restore_inits m a I hI⟩

theorem allocationUnadd_allocationAdd {m m1 : MemoryState} {Address Length : Nat}
    (h : m.allocationAdd Address Length = .ok m1) : m1.allocationUnadd Address Length = m := by
  unfold MemoryState.allocationAdd at h
  split at h
  · simp at h
  · rename_i hno
    simp only [Except.ok.injEq] at h
    subst h
    have hmem : (MemoryArea.mk Address Length) ∉ m.Allocations := by
      intro hin
      exact hno ⟨_, hin, by simp [MemoryArea.overlaps]⟩
    cases m
    simp only [MemoryState.allocationUnadd, MemoryState.push, List.tail_cons, MemoryState.mk.injEq,
      and_true]
    exact Finset.erase_insert hmem

theorem allocationUnremove_allocationRemove {m m1 : MemoryState} {Address Length : Nat}
    (h : m.allocationRemove Address Length = .ok m1) : m1.allocationUnremove Address Length = m := by
  unfold MemoryState.allocationRemove at h
  split at h
  · rename_i hin
    simp only [Except.ok.injEq] at h
    subst h
    simp only [MemoryState.allocationUnremove, MemoryState.push, MemoryState.clearInit]
    rw [popRestore_push_saved m ⟨Address, Length⟩ _ _ _ (fun _ _ => rfl)
      (fun x hx => by simp [hx])]
    cases m
    simp only [MemoryState.mk.injEq, and_true]
    exact Finset.insert_erase hin
  · simp at h

theorem allocationUnremoveAll_append (m : MemoryState) (l1 l2 : List MemoryArea) :
    allocationUnremoveAll m (l1 ++ l2) = allocationUnremoveAll (allocationUnremoveAll m l1) l2 := by
  induction l1 generalizing m with
  | nil => rfl
  | cons a l ih => simp [allocationUnremoveAll, ih]

theorem allocationUnremoveAll_allocationRemoveAll {l : List MemoryArea} {m m1 : MemoryState}
    (h : allocationRemoveAll m l = .ok m1) : allocationUnremoveAll m1 l.reverse = m := by
  induction l generalizing m with
  | nil =>
    simp only [allocationRemoveAll, Except.ok.injEq] at h
    subst h
    rfl
  | cons a l ih =>
    simp only [allocationRemoveAll] at h
    split at h
    · simp at h
    · rename_i m2 h2
      rw [List.reverse_cons, allocationUnremoveAll_append, ih h]
      simp only [allocationUnremoveAll]
      exact allocationUnremove_allocationRemove h2

theorem allocationUnresize_allocationResize {m m1 : MemoryState} {Address OldSize NewSize : Nat}
    (h : m.allocationResize Address OldSize NewSize = .ok m1) :
    m1.allocationUnresize Address NewSize OldSize = m := by
  unfold MemoryState.allocationResize at h
  split at h
  · rename_i hc
    obtain ⟨hin, hno⟩ := hc
    simp only [Except.ok.injEq] at h
    subst h
    simp only [MemoryState.allocationUnresize, MemoryState.push, MemoryState.clearInit]
    rw [popRestore_push_saved m ⟨Address, OldSize⟩ _ _ _ (fun _ _ => rfl)
      (fun x hx => by
        have hx2 : (MemoryArea.mk (Address + NewSize) (OldSize - NewSize)).contains x = false := by
          simp only [MemoryArea.contains, Bool.and_eq_false_imp, decide_eq_true_eq,
            decide_eq_false_iff_not, not_lt, not_le] at hx ⊢
          intro h1
          have := hx (by omega)
          omega
        simp [hx2])]
    have hmem : (MemoryArea.mk Address NewSize) ∉ m.Allocations.erase ⟨Address, OldSize⟩ := by
      intro hin2
      exact hno ⟨_, hin2, by simp [MemoryArea.overlaps]⟩
    cases m
    simp only [MemoryState.mk.injEq, and_true]
    rw [Finset.erase_insert hmem]
    exact Finset.insert_erase hin
  · simp at h

theorem removeBlock_addBlock (m : MemoryState) (Address Length : Nat) (Bytes : List Nat) :
    (m.addBlock Address Length Bytes).removeBlock ⟨Address, Length⟩ = m := by
  simp only [MemoryState.removeBlock, MemoryState.addBlock]
  rw [popRestore_push_saved m ⟨Address, Length⟩ _ _ _ (fun x hx => by simp [hx])
    (fun x hx => by simp [hx])]

theorem removeCopy_addCopy (m : MemoryState) (Source Destination Length : Nat) :
    (m.addCopy Source Destination Length).removeCopy Source Destination Length = m := by
  simp only [MemoryState.removeCopy, MemoryState.addCopy]
  rw [popRestore_push_saved m ⟨Destination, Length⟩ _ _ _ (fun x hx => by simp [hx])
    (fun x hx => by simp [hx])]

theorem removeClear_addClear (m : MemoryState) (a : MemoryArea) :
    (m.addClear a).removeClear a = m := by
  simp only [MemoryState.removeClear, MemoryState.addClear, MemoryState.push, MemoryState.clearInit]
  rw [popRestore_push_saved m a _ _ _ (fun _ _ => rfl) (fun x hx => by simp [hx])]

/-! ## The backward scan for the previous process time -/

theorem lastStamp_zero (events : List Event) : lastStamp events 0 = 0 := by
  simp [lastStamp, stamps]

theorem lastStamp_succ (events : List Event) (k : Nat) :
    lastStamp events (k + 1) =
      match events[k]? with
      | some e =>
        match e.getProcessTime with
        | some t => t
        | none => lastStamp events k
      | none => lastStamp events k := by
  unfold lastStamp stamps
  rw [List.take_succ, List.filterMap_append]
  cases h : events[k]? with
  | none => simp
  | some e =>
    cases ht : e.getProcessTime with
    | none => simp [ht]
    | some t => simp [ht]

theorem setPreviousViewOfProcessTime_eq (T : ThreadTrace) (s : State) (k : Nat) :
    setPreviousViewOfProcessTime T s k
      = { s with Thread := { s.Thread with ProcessTime := lastStamp T.events k } } := by
  induction k with
  | zero => simp [setPreviousViewOfProcessTime, rfind, lastStamp_zero]
  | succ k ih =>
    rw [lastStamp_succ]
    unfold setPreviousViewOfProcessTime at ih ⊢
    unfold rfind
    cases h : T.events[k]? with
    | none => simpa using ih
    | some e =>
      cases ht : e.getProcessTime with
      | none => simpa [ht] using ih
      | some t => simp [ht, h]

theorem rfind_some {p : Event → Bool} {events : List Event} {n j : Nat}
    (h : rfind p events n = some j) :
    j < n ∧ (∃ e, events[j]? = some e ∧ p e = true) ∧
      ∀ i, j < i → i < n → ∀ e, events[i]? = some e → p e = false := by
  induction n with
  | zero => simp [rfind] at h
  | succ n ih =>
    unfold rfind at h
    cases he : events[n]? with
    | none =>
      rw [he] at h
      obtain ⟨h1, h2, h3⟩ := ih h
      refine ⟨by omega, h2, fun i hi hin e hie => ?_⟩
      by_cases hn : i = n
      · subst hn
        rw [he] at hie
        cases hie
      · exact h3 i hi (by omega) e hie
    | some e0 =>
      rw [he] at h
      by_cases hp : p e0 = true
      · simp only [hp, if_true, Option.some.injEq] at h
        subst h
        exact ⟨by omega, ⟨e0, he, hp⟩, fun i hi hin => by omega⟩
      · simp only [hp] at h
        obtain ⟨h1, h2, h3⟩ := ih h
        refine ⟨by omega, h2, fun i hi hin e hie => ?_⟩
        by_cases hn : i = n
        · subst hn
          rw [he] at hie
          cases hie
          simpa using hp
        · exact h3 i hi (by omega) e hie

theorem rfind_none {p : Event → Bool} {events : List Event} {n : Nat}
    (h : rfind p events n = none) : ∀ i, i < n → ∀ e, events[i]? = some e → p e = false := by
  induction n with
  | zero => intro i hi; omega
  | succ n ih =>
    unfold rfind at h
    intro i hi e hie
    cases he : events[n]? with
    | none =>
      rw [he] at h
      by_cases hn : i = n
      · subst hn
        rw [he] at hie
        cases hie
      · exact ih h i (by omega) e hie
    | some e0 =>
      rw [he] at h
      by_cases hp : p e0 = true
      · simp [hp] at h
      · simp only [hp] at h
        by_cases hn : i = n
        · subst hn
          rw [he] at hie
          cases hie
          simpa using hp
        · exact ih h i (by omega) e hie

/-! ## Round trips, event by event -/

theorem sub1_add1 (t : Nat) (h : t < U64) : sub1 (add1 t) = t := by
  unfold sub1 add1 U64 at *
  split <;> omega

theorem sub1_succ (t : Nat) : sub1 (t + 1) = t := by
  simp [sub1]

theorem roundTrip_None (P : ProcessTrace) (T : ThreadTrace) (k : Nat) (s : State) :
    RoundTrip P T k s .None := by
  intro sA h
  simp only [addEvent, Except.ok.injEq] at h
  subst h
  exact ⟨s, rfl, by constructor <;> simp [Event.sharedProcessTime, Event.getProcessTime]⟩

theorem roundTrip_Subservient (P : ProcessTrace) (T : ThreadTrace) (k : Nat) (s : State) (n : Nat) :
    RoundTrip P T k s (.Subservient n) := by
  intro sA h
  simp only [addEvent, Except.ok.injEq] at h
  subst h
  exact ⟨s, rfl, by constructor <;> simp [Event.sharedProcessTime, Event.getProcessTime]⟩

theorem roundTrip_NewProcessTime (P : ProcessTrace) (T : ThreadTrace) (k : Nat) (s : State) (t : Nat)
    (hview : s.Thread.ProcessTime = lastStamp T.events k) :
    RoundTrip P T k s (.NewProcessTime t) := by
  intro sA h
  simp only [addEvent, Except.ok.injEq] at h
  subst h
  refine ⟨_, rfl, ?_⟩
  rw [setPreviousViewOfProcessTime_eq]
  constructor <;> simp [Event.sharedProcessTime, Event.getProcessTime, hview]

theorem roundTrip_NewThreadTime (P : ProcessTrace) (T : ThreadTrace) (k : Nat) (s : State)
    (htt : s.Thread.ThreadTime < U64) :
    RoundTrip P T k s .NewThreadTime := by
  intro sA h
  simp only [addEvent, Except.ok.injEq] at h
  subst h
  refine ⟨_, rfl, ?_⟩
  constructor <;>
    simp [Event.sharedProcessTime, Event.getProcessTime, decrementThreadTime, incrementThreadTime,
      setThreadTime, sub1_add1 _ htt]

theorem roundTrip_FunctionStart (P : ProcessTrace) (T : ThreadTrace) (k : Nat) (s : State)
    (a b c d : Nat)
    (hc : stepContract P T s (.FunctionStart a b c d) = true) :
    RoundTrip P T k s (.FunctionStart a b c d) := by
  intro sA h
  simp only [stepContract, beq_iff_eq] at hc
  subst hc
  simp only [addEvent] at h
  split at h
  · simp at h
  · simp only [Except.ok.injEq] at h
    subst h
    refine ⟨_, by simp [removeEvent, setThreadTime, FunctionState.create, assert, bind, Except.bind,
      pure, Except.pure]; rfl, ?_⟩
    constructor <;>
      simp [Event.sharedProcessTime, Event.getProcessTime, setThreadTime, sub1_succ]

theorem roundTrip_FunctionEnd (P : ProcessTrace) (T : ThreadTrace) (k : Nat) (s : State)
    (a : Nat)
    (hc : stepContract P T s (.FunctionEnd a) = true) :
    RoundTrip P T k s (.FunctionEnd a) := by
  intro sA h
  simp only [stepContract] at hc
  simp only [addEvent] at h
  split at h
  · rename_i Index x1 x2 Exited hev
    split at h
    · simp at h
    · rename_i top rest hcs
      simp only [hev, hcs, Bool.and_eq_true, beq_iff_eq] at hc
      obtain ⟨hx, htop⟩ := hc
      simp only [bind_eq_ok, pure, Except.pure, Except.ok.injEq] at h
      obtain ⟨u, -, m1, hm1, m2, hm2, h⟩ := h
      subst h
      refine ⟨_, by simp only [removeEvent, setThreadTime]; rfl, ?_⟩
      have e2 := allocationUnremoveAll_allocationRemoveAll hm2
      have e1 := allocationUnremoveAll_allocationRemoveAll hm1
      constructor <;>
        simp [Event.sharedProcessTime, Event.getProcessTime, setThreadTime, hcs, htop, hx,
          sub1_succ, e1, e2, ProcessState.mallocSize, Event.isInstruction,
          Event.getIndex]
  · simp at h

theorem restoreProcessTimes_eq (T : ThreadTrace) (k : Nat) (s : State) (t : Nat) :
    restoreProcessTimes T k s t
      = { Parent := { s.Parent with ProcessTime := sub1 t }
          Thread := { s.Thread with ProcessTime := lastStamp T.events k } } := by
  simp [restoreProcessTimes, setPreviousViewOfProcessTime_eq, State.setParentProcessTimeBefore]

theorem roundTrip_StateUntypedSmall (P : ProcessTrace) (T : ThreadTrace) (k : Nat) (s : State)
    (a b c t : Nat) (hview : s.Thread.ProcessTime = lastStamp T.events k) :
    RoundTrip P T k s (.StateUntypedSmall a b c t) := by
  intro sA h
  simp only [addEvent] at h
  split at h
  · simp only [Except.ok.injEq] at h
    subst h
    refine ⟨_, rfl, ?_⟩
    rw [restoreProcessTimes_eq]
    constructor <;>
      simp [Event.sharedProcessTime, Event.getProcessTime, hview, State.setMemory,
        State.setProcessTimes, removeBlock_addBlock, ProcessState.mallocSize, Event.isInstruction,
        Event.getIndex]
  · simp at h

theorem roundTrip_StateUntyped (P : ProcessTrace) (T : ThreadTrace) (k : Nat) (s : State)
    (a b c t : Nat) (hview : s.Thread.ProcessTime = lastStamp T.events k) :
    RoundTrip P T k s (.StateUntyped a b c t) := by
  intro sA h
  simp only [addEvent, bind_eq_ok, pure, Except.pure, Except.ok.injEq] at h
  obtain ⟨Data, -, h⟩ := h
  subst h
  refine ⟨_, rfl, ?_⟩
  rw [restoreProcessTimes_eq]
  constructor <;>
    simp [Event.sharedProcessTime, Event.getProcessTime, hview, State.setMemory,
      State.setProcessTimes, removeBlock_addBlock, ProcessState.mallocSize, Event.isInstruction,
      Event.getIndex]

theorem roundTrip_StateMemmove (P : ProcessTrace) (T : ThreadTrace) (k : Nat) (s : State)
    (a b c t : Nat) (hview : s.Thread.ProcessTime = lastStamp T.events k) :
    RoundTrip P T k s (.StateMemmove a b c t) := by
  intro sA h
  simp only [addEvent, Except.ok.injEq] at h
  subst h
  refine ⟨_, rfl, ?_⟩
  rw [restoreProcessTimes_eq]
  constructor <;>
    simp [Event.sharedProcessTime, Event.getProcessTime, hview, State.setMemory,
      State.setProcessTimes, removeCopy_addCopy, ProcessState.mallocSize, Event.isInstruction,
      Event.getIndex]

theorem roundTrip_StateClear (P : ProcessTrace) (T : ThreadTrace) (k : Nat) (s : State)
    (a b t : Nat) (hview : s.Thread.ProcessTime = lastStamp T.events k) :
    RoundTrip P T k s (.StateClear a b t) := by
  intro sA h
  simp only [addEvent, Except.ok.injEq] at h
  subst h
  refine ⟨_, rfl, ?_⟩
  rw [restoreProcessTimes_eq]
  constructor <;>
    simp [Event.sharedProcessTime, Event.getProcessTime, hview, State.setMemory,
      State.setProcessTimes, removeClear_addClear, ProcessState.mallocSize, Event.isInstruction,
      Event.getIndex]

theorem update_update_self {α : Type} (f : Nat → Option α) (a : Nat) (v : Option α) :
    Function.update (Function.update f a v) a (f a) = f := by
  simp

theorem roundTrip_Malloc (P : ProcessTrace) (T : ThreadTrace) (k : Nat) (s : State)
    (a t : Nat) (hview : s.Thread.ProcessTime = lastStamp T.events k) :
    RoundTrip P T k s (.Malloc a t) := by
  intro sA h
  simp only [addEvent] at h
  split at h
  · simp at h
  · rename_i InstrRef hfind
    split at h
    · rename_i Index Address hev
      simp only [bind_eq_ok, pure, Except.pure, Except.ok.injEq] at h
      obtain ⟨p1, hp1, m1, hm1, h⟩ := h
      subst h
      unfold ProcessState.addMalloc at hp1
      split at hp1
      · simp at hp1
      · rename_i hnone
        simp only [Except.ok.injEq] at hp1
        subst hp1
        have e1 := allocationUnadd_allocationAdd hm1
        simp only at e1
        refine ⟨_, by simp only [removeEvent, hfind, hev]; rfl, ?_⟩
        rw [restoreProcessTimes_eq]
        constructor <;>
          simp [Event.sharedProcessTime, Event.getProcessTime, hview, State.setProcessTimes,
            ProcessState.unaddMalloc, ProcessState.mallocSize, Event.isInstruction,
            Event.getIndex, e1, ← hnone]
    · simp at h

theorem roundTrip_Free (P : ProcessTrace) (T : ThreadTrace) (k : Nat) (s : State)
    (a t : Nat) (hview : s.Thread.ProcessTime = lastStamp T.events k) :
    RoundTrip P T k s (.Free a t) := by
  intro sA h
  simp only [addEvent] at h
  split at h
  · simp at h
  · rename_i Entry hentry
    simp only [bind_eq_ok, pure, Except.pure, Except.ok.injEq, ProcessState.removeMalloc, hentry] at h
    obtain ⟨p1, hp1, m1, hm1, h⟩ := h
    subst h
    subst hp1
    have e1 := allocationUnremove_allocationRemove hm1
    simp only at e1
    refine ⟨_, by simp [removeEvent, ProcessState.unremoveMalloc, State.setProcessTimes]; rfl, ?_⟩
    rw [restoreProcessTimes_eq]
    constructor <;>
      simp [Event.sharedProcessTime, Event.getProcessTime, hview, State.setProcessTimes,
        ProcessState.mallocSize, Event.isInstruction, Event.getIndex, e1, ← hentry]

theorem roundTrip_Realloc (P : ProcessTrace) (T : ThreadTrace) (k : Nat) (s : State)
    (a o n t : Nat) (hview : s.Thread.ProcessTime = lastStamp T.events k)
    (hc : stepContract P T s (.Realloc a o n t) = true) :
    RoundTrip P T k s (.Realloc a o n t) := by
  intro sA h
  simp only [stepContract, beq_iff_eq] at hc
  simp only [addEvent] at h
  split at h
  · simp at h
  · rename_i Entry hentry
    split at h
    · simp at h
    · rename_i top rest hcs
      simp only [bind_eq_ok, pure, Except.pure, Except.ok.injEq] at h
      obtain ⟨m1, hm1, h⟩ := h
      subst h
      have e1 := allocationUnresize_allocationResize hm1
      simp only [hentry, Option.map_some', Option.some.injEq] at hc
      refine ⟨_, by simp [removeEvent, State.setProcessTimes]; rfl, ?_⟩
      rw [restoreProcessTimes_eq]
      constructor <;>
        simp [Event.sharedProcessTime, Event.getProcessTime, hview, State.setProcessTimes,
          ProcessState.mallocSize, Event.isInstruction, Event.getIndex, e1]
      intro x
      by_cases hx : x = a
      · subst hx
        simp [hentry, hc]
      · simp [hx]

theorem roundTrip_KnownRegionAdd (P : ProcessTrace) (T : ThreadTrace) (k : Nat) (s : State)
    (a n : Nat) (r w : Bool) : RoundTrip P T k s (.KnownRegionAdd a n r w) := by
  intro sA h
  simp only [addEvent, bind_eq_ok, pure, Except.pure, Except.ok.injEq] at h
  obtain ⟨p1, hp1, m1, hm1, h⟩ := h
  subst h
  unfold ProcessState.addKnownMemory at hp1
  split at hp1
  · simp at hp1
  · rename_i hnone
    simp only [Except.ok.injEq] at hp1
    subst hp1
    have e1 := allocationUnadd_allocationAdd hm1
    simp only at e1
    refine ⟨_, rfl, ?_⟩
    constructor <;>
      simp [Event.sharedProcessTime, Event.getProcessTime, ProcessState.removeKnownMemory,
        ProcessState.mallocSize, Event.isInstruction, Event.getIndex, e1, ← hnone]

theorem roundTrip_KnownRegionRemove (P : ProcessTrace) (T : ThreadTrace) (k : Nat) (s : State)
    (a n : Nat) (r w : Bool) (hc : stepContract P T s (.KnownRegionRemove a n r w) = true) :
    RoundTrip P T k s (.KnownRegionRemove a n r w) := by
  intro sA h
  simp only [stepContract, beq_iff_eq] at hc
  simp only [addEvent, bind_eq_ok, pure, Except.pure, Except.ok.injEq] at h
  obtain ⟨m1, hm1, h⟩ := h
  subst h
  have e1 := allocationUnremove_allocationRemove hm1
  simp only [ProcessState.removeKnownMemory] at e1
  refine ⟨_, by simp [removeEvent, ProcessState.addKnownMemory, ProcessState.removeKnownMemory,
    bind, Except.bind, pure, Except.pure]; rfl, ?_⟩
  constructor <;>
    simp [Event.sharedProcessTime, Event.getProcessTime, ProcessState.removeKnownMemory,
      ProcessState.mallocSize, Event.isInstruction, Event.getIndex, e1, ← hc]

theorem withTop_eq_ok {s s1 : State} {g : FunctionState → Except Fatal FunctionState}
    (h : s.withTop g = .ok s1) :
    ∃ top rest top1, s.Thread.CallStack = top :: rest ∧ g top = .ok top1 ∧
      s1 = { s with Thread := { s.Thread with CallStack := top1 :: rest } } := by
  unfold State.withTop at h
  split at h
  · simp at h
  · rename_i top rest hcs
    split at h
    · simp at h
    · rename_i top1 hg
      exact ⟨top, rest, top1, hcs, hg, by simpa using h.symm⟩

theorem reverse_eraseP_concat (l : List ParamByValState) (x : ParamByValState) (a : Nat)
    (hx : x.Area.Address = a) :
    ((l ++ [x]).reverse.eraseP (fun b => b.Area.Address == a)).reverse = l := by
  simp [List.eraseP_cons, hx]

theorem roundTrip_ByValRegionAdd (P : ProcessTrace) (T : ThreadTrace) (k : Nat) (s : State)
    (g a n : Nat) : RoundTrip P T k s (.ByValRegionAdd g a n) := by
  intro sA h
  simp only [addEvent, bind_eq_ok, pure, Except.pure, Except.ok.injEq] at h
  obtain ⟨s1, hs1, m1, hm1, h⟩ := h
  subst h
  obtain ⟨top, rest, top1, hcs, hg, hs1⟩ := withTop_eq_ok hs1
  simp only [Except.ok.injEq] at hg
  subst hg
  subst hs1
  have e1 := allocationUnadd_allocationAdd hm1
  simp only at e1
  refine ⟨_, by simp [removeEvent, State.withTop, State.setMemory, bind, Except.bind, pure,
    Except.pure]; rfl, ?_⟩
  constructor <;>
    simp [Event.sharedProcessTime, Event.getProcessTime, State.setMemory, hcs,
      ProcessState.mallocSize, Event.isInstruction, Event.getIndex, e1,
      FunctionState.removeByValArea, FunctionState.addByValArea, List.eraseP_cons]

theorem roundTrip_FileOpen (P : ProcessTrace) (T : ThreadTrace) (k : Nat) (s : State)
    (a b c t : Nat) (hview : s.Thread.ProcessTime = lastStamp T.events k) :
    RoundTrip P T k s (.FileOpen a b c t) := by
  intro sA h
  simp only [addEvent, bind_eq_ok, pure, Except.pure, Except.ok.injEq] at h
  obtain ⟨p1, hp1, h⟩ := h
  subst h
  unfold ProcessState.addStream at hp1
  split at hp1
  · simp at hp1
  · rename_i hnone
    simp only [Except.ok.injEq] at hp1
    subst hp1
    simp only at hnone
    refine ⟨_, rfl, ?_⟩
    rw [restoreProcessTimes_eq]
    constructor <;>
      simp [Event.sharedProcessTime, Event.getProcessTime, hview, State.setProcessTimes,
        ProcessState.removeStream, ProcessState.mallocSize, Event.isInstruction, Event.getIndex,
        ← hnone]

theorem getData_length {P : ProcessTrace} {o n : Nat} {Data : List Nat}
    (h : P.getData o n = .ok Data) : Data.length = n := by
  unfold ProcessTrace.getData at h
  split at h
  · simp only [Except.ok.injEq] at h
    subst h
    simp
    omega
  · simp at h

theorem unwrite_write (S : StreamState) (Data : List Nat) (n : Nat) (h : Data.length = n) :
    (S.write Data).unwrite n = S := by
  subst h
  cases S
  simp [StreamState.write, StreamState.unwrite]

theorem roundTrip_FileWrite (P : ProcessTrace) (T : ThreadTrace) (k : Nat) (s : State)
    (a b c t : Nat) (hview : s.Thread.ProcessTime = lastStamp T.events k) :
    RoundTrip P T k s (.FileWrite a b c t) := by
  intro sA h
  simp only [addEvent] at h
  split at h
  · simp at h
  · rename_i Stream hst
    simp only [bind_eq_ok, pure, Except.pure, Except.ok.injEq] at h
    obtain ⟨Data, hData, h⟩ := h
    subst h
    have e1 := unwrite_write Stream Data c (getData_length hData)
    simp only [ProcessState.getStream] at hst
    refine ⟨_, by simp [removeEvent, ProcessState.getStream, ProcessState.setStream,
      State.setProcessTimes]; rfl, ?_⟩
    rw [restoreProcessTimes_eq]
    constructor <;>
      simp [Event.sharedProcessTime, Event.getProcessTime, hview, State.setProcessTimes,
        ProcessState.setStream, ProcessState.mallocSize, Event.isInstruction, Event.getIndex,
        e1, ← hst]

theorem roundTrip_FileWriteFromMemory (P : ProcessTrace) (T : ThreadTrace) (k : Nat) (s : State)
    (a b c t : Nat) (hview : s.Thread.ProcessTime = lastStamp T.events k) :
    RoundTrip P T k s (.FileWriteFromMemory a b c t) := by
  intro sA h
  simp only [addEvent] at h
  split at h
  · simp at h
  · rename_i Stream hst
    simp only [bind_eq_ok, pure, Except.pure, Except.ok.injEq] at h
    obtain ⟨u, -, h⟩ := h
    subst h
    have e1 := unwrite_write Stream (s.Parent.Memory.getValues ⟨b, c⟩) c
      (by simp [MemoryState.getValues])
    simp only [ProcessState.getStream] at hst
    refine ⟨_, by simp [removeEvent, ProcessState.getStream, ProcessState.setStream,
      State.setProcessTimes]; rfl, ?_⟩
    rw [restoreProcessTimes_eq]
    constructor <;>
      simp [Event.sharedProcessTime, Event.getProcessTime, hview, State.setProcessTimes,
        ProcessState.setStream, ProcessState.mallocSize, Event.isInstruction, Event.getIndex,
        e1, ← hst]

theorem roundTrip_FileClose (P : ProcessTrace) (T : ThreadTrace) (k : Nat) (s : State)
    (a t : Nat) (hview : s.Thread.ProcessTime = lastStamp T.events k) :
    RoundTrip P T k s (.FileClose a t) := by
  intro sA h
  simp only [addEvent, bind_eq_ok, pure, Except.pure, Except.ok.injEq] at h
  obtain ⟨p1, hp1, h⟩ := h
  subst h
  unfold ProcessState.closeStream at hp1
  split at hp1
  · simp at hp1
  · rename_i S hS
    simp only [Except.ok.injEq] at hp1
    subst hp1
    refine ⟨_, by simp [removeEvent, ProcessState.restoreStream, State.setProcessTimes]; rfl, ?_⟩
    rw [restoreProcessTimes_eq]
    constructor <;>
      simp [Event.sharedProcessTime, Event.getProcessTime, hview, State.setProcessTimes,
        ProcessState.mallocSize, Event.isInstruction, Event.getIndex, ← hS]

theorem roundTrip_DirOpen (P : ProcessTrace) (T : ThreadTrace) (k : Nat) (s : State)
    (a b t : Nat) (hview : s.Thread.ProcessTime = lastStamp T.events k) :
    RoundTrip P T k s (.DirOpen a b t) := by
  intro sA h
  simp only [addEvent, bind_eq_ok, pure, Except.pure, Except.ok.injEq] at h
  obtain ⟨p1, hp1, h⟩ := h
  subst h
  unfold ProcessState.addDir at hp1
  split at hp1
  · simp at hp1
  · rename_i hnone
    simp only [Except.ok.injEq] at hp1
    subst hp1
    simp only at hnone
    refine ⟨_, rfl, ?_⟩
    rw [restoreProcessTimes_eq]
    constructor <;>
      simp [Event.sharedProcessTime, Event.getProcessTime, hview, State.setProcessTimes,
        ProcessState.removeDir, ProcessState.mallocSize, Event.isInstruction, Event.getIndex,
        ← hnone]

theorem roundTrip_DirClose (P : ProcessTrace) (T : ThreadTrace) (k : Nat) (s : State)
    (a b t : Nat) (hview : s.Thread.ProcessTime = lastStamp T.events k)
    (hc : stepContract P T s (.DirClose a b t) = true) :
    RoundTrip P T k s (.DirClose a b t) := by
  intro sA h
  simp only [stepContract, beq_iff_eq] at hc
  simp only [addEvent, Except.ok.injEq] at h
  subst h
  refine ⟨_, by simp [removeEvent, ProcessState.addDir, ProcessState.removeDir,
    State.setProcessTimes, bind, Except.bind, pure, Except.pure]; rfl, ?_⟩
  rw [restoreProcessTimes_eq]
  constructor <;>
    simp [Event.sharedProcessTime, Event.getProcessTime, hview, State.setProcessTimes,
      ProcessState.removeDir, ProcessState.mallocSize, Event.isInstruction, Event.getIndex,
      ← hc]

theorem roundTrip_RuntimeError (P : ProcessTrace) (T : ThreadTrace) (k : Nat) (s : State)
    (b : Bool) : RoundTrip P T k s (.RuntimeError b) := by
  intro sA h
  cases b with
  | false =>
    simp only [addEvent, addRuntimeErrorEvent, Bool.not_false, if_true, Except.ok.injEq] at h
    subst h
    exact ⟨s, rfl, by constructor <;> simp [Event.sharedProcessTime, Event.getProcessTime]⟩
  | true =>
    simp only [addEvent, addRuntimeErrorEvent, Bool.not_true, Bool.false_eq_true, if_false] at h
    obtain ⟨top, rest, top1, hcs, hg, hs1⟩ := withTop_eq_ok h
    simp only [Except.ok.injEq] at hg
    subst hg
    subst hs1
    refine ⟨_, by simp [removeEvent, State.withTop, FunctionState.removeLastRuntimeError,
      FunctionState.addRuntimeError]; rfl, ?_⟩
    constructor <;>
      simp [Event.sharedProcessTime, Event.getProcessTime, hcs, ProcessState.mallocSize,
        Event.isInstruction, Event.getIndex, FunctionState.addRuntimeError]

theorem drop_append_length_sub (l1 l2 : List AllocaState) :
    (l1 ++ l2).drop ((l1 ++ l2).length - l2.length) = l2 := by
  simp

theorem take_append_length_sub (l1 l2 : List AllocaState) :
    (l1 ++ l2).take ((l1 ++ l2).length - l2.length) = l1 := by
  simp

theorem roundTrip_StackRestore (P : ProcessTrace) (T : ThreadTrace) (k : Nat) (s : State)
    (n : Nat) : RoundTrip P T k s (.StackRestore n) := by
  intro sA h
  simp only [addEvent] at h
  split at h
  · simp at h
  · rename_i top rest hcs
    simp only [bind_eq_ok, pure, Except.pure, Except.ok.injEq, Prod.exists] at h
    obtain ⟨top1, Removed, hrem, m1, hm1, h⟩ := h
    subst h
    unfold FunctionState.removeAllocas at hrem
    split at hrem
    · rename_i hn
      simp only [Except.ok.injEq, Prod.mk.injEq] at hrem
      obtain ⟨htop1, hRemoved⟩ := hrem
      subst htop1
      simp only [hRemoved]
      have e1 := allocationUnremoveAll_allocationRemoveAll hm1
      have hlen : Removed.length = n := by
        rw [← hRemoved]
        simp
        omega
      have hdrop : (top.ClearedAllocas ++ Removed).drop
          ((top.ClearedAllocas ++ Removed).length - n) = Removed := by
        rw [← hlen]
        exact drop_append_length_sub _ _
      have htake : (top.ClearedAllocas ++ Removed).take
          ((top.ClearedAllocas ++ Removed).length - n) = top.ClearedAllocas := by
        rw [← hlen]
        exact take_append_length_sub _ _
      have hle : n ≤ (top.ClearedAllocas ++ Removed).length := by
        simp
        omega
      have hall : top.Allocas.take (top.Allocas.length - n) ++ Removed = top.Allocas := by
        rw [← hRemoved]
        exact List.take_append_drop _ _
      refine ⟨_, by simp only [removeEvent, FunctionState.unremoveAllocas, hle, if_true, bind,
        Except.bind, pure, Except.pure, hdrop, htake]; rfl, ?_⟩
      constructor
      all_goals first
        | exact e1
        | simp [Event.sharedProcessTime, Event.getProcessTime, hcs, ProcessState.mallocSize,
            Event.isInstruction, Event.getIndex, hall]
    · simp at hrem

theorem roundTrip_Alloca (P : ProcessTrace) (T : ThreadTrace) (k : Nat) (s : State)
    (a b : Nat) : RoundTrip P T k s (.Alloca a b) := by
  intro sA h
  simp only [addEvent, bind_eq_ok] at h
  obtain ⟨u, -, h⟩ := h
  split at h
  · simp at h
  · rename_i InstrRef hfind
    split at h
    · rename_i Index Value hev
      split at h
      · simp at h
      · rename_i top rest hcs
        simp only [bind_eq_ok, pure, Except.pure, Except.ok.injEq] at h
        obtain ⟨m1, hm1, h⟩ := h
        subst h
        have e1 := allocationUnadd_allocationAdd hm1
        refine ⟨_, by simp [removeEvent]; rfl, ?_⟩
        constructor <;>
          simp [Event.sharedProcessTime, Event.getProcessTime, hcs, ProcessState.mallocSize,
            Event.isInstruction, Event.getIndex, e1]
    · simp at h

theorem rfindInFunctionAux_some {p : Event → Bool} {events : List Event} {n depth j : Nat}
    (h : rfindInFunctionAux p events n depth = some j) :
    j < n ∧ ∃ e, events[j]? = some e ∧ p e = true := by
  induction n generalizing depth with
  | zero => simp [rfindInFunctionAux] at h
  | succ n ih =>
    unfold rfindInFunctionAux at h
    cases hev : events[n]? with
    | none =>
      rw [hev] at h
      obtain ⟨h1, h2⟩ := ih h
      exact ⟨by omega, h2⟩
    | some e =>
      rw [hev] at h
      split at h
      · obtain ⟨h1, h2⟩ := ih h
        exact ⟨by omega, h2⟩
      · split at h
        · simp at h
        · obtain ⟨h1, h2⟩ := ih h
          exact ⟨by omega, h2⟩
      · rename_i heq
        simp only [Option.some.injEq] at heq
        subst heq
        split at h
        · rename_i hp
          simp only [Option.some.injEq] at h
          subst h
          exact ⟨by omega, _, hev, hp.2⟩
        · obtain ⟨h1, h2⟩ := ih h
          exact ⟨by omega, h2⟩
      · rename_i heq
        simp at heq

theorem readdRuntimeErrors_ok (T : ThreadTrace) (l : List Nat) (s : State)
    (top : FunctionState) (rest : List FunctionState) (hcs : s.Thread.CallStack = top :: rest) :
    ∃ errs, readdRuntimeErrors T s l
      = .ok { s with Thread := { s.Thread with
                CallStack := { top with RuntimeErrors := errs } :: rest } } := by
  induction l generalizing s top with
  | nil =>
    refine ⟨top.RuntimeErrors, ?_⟩
    simp only [readdRuntimeErrors, ← hcs]
  | cons j l ih =>
    unfold readdRuntimeErrors
    split
    · rename_i b hb
      cases b with
      | false =>
        simp only [addRuntimeErrorEvent, Bool.not_false, if_true]
        exact ih s top hcs
      | true =>
        simp only [addRuntimeErrorEvent, Bool.not_true, Bool.false_eq_true, if_false,
          State.withTop, hcs]
        obtain ⟨errs, he⟩ := ih
          { s with Thread := { s.Thread with CallStack :=
              (top.addRuntimeError (deserializeRuntimeError T.events j) :: rest) } }
          (top.addRuntimeError (deserializeRuntimeError T.events j)) rfl
        exact ⟨errs, he⟩
    · exact ih s top hcs

theorem makePreviousInstructionActive_ok (T : ThreadTrace) (s : State) (k : Nat)
    (top : FunctionState) (rest : List FunctionState) (hcs : s.Thread.CallStack = top :: rest) :
    ∃ a c errs, makePreviousInstructionActive T s k
      = .ok { s with Thread := { s.Thread with
                CallStack := { top with ActiveInstruction := a, ActiveInstructionComplete := c,
                                        RuntimeErrors := errs } :: rest } } := by
  unfold makePreviousInstructionActive
  simp only [hcs]
  split
  · refine ⟨none, top.ActiveInstructionComplete, top.RuntimeErrors, ?_⟩
    simp [State.withTop, hcs, FunctionState.clearActiveInstruction]
  · rename_i Ref hfind
    obtain ⟨-, e, he, hp⟩ := rfindInFunctionAux_some hfind
    simp only [he]
    simp only [Event.isInstruction, Option.isSome_iff_exists] at hp
    obtain ⟨Index, hIndex⟩ := hp
    simp only [hIndex, bind, Except.bind, State.withTop, hcs]
    cases hpre : e.isPreInstruction with
    | true =>
      simp only [Bool.not_true, Bool.false_eq_true, if_false]
      obtain ⟨errs, herr⟩ := readdRuntimeErrors_ok T (List.range' Ref (k - Ref))
        { s with Thread := { s.Thread with CallStack :=
            ((top.rewindingToInstruction Index).setActiveInstructionIncomplete Index :: rest) } }
        _ rest rfl
      exact ⟨some Index, false, errs, herr⟩
    | false =>
      simp only [Bool.not_false, if_true]
      obtain ⟨errs, herr⟩ := readdRuntimeErrors_ok T (List.range' Ref (k - Ref))
        { s with Thread := { s.Thread with CallStack :=
            ((top.rewindingToInstruction Index).setActiveInstructionComplete Index :: rest) } }
        _ rest rfl
      exact ⟨some Index, true, errs, herr⟩

theorem setValue_layout {f f2 : FunctionState} {i : Option Nat} {v : RuntimeValue}
    (h : f.setValue i v = .ok f2) : f2.layout = f.layout := by
  unfold FunctionState.setValue at h
  split at h
  · simp at h
  · simp only [Except.ok.injEq] at h
    subst h
    simp [FunctionState.layout]

theorem addInstructionWithValue_eq_ok {T : ThreadTrace} {s sA : State} {Index : Nat}
    {v : RuntimeValue} (h : addInstructionWithValue T s Index v = .ok sA) :
    ∃ top rest top1, s.Thread.CallStack = top :: rest ∧ top1.layout = top.layout ∧
      sA = incrementThreadTime T { s with Thread := { s.Thread with CallStack := top1 :: rest } } := by
  simp only [addInstructionWithValue, bind_eq_ok, pure, Except.pure, Except.ok.injEq] at h
  obtain ⟨s1, hs1, h⟩ := h
  obtain ⟨top, rest, top1, hcs, hg, hs1⟩ := withTop_eq_ok hs1
  simp only [bind_eq_ok, pure, Except.pure, Except.ok.injEq] at hg
  obtain ⟨f2, hf2, hg⟩ := hg
  subst hg
  subst hs1
  refine ⟨top, rest, _, hcs, ?_, h.symm⟩
  have := setValue_layout hf2
  simpa [FunctionState.layout, FunctionState.setActiveInstructionComplete,
    FunctionState.forwardingToInstruction] using this

theorem addEvent_instruction {P : ProcessTrace} {T : ThreadTrace} {k : Nat} {s sA : State}
    {Ev : Event} (hi : Ev.isInstruction = true) (h : addEvent P T k s Ev = .ok sA) :
    ∃ top rest top1, s.Thread.CallStack = top :: rest ∧ top1.layout = top.layout ∧
      sA = incrementThreadTime T { s with Thread := { s.Thread with CallStack := top1 :: rest } } := by
  cases Ev <;> simp only [Event.isInstruction, Event.getIndex, Option.isSome_none,
    Bool.false_eq_true] at hi
  case PreInstruction Index =>
    simp only [addEvent, bind_eq_ok, pure, Except.pure, Except.ok.injEq] at h
    obtain ⟨s1, hs1, h⟩ := h
    obtain ⟨top, rest, top1, hcs, hg, hs1⟩ := withTop_eq_ok hs1
    simp only [Except.ok.injEq] at hg
    subst hg
    subst hs1
    exact ⟨top, rest, _, hcs, by simp [FunctionState.layout,
      FunctionState.setActiveInstructionIncomplete, FunctionState.forwardingToInstruction], h.symm⟩
  case Instruction Index =>
    simp only [addEvent, bind_eq_ok, pure, Except.pure, Except.ok.injEq] at h
    obtain ⟨s1, hs1, h⟩ := h
    obtain ⟨top, rest, top1, hcs, hg, hs1⟩ := withTop_eq_ok hs1
    simp only [Except.ok.injEq] at hg
    subst hg
    subst hs1
    exact ⟨top, rest, _, hcs, by simp [FunctionState.layout,
      FunctionState.setActiveInstructionComplete, FunctionState.forwardingToInstruction], h.symm⟩
  case InstructionWithUInt8 => exact addInstructionWithValue_eq_ok h
  case InstructionWithUInt16 => exact addInstructionWithValue_eq_ok h
  case InstructionWithUInt32 => exact addInstructionWithValue_eq_ok h
  case InstructionWithUInt64 => exact addInstructionWithValue_eq_ok h
  case InstructionWithPtr => exact addInstructionWithValue_eq_ok h
  case InstructionWithFloat => exact addInstructionWithValue_eq_ok h
  case InstructionWithDouble => exact addInstructionWithValue_eq_ok h
  case InstructionWithLongDouble Index w1 w2 =>
    simp only [addEvent, bind_eq_ok, pure, Except.pure, Except.ok.injEq] at h
    obtain ⟨s1, hs1, h⟩ := h
    obtain ⟨top, rest, top1, hcs, hg, hs1⟩ := withTop_eq_ok hs1
    subst hs1
    refine ⟨top, rest, top1, hcs, ?_, h.symm⟩
    split at hg
    · split at hg
      · simp only [bind_eq_ok, pure, Except.pure, Except.ok.injEq] at hg
        obtain ⟨f2, hf2, hg⟩ := hg
        subst hg
        have := setValue_layout hf2
        simpa [FunctionState.layout, FunctionState.setActiveInstructionComplete,
          FunctionState.forwardingToInstruction] using this
      · simp at hg
    · simp at hg

theorem removeEvent_instruction {P : ProcessTrace} {T : ThreadTrace} {k : Nat} {s : State}
    {Ev : Event} (hi : Ev.isInstruction = true) :
    removeEvent P T k s Ev = removeInstruction T k s := by
  cases Ev <;> first
    | rfl
    | (simp only [Event.isInstruction, Event.getIndex, Option.isSome_none,
        Bool.false_eq_true] at hi)

theorem sharedProcessTime_instruction {Ev : Event} (hi : Ev.isInstruction = true) :
    Ev.sharedProcessTime = none := by
  cases Ev <;> first
    | rfl
    | (simp only [Event.isInstruction, Event.getIndex, Option.isSome_none,
        Bool.false_eq_true] at hi)

theorem roundTrip_instruction (P : ProcessTrace) (T : ThreadTrace) (k : Nat) (s : State)
    (Ev : Event) (hi : Ev.isInstruction = true) (htt : s.Thread.ThreadTime < U64) :
    RoundTrip P T k s Ev := by
  intro sA h
  obtain ⟨top, rest, top1, hcs, hlay, hsA⟩ := addEvent_instruction hi h
  subst hsA
  rw [removeEvent_instruction hi]
  obtain ⟨a, c, errs, hm⟩ := makePreviousInstructionActive_ok T
    (incrementThreadTime T { s with Thread := { s.Thread with CallStack := (top1 :: rest) } }) k
    top1 rest rfl
  refine ⟨_, by simp only [removeInstruction, hm, bind, Except.bind, pure, Except.pure]; rfl, ?_⟩
  have hlay2 : ({ top1 with
      ActiveInstruction := a
      ActiveInstructionComplete := c
      RuntimeErrors := errs } : FunctionState).layout = top.layout := by
    rw [← hlay]
    simp [FunctionState.layout]
  constructor
  all_goals first
    | (intro hn; rw [hi] at hn; cases hn)
    | (simp only [sharedProcessTime_instruction hi]; rfl)
    | simp [decrementThreadTime, incrementThreadTime, setThreadTime, sub1_add1 _ htt, hcs, hlay2,
        ProcessState.mallocSize]

/-! ## The effect of applying an event on times and depth -/

theorem addKnownMemory_ProcessTime {p p1 : ProcessState} {a n : Nat} {x : MemoryPermission}
    (h : p.addKnownMemory a n x = .ok p1) : p1.ProcessTime = p.ProcessTime := by
  unfold ProcessState.addKnownMemory at h
  split at h
  · simp at h
  · simp only [Except.ok.injEq] at h
    subst h
    rfl

theorem effect_instruction {P : ProcessTrace} {T : ThreadTrace} {k : Nat} {s sA : State}
    {Ev : Event} (hi : Ev.isInstruction = true) (h : addEvent P T k s Ev = .ok sA) :
    Effect T Ev s sA := by
  obtain ⟨top, rest, top1, hcs, -, hsA⟩ := addEvent_instruction hi h
  subst hsA
  have h1 : Ev.getProcessTime = none := by
    cases Ev <;> first
      | rfl
      | (simp only [Event.isInstruction, Event.getIndex, Option.isSome_none,
          Bool.false_eq_true] at hi)
  have h2 : threadTimeAfter T.events Ev s.Thread.ThreadTime = add1 s.Thread.ThreadTime := by
    cases Ev <;> first
      | (simp [Event.isInstruction, Event.getIndex] at hi; done)
      | simp [threadTimeAfter, Event.isInstruction, Event.getIndex]
  have h3 : depthAfter Ev s.Thread.CallStack.length = s.Thread.CallStack.length := by
    cases Ev <;> first
      | rfl
      | (simp only [Event.isInstruction, Event.getIndex, Option.isSome_none,
          Bool.false_eq_true] at hi)
  refine ⟨rfl, ?_, ?_, ?_, ?_⟩
  · simp [h1, incrementThreadTime, setThreadTime]
  · simp [sharedProcessTime_instruction hi, incrementThreadTime, setThreadTime]
  · simp [h2, incrementThreadTime, setThreadTime]
  · rw [h3, hcs]
    simp [incrementThreadTime, setThreadTime]

theorem effect_other {P : ProcessTrace} {T : ThreadTrace} {k : Nat} {s sA : State}
    {Ev : Event} (hi : ¬ Ev.isInstruction = true) (h : addEvent P T k s Ev = .ok sA) :
    Effect T Ev s sA := by
  cases Ev
  case PreInstruction => simp [Event.isInstruction, Event.getIndex] at hi
  case Instruction => simp [Event.isInstruction, Event.getIndex] at hi
  case InstructionWithUInt8 => simp [Event.isInstruction, Event.getIndex] at hi
  case InstructionWithUInt16 => simp [Event.isInstruction, Event.getIndex] at hi
  case InstructionWithUInt32 => simp [Event.isInstruction, Event.getIndex] at hi
  case InstructionWithUInt64 => simp [Event.isInstruction, Event.getIndex] at hi
  case InstructionWithPtr => simp [Event.isInstruction, Event.getIndex] at hi
  case InstructionWithFloat => simp [Event.isInstruction, Event.getIndex] at hi
  case InstructionWithDouble => simp [Event.isInstruction, Event.getIndex] at hi
  case InstructionWithLongDouble => simp [Event.isInstruction, Event.getIndex] at hi
  case None =>
    simp only [addEvent, Except.ok.injEq] at h
    subst h
    simp [Effect, threadTimeAfter, depthAfter, Event.getProcessTime, Event.sharedProcessTime, Event.isInstruction, Event.getIndex, State.setProcessTimes, State.setMemory, setThreadTime, incrementThreadTime]
  case Subservient =>
    simp only [addEvent, Except.ok.injEq] at h
    subst h
    simp [Effect, threadTimeAfter, depthAfter, Event.getProcessTime, Event.sharedProcessTime, Event.isInstruction, Event.getIndex, State.setProcessTimes, State.setMemory, setThreadTime, incrementThreadTime]
  case NewProcessTime =>
    simp only [addEvent, Except.ok.injEq] at h
    subst h
    simp [Effect, threadTimeAfter, depthAfter, Event.getProcessTime, Event.sharedProcessTime, Event.isInstruction, Event.getIndex, State.setProcessTimes, State.setMemory, setThreadTime, incrementThreadTime]
  case NewThreadTime =>
    simp only [addEvent, Except.ok.injEq] at h
    subst h
    simp [Effect, threadTimeAfter, depthAfter, Event.getProcessTime, Event.sharedProcessTime, Event.isInstruction, Event.getIndex, State.setProcessTimes, State.setMemory, setThreadTime, incrementThreadTime]
  case StateMemmove =>
    simp only [addEvent, Except.ok.injEq] at h
    subst h
    simp [Effect, threadTimeAfter, depthAfter, Event.getProcessTime, Event.sharedProcessTime, Event.isInstruction, Event.getIndex, State.setProcessTimes, State.setMemory, setThreadTime, incrementThreadTime]
  case StateClear =>
    simp only [addEvent, Except.ok.injEq] at h
    subst h
    simp [Effect, threadTimeAfter, depthAfter, Event.getProcessTime, Event.sharedProcessTime, Event.isInstruction, Event.getIndex, State.setProcessTimes, State.setMemory, setThreadTime, incrementThreadTime]
  case DirClose =>
    simp only [addEvent, Except.ok.injEq] at h
    subst h
    simp [Effect, threadTimeAfter, depthAfter, Event.getProcessTime, Event.sharedProcessTime, Event.isInstruction, Event.getIndex, State.setProcessTimes, State.setMemory, setThreadTime, incrementThreadTime]
  case FunctionStart =>
    simp only [addEvent] at h
    split at h
    · simp at h
    · simp only [Except.ok.injEq] at h
      subst h
      simp [Effect, threadTimeAfter, depthAfter, Event.getProcessTime, Event.sharedProcessTime, Event.isInstruction, Event.getIndex, State.setProcessTimes, State.setMemory, setThreadTime, incrementThreadTime]
  case FunctionEnd a =>
    simp only [addEvent] at h
    split at h
    · rename_i Index x1 x2 Exited hev
      split at h
      · simp at h
      · rename_i top rest hcs
        simp only [bind_eq_ok, pure, Except.pure, Except.ok.injEq] at h
        obtain ⟨u, -, m1, hm1, m2, hm2, h⟩ := h
        subst h
        simp [Effect, threadTimeAfter, depthAfter, Event.getProcessTime,
          Event.sharedProcessTime, setThreadTime, hev, hcs]
    · simp at h
  case StackRestore =>
    simp only [addEvent] at h
    split at h
    · simp at h
    · rename_i top rest hcs
      simp only [bind_eq_ok, pure, Except.pure, Except.ok.injEq, Prod.exists] at h
      obtain ⟨top1, Removed, hrem, m1, hm1, h⟩ := h
      subst h
      simp [Effect, threadTimeAfter, depthAfter, Event.getProcessTime,
        Event.sharedProcessTime, Event.isInstruction, Event.getIndex, hcs]
  case Alloca =>
    simp only [addEvent, bind_eq_ok] at h
    obtain ⟨u, -, h⟩ := h
    split at h
    · simp at h
    · split at h
      · split at h
        · simp at h
        · rename_i top rest hcs
          simp only [bind_eq_ok, pure, Except.pure, Except.ok.injEq] at h
          obtain ⟨m1, hm1, h⟩ := h
          subst h
          simp [Effect, threadTimeAfter, depthAfter, Event.getProcessTime,
            Event.sharedProcessTime, Event.isInstruction, Event.getIndex, hcs]
      · simp at h
  case Malloc =>
    simp only [addEvent] at h
    split at h
    · simp at h
    · split at h
      · simp only [bind_eq_ok, pure, Except.pure, Except.ok.injEq] at h
        obtain ⟨p1, hp1, m1, hm1, h⟩ := h
        subst h
        simp [Effect, threadTimeAfter, depthAfter, Event.getProcessTime, Event.sharedProcessTime, Event.isInstruction, Event.getIndex, State.setProcessTimes, State.setMemory, setThreadTime, incrementThreadTime]
      · simp at h
  case Free =>
    simp only [addEvent] at h
    split at h
    · simp at h
    · simp only [bind_eq_ok, pure, Except.pure, Except.ok.injEq] at h
      obtain ⟨p1, hp1, m1, hm1, h⟩ := h
      subst h
      simp [Effect, threadTimeAfter, depthAfter, Event.getProcessTime, Event.sharedProcessTime, Event.isInstruction, Event.getIndex, State.setProcessTimes, State.setMemory, setThreadTime, incrementThreadTime]
  case Realloc =>
    simp only [addEvent] at h
    split at h
    · simp at h
    · split at h
      · simp at h
      · simp only [bind_eq_ok, pure, Except.pure, Except.ok.injEq] at h
        obtain ⟨m1, hm1, h⟩ := h
        subst h
        simp [Effect, threadTimeAfter, depthAfter, Event.getProcessTime, Event.sharedProcessTime, Event.isInstruction, Event.getIndex, State.setProcessTimes, State.setMemory, setThreadTime, incrementThreadTime]
  case StateUntypedSmall =>
    simp only [addEvent] at h
    split at h
    · simp only [Except.ok.injEq] at h
      subst h
      simp [Effect, threadTimeAfter, depthAfter, Event.getProcessTime, Event.sharedProcessTime, Event.isInstruction, Event.getIndex, State.setProcessTimes, State.setMemory, setThreadTime, incrementThreadTime]
    · simp at h
  case StateUntyped =>
    simp only [addEvent, bind_eq_ok, pure, Except.pure, Except.ok.injEq] at h
    obtain ⟨Data, -, h⟩ := h
    subst h
    simp [Effect, threadTimeAfter, depthAfter, Event.getProcessTime, Event.sharedProcessTime, Event.isInstruction, Event.getIndex, State.setProcessTimes, State.setMemory, setThreadTime, incrementThreadTime]
  case KnownRegionAdd =>
    simp only [addEvent, bind_eq_ok, pure, Except.pure, Except.ok.injEq] at h
    obtain ⟨p1, hp1, m1, hm1, h⟩ := h
    subst h
    have := addKnownMemory_ProcessTime hp1
    simp [Effect, threadTimeAfter, depthAfter, Event.getProcessTime,
      Event.sharedProcessTime, Event.isInstruction, Event.getIndex, this]
  case KnownRegionRemove =>
    simp only [addEvent, bind_eq_ok, pure, Except.pure, Except.ok.injEq] at h
    obtain ⟨m1, hm1, h⟩ := h
    subst h
    simp [Effect, threadTimeAfter, depthAfter, Event.getProcessTime,
      Event.sharedProcessTime, Event.isInstruction, Event.getIndex,
      ProcessState.removeKnownMemory]
  case ByValRegionAdd =>
    simp only [addEvent, bind_eq_ok, pure, Except.pure, Except.ok.injEq] at h
    obtain ⟨s1, hs1, m1, hm1, h⟩ := h
    subst h
    obtain ⟨top, rest, top1, hcs, hg, hs1⟩ := withTop_eq_ok hs1
    subst hs1
    simp [Effect, threadTimeAfter, depthAfter, Event.getProcessTime,
      Event.sharedProcessTime, Event.isInstruction, Event.getIndex, State.setMemory, hcs]
  case FileOpen =>
    simp only [addEvent, bind_eq_ok, pure, Except.pure, Except.ok.injEq] at h
    obtain ⟨p1, hp1, h⟩ := h
    subst h
    simp [Effect, threadTimeAfter, depthAfter, Event.getProcessTime, Event.sharedProcessTime, Event.isInstruction, Event.getIndex, State.setProcessTimes, State.setMemory, setThreadTime, incrementThreadTime]
  case FileWrite =>
    simp only [addEvent] at h
    split at h
    · simp at h
    · simp only [bind_eq_ok, pure, Except.pure, Except.ok.injEq] at h
      obtain ⟨Data, hData, h⟩ := h
      subst h
      simp [Effect, threadTimeAfter, depthAfter, Event.getProcessTime, Event.sharedProcessTime, Event.isInstruction, Event.getIndex, State.setProcessTimes, State.setMemory, setThreadTime, incrementThreadTime]
  case FileWriteFromMemory =>
    simp only [addEvent] at h
    split at h
    · simp at h
    · simp only [bind_eq_ok, pure, Except.pure, Except.ok.injEq] at h
      obtain ⟨u, -, h⟩ := h
      subst h
      simp [Effect, threadTimeAfter, depthAfter, Event.getProcessTime, Event.sharedProcessTime, Event.isInstruction, Event.getIndex, State.setProcessTimes, State.setMemory, setThreadTime, incrementThreadTime]
  case FileClose =>
    simp only [addEvent, bind_eq_ok, pure, Except.pure, Except.ok.injEq] at h
    obtain ⟨p1, hp1, h⟩ := h
    subst h
    simp [Effect, threadTimeAfter, depthAfter, Event.getProcessTime, Event.sharedProcessTime, Event.isInstruction, Event.getIndex, State.setProcessTimes, State.setMemory, setThreadTime, incrementThreadTime]
  case DirOpen =>
    simp only [addEvent, bind_eq_ok, pure, Except.pure, Except.ok.injEq] at h
    obtain ⟨p1, hp1, h⟩ := h
    subst h
    simp [Effect, threadTimeAfter, depthAfter, Event.getProcessTime, Event.sharedProcessTime, Event.isInstruction, Event.getIndex, State.setProcessTimes, State.setMemory, setThreadTime, incrementThreadTime]
  case RuntimeError b =>
    cases b with
    | false =>
      simp only [addEvent, addRuntimeErrorEvent, Bool.not_false, if_true, Except.ok.injEq] at h
      subst h
      simp [Effect, threadTimeAfter, depthAfter, Event.getProcessTime, Event.sharedProcessTime, Event.isInstruction, Event.getIndex, State.setProcessTimes, State.setMemory, setThreadTime, incrementThreadTime]
    | true =>
      simp only [addEvent, addRuntimeErrorEvent, Bool.not_true, Bool.false_eq_true, if_false] at h
      obtain ⟨top, rest, top1, hcs, hg, hs1⟩ := withTop_eq_ok h
      subst hs1
      simp [Effect, threadTimeAfter, depthAfter, Event.getProcessTime,
        Event.sharedProcessTime, Event.isInstruction, Event.getIndex, hcs]

theorem addEvent_effect {P : ProcessTrace} {T : ThreadTrace} {k : Nat} {s sA : State}
    {Ev : Event} (h : addEvent P T k s Ev = .ok sA) : Effect T Ev s sA := by
  by_cases hi : Ev.isInstruction = true
  · exact effect_instruction hi h
  · exact effect_other hi h

/-! ## One step of the mover -/

theorem roundTrip (P : ProcessTrace) (T : ThreadTrace) (k : Nat) (s : State) (Ev : Event)
    (hc : stepContract P T s Ev = true)
    (hview : s.Thread.ProcessTime = lastStamp T.events k)
    (htt : s.Thread.ThreadTime < U64) : RoundTrip P T k s Ev := by
  by_cases hi : Ev.isInstruction = true
  · exact roundTrip_instruction P T k s Ev hi htt
  · cases Ev
    all_goals first
      | exact absurd rfl hi
      | exact roundTrip_None P T k s
      | exact roundTrip_Subservient P T k s _
      | exact roundTrip_NewProcessTime P T k s _ hview
      | exact roundTrip_NewThreadTime P T k s htt
      | exact roundTrip_FunctionStart P T k s _ _ _ _ hc
      | exact roundTrip_FunctionEnd P T k s _ hc
      | exact roundTrip_StackRestore P T k s _
      | exact roundTrip_Alloca P T k s _ _
      | exact roundTrip_Malloc P T k s _ _ hview
      | exact roundTrip_Free P T k s _ _ hview
      | exact roundTrip_Realloc P T k s _ _ _ _ hview hc
      | exact roundTrip_StateUntypedSmall P T k s _ _ _ _ hview
      | exact roundTrip_StateUntyped P T k s _ _ _ _ hview
      | exact roundTrip_StateMemmove P T k s _ _ _ _ hview
      | exact roundTrip_StateClear P T k s _ _ _ hview
      | exact roundTrip_KnownRegionAdd P T k s _ _ _ _
      | exact roundTrip_KnownRegionRemove P T k s _ _ _ _ hc
      | exact roundTrip_ByValRegionAdd P T k s _ _ _
      | exact roundTrip_FileOpen P T k s _ _ _ _ hview
      | exact roundTrip_FileWrite P T k s _ _ _ _ hview
      | exact roundTrip_FileWriteFromMemory P T k s _ _ _ _ hview
      | exact roundTrip_FileClose P T k s _ _ hview
      | exact roundTrip_DirOpen P T k s _ _ _ hview
      | exact roundTrip_DirClose P T k s _ _ _ hview hc
      | exact roundTrip_RuntimeError P T k s _

theorem restored_Subservient (Ev : Event) (s : State) (h : Ev.isSubservient = true) :
    Restored Ev s s := by
  cases Ev <;> first
    | (simp [Event.isSubservient] at h; done)
    | (constructor <;> simp [Event.sharedProcessTime, Event.getProcessTime])

theorem addNextEvent_eq_ok {P : ProcessTrace} {T : ThreadTrace} {s s1 : State}
    (h : addNextEvent P T s = .ok s1) :
    ∃ Ev sA, T.events[s.Thread.NextEvent]? = some Ev ∧
      (Ev.isFunctionLevel = true → s.Thread.CallStack ≠ []) ∧
      (if Ev.isSubservient = true then sA = s else addEvent P T s.Thread.NextEvent s Ev = .ok sA) ∧
      s1 = { sA with Thread := { sA.Thread with NextEvent := sA.Thread.NextEvent + 1 } } := by
  unfold addNextEvent at h
  split at h
  · simp at h
  · rename_i Ev hev
    simp only [bind_eq_ok, assert_eq_ok] at h
    obtain ⟨u, hu, h⟩ := h
    have hfl : Ev.isFunctionLevel = true → s.Thread.CallStack ≠ [] := by
      intro hfl hnil
      simp [hfl, hnil] at hu
    by_cases hsub : Ev.isSubservient = true
    · simp only [hsub, if_true, pure, Except.pure, bind, Except.bind, Except.ok.injEq] at h
      exact ⟨Ev, s, hev, hfl, by simp [hsub], h.symm⟩
    · cases hadd : addEvent P T s.Thread.NextEvent s Ev with
      | error e => simp [hsub, hadd, bind, Except.bind] at h
      | ok sA =>
        simp only [hsub, hadd, if_false, bind, Except.bind, pure, Except.pure,
          Except.ok.injEq, Bool.false_eq_true] at h
        exact ⟨Ev, sA, hev, hfl, by simp [hsub, hadd], h.symm⟩

theorem addNextEvent_effect {P : ProcessTrace} {T : ThreadTrace} {s s1 : State}
    (h : addNextEvent P T s = .ok s1) :
    ∃ Ev, T.events[s.Thread.NextEvent]? = some Ev ∧
      s1.Thread.NextEvent = s.Thread.NextEvent + 1 ∧
      s1.Thread.ProcessTime = (Ev.getProcessTime).getD s.Thread.ProcessTime ∧
      s1.Parent.ProcessTime = (Ev.sharedProcessTime).getD s.Parent.ProcessTime ∧
      s1.Thread.ThreadTime = threadTimeAfter T.events Ev s.Thread.ThreadTime ∧
      s1.Thread.CallStack.length = depthAfter Ev s.Thread.CallStack.length := by
  obtain ⟨Ev, sA, hev, -, hsA, hs1⟩ := addNextEvent_eq_ok h
  subst hs1
  refine ⟨Ev, hev, ?_⟩
  by_cases hsub : Ev.isSubservient = true
  · simp only [hsub, if_true] at hsA
    subst hsA
    cases Ev <;> first
      | (simp [Event.isSubservient] at hsub; done)
      | simp [threadTimeAfter, depthAfter, Event.getProcessTime, Event.sharedProcessTime,
          Event.isInstruction, Event.getIndex]
  · simp only [hsub] at hsA
    obtain ⟨h1, h2, h3, h4, h5⟩ := addEvent_effect hsA
    simp [h1, h2, h3, h4, h5]

theorem removePreviousEvent_addNextEvent {P : ProcessTrace} {T : ThreadTrace} {s s1 : State}
    {Ev : Event} (hev : T.events[s.Thread.NextEvent]? = some Ev)
    (hc : stepContract P T s Ev = true)
    (hview : s.Thread.ProcessTime = lastStamp T.events s.Thread.NextEvent)
    (htt : s.Thread.ThreadTime < U64)
    (h : addNextEvent P T s = .ok s1) :
    ∃ s2, removePreviousEvent P T s1 = .ok s2 ∧ Restored Ev s s2 := by
  obtain ⟨Ev1, sA, hev1, -, hsA, hs1⟩ := addNextEvent_eq_ok h
  rw [hev] at hev1
  simp only [Option.some.injEq] at hev1
  subst hev1
  subst hs1
  by_cases hsub : Ev.isSubservient = true
  · simp only [hsub, if_true] at hsA
    subst hsA
    refine ⟨sA, ?_, restored_Subservient Ev sA hsub⟩
    simp [removePreviousEvent, hev, hsub]
  · simp only [hsub] at hsA
    have hn := (addEvent_effect hsA).1
    obtain ⟨s2, hs2, hR⟩ := roundTrip P T _ s Ev hc hview htt sA hsA
    refine ⟨s2, ?_, hR⟩
    simp only [removePreviousEvent, hn, hev, hsub]
    rw [← hs2, ← hn]
    rfl

/-! ## Replaying a well-formed log -/

theorem replay_zero (P : ProcessTrace) (T : ThreadTrace) (Parent : ProcessState) :
    replay P T Parent 0 = .ok (State.initial Parent) := rfl

theorem replay_succ (P : ProcessTrace) (T : ThreadTrace) (Parent : ProcessState) (k : Nat) :
    replay P T Parent (k + 1) =
      match replay P T Parent k with
      | .error e => .error e
      | .ok s => addNextEvent P T s := rfl

theorem wellFormed_step {P : ProcessTrace} {T : ThreadTrace} {Parent : ProcessState}
    (hwf : WellFormed P T Parent) {k : Nat} (hk : k < T.events.length) :
    ∃ s Ev s1, replay P T Parent k = .ok s ∧ T.events[k]? = some Ev ∧
      stepContract P T s Ev = true ∧ addNextEvent P T s = .ok s1 ∧
      replay P T Parent (k + 1) = .ok s1 := by
  have h := hwf.2.2.2 k hk
  unfold stepOK at h
  split at h
  · rename_i s Ev hrep hev
    simp only [Bool.and_eq_true] at h
    obtain ⟨hc, hadd⟩ := h
    split at hadd
    · rename_i s1 hs1
      exact ⟨s, Ev, s1, hrep, hev, hc, hs1, by rw [replay_succ, hrep]; exact hs1⟩
    · simp at hadd
  · simp at h

theorem wellFormed_replay {P : ProcessTrace} {T : ThreadTrace} {Parent : ProcessState}
    (hwf : WellFormed P T Parent) {k : Nat} (hk : k ≤ T.events.length) :
    ∃ s, replay P T Parent k = .ok s := by
  cases k with
  | zero => exact ⟨_, rfl⟩
  | succ k =>
    obtain ⟨_, _, s1, _, _, _, _, h⟩ := wellFormed_step hwf (show k < T.events.length by omega)
    exact ⟨s1, h⟩

theorem lastShared_zero (events : List Event) : lastShared events 0 = 0 := by
  simp [lastShared]

theorem lastShared_succ (events : List Event) (k : Nat) (Ev : Event)
    (h : events[k]? = some Ev) :
    lastShared events (k + 1) = (Ev.sharedProcessTime).getD (lastShared events k) := by
  unfold lastShared
  rw [List.take_succ, List.filterMap_append, h]
  cases ht : Ev.sharedProcessTime with
  | none => simp [ht]
  | some t => simp [ht]

theorem lastStamp_succ_of (events : List Event) (k : Nat) (Ev : Event)
    (h : events[k]? = some Ev) :
    lastStamp events (k + 1) = (Ev.getProcessTime).getD (lastStamp events k) := by
  rw [lastStamp_succ, h]
  cases ht : Ev.getProcessTime with
  | none => simp [ht]
  | some t => simp [ht]

theorem threadTimeAfter_bound {P : ProcessTrace} {T : ThreadTrace} {s : State} {Ev : Event}
    (hc : stepContract P T s Ev = true) :
    threadTimeAfter T.events Ev s.Thread.ThreadTime ≤ s.Thread.ThreadTime + 1 := by
  cases Ev
  case FunctionStart a b c d =>
    simp only [stepContract, beq_iff_eq] at hc
    simp [threadTimeAfter, hc]
  case FunctionEnd a =>
    simp only [stepContract] at hc
    split at hc
    · rename_i hev hcs
      simp only [Bool.and_eq_true, beq_iff_eq] at hc
      simp [threadTimeAfter, hev, hc.1]
    · simp at hc
  all_goals
    simp only [threadTimeAfter, Event.isInstruction, Event.getIndex, Option.isSome_some,
      Option.isSome_none, if_true, Bool.false_eq_true, if_false, add1]
    first
      | exact Nat.mod_le _ _
      | omega

theorem replay_invariant {P : ProcessTrace} {T : ThreadTrace} {Parent : ProcessState}
    (hwf : WellFormed P T Parent) {k : Nat} (hk : k ≤ T.events.length) {s : State}
    (hs : replay P T Parent k = .ok s) :
    s.Thread.NextEvent = k ∧ s.Thread.ProcessTime = lastStamp T.events k ∧
      s.Parent.ProcessTime = lastShared T.events k ∧ s.Thread.ThreadTime ≤ k := by
  induction k generalizing s with
  | zero =>
    simp only [replay_zero, Except.ok.injEq] at hs
    subst hs
    simp [State.initial, ThreadState.create, lastStamp_zero, lastShared_zero, hwf.2.1]
  | succ k ih =>
    obtain ⟨s0, Ev, s1, hrep, hev, hc, hadd, hrep1⟩ :=
      wellFormed_step hwf (show k < T.events.length by omega)
    rw [hrep1] at hs
    simp only [Except.ok.injEq] at hs
    subst hs
    obtain ⟨h1, h2, h3, h4⟩ := ih (by omega) hrep
    obtain ⟨Ev1, hev1, e1, e2, e3, e4, -⟩ := addNextEvent_effect hadd
    rw [h1, hev] at hev1
    simp only [Option.some.injEq] at hev1
    subst hev1
    refine ⟨by omega, ?_, ?_, ?_⟩
    · rw [e2, h2, lastStamp_succ_of _ _ _ hev]
    · rw [e3, h3, lastShared_succ _ _ _ hev]
    · rw [e4]
      have := threadTimeAfter_bound hc
      omega

/-! ## Process time and view after a retraction -/

theorem removeEvent_processTime {P : ProcessTrace} {T : ThreadTrace} {k : Nat} {s s2 : State}
    {Ev : Event} {t : Nat} (ht : Ev.getProcessTime = some t)
    (h : removeEvent P T k s Ev = .ok s2) :
    s2.Thread.ProcessTime = lastStamp T.events k ∧
      (Ev.sharedProcessTime = some t → s2.Parent.ProcessTime = sub1 t) := by
  cases Ev <;> simp only [Event.getProcessTime, Option.some.injEq, reduceCtorEq] at ht
  case NewProcessTime =>
    simp only [removeEvent, Except.ok.injEq] at h
    subst h
    rw [setPreviousViewOfProcessTime_eq]
    simp [Event.sharedProcessTime]
  case DirClose =>
    simp only [removeEvent, bind_eq_ok, pure, Except.pure, Except.ok.injEq] at h
    obtain ⟨p1, -, h⟩ := h
    subst h
    subst ht
    rw [restoreProcessTimes_eq]
    simp
  all_goals
    subst ht
    simp only [removeEvent] at h
    repeat' split at h
    all_goals first
      | (simp at h; done)
      | (simp only [Except.ok.injEq] at h
         subst h
         rw [restoreProcessTimes_eq]
         simp)

theorem lastStamp_none (events : List Event) (k : Nat)
    (h : ∀ j, j < k → ∀ e, events[j]? = some e → e.getProcessTime = none) :
    lastStamp events k = 0 := by
  induction k with
  | zero => exact lastStamp_zero events
  | succ k ih =>
    rw [lastStamp_succ]
    cases he : events[k]? with
    | none => exact ih (fun j hj => h j (by omega))
    | some e =>
      simp only [h k (by omega) e he]
      exact ih (fun j hj => h j (by omega))

theorem lastStamp_nearest (events : List Event) (k j : Nat) (e : Event) (u : Nat)
    (hj : j < k) (he : events[j]? = some e) (hu : e.getProcessTime = some u)
    (h : ∀ i, j < i → i < k → ∀ e1, events[i]? = some e1 → e1.getProcessTime = none) :
    lastStamp events k = u := by
  induction k with
  | zero => omega
  | succ k ih =>
    rw [lastStamp_succ]
    by_cases hjk : j = k
    · subst hjk
      simp [he, hu]
    · cases he1 : events[k]? with
      | none => exact ih (by omega) (fun i h1 h2 => h i h1 (by omega))
      | some e1 =>
        simp only [h k (by omega) (by omega) e1 he1]
        exact ih (by omega) (fun i h1 h2 => h i h1 (by omega))

/-! ## Monotone stamps -/

theorem stampsFrom_spec {lo : Nat} {l : List Nat} (h : stampsFrom lo l = true) :
    (∀ t ∈ l, lo ≤ t) ∧ l.Pairwise (fun a b => a ≤ b) := by
  induction l generalizing lo with
  | nil => simp
  | cons t rest ih =>
    simp only [stampsFrom, Bool.and_eq_true, decide_eq_true_eq] at h
    obtain ⟨h1, h2⟩ := ih h.2
    refine ⟨?_, ?_⟩
    · intro x hx
      simp only [List.mem_cons] at hx
      rcases hx with rfl | hx
      · exact h.1
      · exact le_trans h.1 (h1 x hx)
    · exact List.pairwise_cons.2 ⟨fun x hx => h1 x hx, h2⟩

theorem sharedProcessTime_eq_some {Ev : Event} {t : Nat} (h : Ev.sharedProcessTime = some t) :
    Ev.getProcessTime = some t := by
  cases Ev <;> first
    | exact h
    | simp [Event.sharedProcessTime] at h

theorem getLast?_getD_mem_or {l : List Nat} : l.getLast?.getD 0 = 0 ∨ l.getLast?.getD 0 ∈ l := by
  cases h : l.getLast? with
  | none => simp
  | some x =>
    right
    simpa using List.mem_of_getLast?_eq_some h

theorem lastShared_le_stamp {events : List Event} {k : Nat} {Ev : Event} {t : Nat}
    (hmono : stampsFrom 1 (stamps events) = true) (hev : events[k]? = some Ev)
    (ht : Ev.getProcessTime = some t) : 1 ≤ t ∧ lastShared events k ≤ t := by
  obtain ⟨h1, h2⟩ := stampsFrom_spec hmono
  have hk : k < events.length := by
    by_contra hn
    rw [List.getElem?_eq_none (by omega)] at hev
    cases hev
  have hsplit : events = events.take k ++ Ev :: events.drop (k + 1) := by
    have hget : events[k] = Ev := by
      rw [List.getElem?_eq_getElem hk] at hev
      simpa using hev
    rw [← hget]
    simp
  have hst : stamps events = stamps (events.take k) ++ t :: stamps (events.drop (k + 1)) := by
    conv_lhs => rw [hsplit]
    simp [stamps, List.filterMap_append, List.filterMap_cons, ht]
  refine ⟨h1 t (by rw [hst]; simp), ?_⟩
  rcases (getLast?_getD_mem_or (l := (events.take k).filterMap Event.sharedProcessTime)) with h0 | hm
  · unfold lastShared
    omega
  · unfold lastShared
    obtain ⟨e, he, hes⟩ := List.mem_filterMap.1 hm
    have hmem : ((events.take k).filterMap Event.sharedProcessTime).getLast?.getD 0
        ∈ stamps (events.take k) :=
      List.mem_filterMap.2 ⟨e, he, sharedProcessTime_eq_some hes⟩
    rw [hst, List.pairwise_append] at h2
    exact h2.2.2 _ hmem t (by simp)

theorem pairwise_shared {events : List Event}
    (h : (stamps events).Pairwise (fun a b => a ≤ b)) :
    (events.filterMap Event.sharedProcessTime).Pairwise (fun a b => a ≤ b) := by
  induction events with
  | nil => simp
  | cons e rest ih =>
    have hrest : (stamps rest).Pairwise (fun a b => a ≤ b) := by
      unfold stamps at h ⊢
      rw [List.filterMap_cons] at h
      split at h
      · exact h
      · exact (List.pairwise_cons.1 h).2
    rw [List.filterMap_cons]
    split
    · exact ih hrest
    · rename_i t ht
      have hg := sharedProcessTime_eq_some ht
      refine List.pairwise_cons.2 ⟨?_, ih hrest⟩
      intro x hx
      obtain ⟨e1, he1, hx1⟩ := List.mem_filterMap.1 hx
      have hx2 : x ∈ stamps rest := List.mem_filterMap.2 ⟨e1, he1, sharedProcessTime_eq_some hx1⟩
      unfold stamps at h
      rw [List.filterMap_cons, hg] at h
      exact (List.pairwise_cons.1 h).1 x hx2

theorem le_getLast?_getD {l : List Nat} (h : l.Pairwise (fun a b => a ≤ b)) {x : Nat}
    (hx : x ∈ l) : x ≤ l.getLast?.getD 0 := by
  rcases List.eq_nil_or_concat l with rfl | ⟨l1, b, rfl⟩
  · cases hx
  · rw [List.concat_eq_append] at h hx ⊢
    have hl : (l1 ++ [b]).getLast?.getD 0 = b := by simp
    rw [hl]
    rw [List.pairwise_append] at h
    simp only [List.mem_append, List.mem_singleton] at hx
    rcases hx with hx | rfl
    · exact h.2.2 x hx b (by simp)
    · exact le_refl _

theorem shared_le_lastShared {events : List Event} {k j : Nat} {e : Event} {t : Nat}
    (hmono : stampsFrom 1 (stamps events) = true) (hj : j < k) (he : events[j]? = some e)
    (ht : e.sharedProcessTime = some t) : t ≤ lastShared events k := by
  have hp := pairwise_shared (stampsFrom_spec hmono).2
  have hsub : ((events.take k).filterMap Event.sharedProcessTime).Sublist
      (events.filterMap Event.sharedProcessTime) :=
    (List.take_sublist k events).filterMap _
  have hp2 := hp.sublist hsub
  unfold lastShared
  refine le_getLast?_getD hp2 (List.mem_filterMap.2 ⟨e, ?_, ht⟩)
  rw [List.mem_iff_getElem?]
  exact ⟨j, by rw [List.getElem?_take_of_lt hj]; exact he⟩

/-! ## Call-stack depth -/

theorem replay_nextEvent {P : ProcessTrace} {T : ThreadTrace} {Parent : ProcessState} {k : Nat}
    {s : State} (hs : replay P T Parent k = .ok s) : s.Thread.NextEvent = k := by
  induction k generalizing s with
  | zero =>
    simp only [replay_zero, Except.ok.injEq] at hs
    subst hs
    rfl
  | succ k ih =>
    rw [replay_succ] at hs
    split at hs
    · simp at hs
    · rename_i s0 h0
      obtain ⟨Ev, -, h1, -⟩ := addNextEvent_effect hs
      rw [h1, ih h0]

theorem addNextEvent_depth {P : ProcessTrace} {T : ThreadTrace} {s s1 : State} {Ev : Event}
    (hev : T.events[s.Thread.NextEvent]? = some Ev) (h : addNextEvent P T s = .ok s1) :
    s1.Thread.CallStack.length + (if Ev.isFunctionEnd = true then 1 else 0)
      = s.Thread.CallStack.length + (if Ev.isFunctionStart = true then 1 else 0) := by
  obtain ⟨Ev1, sA, hev1, hfl, -, -⟩ := addNextEvent_eq_ok h
  obtain ⟨Ev2, hev2, -, -, -, -, hd⟩ := addNextEvent_effect h
  rw [hev] at hev1 hev2
  simp only [Option.some.injEq] at hev1 hev2
  subst hev1
  subst hev2
  rw [hd]
  cases Ev <;> simp [depthAfter, Event.isFunctionEnd, Event.isFunctionStart]
  have := hfl rfl
  have : 0 < s.Thread.CallStack.length := List.length_pos.2 this
  omega

theorem countP_take_succ (p : Event → Bool) (events : List Event) (k : Nat) (Ev : Event)
    (h : events[k]? = some Ev) :
    (events.take (k + 1)).countP p = (events.take k).countP p + (if p Ev = true then 1 else 0) := by
  rw [List.take_succ, h, List.countP_append]
  simp [List.countP_cons]

theorem replay_depth {P : ProcessTrace} {T : ThreadTrace} {Parent : ProcessState} {k : Nat}
    {s : State} (hs : replay P T Parent k = .ok s) :
    s.Thread.CallStack.length + (T.events.take k).countP Event.isFunctionEnd
      = (T.events.take k).countP Event.isFunctionStart := by
  induction k generalizing s with
  | zero =>
    simp only [replay_zero, Except.ok.injEq] at hs
    subst hs
    simp [State.initial, ThreadState.create]
  | succ k ih =>
    rw [replay_succ] at hs
    split at hs
    · simp at hs
    · rename_i s0 h0
      obtain ⟨Ev, hev, -⟩ := addNextEvent_effect hs
      have hd := addNextEvent_depth hev hs
      rw [replay_nextEvent h0] at hev
      rw [countP_take_succ _ _ _ _ hev, countP_take_succ _ _ _ _ hev]
      have := ih h0
      omega

/-! ## Several threads -/

theorem move_eq_ok {w w1 : ProcessView} {i : Nat} {call : State → Except Fatal State}
    (h : w.move i call = .ok w1) :
    ∃ Thread s, w.Threads[i]? = some Thread ∧ call ⟨w.Parent, Thread⟩ = .ok s ∧
      w1 = ⟨s.Parent, w.Threads.set i s.Thread⟩ := by
  unfold ProcessView.move at h
  split at h
  · simp at h
  · rename_i Thread hT
    split at h
    · simp at h
    · rename_i s hs
      simp only [Except.ok.injEq] at h
      exact ⟨Thread, s, hT, hs, h.symm⟩

theorem move_other {w w1 : ProcessView} {i j : Nat} {call : State → Except Fatal State}
    (hij : j ≠ i) (h : w.move i call = .ok w1) : w1.Threads[j]? = w.Threads[j]? := by
  obtain ⟨Thread, s, -, -, rfl⟩ := move_eq_ok h
  simp [List.getElem?_set_ne (Ne.symm hij)]

theorem move_self {w w1 : ProcessView} {i : Nat} {call : State → Except Fatal State}
    (h : w.move i call = .ok w1) :
    ∃ Thread s, w.Threads[i]? = some Thread ∧ call ⟨w.Parent, Thread⟩ = .ok s ∧
      w1.Parent = s.Parent ∧ w1.Threads[i]? = some s.Thread := by
  obtain ⟨Thread, s, hT, hs, rfl⟩ := move_eq_ok h
  refine ⟨Thread, s, hT, hs, rfl, ?_⟩
  have hi : i < w.Threads.length := by
    by_contra hn
    rw [List.getElem?_eq_none (by omega)] at hT
    cases hT
  simp [List.getElem?_set_self hi]

theorem removePreviousEvent_eq_ok {P : ProcessTrace} {T : ThreadTrace} {s s2 : State}
    (h : removePreviousEvent P T s = .ok s2) :
    ∃ n Ev, s.Thread.NextEvent = n + 1 ∧ T.events[n]? = some Ev ∧
      (if Ev.isSubservient = true
        then s2 = { s with Thread := { s.Thread with NextEvent := n } }
        else removeEvent P T n { s with Thread := { s.Thread with NextEvent := n } } Ev = .ok s2) := by
  unfold removePreviousEvent at h
  split at h
  · simp at h
  · rename_i n hn
    split at h
    · simp at h
    · rename_i Ev hev
      refine ⟨n, Ev, hn, hev, ?_⟩
      split at h
      · rename_i hsub
        simp only [Except.ok.injEq] at h
        simp [hsub, h]
      · rename_i hsub
        simp [hsub, h]

/-! ## Applying and retracting one event of a well-formed log -/

theorem wellFormed_roundTrip {P : ProcessTrace} {T : ThreadTrace} {Parent : ProcessState}
    (hwf : WellFormed P T Parent) {k : Nat} (hk : k < T.events.length) :
    ∃ s Ev s1 s2, replay P T Parent k = .ok s ∧ T.events[k]? = some Ev ∧
      stepContract P T s Ev = true ∧ addNextEvent P T s = .ok s1 ∧
      replay P T Parent (k + 1) = .ok s1 ∧ removePreviousEvent P T s1 = .ok s2 ∧
      Restored Ev s s2 := by
  obtain ⟨s, Ev, s1, hs, hev, hc, hadd, hs1⟩ := wellFormed_step hwf hk
  obtain ⟨hn, hview, -, htt⟩ := replay_invariant hwf (Nat.le_of_lt hk) hs
  have hlen := hwf.1
  have hev1 : T.events[s.Thread.NextEvent]? = some Ev := by rw [hn]; exact hev
  obtain ⟨s2, hrem, hres⟩ :=
    removePreviousEvent_addNextEvent hev1 hc (by rw [hview, hn]) (by omega) hadd
  exact ⟨s, Ev, s1, s2, hs, hev, hc, hadd, hs1, hrem, hres⟩

/-- C1 (as amended): in every state reached by applying a prefix of a
well-formed thread event log, `addNextEvent` followed by `removePreviousEvent`
succeeds and restores the next-event position, the thread time, the thread's
view of the process time, the completed-frame stash, every caller frame, the
layout of the top frame (its allocas and byval areas; the whole call stack
when the event is not an instruction event), the size of every dynamic
allocation (the whole malloc map unless the event is a `Realloc`), the
streams, the directories, the known regions and the memory; the shared
process time becomes the event's stamp minus one when the event writes the
shared process time, and is restored otherwise. -/
theorem addNextEvent_removePreviousEvent_restores (P : ProcessTrace) (T : ThreadTrace)
    (Parent : ProcessState) (k : Nat) (hwf : WellFormed P T Parent)
    (hk : k < T.events.length) :
    ∃ s Ev s1 s2, replay P T Parent k = .ok s ∧ T.events[k]? = some Ev ∧
      addNextEvent P T s = .ok s1 ∧ removePreviousEvent P T s1 = .ok s2 ∧
      Restored Ev s s2 := by
  obtain ⟨s, Ev, s1, s2, hs, hev, -, hadd, -, hrem, hres⟩ := wellFormed_roundTrip hwf hk
  exact ⟨s, Ev, s1, s2, hs, hev, hadd, hrem, hres⟩

/-- Witness for C1 (as amended): the `Free` of the malloc/free log. -/
theorem addNextEvent_removePreviousEvent_restores_witness :
    WellFormed exampleProcess mallocFreeLog ProcessState.empty ∧
    4 < mallocFreeLog.events.length ∧
    ∃ s Ev s1 s2, replay exampleProcess mallocFreeLog ProcessState.empty 4 = .ok s ∧
      mallocFreeLog.events[4]? = some Ev ∧
      addNextEvent exampleProcess mallocFreeLog s = .ok s1 ∧
      removePreviousEvent exampleProcess mallocFreeLog s1 = .ok s2 ∧
      Restored Ev s s2 :=
  ⟨mallocFreeLog_wellFormed, by decide,
    addNextEvent_removePreviousEvent_restores exampleProcess mallocFreeLog ProcessState.empty 4
      mallocFreeLog_wellFormed (by decide)⟩

/-- C1 (counterexample): two well-formed logs on which applying and retracting
the next event does not give back the state before it. In `gapLog` the shared
process time is 0 before the `Malloc` stamped 3 and 2 after the `Malloc` has
been applied and retracted. In `valueLog` slot 0 of the top frame is
unassigned before the first write and holds the written 5 after that write
has been applied and retracted. -/
theorem addNextEvent_removePreviousEvent_not_identity :
    WellFormed exampleProcess gapLog ProcessState.empty ∧
    observe (replay exampleProcess gapLog ProcessState.empty 2)
      (fun s => s.Parent.ProcessTime) = some 0 ∧
    observe (replay exampleProcess gapLog ProcessState.empty 2 >>= addNextEvent exampleProcess gapLog
        >>= removePreviousEvent exampleProcess gapLog)
      (fun s => s.Parent.ProcessTime) = some 2 ∧
    WellFormed exampleProcess valueLog ProcessState.empty ∧
    observe (replay exampleProcess valueLog ProcessState.empty 1)
      (fun s => s.Thread.CallStack.map (fun f => f.InstructionValues[0]?))
        = some [some .unassigned] ∧
    observe (replay exampleProcess valueLog ProcessState.empty 1
        >>= addNextEvent exampleProcess valueLog >>= removePreviousEvent exampleProcess valueLog)
      (fun s => s.Thread.CallStack.map (fun f => f.InstructionValues[0]?))
        = some [some (.UInt64 5)] := by
  refine ⟨by decide, by decide, by decide, by decide, by decide, by decide⟩

theorem sub1_eq {t : Nat} (h : 1 ≤ t) : sub1 t = t - 1 := by
  unfold sub1
  split
  · omega
  · rfl

theorem sub1_le (t : Nat) (h : 1 ≤ t) : sub1 t ≤ t := by
  rw [sub1_eq h]
  omega

theorem add1_eq {t : Nat} (h : t + 1 < U64) : add1 t = t + 1 := by
  unfold add1 U64 at *
  omega

theorem le_threadTimeAfter {P : ProcessTrace} {T : ThreadTrace} {s : State} {Ev : Event}
    (hc : stepContract P T s Ev = true) (htt : s.Thread.ThreadTime + 1 < U64) :
    s.Thread.ThreadTime ≤ threadTimeAfter T.events Ev s.Thread.ThreadTime := by
  cases Ev
  case FunctionStart a b c d =>
    simp only [stepContract, beq_iff_eq] at hc
    simp [threadTimeAfter, hc]
  case FunctionEnd a =>
    simp only [stepContract] at hc
    split at hc
    · rename_i hev hcs
      simp only [Bool.and_eq_true, beq_iff_eq] at hc
      simp [threadTimeAfter, hev, hc.1]
    · simp at hc
  all_goals
    simp only [threadTimeAfter, Event.isInstruction, Event.getIndex, Option.isSome_some,
      Option.isSome_none, if_true, Bool.false_eq_true, if_false, add1_eq htt]
    first
      | exact le_refl _
      | omega

theorem removePreviousEvent_view {P : ProcessTrace} {T : ThreadTrace} {s s2 : State} {n : Nat}
    {Ev : Event} {t : Nat} (hn : s.Thread.NextEvent = n + 1) (hev : T.events[n]? = some Ev)
    (ht : Ev.getProcessTime = some t) (h : removePreviousEvent P T s = .ok s2) :
    s2.Thread.ProcessTime = lastStamp T.events n ∧
      (Ev.sharedProcessTime = some t → s2.Parent.ProcessTime = sub1 t) := by
  obtain ⟨n1, Ev1, hn1, hev1, hrem⟩ := removePreviousEvent_eq_ok h
  have hnn : n1 = n := by omega
  subst hnn
  rw [hev] at hev1
  simp only [Option.some.injEq] at hev1
  subst hev1
  have hsub : Ev.isSubservient = false := by
    cases Ev <;> simp [Event.isSubservient, Event.getProcessTime] at ht ⊢
  simp only [hsub, Bool.false_eq_true, if_false] at hrem
  exact removeEvent_processTime ht hrem

/-- C3 (as amended): in a well-formed thread event log replayed on its own,
after every `addNextEvent` the shared process time equals the stamp of the
last applied record that writes it, which is the greatest stamp on the applied
prefix over all stamped records other than `NewProcessTime` (0 when there is
none); after `removePreviousEvent` of a record that writes the shared process
time with stamp `t` it is `t - 1`, and after `removePreviousEvent` of any other
record it is unchanged. -/
theorem processTime_after_move (P : ProcessTrace) (T : ThreadTrace) (Parent : ProcessState)
    (k : Nat) (hwf : WellFormed P T Parent) (hk : k < T.events.length) :
    ∃ s Ev s1 s2, replay P T Parent k = .ok s ∧ T.events[k]? = some Ev ∧
      addNextEvent P T s = .ok s1 ∧ removePreviousEvent P T s1 = .ok s2 ∧
      s.Parent.ProcessTime = lastShared T.events k ∧
      s1.Parent.ProcessTime = lastShared T.events (k + 1) ∧
      (∀ j e t, j < k + 1 → T.events[j]? = some e → e.sharedProcessTime = some t →
        t ≤ s1.Parent.ProcessTime) ∧
      s2.Parent.ProcessTime =
        (match Ev.sharedProcessTime with
         | some t => t - 1
         | none => s1.Parent.ProcessTime) := by
  obtain ⟨s, Ev, s1, s2, hs, hev, -, hadd, hs1, hrem, hres⟩ := wellFormed_roundTrip hwf hk
  obtain ⟨-, -, hpt, -⟩ := replay_invariant hwf (Nat.le_of_lt hk) hs
  obtain ⟨-, -, hpt1, -⟩ := replay_invariant hwf (Nat.succ_le_of_lt hk) hs1
  refine ⟨s, Ev, s1, s2, hs, hev, hadd, hrem, hpt, hpt1, ?_, ?_⟩
  · intro j e t hj he ht
    rw [hpt1]
    exact shared_le_lastShared hwf.2.2.1 hj he ht
  · rw [hres.ProcessTime]
    cases hsh : Ev.sharedProcessTime with
    | none =>
      simp only []
      rw [hpt1, lastShared_succ _ _ _ hev, hsh, hpt]
      rfl
    | some t =>
      simp only []
      exact sub1_eq (lastShared_le_stamp hwf.2.2.1 hev (sharedProcessTime_eq_some hsh)).1

/-- Witness for C3 (as amended): the `Free` of the malloc/free log. -/
theorem processTime_after_move_witness :
    WellFormed exampleProcess mallocFreeLog ProcessState.empty ∧
    4 < mallocFreeLog.events.length ∧
    ∃ s Ev s1 s2, replay exampleProcess mallocFreeLog ProcessState.empty 4 = .ok s ∧
      mallocFreeLog.events[4]? = some Ev ∧
      addNextEvent exampleProcess mallocFreeLog s = .ok s1 ∧
      removePreviousEvent exampleProcess mallocFreeLog s1 = .ok s2 ∧
      s.Parent.ProcessTime = lastShared mallocFreeLog.events 4 ∧
      s1.Parent.ProcessTime = lastShared mallocFreeLog.events (4 + 1) ∧
      (∀ j e t, j < 4 + 1 → mallocFreeLog.events[j]? = some e → e.sharedProcessTime = some t →
        t ≤ s1.Parent.ProcessTime) ∧
      s2.Parent.ProcessTime =
        (match Ev.sharedProcessTime with
         | some t => t - 1
         | none => s1.Parent.ProcessTime) :=
  ⟨mallocFreeLog_wellFormed, by decide,
    processTime_after_move exampleProcess mallocFreeLog ProcessState.empty 4
      mallocFreeLog_wellFormed (by decide)⟩

/-- C3 (counterexample): in the well-formed `newProcessTimeLog` the applied
prefix of length 1 carries the stamp 5, and the shared process time after
`addNextEvent` is 0; in the well-formed `gapLog` the nearest stamp before the
`Free` stamped 7 is 3, and the shared process time after retracting the `Free`
is 6. -/
theorem processTime_not_max_stamp :
    WellFormed exampleProcess newProcessTimeLog ProcessState.empty ∧
    stamps (newProcessTimeLog.events.take 1) = [5] ∧
    observe (replay exampleProcess newProcessTimeLog ProcessState.empty 0
        >>= addNextEvent exampleProcess newProcessTimeLog)
      (fun s => s.Parent.ProcessTime) = some 0 ∧
    WellFormed exampleProcess gapLog ProcessState.empty ∧
    gapLog.events[4]? = some (.Free 0x1000 7) ∧
    lastStamp gapLog.events 4 = 3 ∧
    observe (replay exampleProcess gapLog ProcessState.empty 5
        >>= removePreviousEvent exampleProcess gapLog)
      (fun s => s.Parent.ProcessTime) = some 6 := by
  refine ⟨by decide, by decide, by decide, by decide, by decide, by decide, by decide⟩

/-- C4: for every record `Ev` at position `n` of a thread's log that carries a
process time (`NewProcessTime`, `Malloc`, `Free`, `Realloc`, `StateUntyped`,
`StateUntypedSmall`, `StateMemmove`, `StateClear`, `FileOpen`, `FileWrite`,
`FileWriteFromMemory`, `FileClose`, `DirOpen`, `DirClose`): whenever
`removePreviousEvent` retracts it, the thread's view of the process time
becomes the stamp of the nearest record strictly before position `n` that
carries a process time, and 0 when there is no such record; and in a
well-formed log the retraction from the state after the first `n + 1` records
succeeds. -/
theorem view_after_retraction (P : ProcessTrace) (T : ThreadTrace) (n : Nat) (Ev : Event)
    (t : Nat) (hev : T.events[n]? = some Ev) (ht : Ev.getProcessTime = some t) :
    (∀ s s2, s.Thread.NextEvent = n + 1 → removePreviousEvent P T s = .ok s2 →
      ((∀ j, j < n → ∀ e, T.events[j]? = some e → e.getProcessTime = none) →
        s2.Thread.ProcessTime = 0) ∧
      (∀ j e u, j < n → T.events[j]? = some e → e.getProcessTime = some u →
        (∀ i, j < i → i < n → ∀ e1, T.events[i]? = some e1 → e1.getProcessTime = none) →
        s2.Thread.ProcessTime = u)) ∧
    (∀ Parent, WellFormed P T Parent →
      ∃ s s2, replay P T Parent (n + 1) = .ok s ∧ s.Thread.NextEvent = n + 1 ∧
        removePreviousEvent P T s = .ok s2) := by
  constructor
  · intro s s2 hn hrem
    have hview := (removePreviousEvent_view hn hev ht hrem).1
    constructor
    · intro hnone
      rw [hview]
      exact lastStamp_none _ _ hnone
    · intro j e u hj he hu hbetween
      rw [hview]
      exact lastStamp_nearest _ _ j e u hj he hu hbetween
  · intro Parent hwf
    have hk : n < T.events.length := by
      by_contra hn
      rw [List.getElem?_eq_none (by omega)] at hev
      cases hev
    obtain ⟨s, Ev1, s1, s2, -, -, -, -, hs1, hrem, -⟩ := wellFormed_roundTrip hwf hk
    exact ⟨s1, s2, hs1, replay_nextEvent hs1, hrem⟩

/-- Witness for C4: the `Free` at position 4 of `gapLog`, stamped 7, whose
nearest earlier stamped record is the `Malloc` at position 2, stamped 3: the
retraction from the state after the first five records succeeds and leaves the
view of the process time at 3. -/
theorem view_after_retraction_witness :
    gapLog.events[4]? = some (.Free 0x1000 7) ∧
    (Event.Free 0x1000 7).getProcessTime = some 7 ∧
    WellFormed exampleProcess gapLog ProcessState.empty ∧
    ∃ s s2, replay exampleProcess gapLog ProcessState.empty (4 + 1) = .ok s ∧
      removePreviousEvent exampleProcess gapLog s = .ok s2 ∧ s2.Thread.ProcessTime = 3 := by
  have h := view_after_retraction exampleProcess gapLog 4 (.Free 0x1000 7) 7 (by decide)
    (by decide)
  obtain ⟨s, s2, hs, hn, hrem⟩ := h.2 ProcessState.empty (by decide)
  refine ⟨by decide, by decide, by decide, s, s2, hs, hrem, ?_⟩
  refine ((h.1 s s2 hn hrem).2 2 (.Malloc 16 3) 3 (by decide) (by decide) (by decide) ?_)
  intro i h2 h4 e1 he
  have hi : i = 3 := by omega
  subst hi
  have h3 : gapLog.events[3]? = some (.InstructionWithPtr 12 0x1000) := by decide
  rw [h3] at he
  simp only [Option.some.injEq] at he
  subst he
  rfl

/-- C5: in every state reached by applying a prefix of a well-formed thread
event log, `addNextEvent` succeeds and decreases neither the shared process
time nor the thread time, and `removePreviousEvent` from the state it gives
succeeds and increases neither of them. -/
theorem times_monotone (P : ProcessTrace) (T : ThreadTrace) (Parent : ProcessState)
    (k : Nat) (hwf : WellFormed P T Parent) (hk : k < T.events.length) :
    ∃ s s1 s2, replay P T Parent k = .ok s ∧ addNextEvent P T s = .ok s1 ∧
      replay P T Parent (k + 1) = .ok s1 ∧ removePreviousEvent P T s1 = .ok s2 ∧
      s.Parent.ProcessTime ≤ s1.Parent.ProcessTime ∧
      s.Thread.ThreadTime ≤ s1.Thread.ThreadTime ∧
      s2.Parent.ProcessTime ≤ s1.Parent.ProcessTime ∧
      s2.Thread.ThreadTime ≤ s1.Thread.ThreadTime := by
  obtain ⟨s, Ev, s1, s2, hs, hev, hc, hadd, hs1, hrem, hres⟩ := wellFormed_roundTrip hwf hk
  obtain ⟨hn, -, hpt, htt⟩ := replay_invariant hwf (Nat.le_of_lt hk) hs
  obtain ⟨Ev1, hev1, -, -, hp1, ht1, -⟩ := addNextEvent_effect hadd
  rw [hn, hev] at hev1
  simp only [Option.some.injEq] at hev1
  subst hev1
  have hlen := hwf.1
  have hTT : s.Thread.ThreadTime ≤ s1.Thread.ThreadTime := by
    rw [ht1]
    exact le_threadTimeAfter hc (by omega)
  have hPT : s.Parent.ProcessTime ≤ s1.Parent.ProcessTime ∧
      s2.Parent.ProcessTime ≤ s1.Parent.ProcessTime := by
    rw [hres.ProcessTime, hp1]
    cases hsh : Ev.sharedProcessTime with
    | none => simp
    | some t =>
      have := lastShared_le_stamp hwf.2.2.1 hev (sharedProcessTime_eq_some hsh)
      simp only [Option.getD_some]
      exact ⟨by rw [hpt]; exact this.2, sub1_le t this.1⟩
  refine ⟨s, s1, s2, hs, hadd, hs1, hrem, hPT.1, hTT, hPT.2, ?_⟩
  rw [hres.ThreadTime]
  exact hTT

/-- Witness for C5: the `Malloc` of the malloc/free log. -/
theorem times_monotone_witness :
    WellFormed exampleProcess mallocFreeLog ProcessState.empty ∧
    2 < mallocFreeLog.events.length ∧
    ∃ s s1 s2, replay exampleProcess mallocFreeLog ProcessState.empty 2 = .ok s ∧
      addNextEvent exampleProcess mallocFreeLog s = .ok s1 ∧
      replay exampleProcess mallocFreeLog ProcessState.empty (2 + 1) = .ok s1 ∧
      removePreviousEvent exampleProcess mallocFreeLog s1 = .ok s2 ∧
      s.Parent.ProcessTime ≤ s1.Parent.ProcessTime ∧
      s.Thread.ThreadTime ≤ s1.Thread.ThreadTime ∧
      s2.Parent.ProcessTime ≤ s1.Parent.ProcessTime ∧
      s2.Thread.ThreadTime ≤ s1.Thread.ThreadTime :=
  ⟨mallocFreeLog_wellFormed, by decide,
    times_monotone exampleProcess mallocFreeLog ProcessState.empty 2
      mallocFreeLog_wellFormed (by decide)⟩

/-! ## The call stack -/

theorem allocationRemoveAll_append {l1 l2 : List MemoryArea} {m m1 m2 : MemoryState}
    (h1 : allocationRemoveAll m l1 = .ok m1) (h2 : allocationRemoveAll m1 l2 = .ok m2) :
    allocationRemoveAll m (l1 ++ l2) = .ok m2 := by
  induction l1 generalizing m with
  | nil =>
    simp only [allocationRemoveAll, Except.ok.injEq] at h1
    subst h1
    exact h2
  | cons a l ih =>
    simp only [allocationRemoveAll] at h1
    split at h1
    · simp at h1
    · rename_i m3 hm3
      simp only [List.cons_append, allocationRemoveAll, hm3]
      exact ih h1

/-- C6: after the first `k` records of a thread's log have been applied, the
call-stack depth plus the number of `FunctionEnd` records among them equals
the number of `FunctionStart` records among them, so the depth is the
difference of the two counts; hence when the whole log has been applied and it
holds as many `FunctionStart` as `FunctionEnd` records, the call stack is
empty. -/
theorem callStack_depth (P : ProcessTrace) (T : ThreadTrace) (Parent : ProcessState) (k : Nat)
    (s : State) (hs : replay P T Parent k = .ok s) :
    s.Thread.CallStack.length + (T.events.take k).countP Event.isFunctionEnd
      = (T.events.take k).countP Event.isFunctionStart ∧
    s.Thread.CallStack.length
      = (T.events.take k).countP Event.isFunctionStart
        - (T.events.take k).countP Event.isFunctionEnd ∧
    (k = T.events.length →
      T.events.countP Event.isFunctionStart = T.events.countP Event.isFunctionEnd →
      s.Thread.CallStack = []) := by
  have h := replay_depth hs
  refine ⟨h, by omega, ?_⟩
  intro hk hpair
  subst hk
  rw [List.take_length] at h
  exact List.length_eq_zero.1 (by omega)

/-- Witness for C6: the whole malloc/free log. -/
theorem callStack_depth_witness :
    replay exampleProcess mallocFreeLog ProcessState.empty 6
      = .ok (stateOf (replay exampleProcess mallocFreeLog ProcessState.empty 6)) ∧
    (stateOf (replay exampleProcess mallocFreeLog ProcessState.empty 6)).Thread.CallStack.length
      + (mallocFreeLog.events.take 6).countP Event.isFunctionEnd
      = (mallocFreeLog.events.take 6).countP Event.isFunctionStart ∧
    (stateOf (replay exampleProcess mallocFreeLog ProcessState.empty 6)).Thread.CallStack.length
      = (mallocFreeLog.events.take 6).countP Event.isFunctionStart
        - (mallocFreeLog.events.take 6).countP Event.isFunctionEnd ∧
    (6 = mallocFreeLog.events.length →
      mallocFreeLog.events.countP Event.isFunctionStart
        = mallocFreeLog.events.countP Event.isFunctionEnd →
      (stateOf (replay exampleProcess mallocFreeLog ProcessState.empty 6)).Thread.CallStack = []) :=
  ⟨rfl, callStack_depth exampleProcess mallocFreeLog ProcessState.empty 6 _ rfl⟩

/-- C7: applying a `FunctionEnd` record when the call stack is `top :: rest`
(`top` the innermost frame) sets the thread time to the exit time of the
`FunctionStart` record it refers to, issues `allocationRemove` for the byval
areas and then the allocas of `top` and changes the memory in no other way,
leaves `rest` as the call stack and puts `top` at the `back()` of the
completed-frame stash (the head of the list); retracting it succeeds and gives
back the call stack `top :: rest`, the stash and the memory. -/
theorem functionEnd_moves_frame (P : ProcessTrace) (T : ThreadTrace) (s s1 : State) (a : Nat)
    (top : FunctionState) (rest : List FunctionState)
    (hev : T.events[s.Thread.NextEvent]? = some (.FunctionEnd a))
    (hcs : s.Thread.CallStack = top :: rest)
    (hadd : addNextEvent P T s = .ok s1) :
    (∃ Index x y Exited, T.events[a]? = some (.FunctionStart Index x y Exited) ∧
      top.Index = Index ∧ s1.Thread.ThreadTime = Exited) ∧
    allocationRemoveAll s.Parent.Memory
      (top.ParamByVals.map (fun b => b.Area) ++ top.Allocas.map AllocaState.area)
        = .ok s1.Parent.Memory ∧
    s1.Thread.CallStack = rest ∧
    s1.Thread.m_CompletedFunctions = top :: s.Thread.m_CompletedFunctions ∧
    s1.Thread.NextEvent = s.Thread.NextEvent + 1 ∧
    ∃ s2, removePreviousEvent P T s1 = .ok s2 ∧
      s2.Thread.CallStack = top :: rest ∧
      s2.Thread.m_CompletedFunctions = s.Thread.m_CompletedFunctions ∧
      s2.Parent.Memory = s.Parent.Memory ∧
      s2.Thread.NextEvent = s.Thread.NextEvent := by
  obtain ⟨Ev, sA, hev1, -, hA, h1⟩ := addNextEvent_eq_ok hadd
  rw [hev] at hev1
  simp only [Option.some.injEq] at hev1
  subst hev1
  simp only [Event.isSubservient, Bool.false_eq_true, if_false, addEvent] at hA
  split at hA
  · rename_i Index x y Exited hstart
    rw [hcs] at hA
    simp only [bind_eq_ok, pure, Except.pure, Except.ok.injEq, assert_eq_ok, beq_iff_eq] at hA
    obtain ⟨u, hidx, m1, hm1, m2, hm2, hA⟩ := hA
    subst hA
    subst h1
    have e2 := allocationUnremoveAll_allocationRemoveAll hm2
    have e1 := allocationUnremoveAll_allocationRemoveAll hm1
    refine ⟨⟨Index, x, y, Exited, hstart, hidx, by simp [setThreadTime]⟩,
      by simpa [setThreadTime] using allocationRemoveAll_append hm1 hm2,
      by simp [setThreadTime], by simp [setThreadTime], by simp [setThreadTime], ?_⟩
    refine ⟨_, by simp [removePreviousEvent, setThreadTime, hev, Event.isSubservient,
      removeEvent]; rfl, ?_⟩
    simp [setThreadTime, e1, e2]
  · simp at hA

/-- Witness for C7: the `FunctionEnd` of the malloc/free log, applied to the
state after the first five records. -/
theorem functionEnd_moves_frame_witness :
    mallocFreeLog.events[(stateOf (replay exampleProcess mallocFreeLog ProcessState.empty 5)).Thread.NextEvent]?
      = some (.FunctionEnd 0) ∧
    (stateOf (replay exampleProcess mallocFreeLog ProcessState.empty 6)).Thread.CallStack = [] ∧
    (stateOf (replay exampleProcess mallocFreeLog ProcessState.empty 6)).Thread.ThreadTime = 4 ∧
    ∃ s2, removePreviousEvent exampleProcess mallocFreeLog
        (stateOf (replay exampleProcess mallocFreeLog ProcessState.empty 6)) = .ok s2 ∧
      s2.Thread.CallStack
        = (stateOf (replay exampleProcess mallocFreeLog ProcessState.empty 5)).Thread.CallStack := by
  have h := functionEnd_moves_frame exampleProcess mallocFreeLog
    (stateOf (replay exampleProcess mallocFreeLog ProcessState.empty 5))
    (stateOf (replay exampleProcess mallocFreeLog ProcessState.empty 6)) 0
    ((stateOf (replay exampleProcess mallocFreeLog ProcessState.empty 5)).Thread.CallStack.headD
      (FunctionState.create 0 ⟨20, []⟩ (getFunctionTrace 0 0 5 1 4)))
    [] (by decide) (by decide) rfl
  obtain ⟨⟨Index, x, y, Exited, hstart, -, htime⟩, -, hstack, -, -, s2, hrem, hback, -⟩ := h
  have hx : Exited = 4 := by
    have h0 : mallocFreeLog.events[0]? = some (.FunctionStart 0 5 1 4) := by decide
    rw [h0] at hstart
    simp only [Option.some.injEq, Event.FunctionStart.injEq] at hstart
    exact hstart.2.2.2.symm
  refine ⟨by decide, hstack, by rw [htime, hx], s2, hrem, ?_⟩
  rw [hback]
  decide

/-! ## The malloc/free scenario -/

/-- C8 (as amended): on the malloc/free log, after all six records have been
applied the malloc map, the memory allocation set and the call stack are
empty; retracting one step retracts the `FunctionEnd`, after which the malloc
map and the allocation set are still empty and the process time is 2;
retracting a second step retracts the `Free`, after which the malloc map is
`0x1000 -> 16`, the allocation `(0x1000, 16)` is the one live allocation, and
the process time is 1. -/
theorem mallocFree_scenario :
    ∃ s, replay exampleProcess mallocFreeLog ProcessState.empty 6 = .ok s ∧
      (∀ a, s.Parent.Mallocs a = none) ∧ s.Parent.Memory.Allocations = ∅ ∧
      s.Thread.CallStack = [] ∧
      ∃ s1, removePreviousEvent exampleProcess mallocFreeLog s = .ok s1 ∧
        (∀ a, s1.Parent.Mallocs a = none) ∧ s1.Parent.Memory.Allocations = ∅ ∧
        s1.Parent.ProcessTime = 2 ∧
        ∃ s2, removePreviousEvent exampleProcess mallocFreeLog s1 = .ok s2 ∧
          (∀ a, s2.Parent.mallocSize a = if a = 0x1000 then some 16 else none) ∧
          s2.Parent.Memory.Allocations = {⟨0x1000, 16⟩} ∧
          s2.Parent.ProcessTime = 1 := by
  refine ⟨_, rfl, ?_, by decide, by decide, _, rfl, ?_, by decide, by decide, _, rfl, ?_,
    by decide, by decide⟩
  · intro a
    by_cases h : a = 0x1000
    · subst h
      rfl
    · simp [setThreadTime, incrementThreadTime, State.setProcessTimes, State.initial,
        ProcessState.empty, Function.update, h]
  · intro a
    by_cases h : a = 0x1000
    · subst h
      rfl
    · simp [setThreadTime, incrementThreadTime, State.setProcessTimes, State.initial,
        ProcessState.empty, Function.update, h]
  · intro a
    by_cases h : a = 0x1000
    · subst h
      rfl
    · simp [setThreadTime, incrementThreadTime, State.setProcessTimes, State.initial,
        ProcessState.empty, Function.update, h, ProcessState.mallocSize, restoreProcessTimes_eq,
        ProcessState.unremoveMalloc]

/-- C8 (counterexample): on the malloc/free log, after advancing to the end
and retracting one step there is no malloc entry at `0x1000`, the allocation
`(0x1000, 16)` is not live and the process time is 2. -/
theorem retract_one_step_not_free :
    observe (replay exampleProcess mallocFreeLog ProcessState.empty 6
        >>= removePreviousEvent exampleProcess mallocFreeLog)
      (fun s => (s.Parent.mallocSize 0x1000,
        decide ((⟨0x1000, 16⟩ : MemoryArea) ∈ s.Parent.Memory.Allocations),
        s.Parent.ProcessTime)) = some (none, false, 2) := by
  decide

/-! ## A `Free` of an unknown address -/

/-- C9 (evaluation at the failing input): applying a `Free` of `0x1000` to the
initial state of an empty process, where `0x1000` is not a key of the malloc
map, runs into undefined behaviour (the end iterator of the malloc map is
dereferenced) and is not reported as a trace inconsistency, whereas a
`Realloc` of the same unknown address stops at its assertion. -/
theorem free_unknown_address :
    (ProcessState.empty).Mallocs 0x1000 = none ∧
    addNextEvent exampleProcess freeUnknownLog (State.initial ProcessState.empty)
      = .error .undefined ∧
    addNextEvent exampleProcess freeUnknownLog (State.initial ProcessState.empty)
      ≠ .error .inconsistent ∧
    addNextEvent exampleProcess reallocUnknownLog (State.initial ProcessState.empty)
      = .error .assertion := by
  refine ⟨rfl, rfl, ?_, rfl⟩
  intro h
  have h1 : addNextEvent exampleProcess freeUnknownLog (State.initial ProcessState.empty)
      = .error .undefined := rfl
  rw [h1] at h
  cases h

/-! ## Two threads of one process -/

theorem removePreviousEvent_parent_unshared {P : ProcessTrace} {T : ThreadTrace} {s s2 : State}
    {n : Nat} {Ev : Event} {t : Nat} (hn : s.Thread.NextEvent = n + 1)
    (hev : T.events[n]? = some Ev) (ht : Ev.getProcessTime = some t)
    (hsh : Ev.sharedProcessTime = none) (h : removePreviousEvent P T s = .ok s2) :
    s2.Parent.ProcessTime = s.Parent.ProcessTime := by
  obtain ⟨n1, Ev1, hn1, hev1, hrem⟩ := removePreviousEvent_eq_ok h
  have hnn : n1 = n := by omega
  subst hnn
  rw [hev] at hev1
  simp only [Option.some.injEq] at hev1
  subst hev1
  cases Ev <;> simp [Event.sharedProcessTime, Event.getProcessTime] at hsh ht
  simp only [Event.isSubservient, Bool.false_eq_true, if_false, removeEvent,
    Except.ok.injEq] at hrem
  subst hrem
  simp [setPreviousViewOfProcessTime_eq]

/-- C10 (as amended): for two distinct threads `j` and `i` of a process,
`addNextEvent` and `removePreviousEvent` on thread `i` leave the `ThreadState`
of thread `j` unchanged. When the record moved over carries the process-time
stamp `t`: applying it sets the view of thread `i` to `t` and, unless the
record is a `NewProcessTime`, the shared process time to `t`; retracting it
sets the view of thread `i` to the stamp of the nearest earlier stamped record
of its own log (0 when there is none) and the shared process time to `t - 1`
in unsigned 64-bit arithmetic, unless the record is a `NewProcessTime`, which
leaves the shared process time as it is in both directions. -/
theorem other_thread_unchanged (P : ProcessTrace) (T : ThreadTrace) (w w1 : ProcessView)
    (i j : Nat) (hij : j ≠ i) :
    (w.addNextEvent P T i = .ok w1 →
      w1.Threads[j]? = w.Threads[j]? ∧
      ∀ Thread Ev t, w.Threads[i]? = some Thread →
        T.events[Thread.NextEvent]? = some Ev → Ev.getProcessTime = some t →
        w1.Threads[i]?.map (fun x => x.ProcessTime) = some t ∧
        w1.Parent.ProcessTime = (Ev.sharedProcessTime).getD w.Parent.ProcessTime) ∧
    (w.removePreviousEvent P T i = .ok w1 →
      w1.Threads[j]? = w.Threads[j]? ∧
      ∀ Thread n Ev t, w.Threads[i]? = some Thread → Thread.NextEvent = n + 1 →
        T.events[n]? = some Ev → Ev.getProcessTime = some t →
        w1.Threads[i]?.map (fun x => x.ProcessTime) = some (lastStamp T.events n) ∧
        w1.Parent.ProcessTime =
          (match Ev.sharedProcessTime with
           | some u => sub1 u
           | none => w.Parent.ProcessTime)) := by
  constructor
  · intro h
    refine ⟨move_other hij h, ?_⟩
    intro Thread Ev t hT hev ht
    obtain ⟨Thread1, s, hT1, hs, hp, hi⟩ := move_self h
    rw [hT] at hT1
    simp only [Option.some.injEq] at hT1
    subst hT1
    obtain ⟨Ev1, hev1, -, hview, hpt, -⟩ := addNextEvent_effect hs
    simp only at hev1
    rw [hev] at hev1
    simp only [Option.some.injEq] at hev1
    subst hev1
    rw [hi, hp, hpt, Option.map_some', hview, ht]
    simp
  · intro h
    refine ⟨move_other hij h, ?_⟩
    intro Thread n Ev t hT hn hev ht
    obtain ⟨Thread1, s, hT1, hs, hp, hi⟩ := move_self h
    rw [hT] at hT1
    simp only [Option.some.injEq] at hT1
    subst hT1
    have hn1 : (State.mk w.Parent Thread).Thread.NextEvent = n + 1 := hn
    have hv := removePreviousEvent_view hn1 hev ht hs
    rw [hi, hp, Option.map_some', hv.1]
    refine ⟨rfl, ?_⟩
    cases hsh : Ev.sharedProcessTime with
    | none => exact removePreviousEvent_parent_unshared hn1 hev ht hsh hs
    | some u =>
      have hu := sharedProcessTime_eq_some hsh
      rw [ht] at hu
      simp only [Option.some.injEq] at hu
      subst hu
      exact hv.2 hsh

/-- Witness for C10: thread 1 of the two-thread process moves while thread 0
has applied its three records. -/
theorem other_thread_unchanged_witness :
    (0 : Nat) ≠ 1 ∧
    (processOf ((processOf (ProcessView.advance exampleProcess threadOneLog 0 3 twoThreads)).addNextEvent
      exampleProcess threadTwoLog 1)).Threads[0]?
      = (processOf (ProcessView.advance exampleProcess threadOneLog 0 3 twoThreads)).Threads[0]? :=
  ⟨by decide,
    ((other_thread_unchanged exampleProcess threadTwoLog
      (processOf (ProcessView.advance exampleProcess threadOneLog 0 3 twoThreads))
      (processOf ((processOf (ProcessView.advance exampleProcess threadOneLog 0 3
        twoThreads)).addNextEvent exampleProcess threadTwoLog 1))
      1 0 (by decide)).1 rfl).1⟩

/-- C10 (counterexample): in the two-thread process, after thread T1 has
malloc'd `0x4000` at process time 3, thread T2 applies its `Free` stamped 7 and
its `NewProcessTime` stamped 9: the shared process time is then 7, not the 9 of
the record just applied. Retracting both records of T2 leaves the shared
process time at 6 and the view of T2 at 0, neither of which is the stamp 7 of
the `Free` retracted last. The view of T1 is 3 throughout. -/
theorem processTime_not_event_stamp :
    observeProcess (ProcessView.advance exampleProcess threadOneLog 0 3 twoThreads
        >>= fun w => ProcessView.advance exampleProcess threadTwoLog 1 2 w)
      (fun w => (w.Parent.ProcessTime, w.Threads.map (fun x => x.ProcessTime)))
        = some (7, [3, 9]) ∧
    observeProcess (ProcessView.advance exampleProcess threadOneLog 0 3 twoThreads
        >>= (fun w => ProcessView.advance exampleProcess threadTwoLog 1 2 w)
        >>= (fun w => w.removePreviousEvent exampleProcess threadTwoLog 1)
        >>= (fun w => w.removePreviousEvent exampleProcess threadTwoLog 1))
      (fun w => (w.Parent.ProcessTime, w.Threads.map (fun x => x.ProcessTime)))
        = some (6, [3, 0]) := by
  refine ⟨by decide, by decide⟩

/-! ## Records that move only the position -/

/-- C11: for a record `Ev` with the subservient trait, or a `RuntimeError`
record that is not top-level: `addNextEvent` over `Ev` returns the state with
the next-event position advanced by one record and nothing else changed, and
`removePreviousEvent` over `Ev` returns the state with the next-event position
moved back by one record and nothing else changed. -/
theorem subservient_moves_position_only (P : ProcessTrace) (T : ThreadTrace) (s : State)
    (Ev : Event) (hkind : Ev.isSubservient = true ∨ Ev = .RuntimeError false) :
    (T.events[s.Thread.NextEvent]? = some Ev →
      addNextEvent P T s
        = .ok { s with Thread := { s.Thread with NextEvent := s.Thread.NextEvent + 1 } }) ∧
    (∀ n, s.Thread.NextEvent = n + 1 → T.events[n]? = some Ev →
      removePreviousEvent P T s = .ok { s with Thread := { s.Thread with NextEvent := n } }) := by
  constructor
  · intro hev
    rcases hkind with hsub | rfl
    · cases Ev <;> simp [Event.isSubservient] at hsub
      simp [addNextEvent, hev, Event.isFunctionLevel, Event.isSubservient, assert, bind,
        Except.bind, pure, Except.pure]
    · simp [addNextEvent, hev, Event.isFunctionLevel, Event.isSubservient, assert, bind,
        Except.bind, pure, Except.pure, addEvent, addRuntimeErrorEvent]
  · intro n hn hev
    rcases hkind with hsub | rfl
    · cases Ev <;> simp [Event.isSubservient] at hsub
      simp [removePreviousEvent, hn, hev, Event.isSubservient]
    · simp [removePreviousEvent, hn, hev, Event.isSubservient, removeEvent]

/-- Witness for C11: the non-top-level `RuntimeError` record of
`errorDetailLog`, applied to the initial state. -/
theorem subservient_moves_position_only_witness :
    ((Event.RuntimeError false).isSubservient = true ∨
      Event.RuntimeError false = .RuntimeError false) ∧
    addNextEvent exampleProcess errorDetailLog (State.initial ProcessState.empty)
      = .ok { State.initial ProcessState.empty with
              Thread := { (State.initial ProcessState.empty).Thread with
                NextEvent := (State.initial ProcessState.empty).Thread.NextEvent + 1 } } :=
  ⟨Or.inr rfl,
    (subservient_moves_position_only exampleProcess errorDetailLog
      (State.initial ProcessState.empty) (.RuntimeError false) (Or.inr rfl)).1 (by decide)⟩

/-! ## Allocas -/

/-- C12 (as amended): applying an `Alloca(size, count)` record appends to the
alloca list of the top frame exactly one `AllocaState`, whose instruction
index and address are the index and value of the nearest `InstructionWithPtr`
record at or before it in the thread's log (whichever invocation that record
belongs to), with the record's element size and count, and adds the region
`(address, size * count mod 2^64)` to the memory allocations; retracting it
succeeds, removes exactly that last alloca, leaving the earlier ones as they
were, and un-adds the same region. -/
theorem alloca_appends (P : ProcessTrace) (T : ThreadTrace) (s s1 : State)
    (ElementSize ElementCount : Nat)
    (hev : T.events[s.Thread.NextEvent]? = some (.Alloca ElementSize ElementCount))
    (hadd : addNextEvent P T s = .ok s1) :
    ∃ InstrRef Index Value top rest,
      InstrRef < s.Thread.NextEvent ∧
      T.events[InstrRef]? = some (.InstructionWithPtr Index Value) ∧
      (∀ j, InstrRef < j → j < s.Thread.NextEvent → ∀ e, T.events[j]? = some e →
        e.isInstructionWithPtr = false) ∧
      s.Thread.CallStack = top :: rest ∧
      s1.Thread.CallStack
        = { top with Allocas := top.Allocas ++ [⟨Index, Value, ElementSize, ElementCount⟩] }
            :: rest ∧
      s.Parent.Memory.allocationAdd Value (ElementSize * ElementCount % U64)
        = .ok s1.Parent.Memory ∧
      s1.Parent.Memory.Allocations
        = insert ⟨Value, ElementSize * ElementCount % U64⟩ s.Parent.Memory.Allocations ∧
      ∃ s2, removePreviousEvent P T s1 = .ok s2 ∧ s2.Thread.CallStack = top :: rest ∧
        s2.Parent.Memory = s.Parent.Memory := by
  obtain ⟨Ev, sA, hev1, -, hA, h1⟩ := addNextEvent_eq_ok hadd
  rw [hev] at hev1
  simp only [Option.some.injEq] at hev1
  subst hev1
  simp only [Event.isSubservient, Bool.false_eq_true, if_false, addEvent, bind_eq_ok] at hA
  obtain ⟨u, -, hA⟩ := hA
  split at hA
  · simp at hA
  · rename_i InstrRef hfind
    split at hA
    · rename_i Index Value hinstr
      split at hA
      · simp at hA
      · rename_i top rest hcs
        simp only [bind_eq_ok, pure, Except.pure, Except.ok.injEq] at hA
        obtain ⟨m1, hm1, hA⟩ := hA
        subst hA
        subst h1
        have e1 := allocationUnadd_allocationAdd hm1
        obtain ⟨hlt, -, hnear⟩ := rfind_some hfind
        have hne : InstrRef ≠ s.Thread.NextEvent := by
          intro h
          rw [h, hev] at hinstr
          cases hinstr
        have hAlloc : m1.Allocations
            = insert ⟨Value, ElementSize * ElementCount % U64⟩ s.Parent.Memory.Allocations := by
          simp only [AllocaState.getTotalSize] at hm1
          unfold MemoryState.allocationAdd at hm1
          split at hm1
          · simp at hm1
          · simp only [Except.ok.injEq] at hm1
            subst hm1
            rfl
        refine ⟨InstrRef, Index, Value, top, rest, by omega, hinstr, ?_, hcs, rfl, hm1, hAlloc, ?_⟩
        · intro j hj1 hj2 e he
          exact hnear j hj1 (by omega) e he
        · refine ⟨_, by simp [removePreviousEvent, hev, Event.isSubservient, removeEvent]; rfl, ?_⟩
          simp [e1]
    · simp at hA

/-- Witness for C12: the `Alloca` of `calleeAllocaLog`, applied to the state
after the first five records. -/
theorem alloca_appends_witness :
    calleeAllocaLog.events[(stateOf (replay exampleProcess calleeAllocaLog ProcessState.empty
      5)).Thread.NextEvent]? = some (.Alloca 4 1) ∧
    addNextEvent exampleProcess calleeAllocaLog
        (stateOf (replay exampleProcess calleeAllocaLog ProcessState.empty 5))
      = .ok (stateOf (replay exampleProcess calleeAllocaLog ProcessState.empty 6)) ∧
    ∃ s2, removePreviousEvent exampleProcess calleeAllocaLog
        (stateOf (replay exampleProcess calleeAllocaLog ProcessState.empty 6)) = .ok s2 ∧
      s2.Parent.Memory
        = (stateOf (replay exampleProcess calleeAllocaLog ProcessState.empty 5)).Parent.Memory := by
  obtain ⟨_, _, _, _, _, -, -, -, -, -, -, -, s2, hrem, -, hmem⟩ :=
    alloca_appends exampleProcess calleeAllocaLog
      (stateOf (replay exampleProcess calleeAllocaLog ProcessState.empty 5))
      (stateOf (replay exampleProcess calleeAllocaLog ProcessState.empty 6)) 4 1
      (by decide) rfl
  exact ⟨by decide, rfl, s2, hrem, hmem⟩

/-- C12 (counterexample): in the well-formed `calleeAllocaLog` the nearest
`InstructionWithPtr` record before the `Alloca` that belongs to the same
function invocation is the one at position 1 (index 1, value `0x100`); the
alloca that applying the `Alloca` appends to the top frame has index 2 and
address `0x200`, those of the callee's record at position 3. -/
theorem alloca_not_same_invocation :
    WellFormed exampleProcess calleeAllocaLog ProcessState.empty ∧
    rfindInFunction Event.isInstructionWithPtr calleeAllocaLog.events 5 = some 1 ∧
    calleeAllocaLog.events[1]? = some (.InstructionWithPtr 1 0x100) ∧
    observe (replay exampleProcess calleeAllocaLog ProcessState.empty 6)
      (fun s => s.Thread.CallStack.map (fun f => f.Allocas)) = some [[⟨2, 0x200, 4, 1⟩]] := by
  refine ⟨by decide, by decide, by decide, by decide⟩

/-! ## Thread time of the instruction-level records -/

theorem addEvent_active {P : ProcessTrace} {T : ThreadTrace} {k : Nat} {s sA : State}
    {Ev : Event} {i : Nat} (hi : Ev.getIndex = some i) (h : addEvent P T k s Ev = .ok sA) :
    ∃ top1, sA.Thread.CallStack = top1 :: s.Thread.CallStack.tail ∧
      top1.ActiveInstruction = some i ∧
      top1.ActiveInstructionComplete = !Ev.isPreInstruction := by
  cases Ev <;> simp only [Event.getIndex, Option.some.injEq, reduceCtorEq] at hi
  all_goals
    subst hi
    simp only [addEvent, addInstructionWithValue, bind_eq_ok, pure, Except.pure,
      Except.ok.injEq] at h
    obtain ⟨s1, hs1, h⟩ := h
    subst h
    obtain ⟨top, rest, top1, hcs, hg, rfl⟩ := withTop_eq_ok hs1
    refine ⟨top1, by simp [incrementThreadTime, setThreadTime, hcs], ?_⟩
    first
      | (simp only [Except.ok.injEq] at hg
         subst hg
         simp [FunctionState.setActiveInstructionComplete,
           FunctionState.setActiveInstructionIncomplete, Event.isPreInstruction])
      | (simp only [bind_eq_ok, pure, Except.pure, Except.ok.injEq] at hg
         obtain ⟨f2, hf2, hg⟩ := hg
         subst hg
         simp [FunctionState.setActiveInstructionComplete, Event.isPreInstruction])
      | (split at hg
         · split at hg
           · simp only [bind_eq_ok, pure, Except.pure, Except.ok.injEq] at hg
             obtain ⟨f2, hf2, hg⟩ := hg
             subst hg
             simp [FunctionState.setActiveInstructionComplete, Event.isPreInstruction]
           · simp at hg
         · simp at hg)

theorem removeInstruction_threadTime {T : ThreadTrace} {k : Nat} {s s2 : State}
    (h : removeInstruction T k s = .ok s2) :
    s2.Thread.ThreadTime = sub1 s.Thread.ThreadTime := by
  simp only [removeInstruction, bind_eq_ok, pure, Except.pure, Except.ok.injEq] at h
  obtain ⟨s1, hs1, h⟩ := h
  subst h
  cases hcs : s.Thread.CallStack with
  | nil => simp [makePreviousInstructionActive, hcs] at hs1
  | cons top rest =>
    obtain ⟨a, c, errs, hok⟩ := makePreviousInstructionActive_ok T s k top rest hcs
    rw [hok] at hs1
    simp only [Except.ok.injEq] at hs1
    subst hs1
    simp [decrementThreadTime, setThreadTime]

theorem removeInstruction_ok (T : ThreadTrace) (k : Nat) (s : State)
    (hcs : s.Thread.CallStack ≠ []) : ∃ s2, removeInstruction T k s = .ok s2 := by
  cases hc : s.Thread.CallStack with
  | nil => exact absurd hc hcs
  | cons top rest =>
    obtain ⟨a, c, errs, hok⟩ := makePreviousInstructionActive_ok T s k top rest hc
    exact ⟨_, by simp only [removeInstruction, hok, bind, Except.bind, pure, Except.pure]; rfl⟩

/-- C13: for a `NewThreadTime` record or an instruction record (`PreInstruction`,
`Instruction`, `InstructionWith...`): applying it adds one to the thread time
(in unsigned 64-bit arithmetic, so exactly one below `2^64 - 1`) and, for an
instruction record with index `i`, makes `i` the active instruction of the top
frame, incomplete for `PreInstruction` and complete otherwise, leaving the
caller frames alone; retracting it subtracts one from the thread time (exactly
one above 0) and succeeds whenever there is a frame; applying `NewThreadTime`
always succeeds, and applying `PreInstruction` or `Instruction` succeeds
whenever there is a frame. -/
theorem threadTime_steps (P : ProcessTrace) (T : ThreadTrace) (s : State) (Ev : Event)
    (hkind : Ev = .NewThreadTime ∨ Ev.isInstruction = true) :
    (∀ s1, T.events[s.Thread.NextEvent]? = some Ev → addNextEvent P T s = .ok s1 →
      s1.Thread.ThreadTime = add1 s.Thread.ThreadTime ∧
      (s.Thread.ThreadTime + 1 < U64 → s1.Thread.ThreadTime = s.Thread.ThreadTime + 1) ∧
      (∀ i, Ev.getIndex = some i →
        ∃ top1, s1.Thread.CallStack = top1 :: s.Thread.CallStack.tail ∧
          top1.ActiveInstruction = some i ∧
          top1.ActiveInstructionComplete = !Ev.isPreInstruction)) ∧
    (∀ n s2, s.Thread.NextEvent = n + 1 → T.events[n]? = some Ev →
      removePreviousEvent P T s = .ok s2 →
      s2.Thread.ThreadTime = sub1 s.Thread.ThreadTime ∧
      (0 < s.Thread.ThreadTime → s2.Thread.ThreadTime + 1 = s.Thread.ThreadTime)) ∧
    (∀ n, s.Thread.NextEvent = n + 1 → T.events[n]? = some Ev →
      (Ev = .NewThreadTime ∨ s.Thread.CallStack ≠ []) →
      ∃ s2, removePreviousEvent P T s = .ok s2) ∧
    (T.events[s.Thread.NextEvent]? = some Ev →
      (Ev = .NewThreadTime ∨
        ((∃ i, Ev = .PreInstruction i ∨ Ev = .Instruction i) ∧ s.Thread.CallStack ≠ [])) →
      ∃ s1, addNextEvent P T s = .ok s1) := by
  have hsub : Ev.isSubservient = false := by
    rcases hkind with rfl | hi
    · rfl
    · cases Ev <;> simp [Event.isInstruction, Event.getIndex, Event.isSubservient] at hi ⊢
  refine ⟨?_, ?_, ?_, ?_⟩
  · intro s1 hev hadd
    obtain ⟨Ev1, sA, hev1, -, hA, h1⟩ := addNextEvent_eq_ok hadd
    rw [hev] at hev1
    simp only [Option.some.injEq] at hev1
    subst hev1
    simp only [hsub, Bool.false_eq_true, if_false] at hA
    have htt : sA.Thread.ThreadTime = add1 s.Thread.ThreadTime := by
      have he := (addEvent_effect hA).2.2.2.1
      rw [he]
      rcases hkind with rfl | hi
      · rfl
      · cases Ev <;> simp [Event.isInstruction, Event.getIndex] at hi <;>
          simp [threadTimeAfter, Event.isInstruction, Event.getIndex]
    subst h1
    refine ⟨htt, ?_, ?_⟩
    · intro hlt
      simp only [htt]
      exact add1_eq hlt
    · intro i hi
      obtain ⟨top1, h1, h2, h3⟩ := addEvent_active hi hA
      exact ⟨top1, h1, h2, h3⟩
  · intro n s2 hn hev hrem
    obtain ⟨n1, Ev1, hn1, hev1, hrem1⟩ := removePreviousEvent_eq_ok hrem
    have hnn : n1 = n := by omega
    subst hnn
    rw [hev] at hev1
    simp only [Option.some.injEq] at hev1
    subst hev1
    simp only [hsub, Bool.false_eq_true, if_false] at hrem1
    have htt : s2.Thread.ThreadTime = sub1 s.Thread.ThreadTime := by
      rcases hkind with rfl | hi
      · simp only [removeEvent, Except.ok.injEq] at hrem1
        subst hrem1
        simp [decrementThreadTime, setThreadTime]
      · rw [removeEvent_instruction hi] at hrem1
        exact @removeInstruction_threadTime T n1
          { s with Thread := { s.Thread with NextEvent := n1 } } s2 hrem1
    refine ⟨htt, ?_⟩
    intro hpos
    rw [htt, sub1_eq hpos]
    omega
  · intro n hn hev hframe
    rcases hkind with rfl | hi
    · exact ⟨_, by simp [removePreviousEvent, hn, hev, Event.isSubservient, removeEvent]; rfl⟩
    · have hcs : s.Thread.CallStack ≠ [] := by
        rcases hframe with rfl | h
        · simp [Event.isInstruction, Event.getIndex] at hi
        · exact h
      obtain ⟨s2, h2⟩ := removeInstruction_ok T n
        { s with Thread := { s.Thread with NextEvent := n } } hcs
      exact ⟨s2, by simp [removePreviousEvent, hn, hev, hsub, removeEvent_instruction hi, h2]⟩
  · intro hev hcase
    rcases hcase with rfl | ⟨⟨i, rfl | rfl⟩, hcs⟩
    · exact ⟨_, by simp [addNextEvent, hev, Event.isFunctionLevel, Event.isSubservient, assert,
        bind, Except.bind, pure, Except.pure, addEvent]; rfl⟩
    all_goals
      cases hc : s.Thread.CallStack with
      | nil => exact absurd hc hcs
      | cons top rest =>
        exact ⟨_, by simp [addNextEvent, hev, Event.isFunctionLevel, Event.isSubservient, assert,
          bind, Except.bind, pure, Except.pure, addEvent, State.withTop, hc]; rfl⟩

/-- Witness for C13: the first write of `valueLog`, applied to the state after
the `FunctionStart`. -/
theorem threadTime_steps_witness :
    (Event.InstructionWithUInt64 0 5 = .NewThreadTime ∨
      (Event.InstructionWithUInt64 0 5).isInstruction = true) ∧
    (stateOf (replay exampleProcess valueLog ProcessState.empty 2)).Thread.ThreadTime
      = add1 (stateOf (replay exampleProcess valueLog ProcessState.empty 1)).Thread.ThreadTime ∧
    (stateOf (replay exampleProcess valueLog ProcessState.empty 2)).Thread.ThreadTime = 2 :=
  ⟨Or.inr rfl,
    ((threadTime_steps exampleProcess valueLog
      (stateOf (replay exampleProcess valueLog ProcessState.empty 1))
      (.InstructionWithUInt64 0 5) (Or.inr rfl)).1
      (stateOf (replay exampleProcess valueLog ProcessState.empty 2)) (by decide) rfl).1,
    by decide⟩

/-! ## Stack save and restore in the tracer -/

theorem call_preserves_save {f : TracedFunction} {K : Nat} {saved : List TracedAlloca}
    (op : StackOp) (hop : op ≠ .stackSave K) (h : f.StackSaves K = some saved) :
    (f.call op).StackSaves K = some saved := by
  cases op with
  | addAlloca a => simpa [TracedFunction.call, TracedFunction.addAlloca] using h
  | stackSave K1 =>
    have hne : K ≠ K1 := by
      intro hk
      exact hop (by rw [hk])
    simp [TracedFunction.call, TracedFunction.stackSave, Function.update, hne, h]
  | stackRestore K1 =>
    by_cases hk : K = K1
    · subst hk
      simp [TracedFunction.call, TracedFunction.stackRestore, h]
    · simp [TracedFunction.call, TracedFunction.stackRestore, Function.update, hk, h]

theorem run_preserves_save {K : Nat} {saved : List TracedAlloca} (ops : List StackOp)
    (hops : ∀ op ∈ ops, op ≠ .stackSave K) (f : TracedFunction)
    (h : f.StackSaves K = some saved) : (f.run ops).StackSaves K = some saved := by
  induction ops generalizing f with
  | nil => exact h
  | cons op rest ih =>
    simp only [TracedFunction.run, List.foldl_cons]
    exact ih (fun o ho => hops o (List.mem_cons_of_mem _ ho)) (f.call op)
      (call_preserves_save op (hops op (List.mem_cons_self _ _)) h)

/-- C14: when `stackSave(K)` is followed by any calls of `addAlloca`,
`stackSave` and `stackRestore` among which there is no further `stackSave(K)`,
the alloca list after a then following `stackRestore(K)` is the list that was
current at that `stackSave(K)`; in particular `stackSave(K)` immediately
followed by `stackRestore(K)` leaves the alloca list unchanged. -/
theorem stackRestore_after_stackSave (f : TracedFunction) (K : Nat) (ops : List StackOp)
    (hops : ∀ op ∈ ops, op ≠ .stackSave K) :
    ((((f.stackSave K).run ops).stackRestore K).2).Allocas = f.Allocas ∧
    (((f.stackSave K).stackRestore K).2).Allocas = f.Allocas := by
  have h0 : (f.stackSave K).StackSaves K = some f.Allocas := by
    simp [TracedFunction.stackSave]
  constructor
  · have h := run_preserves_save ops hops (f.stackSave K) h0
    simp [TracedFunction.stackRestore, h]
  · simp [TracedFunction.stackRestore, h0]

/-- Witness for C14: a save under key 1 with one alloca, then two more allocas,
a save under key 2 and a restore of key 2. -/
theorem stackRestore_after_stackSave_witness :
    (∀ op ∈ [StackOp.addAlloca ⟨2, 500, 10, 1⟩, .addAlloca ⟨3, 200, 10, 1⟩, .stackSave 2,
        .stackRestore 2], op ≠ .stackSave 1) ∧
    ((((((TracedFunction.empty.addAlloca ⟨1, 100, 10, 1⟩).stackSave 1).run
        [.addAlloca ⟨2, 500, 10, 1⟩, .addAlloca ⟨3, 200, 10, 1⟩, .stackSave 2,
          .stackRestore 2]).stackRestore 1).2).Allocas = [⟨1, 100, 10, 1⟩]) :=
  ⟨by decide,
    (stackRestore_after_stackSave (TracedFunction.empty.addAlloca ⟨1, 100, 10, 1⟩) 1
      [.addAlloca ⟨2, 500, 10, 1⟩, .addAlloca ⟨3, 200, 10, 1⟩, .stackSave 2, .stackRestore 2]
      (by decide)).1⟩

/-- C15 (evaluation at the failing input): the empty list is saved under key
1, then allocas at 100, 500 and 200 (10 bytes each) are added. `stackRestore(1)`
clears all three and returns the area `(100, 110)`, the bytes 100 to 209, which
holds no byte of the alloca at 500. Separately, `stackSave(1)` immediately
followed by `stackRestore(1)` clears no alloca and returns the one-byte area
`(0, 1)`. -/
theorem stackRestore_area_misses_alloca :
    (((TracedFunction.empty.stackSave 1).run scatteredAllocas).stackRestore 1).2.Allocas = [] ∧
    ((TracedFunction.empty.stackSave 1).run scatteredAllocas).Allocas
      = [⟨1, 100, 10, 1⟩, ⟨2, 500, 10, 1⟩, ⟨3, 200, 10, 1⟩] ∧
    (((TracedFunction.empty.stackSave 1).run scatteredAllocas).stackRestore 1).1 = ⟨100, 110⟩ ∧
    (∀ x, (TracedAlloca.area ⟨2, 500, 10, 1⟩).contains x = true →
      ((((TracedFunction.empty.stackSave 1).run scatteredAllocas).stackRestore 1).1).contains x
        = false) ∧
    (((TracedFunction.empty.run scatteredAllocas).stackSave 1).stackRestore 1).1 = ⟨0, 1⟩ := by
  have harea : (((TracedFunction.empty.stackSave 1).run scatteredAllocas).stackRestore 1).1
      = ⟨100, 110⟩ := by decide
  refine ⟨by decide, by decide, harea, ?_, by decide⟩
  intro x hx
  rw [harea]
  have h500 : TracedAlloca.area ⟨2, 500, 10, 1⟩ = ⟨500, 10⟩ := by decide
  rw [h500] at hx
  simp only [MemoryArea.contains, Bool.and_eq_true, decide_eq_true_eq] at hx
  simp only [MemoryArea.contains, Bool.and_eq_false_iff, decide_eq_false_iff_not]
  omega

/-- C16 (as amended): `stackRestore(K)` for a key `K` that is not in the map of
saves is not rejected (the function has no error result): the lookup
`StackSaves[K]` enters the empty list under `K`, so the alloca list of the
frame is empty afterwards and `K` is in the map with the empty list. -/
theorem stackRestore_unsaved_key (f : TracedFunction) (K : Nat)
    (hK : f.StackSaves K = none) :
    (f.stackRestore K).2.Allocas = [] ∧
    (f.stackRestore K).2.StackSaves K = some [] := by
  refine ⟨by simp [TracedFunction.stackRestore, hK], by simp [TracedFunction.stackRestore, hK]⟩

/-- Witness for C16 (as amended): a function record with one alloca and no
save, restored with key 7. -/
theorem stackRestore_unsaved_key_witness :
    (TracedFunction.empty.addAlloca ⟨1, 100, 10, 1⟩).StackSaves 7 = none ∧
    ((TracedFunction.empty.addAlloca ⟨1, 100, 10, 1⟩).stackRestore 7).2.Allocas = [] :=
  ⟨rfl, (stackRestore_unsaved_key (TracedFunction.empty.addAlloca ⟨1, 100, 10, 1⟩) 7 rfl).1⟩

/-- C16 (counterexample): a function record holds one alloca and no save at
all; `stackRestore(7)` returns an area, `(100, 10)`, and leaves the alloca list
empty, not unchanged. -/
theorem stackRestore_unsaved_key_clears :
    (TracedFunction.empty.addAlloca ⟨1, 100, 10, 1⟩).StackSaves 7 = none ∧
    (TracedFunction.empty.addAlloca ⟨1, 100, 10, 1⟩).Allocas = [⟨1, 100, 10, 1⟩] ∧
    ((TracedFunction.empty.addAlloca ⟨1, 100, 10, 1⟩).stackRestore 7).2.Allocas = [] ∧
    ((TracedFunction.empty.addAlloca ⟨1, 100, 10, 1⟩).stackRestore 7).1 = ⟨100, 10⟩ := by
  refine ⟨rfl, by decide, by decide, by decide⟩

/-! ## Event locations -/

/-- C28: two event locations compare equal exactly when their thread ids and
their offsets are both equal, and `!=` is the negation of `==`; the empty
location has thread id 0 and no offset; `hasOffset()` is false exactly when the
offset is `noOffset()`, which is `2 ^ 64 - 1`. -/
theorem eventLocation_comparison (a b : EventLocation) :
    (a.eq b = true ↔ a.ThreadID = b.ThreadID ∧ a.Offset = b.Offset) ∧
    a.ne b = !(a.eq b) ∧
    EventLocation.empty.ThreadID = 0 ∧
    EventLocation.empty.hasOffset = false ∧
    (a.hasOffset = false ↔ a.Offset = noOffset) ∧
    noOffset = 2 ^ 64 - 1 := by
  refine ⟨by simp [EventLocation.eq], rfl, rfl, by decide, ?_, by decide⟩
  simp [EventLocation.hasOffset]

/-! ## Retracting a `Realloc` -/

/-- C30 (evaluation at the failing input): in `reallocLog` the allocation at
`0x1000` is made by instruction 7 and resized by instruction 9. Before the
`Realloc` its entry has size 16 and the allocator stack `[7]`; after the
`Realloc` it has size 32 and the stack `[7, 9]`; after the `Realloc` has been
retracted the size is 16 again, and the stack is still `[7, 9]`. -/
theorem realloc_retraction_keeps_allocator :
    observe (replay exampleProcess reallocLog ProcessState.empty 4)
      (fun s => s.Parent.Mallocs 0x1000) = some (some ⟨16, [some (0, 7)]⟩) ∧
    observe (replay exampleProcess reallocLog ProcessState.empty 5)
      (fun s => s.Parent.Mallocs 0x1000) = some (some ⟨32, [some (0, 7), some (0, 9)]⟩) ∧
    observe (replay exampleProcess reallocLog ProcessState.empty 5
        >>= removePreviousEvent exampleProcess reallocLog)
      (fun s => s.Parent.Mallocs 0x1000) = some (some ⟨16, [some (0, 7), some (0, 9)]⟩) := by
  refine ⟨by decide, by decide, by decide⟩

/-! ## `Maybe` -/

theorem assign_eq_indexByType (T : Nat) (Elems : List ElemType) :
    MaybeStore.assign T Elems = MaybeIndexByType T Elems := by
  induction Elems with
  | nil => rfl
  | cons Head Tail ih => simp [MaybeStore.assign, MaybeIndexByType, ih]

theorem indexByType_spec {T : Nat} {Elems : List ElemType} {i : Nat}
    (h : MaybeIndexByType T Elems = some i) :
    i < Elems.length ∧ (Elems[i]?.map (fun E => E.Id)) = some T ∧
      ∀ j, j < i → (Elems[j]?.map (fun E => E.Id)) ≠ some T := by
  induction Elems generalizing i with
  | nil => simp [MaybeIndexByType] at h
  | cons Head Tail ih =>
    simp only [MaybeIndexByType] at h
    split at h
    · rename_i hh
      simp only [Option.some.injEq] at h
      subst h
      exact ⟨by simp, by simp [hh], fun j hj => by omega⟩
    · rename_i hh
      cases ht : MaybeIndexByType T Tail with
      | none => simp [ht] at h
      | some k =>
        simp only [ht, Option.map_some', Option.some.injEq] at h
        subst h
        obtain ⟨h1, h2, h3⟩ := ih ht
        refine ⟨by simp; omega, ?_, ?_⟩
        · rw [show 1 + k = k + 1 by omega, List.getElem?_cons_succ]
          exact h2
        · intro j hj
          cases j with
          | zero => simp [hh]
          | succ j =>
            rw [List.getElem?_cons_succ]
            exact h3 j (by omega)

theorem indexByType_of_first {T : Nat} {Elems : List ElemType} {i : Nat}
    (h2 : (Elems[i]?.map (fun E => E.Id)) = some T)
    (h3 : ∀ j, j < i → (Elems[j]?.map (fun E => E.Id)) ≠ some T) :
    MaybeIndexByType T Elems = some i := by
  induction Elems generalizing i with
  | nil => simp at h2
  | cons Head Tail ih =>
    cases i with
    | zero =>
      simp only [List.getElem?_cons_zero, Option.map_some', Option.some.injEq] at h2
      simp [MaybeIndexByType, h2]
    | succ k =>
      have h0 := h3 0 (by omega)
      simp only [List.getElem?_cons_zero, Option.map_some', ne_eq, Option.some.injEq] at h0
      rw [List.getElem?_cons_succ] at h2
      have := ih h2 (fun j hj => by
        have := h3 (j + 1) (by omega)
        rwa [List.getElem?_cons_succ] at this)
      simp [MaybeIndexByType, h0, this]
      omega

theorem maybe_after_assign {Elems : List ElemType} {T v i : Nat} (m1 : Maybe Elems)
    (hidx : MaybeIndexByType T Elems = some i) (hw : m1.Which = 1 + i)
    (hs : m1.Store = some v) :
    m1.assigned = true ∧ m1.which = 1 + i ∧ m1.assignedAs T = some true ∧
      m1.getAs T = .ok (v, m1) ∧ m1.getConstAs T = .ok v := by
  obtain ⟨hlt, hid, -⟩ := indexByType_spec hidx
  obtain ⟨E, hE⟩ : ∃ E, Elems[i]? = some E := ⟨Elems[i], List.getElem?_eq_getElem hlt⟩
  have hw2 : m1.Which = i + 1 := by omega
  refine ⟨by simp [Maybe.assigned, hw], hw, by simp [Maybe.assignedAs, hidx, hw], ?_, ?_⟩
  · simp only [Maybe.getAs, hidx, Maybe.get, hE, hw2, hs]
    simp
  · simp [Maybe.getConstAs, hidx, Maybe.getConst, hE, hw2, hs]

/-- C25: for a `Maybe<Elems...>` with fewer than 255 elements and a value `v`
of a listed type `T` whose first occurrence in `Elems` is at index `i`: a
default-constructed `Maybe` is unassigned with `which() = 0`; `assign(v)` and
`m = v` both succeed and leave a `Maybe` that is assigned, has
`which() = 1 + i`, answers `assigned<T>()` with true and `get<T>()` (const or
not) with `v`, leaving the `Maybe` as it is; and after `reset()` it is
unassigned with `which() = 0`. -/
theorem maybe_assign_reset {Elems : List ElemType} (m : Maybe Elems) (T v i : Nat)
    (hlen : Elems.length < 255)
    (hi : Elems[i]?.map (fun E => E.Id) = some T)
    (hfirst : ∀ j, j < i → Elems[j]?.map (fun E => E.Id) ≠ some T) :
    (Maybe.empty : Maybe Elems).assigned = false ∧ (Maybe.empty : Maybe Elems).which = 0 ∧
    (∃ m1, m.assign T v = some m1 ∧
      m1.assigned = true ∧ m1.which = 1 + i ∧ m1.assignedAs T = some true ∧
      m1.getAs T = .ok (v, m1) ∧ m1.getConstAs T = .ok v) ∧
    (∃ m2, m.assignValue T v = some m2 ∧
      m2.assigned = true ∧ m2.which = 1 + i ∧ m2.assignedAs T = some true ∧
      m2.getAs T = .ok (v, m2) ∧ m2.getConstAs T = .ok v) ∧
    m.reset.assigned = false ∧ m.reset.which = 0 := by
  have hidx := indexByType_of_first hi hfirst
  have hlt := (indexByType_spec hidx).1
  have hmod : (1 + i) % 256 = 1 + i := Nat.mod_eq_of_lt (by omega)
  have hassign : ∀ m0 : Maybe Elems, m0.assign T v = some ⟨1 + i, some v⟩ := by
    intro m0
    simp [Maybe.assign, assign_eq_indexByType, hidx, hmod]
  refine ⟨rfl, rfl, ⟨_, hassign m, maybe_after_assign _ hidx rfl rfl⟩, ?_, rfl, rfl⟩
  by_cases hact : (m.Which != 0 && m.Which - 1 == i) = true
  · refine ⟨{ m with Store := some v }, by simp only [Maybe.assignValue, hidx, hact, if_true], ?_⟩
    simp only [Bool.and_eq_true, bne_iff_ne, ne_eq, beq_iff_eq] at hact
    exact maybe_after_assign _ hidx (by show m.Which = 1 + i; omega) rfl
  · refine ⟨⟨1 + i, some v⟩, ?_, maybe_after_assign _ hidx rfl rfl⟩
    simp only [Maybe.assignValue, hidx, hact]
    exact hassign m.reset

/-- Witness for C25: `Maybe<uint32_t, uint64_t, uint32_t>` holding nothing,
assigned the `uint64_t` 7. -/
theorem maybe_assign_reset_witness :
    ∃ m1 : Maybe [⟨0, true, 0⟩, ⟨1, true, 0⟩, ⟨0, true, 0⟩],
      (Maybe.empty : Maybe [⟨0, true, 0⟩, ⟨1, true, 0⟩, ⟨0, true, 0⟩]).assign 1 7 = some m1 ∧
      m1.which = 2 ∧ m1.getConstAs 1 = .ok 7 := by
  obtain ⟨-, -, ⟨m1, h1, -, h2, -, -, h3⟩, -⟩ :=
    maybe_assign_reset (Maybe.empty : Maybe [⟨0, true, 0⟩, ⟨1, true, 0⟩, ⟨0, true, 0⟩]) 1 7 1
      (by decide) (by decide) (by intro j hj; interval_cases j; decide)
  exact ⟨m1, h1, h2, h3⟩

/-- C26 (as the code has it): when element `I` is not the active one, the
const `get<I>()` fails the "Illegal access to Maybe" assertion, and so does the
non-const `get<I>()` when another element is active or when the type of
element `I` is not default constructible; on a `Maybe` with no active element
the non-const `get<I>()` of a default-constructible element constructs it and
makes it the active one; a `get` on a `Maybe` that has an active element never
changes which element is active. -/
theorem get_inactive {Elems : List ElemType} (m : Maybe Elems) (I : Nat) (E : ElemType)
    (hlen : Elems.length < 255) (hE : Elems[I]? = some E) (hne : m.Which ≠ I + 1) :
    m.getConst I = .error .assertion ∧
    ((m.Which ≠ 0 ∨ E.IsDefaultConstructible = false) → m.get I = .error .assertion) ∧
    (m.Which = 0 → E.IsDefaultConstructible = true →
      m.get I = .ok (E.Default, ⟨I + 1, some E.Default⟩)) ∧
    (∀ J x m1, m.Which ≠ 0 → m.get J = .ok (x, m1) → m1 = m) := by
  have hI : I < Elems.length := by
    by_contra hcon
    rw [List.getElem?_eq_none (by omega)] at hE
    cases hE
  have hmod : (I + 1) % 256 = I + 1 := Nat.mod_eq_of_lt (by omega)
  refine ⟨by simp [Maybe.getConst, hE, hne], ?_, ?_, ?_⟩
  · intro h
    rcases h with h | h
    · simp [Maybe.get, hE, hne, h]
    · simp [Maybe.get, hE, hne, h]
  · intro h0 hd
    simp [Maybe.get, hE, h0, hd, hmod]
  · intro J x m1 h0 hget
    simp only [Maybe.get, h0, if_false] at hget
    (repeat' split at hget) <;> first | (cases hget; rfl) | cases hget

/-- Witness for C26: `Maybe<uint32_t, uint64_t>` with the second element
active, accessed at the first. -/
theorem get_inactive_witness :
    (⟨2, some 7⟩ : Maybe [⟨0, true, 0⟩, ⟨1, true, 0⟩]).getConst 0 = .error .assertion ∧
    (⟨2, some 7⟩ : Maybe [⟨0, true, 0⟩, ⟨1, true, 0⟩]).get 0 = .error .assertion :=
  ⟨(get_inactive (⟨2, some 7⟩ : Maybe [⟨0, true, 0⟩, ⟨1, true, 0⟩]) 0 ⟨0, true, 0⟩
      (by decide) rfl (by decide)).1,
   (get_inactive (⟨2, some 7⟩ : Maybe [⟨0, true, 0⟩, ⟨1, true, 0⟩]) 0 ⟨0, true, 0⟩
      (by decide) rfl (by decide)).2.1 (Or.inl (by decide))⟩

/-- C26 (counterexample): `get<0>()` on a `Maybe<uint32_t>` with no active
element does not fail: it returns a value-initialized `uint32_t` and element 0
is the active one afterwards (`which()` goes from 0 to 1). -/
theorem get_unassigned_constructs :
    (Maybe.empty : Maybe maybeUInt32).which = 0 ∧
    (Maybe.empty : Maybe maybeUInt32).get 0 = .ok (0, ⟨1, some 0⟩) ∧
    ((Maybe.empty : Maybe maybeUInt32).get 0).toOption.map (fun r => r.2.which) = some 1 := by
  refine ⟨rfl, rfl, rfl⟩

/-- C27: for an instruction index below the instruction count,
`getRuntimeValueAs<T>` returns an unassigned `Maybe` exactly when the slot is
unassigned (and then it does return one), for every conversion `getAs<T>` that
yields an assigned `Maybe` when it returns for an assigned slot; a freshly
constructed `FunctionState` has one slot per instruction of its function, all
unassigned, no active instruction and no allocas; and `getInstruction` is null
at every index from the instruction count on. -/
theorem getRuntimeValueAs_unassigned {T : ElemType}
    (getAs : RuntimeValue → Nat → Except Fatal (Maybe [T]))
    (hgetAs : ∀ v Inst r, v.assigned = true → getAs v Inst = .ok r → r.assigned = true)
    (f : FunctionState) (i : Nat) (hi : i < f.getInstructionCount) :
    ((∃ r, f.getRuntimeValueAs getAs i = .ok r ∧ r.assigned = false) ↔
      f.InstructionValues[i]? = some .unassigned) ∧
    (f.InstructionValues[i]? = some .unassigned →
      f.getRuntimeValueAs getAs i = .ok Maybe.empty) ∧
    (∀ Index Function Trace,
      (FunctionState.create Index Function Trace).getInstructionCount
        = Function.InstructionCount ∧
      (∀ j, j < Function.InstructionCount →
        (FunctionState.create Index Function Trace).InstructionValues[j]?
          = some .unassigned) ∧
      (FunctionState.create Index Function Trace).getActiveInstruction = none ∧
      (FunctionState.create Index Function Trace).Allocas = []) ∧
    (∀ j, f.getInstructionCount ≤ j → f.getInstruction j = none) := by
  have hun : f.InstructionValues[i]? = some .unassigned →
      f.getRuntimeValueAs getAs i = .ok Maybe.empty := by
    intro h
    simp [FunctionState.getRuntimeValueAs, h, RuntimeValue.assigned]
  refine ⟨⟨?_, fun h => ⟨_, hun h, rfl⟩⟩, hun, ?_, ?_⟩
  · rintro ⟨r, hr, hra⟩
    have hlt : i < f.InstructionValues.length := hi
    rw [List.getElem?_eq_getElem hlt]
    cases hv : f.InstructionValues[i] with
    | unassigned => rfl
    | _ =>
      exfalso
      simp only [FunctionState.getRuntimeValueAs, List.getElem?_eq_getElem hlt, hv,
        RuntimeValue.assigned, Bool.not_true, Bool.false_eq_true, if_false,
        FunctionState.getInstruction, ge_iff_le, Nat.not_le.mpr hlt] at hr
      have := hgetAs _ _ _ (by rfl) hr
      rw [this] at hra
      cases hra
  · intro Index Function Trace
    refine ⟨by simp [FunctionState.create, FunctionState.getInstructionCount], ?_, rfl, rfl⟩
    intro j hj
    simp [FunctionState.create, List.getElem?_replicate, hj]
  · intro j hj
    simp only [FunctionState.getInstruction, FunctionState.getInstructionCount] at hj ⊢
    simp [hj]

/-- Witness for C27: a frame of two instructions whose first slot holds the
integer 5 and whose second slot is unassigned, read as 64-bit integers. -/
theorem getRuntimeValueAs_unassigned_witness :
    ({ FunctionState.create 0 ⟨2, []⟩ ⟨0, 0, 5, 1, 4⟩ with
        InstructionValues := [.UInt64 5, .unassigned] } : FunctionState).getRuntimeValueAs
      getAsUInt64 1 = .ok Maybe.empty :=
  (getRuntimeValueAs_unassigned getAsUInt64
    (by
      intro v Inst r hv h
      cases v <;> simp [getAsUInt64] at h
      subst h
      rfl)
    { FunctionState.create 0 ⟨2, []⟩ ⟨0, 0, 5, 1, 4⟩ with
        InstructionValues := [.UInt64 5, .unassigned] } 1 (by decide)).2.1 rfl

/-! ## Order of removal and of reinstatement -/

theorem allocationRemoveAll_append_iff {l1 l2 : List MemoryArea} {m m2 : MemoryState} :
    allocationRemoveAll m (l1 ++ l2) = .ok m2 ↔
      ∃ m1, allocationRemoveAll m l1 = .ok m1 ∧ allocationRemoveAll m1 l2 = .ok m2 := by
  induction l1 generalizing m with
  | nil => simp [allocationRemoveAll]
  | cons a l ih =>
    simp only [List.cons_append, allocationRemoveAll]
    cases m.allocationRemove a.Address a.Length with
    | error e => simp
    | ok m3 => exact ih

/-- C31: when a `FunctionEnd` or a `StackRestore` is advanced, the regions
passed to `allocationRemove` turn the memory state before the event into the
one after it, and when the event is then retracted the regions passed to
`allocationUnremove` are the same regions in the reverse order; the retraction
succeeds and leaves the memory state that these calls produce, which is the
memory state before the event. -/
theorem allocationUnremove_reverse_order (P : ProcessTrace) (T : ThreadTrace) (k : Nat)
    (s sA : State) (Ev : Event)
    (hev : (∃ o, Ev = .FunctionEnd o) ∨ (∃ n, Ev = .StackRestore n))
    (hadd : addEvent P T k s Ev = .ok sA) :
    ∃ calls s2, allocationRemoveCalls s Ev = some calls ∧
      allocationRemoveAll s.Parent.Memory calls = .ok sA.Parent.Memory ∧
      allocationUnremoveCalls sA Ev = some calls.reverse ∧
      removeEvent P T k sA Ev = .ok s2 ∧
      s2.Parent.Memory = allocationUnremoveAll sA.Parent.Memory calls.reverse ∧
      s2.Parent.Memory = s.Parent.Memory := by
  rcases hev with ⟨o, rfl⟩ | ⟨n, rfl⟩
  · simp only [addEvent] at hadd
    split at hadd
    · split at hadd
      · simp at hadd
      · rename_i top rest hcs
        simp only [bind_eq_ok, pure, Except.pure, Except.ok.injEq] at hadd
        obtain ⟨u, -, m1, hm1, m2, hm2, h⟩ := hadd
        subst h
        have hall : allocationRemoveAll s.Parent.Memory
            (top.ParamByVals.map (fun b => b.Area) ++ top.Allocas.map AllocaState.area)
            = .ok m2 := allocationRemoveAll_append_iff.mpr ⟨m1, hm1, hm2⟩
        have e := allocationUnremoveAll_allocationRemoveAll hall
        refine ⟨top.ParamByVals.map (fun b => b.Area) ++ top.Allocas.map AllocaState.area, _,
          by simp only [allocationRemoveCalls, hcs], by simpa [setThreadTime] using hall,
          by simp [allocationUnremoveCalls, setThreadTime],
          by simp only [removeEvent, setThreadTime]; rfl, ?_, ?_⟩
        · simp [setThreadTime, allocationUnremoveAll_append]
        · simp only [setThreadTime]
          rw [← e]
          simp [allocationUnremoveAll_append]
    · simp at hadd
  · simp only [addEvent] at hadd
    split at hadd
    · simp at hadd
    · rename_i top rest hcs
      simp only [bind_eq_ok, pure, Except.pure, Except.ok.injEq, Prod.exists] at hadd
      obtain ⟨top1, Removed, hrem, m1, hm1, h⟩ := hadd
      subst h
      have hrem0 := hrem
      unfold FunctionState.removeAllocas at hrem
      split at hrem
      · rename_i hn
        simp only [Except.ok.injEq, Prod.mk.injEq] at hrem
        obtain ⟨htop1, hRemoved⟩ := hrem
        subst htop1
        simp only [hRemoved]
        have e1 := allocationUnremoveAll_allocationRemoveAll hm1
        have hlen : Removed.length = n := by
          rw [← hRemoved]
          simp
          omega
        have hdrop : (top.ClearedAllocas ++ Removed).drop
            ((top.ClearedAllocas ++ Removed).length - n) = Removed := by
          rw [← hlen]
          exact drop_append_length_sub _ _
        have htake : (top.ClearedAllocas ++ Removed).take
            ((top.ClearedAllocas ++ Removed).length - n) = top.ClearedAllocas := by
          rw [← hlen]
          exact take_append_length_sub _ _
        have hle : n ≤ (top.ClearedAllocas ++ Removed).length := by
          simp
          omega
        refine ⟨Removed.map AllocaState.area, _, by simp only [allocationRemoveCalls, hcs, hrem0],
          hm1, by simp only [allocationUnremoveCalls, FunctionState.unremoveAllocas, hle, if_true,
            hdrop],
          by simp only [removeEvent, FunctionState.unremoveAllocas, hle, if_true, bind,
            Except.bind, pure, Except.pure, hdrop, htake]; rfl, ?_, ?_⟩
        · simp
        · simpa using e1
      · simp at hrem

/-- Witness for C31: the `FunctionEnd` of a frame with one byval area and two
allocas. -/
theorem allocationUnremove_reverse_order_witness :
    ∃ calls s2, allocationRemoveCalls frameState (.FunctionEnd 0) = some calls ∧
      allocationUnremoveCalls (stateOf (addEvent exampleProcess frameLog 1 frameState
        (.FunctionEnd 0))) (.FunctionEnd 0) = some calls.reverse ∧
      removeEvent exampleProcess frameLog 1 (stateOf (addEvent exampleProcess frameLog 1
        frameState (.FunctionEnd 0))) (.FunctionEnd 0) = .ok s2 := by
  obtain ⟨calls, s2, h1, -, h3, h4, -, -⟩ :=
    allocationUnremove_reverse_order exampleProcess frameLog 1 frameState
      (stateOf (addEvent exampleProcess frameLog 1 frameState (.FunctionEnd 0)))
      (.FunctionEnd 0) (Or.inl ⟨0, rfl⟩) rfl
  exact ⟨calls, s2, h1, h3, h4⟩

/-! ## `stackRestore` that clears nothing -/

/-- C32 (evaluation at the failing input): `stackSave(1)` on a frame with one
alloca at `0x7010`, immediately followed by `stackRestore(1)`: the alloca list
is the saved one, before and after, yet the returned area is
`MemoryArea(0, 1)`, of length 1. The same holds of every frame and key: when
the current alloca list is the list saved under the key, `stackRestore`
returns the area of address 0 and length 1. -/
theorem stackRestore_nothing_cleared :
    ((TracedFunction.empty.addAlloca ⟨1, 0x7010, 4, 1⟩).stackSave 1).StackSaves 1
      = some ((TracedFunction.empty.addAlloca ⟨1, 0x7010, 4, 1⟩).stackSave 1).Allocas ∧
    (((TracedFunction.empty.addAlloca ⟨1, 0x7010, 4, 1⟩).stackSave 1).stackRestore 1).2.Allocas
      = [⟨1, 0x7010, 4, 1⟩] ∧
    (((TracedFunction.empty.addAlloca ⟨1, 0x7010, 4, 1⟩).stackSave 1).stackRestore 1).1
      = ⟨0, 1⟩ ∧
    (((TracedFunction.empty.addAlloca ⟨1, 0x7010, 4, 1⟩).stackSave 1).stackRestore 1).1.Length
      ≠ 0 ∧
    (∀ (f : TracedFunction) (Key : Nat), f.StackSaves Key = some f.Allocas →
      (f.stackRestore Key).1 = ⟨0, 1⟩ ∧ (f.stackRestore Key).2.Allocas = f.Allocas) := by
  refine ⟨by decide, by decide, by decide, by decide, ?_⟩
  intro f Key h
  have hnone : ∀ l : List TracedAlloca, TracedFunction.firstCleared l l = none := by
    intro l
    induction l with
    | nil => rfl
    | cons a rest ih => simp [TracedFunction.firstCleared, ih]
  refine ⟨?_, by simp [TracedFunction.stackRestore, h]⟩
  simp only [TracedFunction.stackRestore, h, Option.getD_some, hnone]
  decide

/-! ## Known regions -/

/-- C34: the permission of a known region is `ReadWrite`, `ReadOnly`,
`WriteOnly` or `None` for the flags (readable, writable) = (true, true),
(true, false), (false, true), (false, false). Advancing a `KnownRegionAdd` and
retracting a `KnownRegionRemove` with the same fields both enter, under the
address, the size and the permission of the flags; both succeed when the
address is not a known region (the former also needs the region to be free in
memory); and advancing and then retracting a `KnownRegionAdd` succeeds and
leaves the known regions as they were. -/
theorem knownRegion_permission (P : ProcessTrace) (T : ThreadTrace) (k : Nat) (s : State)
    (a n : Nat) (r w : Bool) :
    (accessOf true true = .ReadWrite ∧ accessOf true false = .ReadOnly ∧
      accessOf false true = .WriteOnly ∧ accessOf false false = .None) ∧
    (∀ sA, addEvent P T k s (.KnownRegionAdd a n r w) = .ok sA →
      sA.Parent.KnownMemory = Function.update s.Parent.KnownMemory a (some (n, accessOf r w)) ∧
      ∃ s2, removeEvent P T k sA (.KnownRegionAdd a n r w) = .ok s2 ∧
        s2.Parent.KnownMemory = s.Parent.KnownMemory) ∧
    (∀ s2, removeEvent P T k s (.KnownRegionRemove a n r w) = .ok s2 →
      s2.Parent.KnownMemory = Function.update s.Parent.KnownMemory a (some (n, accessOf r w))) ∧
    (s.Parent.KnownMemory a = none →
      ∃ s2, removeEvent P T k s (.KnownRegionRemove a n r w) = .ok s2) ∧
    (s.Parent.KnownMemory a = none → ∀ m1, s.Parent.Memory.allocationAdd a n = .ok m1 →
      ∃ sA, addEvent P T k s (.KnownRegionAdd a n r w) = .ok sA) := by
  refine ⟨⟨rfl, rfl, rfl, rfl⟩, ?_, ?_, ?_, ?_⟩
  · intro sA h
    simp only [addEvent, bind_eq_ok, pure, Except.pure, Except.ok.injEq] at h
    obtain ⟨p1, hp1, m1, hm1, h⟩ := h
    subst h
    unfold ProcessState.addKnownMemory at hp1
    split at hp1
    · simp at hp1
    · rename_i hnone
      simp only [Except.ok.injEq] at hp1
      subst hp1
      refine ⟨rfl, _, rfl, ?_⟩
      simp only [ProcessState.removeKnownMemory, Function.update_idem]
      rw [← hnone, Function.update_eq_self]
  · intro s2 h
    simp only [removeEvent, bind_eq_ok, pure, Except.pure, Except.ok.injEq] at h
    obtain ⟨p1, hp1, h⟩ := h
    subst h
    unfold ProcessState.addKnownMemory at hp1
    split at hp1
    · simp at hp1
    · simp only [Except.ok.injEq] at hp1
      subst hp1
      rfl
  · intro hnone
    exact ⟨_, by simp only [removeEvent, ProcessState.addKnownMemory, hnone, bind, Except.bind,
      pure, Except.pure]; rfl⟩
  · intro hnone m1 hm1
    exact ⟨_, by simp only [addEvent, ProcessState.addKnownMemory, hnone, bind, Except.bind,
      pure, Except.pure, hm1]; rfl⟩

/-! ## Retracting a `FunctionStart` -/

/-- C36: a `FunctionStart` record with thread time entered `e`, for a function
of the module, is applied by pushing one frame and setting the thread time to
`e`. Retracting it succeeds, removes that frame and no other, and sets the
thread time to `e - 1` in unsigned 64-bit arithmetic: for `1 ≤ e` this is
`e - 1` without wraparound, which is the thread time before the event when
that was `e - 1`; for `e = 0` it is `2 ^ 64 - 1`. -/
theorem functionStart_retraction (P : ProcessTrace) (T : ThreadTrace) (k : Nat) (s : State)
    (Index EventOffsetEnd e Exited : Nat) (MappedFunction : FunctionIndex)
    (hmodule : P.Module[Index]? = some MappedFunction) :
    ∃ sA s2 frame,
      addEvent P T k s (.FunctionStart Index EventOffsetEnd e Exited) = .ok sA ∧
      sA.Thread.CallStack = frame :: s.Thread.CallStack ∧
      sA.Thread.ThreadTime = e ∧
      removeEvent P T k sA (.FunctionStart Index EventOffsetEnd e Exited) = .ok s2 ∧
      s2.Thread.CallStack = s.Thread.CallStack ∧
      s2.Thread.ThreadTime = sub1 e ∧
      (1 ≤ e → s2.Thread.ThreadTime = e - 1 ∧
        (s.Thread.ThreadTime = e - 1 → s2.Thread.ThreadTime = s.Thread.ThreadTime)) ∧
      (e = 0 → s2.Thread.ThreadTime = 2 ^ 64 - 1) := by
  have hadd : addEvent P T k s (.FunctionStart Index EventOffsetEnd e Exited)
      = .ok (setThreadTime T { s with Thread := { s.Thread with
          CallStack := FunctionState.create Index MappedFunction
            (getFunctionTrace k Index EventOffsetEnd e Exited) :: s.Thread.CallStack } } e) := by
    simp only [addEvent, hmodule]
  have hrem : removeEvent P T k
      (setThreadTime T { s with Thread := { s.Thread with
          CallStack := FunctionState.create Index MappedFunction
            (getFunctionTrace k Index EventOffsetEnd e Exited) :: s.Thread.CallStack } } e)
      (.FunctionStart Index EventOffsetEnd e Exited)
      = .ok (setThreadTime T { s with Thread := { s.Thread with
          m_CaughtSignals := (T.getCaughtSignalsAtTime e).getD [] } } (sub1 e)) := by
    simp [removeEvent, setThreadTime, FunctionState.create, getFunctionTrace, assert, bind,
      Except.bind, pure, Except.pure]
  refine ⟨_, _, _, hadd, rfl, rfl, hrem, rfl, rfl, ?_, ?_⟩
  · intro he
    have h1 : sub1 e = e - 1 := sub1_eq he
    refine ⟨?_, fun hs => ?_⟩
    · simpa [setThreadTime] using h1
    · rw [hs]
      simpa [setThreadTime] using h1
  · intro he
    subst he
    simp [setThreadTime, sub1, U64]

/-- Witness for C36: the `FunctionStart` of `main` in the log of the malloc
and free round trip, entered at thread time 1. -/
theorem functionStart_retraction_witness :
    ∃ sA s2 frame,
      addEvent exampleProcess mallocFreeLog 0 (State.initial ProcessState.empty)
        (.FunctionStart 0 5 1 4) = .ok sA ∧
      sA.Thread.CallStack = frame :: (State.initial ProcessState.empty).Thread.CallStack ∧
      removeEvent exampleProcess mallocFreeLog 0 sA (.FunctionStart 0 5 1 4) = .ok s2 ∧
      s2.Thread.ThreadTime = 0 := by
  obtain ⟨sA, s2, frame, h1, h2, -, h4, -, -, h7, -⟩ :=
    functionStart_retraction exampleProcess mallocFreeLog 0 (State.initial ProcessState.empty)
      0 5 1 4 ⟨20, []⟩ rfl
  exact ⟨sA, s2, frame, h1, h2, h4, (h7 (by decide)).1⟩

/-! ## Pointer targets -/

/-- C35: after `setPointerObject(I, O)`, `getPointerObject(I)` returns `O`; an
instruction or an argument without a recorded target has the null target
`(0, 0)`; a constant expression that is a cast, or a GEP without notional
over-indexing, has the target of its first operand; and
`transferPointerObject(From, To)` returns the target of `From` and sets it as
the target of `To` exactly when its conversion to `bool` is true, which it is
not for the null target, so that a null target is never set. -/
theorem pointerObject_tracking (f : TracedFunction) (Process : LLVMValue → PointerTarget)
    (toBool : PointerTarget → Bool) (hnull : toBool ⟨0, 0⟩ = false)
    (I A To : Nat) (O : PointerTarget) (From Operand0 : LLVMValue) (isCast isGEP : Bool) :
    ((f.setPointerObject I O).getPointerObjectInstruction I = O ∧
      (f.setPointerObject I O).getPointerObject Process (.Instruction I) = O) ∧
    (f.PointerObjects I = none → f.getPointerObject Process (.Instruction I) = ⟨0, 0⟩) ∧
    (f.ArgPointerObjects A = none → f.getPointerObject Process (.Argument A) = ⟨0, 0⟩) ∧
    (isCast = true ∨ isGEP = true →
      f.getPointerObject Process (.ConstantExpr isCast isGEP Operand0)
        = f.getPointerObject Process Operand0) ∧
    (f.transferPointerObject Process toBool From To).1 = f.getPointerObject Process From ∧
    (toBool (f.getPointerObject Process From) = true →
      (f.transferPointerObject Process toBool From To).2
        = f.setPointerObject To (f.getPointerObject Process From) ∧
      f.getPointerObject Process From ≠ ⟨0, 0⟩) ∧
    (toBool (f.getPointerObject Process From) = false →
      (f.transferPointerObject Process toBool From To).2 = f) ∧
    (f.getPointerObject Process From = ⟨0, 0⟩ →
      (f.transferPointerObject Process toBool From To).2 = f) := by
  refine ⟨⟨?_, ?_⟩, ?_, ?_, ?_, ?_, ?_, ?_, ?_⟩
  · simp [TracedFunction.setPointerObject, TracedFunction.getPointerObjectInstruction]
  · simp [TracedFunction.getPointerObject, TracedFunction.setPointerObject,
      TracedFunction.getPointerObjectInstruction]
  · intro h
    simp [TracedFunction.getPointerObject, TracedFunction.getPointerObjectInstruction, h]
  · intro h
    simp [TracedFunction.getPointerObject, TracedFunction.getPointerObjectArgument, h]
  · intro h
    rcases h with h | h
    · simp [TracedFunction.getPointerObject, h]
    · cases isCast <;> simp [TracedFunction.getPointerObject, h]
  · simp only [TracedFunction.transferPointerObject]
    split <;> rfl
  · intro h
    refine ⟨by simp [TracedFunction.transferPointerObject, h], ?_⟩
    intro h0
    rw [h0, hnull] at h
    cases h
  · intro h
    simp [TracedFunction.transferPointerObject, h]
  · intro h
    simp [TracedFunction.transferPointerObject, h, hnull]

/-- Witness for C35: a conversion to `bool` that tells whether the base is not
0, on an empty function record. -/
theorem pointerObject_tracking_witness :
    ((TracedFunction.empty.setPointerObject 3 ⟨0x1000, 5⟩).getPointerObjectInstruction 3
      = ⟨0x1000, 5⟩) ∧
    TracedFunction.empty.getPointerObject (fun _ => ⟨0, 0⟩) (.Instruction 3) = ⟨0, 0⟩ :=
  ⟨(pointerObject_tracking TracedFunction.empty (fun _ => ⟨0, 0⟩) (fun O => O.Base != 0) rfl
      3 0 4 ⟨0x1000, 5⟩ (.Instruction 3) (.Argument 0) true false).1.1,
   (pointerObject_tracking TracedFunction.empty (fun _ => ⟨0, 0⟩) (fun O => O.Base != 0) rfl
      3 0 4 ⟨0x1000, 5⟩ (.Instruction 3) (.Argument 0) true false).2.1 rfl⟩

/-! ## The area of a frame that contains an address -/

theorem le_lastAddress {a : MemoryArea} {x : Nat} (hwrap : a.Address + a.Length ≤ U64)
    (hx : a.contains x = true) : x ≤ a.lastAddress := by
  rw [contains_iff] at hx
  unfold MemoryArea.lastAddress sub1
  unfold U64 at *
  split
  · rename_i h0
    have : a.Address + a.Length = 18446744073709551616 := by omega
    omega
  · rename_i h0
    have : (a.Address + a.Length) % 18446744073709551616 = a.Address + a.Length := by omega
    omega

/-- C37 (as the code has it): an area that `getContainingMemoryArea(x)`
returns contains `x` and is the area of a live alloca or of a byval argument
of the frame. For `x` inside the stack range `[StackLow, StackHigh]` an area
is returned exactly when `x` lies in a live alloca, and for `x` outside of it
exactly when `x` lies in a byval area; so a byval area inside the stack range
is not found. On a frame whose stack range covers its allocas, an area is
returned for every `x` in a live alloca that does not wrap around `2 ^ 64`. -/
theorem getContainingMemoryArea_frame (f : TracedFunction) (x : Nat) :
    (∀ A, f.getContainingMemoryArea x = some A →
      A.contains x = true ∧
        ((∃ a ∈ f.Allocas, a.area = A) ∨ (∃ b ∈ f.ByValArgs, b.Area = A))) ∧
    (f.StackLow ≤ x ∧ x ≤ f.StackHigh →
      ((f.getContainingMemoryArea x).isSome = true ↔
        ∃ a ∈ f.Allocas, a.area.contains x = true)) ∧
    (x < f.StackLow ∨ f.StackHigh < x →
      ((f.getContainingMemoryArea x).isSome = true ↔
        ∃ b ∈ f.ByValArgs, b.Area.contains x = true)) ∧
    ((∀ a ∈ f.Allocas, f.StackLow ≤ a.Address ∧ a.area.lastAddress ≤ f.StackHigh) →
      ∀ a ∈ f.Allocas, a.area.Address + a.area.Length ≤ U64 → a.area.contains x = true →
        (f.getContainingMemoryArea x).isSome = true) := by
  have hin : f.StackLow ≤ x ∧ x ≤ f.StackHigh →
      ((f.getContainingMemoryArea x).isSome = true ↔
        ∃ a ∈ f.Allocas, a.area.contains x = true) := by
    intro h
    have hn : ¬ (x < f.StackLow ∨ x > f.StackHigh) := by omega
    simp only [TracedFunction.getContainingMemoryArea, hn, if_false, Option.isSome_map',
      List.find?_isSome]
  refine ⟨?_, hin, ?_, ?_⟩
  · intro A hA
    simp only [TracedFunction.getContainingMemoryArea] at hA
    split at hA
    · cases hf : f.ByValArgs.find? (fun Arg => Arg.Area.contains x) with
      | none => simp [hf] at hA
      | some b =>
        simp only [hf, Option.map_some', Option.some.injEq] at hA
        subst hA
        exact ⟨by simpa using List.find?_some hf,
          Or.inr ⟨b, List.mem_of_find?_eq_some hf, rfl⟩⟩
    · cases hf : f.Allocas.find? (fun Alloca => Alloca.area.contains x) with
      | none => simp [hf] at hA
      | some a =>
        simp only [hf, Option.map_some', Option.some.injEq] at hA
        subst hA
        exact ⟨by simpa using List.find?_some hf,
          Or.inl ⟨a, List.mem_of_find?_eq_some hf, rfl⟩⟩
  · intro h
    have hn : x < f.StackLow ∨ x > f.StackHigh := by omega
    simp only [TracedFunction.getContainingMemoryArea, hn, if_true, Option.isSome_map',
      List.find?_isSome]
  · intro hb a ha hwrap hx
    obtain ⟨h1, h2⟩ := hb a ha
    have h3 := le_lastAddress hwrap hx
    have h4 : a.Address ≤ x := ((contains_iff _ _).mp hx).1
    exact (hin ⟨le_trans h1 h4, le_trans h3 h2⟩).mpr ⟨a, ha, hx⟩

/-- C37 (counterexample): the frame has allocas at 100 and 500 and a byval
argument whose area holds the bytes 200 to 215. The address 204 lies in that
byval area and inside the stack range 100 to 509, and no area is returned for
it. -/
theorem getContainingMemoryArea_misses_byval :
    byValBetween.ByValArgs = [⟨0, ⟨200, 16⟩⟩] ∧
    (MemoryArea.mk 200 16).contains 204 = true ∧
    byValBetween.StackLow = 100 ∧ byValBetween.StackHigh = 509 ∧
    byValBetween.getContainingMemoryArea 204 = none := by
  refine ⟨by decide, by decide, by decide, by decide, by decide⟩

/-! ## The stack range covers the allocas -/

theorem bounded_empty : TracedFunction.empty.Bounded := by
  refine ⟨?_, ?_, ?_⟩
  · intro a ha
    simp [TracedFunction.empty] at ha
  · intro Key l h
    simp [TracedFunction.empty] at h
  · intro _
    exact ⟨rfl, fun Key l h => by simp [TracedFunction.empty] at h⟩

theorem bounded_call {f : TracedFunction} (hf : f.Bounded) (op : StackOp)
    (hreg : ∀ a, op = .addAlloca a → a.Address ≠ 0 ∧ a.area.lastAddress ≠ 0) :
    (f.call op).Bounded := by
  obtain ⟨h1, h2, h3⟩ := hf
  cases op with
  | addAlloca a =>
    show (f.addAlloca a).Bounded
    obtain ⟨ha0, hl0⟩ := hreg a rfl
    have hlow : (f.addAlloca a).StackLow
        = if a.Address < f.StackLow ∨ f.StackLow = 0 then a.Address else f.StackLow := by
      simp [TracedFunction.addAlloca, TracedAlloca.area]
    have hhigh : (f.addAlloca a).StackHigh
        = if a.area.lastAddress > f.StackHigh ∨ f.StackHigh = 0 then a.area.lastAddress
          else f.StackHigh := by
      simp [TracedFunction.addAlloca]
    have hall : (f.addAlloca a).Allocas = f.Allocas ++ [a] := rfl
    have hsaves : (f.addAlloca a).StackSaves = f.StackSaves := rfl
    have hold : ∀ b : TracedAlloca, f.StackLow ≤ b.Address ∧ b.area.lastAddress ≤ f.StackHigh →
        (f.Allocas ≠ [] ∨ ∃ Key l, f.StackSaves Key = some l ∧ l ≠ []) →
        (f.addAlloca a).StackLow ≤ b.Address ∧
          b.area.lastAddress ≤ (f.addAlloca a).StackHigh := by
      intro b hb hex
      have hnz : ¬ (f.StackLow = 0 ∨ f.StackHigh = 0) := by
        intro hz
        obtain ⟨e1, e2⟩ := h3 hz
        rcases hex with hex | ⟨Key, l, hl, hne⟩
        · exact hex e1
        · exact hne (e2 Key l hl)
      rw [hlow, hhigh]
      constructor
      · split <;> omega
      · split <;> omega
    have hnew : (f.addAlloca a).StackLow ≤ a.Address ∧
        a.area.lastAddress ≤ (f.addAlloca a).StackHigh := by
      rw [hlow, hhigh]
      constructor
      · split <;> omega
      · split <;> omega
    refine ⟨?_, ?_, ?_⟩
    · intro b hb
      rw [hall] at hb
      rcases List.mem_append.mp hb with hb | hb
      · exact hold b (h1 b hb) (Or.inl (List.ne_nil_of_mem hb))
      · simp only [List.mem_singleton] at hb
        subst hb
        exact hnew
    · intro Key l hl b hb
      rw [hsaves] at hl
      exact hold b (h2 Key l hl b hb) (Or.inr ⟨Key, l, hl, List.ne_nil_of_mem hb⟩)
    · intro hz
      exfalso
      rw [hlow, hhigh] at hz
      rcases hz with hz | hz
      · split at hz <;> omega
      · split at hz <;> omega
  | stackSave Key =>
    show (f.stackSave Key).Bounded
    refine ⟨h1, ?_, ?_⟩
    · intro K l hl b hb
      rw [show (f.stackSave Key).StackSaves = Function.update f.StackSaves Key (some f.Allocas)
        from rfl] at hl
      rw [Function.update_apply] at hl
      split at hl
      · simp only [Option.some.injEq] at hl
        subst hl
        exact h1 b hb
      · exact h2 K l hl b hb
    · intro hz
      obtain ⟨e1, e2⟩ := h3 hz
      refine ⟨e1, ?_⟩
      intro K l hl
      rw [show (f.stackSave Key).StackSaves = Function.update f.StackSaves Key (some f.Allocas)
        from rfl] at hl
      rw [Function.update_apply] at hl
      split at hl
      · simp only [Option.some.injEq] at hl
        rw [← hl]
        exact e1
      · exact e2 K l hl
  | stackRestore Key =>
    show (f.stackRestore Key).2.Bounded
    have hsaved : ∀ b ∈ (f.StackSaves Key).getD [],
        f.StackLow ≤ b.Address ∧ b.area.lastAddress ≤ f.StackHigh := by
      intro b hb
      cases hK : f.StackSaves Key with
      | none => simp [hK] at hb
      | some l =>
        simp only [hK, Option.getD_some] at hb
        exact h2 Key l hK b hb
    refine ⟨?_, ?_, ?_⟩
    · intro b hb
      exact hsaved b hb
    · intro K l hl b hb
      rw [show (f.stackRestore Key).2.StackSaves
        = Function.update f.StackSaves Key (some ((f.StackSaves Key).getD [])) from rfl] at hl
      rw [Function.update_apply] at hl
      split at hl
      · simp only [Option.some.injEq] at hl
        subst hl
        exact hsaved b hb
      · exact h2 K l hl b hb
    · intro hz
      obtain ⟨e1, e2⟩ := h3 hz
      have hnil : (f.StackSaves Key).getD [] = [] := by
        cases hK : f.StackSaves Key with
        | none => rfl
        | some l => simp only [Option.getD_some]; exact e2 Key l hK
      refine ⟨hnil, ?_⟩
      intro K l hl
      rw [show (f.stackRestore Key).2.StackSaves
        = Function.update f.StackSaves Key (some ((f.StackSaves Key).getD [])) from rfl] at hl
      rw [Function.update_apply] at hl
      split at hl
      · simp only [Option.some.injEq] at hl
        rw [← hl]
        exact hnil
      · exact e2 K l hl

theorem bounded_run (ops : List StackOp) :
    ∀ f : TracedFunction, f.Bounded →
      (∀ a, StackOp.addAlloca a ∈ ops → a.Address ≠ 0 ∧ a.area.lastAddress ≠ 0) →
      (f.run ops).Bounded := by
  induction ops with
  | nil => intro f hf _; exact hf
  | cons op rest ih =>
    intro f hf hreg
    simp only [TracedFunction.run, List.foldl_cons]
    exact ih (f.call op)
      (bounded_call hf op (fun a ha => hreg a (by rw [ha]; exact List.mem_cons_self _ _)))
      (fun a ha => hreg a (List.mem_cons_of_mem _ ha))

/-- C38 (as the code has it): take a frame whose stack range covers its
allocas (a fresh frame is one) and any sequence of `addAlloca`, `stackSave`
and `stackRestore` calls in which no added alloca has the address 0 or the
last address 0, the two values that `addAlloca` reads as "no bound yet".
Afterwards every alloca in the current list has an address of at least
`StackLow` and a last address of at most `StackHigh`, and for every address in
a current alloca whose area does not wrap around `2 ^ 64`,
`getContainingMemoryArea` passes the stack-range test and returns an area. -/
theorem stackRange_covers_allocas (f : TracedFunction) (ops : List StackOp)
    (hf : f.Bounded)
    (hreg : ∀ a, StackOp.addAlloca a ∈ ops → a.Address ≠ 0 ∧ a.area.lastAddress ≠ 0) :
    (∀ a ∈ (f.run ops).Allocas,
      (f.run ops).StackLow ≤ a.Address ∧ a.area.lastAddress ≤ (f.run ops).StackHigh) ∧
    (∀ a ∈ (f.run ops).Allocas, ∀ x, a.area.Address + a.area.Length ≤ U64 →
      a.area.contains x = true →
      ((f.run ops).StackLow ≤ x ∧ x ≤ (f.run ops).StackHigh) ∧
        ((f.run ops).getContainingMemoryArea x).isSome = true) := by
  have hb := (bounded_run ops f hf hreg).1
  refine ⟨hb, ?_⟩
  intro a ha x hwrap hx
  obtain ⟨h1, h2⟩ := hb a ha
  have h3 := le_lastAddress hwrap hx
  have h4 : a.Address ≤ x := ((contains_iff _ _).mp hx).1
  have hrange : (f.run ops).StackLow ≤ x ∧ x ≤ (f.run ops).StackHigh :=
    ⟨le_trans h1 h4, le_trans h3 h2⟩
  refine ⟨hrange, ?_⟩
  have hn : ¬ (x < (f.run ops).StackLow ∨ x > (f.run ops).StackHigh) := by omega
  simp only [TracedFunction.getContainingMemoryArea, hn, if_false, Option.isSome_map',
    List.find?_isSome]
  exact ⟨a, ha, hx⟩

/-- Witness for C38: a fresh frame on which the three scattered allocas are
added, the list is saved and restored; the alloca at 500 lies in the stack
range. -/
theorem stackRange_covers_allocas_witness :
    (TracedFunction.empty.run (scatteredAllocas ++ [.stackSave 1, .stackRestore 1])).StackLow
        ≤ (TracedAlloca.mk 2 500 10 1).Address ∧
      (TracedAlloca.mk 2 500 10 1).area.lastAddress
        ≤ (TracedFunction.empty.run
            (scatteredAllocas ++ [.stackSave 1, .stackRestore 1])).StackHigh :=
  (stackRange_covers_allocas TracedFunction.empty
    (scatteredAllocas ++ [.stackSave 1, .stackRestore 1]) bounded_empty
    (by
      intro b hb
      simp only [scatteredAllocas, List.cons_append, List.nil_append, List.mem_cons,
        StackOp.addAlloca.injEq, List.mem_singleton, reduceCtorEq, or_false,
        List.not_mem_nil] at hb
      rcases hb with rfl | rfl | rfl <;> decide)).1 ⟨2, 500, 10, 1⟩ (by decide)

/-- C38 (counterexample): an alloca of 8 bytes at address 0 followed by an
alloca of 8 bytes at address 100. `StackLow` is 100 afterwards, the first
alloca is still in the list with the address 0, and for the address 4, which
lies in it, `getContainingMemoryArea` returns no area. -/
theorem stackRange_misses_alloca_at_zero :
    (TracedFunction.empty.run [.addAlloca ⟨1, 0, 8, 1⟩, .addAlloca ⟨2, 100, 8, 1⟩]).Allocas
      = [⟨1, 0, 8, 1⟩, ⟨2, 100, 8, 1⟩] ∧
    (TracedFunction.empty.run [.addAlloca ⟨1, 0, 8, 1⟩, .addAlloca ⟨2, 100, 8, 1⟩]).StackLow
      = 100 ∧
    (TracedAlloca.area ⟨1, 0, 8, 1⟩).contains 4 = true ∧
    (TracedFunction.empty.run
      [.addAlloca ⟨1, 0, 8, 1⟩, .addAlloca ⟨2, 100, 8, 1⟩]).getContainingMemoryArea 4
      = none := by
  refine ⟨by decide, by decide, by decide, by decide⟩

theorem frameSim_refl (a : FunctionState) : FrameSim a a := ⟨rfl, rfl, rfl, le_refl _⟩

theorem frameSim_trans {a b c : FunctionState} (h1 : FrameSim a b) (h2 : FrameSim b c) :
    FrameSim a c :=
  ⟨h1.Index.trans h2.Index, h1.Allocas.trans h2.Allocas,
    h1.ClearedAllocas.trans h2.ClearedAllocas, le_trans h2.Errors h1.Errors⟩

theorem forall₂_frameSim_refl (l : List FunctionState) : List.Forall₂ FrameSim l l := by
  induction l with
  | nil => exact .nil
  | cons a l ih => exact .cons (frameSim_refl a) ih

theorem forall₂_frameSim_trans {l1 l2 l3 : List FunctionState}
    (h1 : List.Forall₂ FrameSim l1 l2) (h2 : List.Forall₂ FrameSim l2 l3) :
    List.Forall₂ FrameSim l1 l3 := by
  induction h1 generalizing l3 with
  | nil => cases h2; exact .nil
  | cons hab _ ih =>
    cases h2 with
    | cons hbc htl => exact .cons (frameSim_trans hab hbc) (ih htl)

theorem sim_trans {s r q : State} (h1 : Sim s r) (h2 : Sim r q) : Sim s q :=
  ⟨h1.NextEvent.trans h2.NextEvent, h1.Completed.trans h2.Completed,
    forall₂_frameSim_trans h1.Frames h2.Frames,
    fun a => (h1.MallocSizes a).trans (h2.MallocSizes a),
    h1.PreviousMallocs.trans h2.PreviousMallocs, h1.Streams.trans h2.Streams,
    h1.StreamsClosed.trans h2.StreamsClosed, h1.Dirs.trans h2.Dirs,
    h1.KnownMemory.trans h2.KnownMemory⟩

theorem sim_refl (s : State) : Sim s s :=
  ⟨rfl, rfl, forall₂_frameSim_refl _, fun _ => rfl, rfl, rfl, rfl, rfl, rfl⟩

/-- The retraction of a record that does not read the call stack. -/
theorem removeEvent_sim_parent {P : ProcessTrace} {T : ThreadTrace} {n : Nat} {s r r2 : State}
    {Ev : Event} (h : Sim s r) (hr : removeEvent P T n r Ev = .ok r2)
    (hkind : Ev.isInstruction = false)
    (hframe : ∀ a b c d, Ev ≠ .FunctionStart a b c d)
    (hend : ∀ a, Ev ≠ .FunctionEnd a) (hsr : ∀ a, Ev ≠ .StackRestore a)
    (hal : ∀ a b, Ev ≠ .Alloca a b) (hbv : ∀ a b c, Ev ≠ .ByValRegionAdd a b c)
    (herr : ∀ a, Ev ≠ .RuntimeError a) :
    ∃ s2, removeEvent P T n s Ev = .ok s2 ∧ Sim s2 r2 ∧
      s2.Parent.ProcessTime =
        (match Ev.sharedProcessTime with
         | some t => sub1 t
         | none => s.Parent.ProcessTime) := by
  obtain ⟨h1, h2, h3, h4, h5, h6, h7, h8, h9⟩ := h
  cases Ev
  case None =>
    simp only [removeEvent, Except.ok.injEq] at hr ⊢
    subst hr
    exact ⟨_, rfl, ⟨h1, h2, h3, h4, h5, h6, h7, h8, h9⟩, rfl⟩
  case Subservient =>
    simp only [removeEvent, Except.ok.injEq] at hr ⊢
    subst hr
    exact ⟨_, rfl, ⟨h1, h2, h3, h4, h5, h6, h7, h8, h9⟩, rfl⟩
  case NewProcessTime =>
    simp only [removeEvent, Except.ok.injEq, setPreviousViewOfProcessTime_eq] at hr ⊢
    subst hr
    exact ⟨_, rfl, ⟨h1, h2, h3, h4, h5, h6, h7, h8, h9⟩, rfl⟩
  case NewThreadTime =>
    simp only [removeEvent, Except.ok.injEq] at hr ⊢
    subst hr
    exact ⟨_, rfl, ⟨h1, h2, h3, h4, h5, h6, h7, h8, h9⟩, rfl⟩
  case FunctionStart a b c d => exact absurd rfl (hframe a b c d)
  case FunctionEnd a => exact absurd rfl (hend a)
  case StackRestore a => exact absurd rfl (hsr a)
  case Alloca a b => exact absurd rfl (hal a b)
  case ByValRegionAdd a b c => exact absurd rfl (hbv a b c)
  case RuntimeError a => exact absurd rfl (herr a)
  case PreInstruction => simp [Event.isInstruction, Event.getIndex] at hkind
  case Instruction => simp [Event.isInstruction, Event.getIndex] at hkind
  case InstructionWithUInt8 => simp [Event.isInstruction, Event.getIndex] at hkind
  case InstructionWithUInt16 => simp [Event.isInstruction, Event.getIndex] at hkind
  case InstructionWithUInt32 => simp [Event.isInstruction, Event.getIndex] at hkind
  case InstructionWithUInt64 => simp [Event.isInstruction, Event.getIndex] at hkind
  case InstructionWithPtr => simp [Event.isInstruction, Event.getIndex] at hkind
  case InstructionWithFloat => simp [Event.isInstruction, Event.getIndex] at hkind
  case InstructionWithDouble => simp [Event.isInstruction, Event.getIndex] at hkind
  case InstructionWithLongDouble => simp [Event.isInstruction, Event.getIndex] at hkind
  case StateUntypedSmall a b c t =>
    simp only [removeEvent, Except.ok.injEq, restoreProcessTimes_eq] at hr ⊢
    subst hr
    exact ⟨_, rfl, ⟨h1, h2, h3, h4, h5, h6, h7, h8, h9⟩, rfl⟩
  case StateUntyped a b c t =>
    simp only [removeEvent, Except.ok.injEq, restoreProcessTimes_eq] at hr ⊢
    subst hr
    exact ⟨_, rfl, ⟨h1, h2, h3, h4, h5, h6, h7, h8, h9⟩, rfl⟩
  case StateMemmove a b c t =>
    simp only [removeEvent, Except.ok.injEq, restoreProcessTimes_eq] at hr ⊢
    subst hr
    exact ⟨_, rfl, ⟨h1, h2, h3, h4, h5, h6, h7, h8, h9⟩, rfl⟩
  case StateClear a b t =>
    simp only [removeEvent, Except.ok.injEq, restoreProcessTimes_eq] at hr ⊢
    subst hr
    exact ⟨_, rfl, ⟨h1, h2, h3, h4, h5, h6, h7, h8, h9⟩, rfl⟩
  case Malloc Size t =>
    simp only [removeEvent] at hr ⊢
    cases hfind : rfind Event.isInstructionWithPtr T.events (n + 1) with
    | none => simp [hfind] at hr
    | some InstrRef =>
      simp only [hfind] at hr ⊢
      cases hev : T.events[InstrRef]? with
      | none => simp [hev] at hr
      | some e =>
        simp only [hev] at hr ⊢
        cases e
        case InstructionWithPtr Index Address =>
          simp only [Except.ok.injEq, restoreProcessTimes_eq] at hr ⊢
          subst hr
          refine ⟨_, rfl, ⟨h1, h2, h3, ?_, h5, h6, h7, h8, h9⟩, rfl⟩
          intro a
          have := h4 a
          simp only [ProcessState.mallocSize, ProcessState.unaddMalloc,
            Function.update_apply] at this ⊢
          split
          · rfl
          · exact this
        all_goals simp at hr
  case Free Address t =>
    simp only [removeEvent] at hr ⊢
    cases hprev : r.Parent.PreviousMallocs with
    | nil =>
      have hus : s.Parent.unremoveMalloc Address = s.Parent := by
        simp [ProcessState.unremoveMalloc, h5, hprev]
      have hur : r.Parent.unremoveMalloc Address = r.Parent := by
        simp [ProcessState.unremoveMalloc, hprev]
      rw [hur] at hr
      rw [hus]
      have hm := h4 Address
      simp only [ProcessState.mallocSize] at hm
      cases hrm : r.Parent.Mallocs Address with
      | none => simp [hrm] at hr
      | some Entry =>
        cases hsm : s.Parent.Mallocs Address with
        | none => simp [hrm, hsm] at hm
        | some Entry2 =>
          simp only [hrm, Except.ok.injEq, restoreProcessTimes_eq] at hr
          simp only [Except.ok.injEq, restoreProcessTimes_eq]
          subst hr
          exact ⟨_, rfl, ⟨h1, h2, h3, h4, h5, h6, h7, h8, h9⟩, rfl⟩
    | cons x rest =>
      obtain ⟨a0, e0⟩ := x
      have hus : s.Parent.unremoveMalloc Address
          = { s.Parent with Mallocs := Function.update s.Parent.Mallocs Address (some e0)
                            PreviousMallocs := rest } := by
        simp [ProcessState.unremoveMalloc, h5, hprev]
      have hur : r.Parent.unremoveMalloc Address
          = { r.Parent with Mallocs := Function.update r.Parent.Mallocs Address (some e0)
                            PreviousMallocs := rest } := by
        simp [ProcessState.unremoveMalloc, hprev]
      rw [hur] at hr
      rw [hus]
      simp only [Function.update_same, Except.ok.injEq, restoreProcessTimes_eq] at hr ⊢
      subst hr
      refine ⟨_, rfl, ⟨h1, h2, h3, ?_, rfl, h6, h7, h8, h9⟩, rfl⟩
      intro a
      have := h4 a
      simp only [ProcessState.mallocSize, Function.update_apply] at this ⊢
      split
      · rfl
      · exact this
  case Realloc Address OldSize NewSize t =>
    simp only [removeEvent] at hr ⊢
    have hm := h4 Address
    simp only [ProcessState.mallocSize] at hm
    cases hrm : r.Parent.Mallocs Address with
    | none => simp [hrm] at hr
    | some Entry =>
      cases hsm : s.Parent.Mallocs Address with
      | none => simp [hrm, hsm] at hm
      | some Entry2 =>
        simp only [hrm, hsm, Except.ok.injEq, restoreProcessTimes_eq] at hr ⊢
        subst hr
        refine ⟨_, rfl, ⟨h1, h2, h3, ?_, h5, h6, h7, h8, h9⟩, rfl⟩
        intro a
        have := h4 a
        simp only [ProcessState.mallocSize, Function.update_apply] at this ⊢
        split
        · rfl
        · exact this
  case KnownRegionAdd Address Size Readable Writable =>
    simp only [removeEvent, Except.ok.injEq] at hr ⊢
    subst hr
    refine ⟨_, rfl, ⟨h1, h2, h3, h4, h5, h6, h7, h8, ?_⟩, rfl⟩
    simp only [ProcessState.removeKnownMemory, h9]
  case KnownRegionRemove Address Size Readable Writable =>
    simp only [removeEvent, bind_eq_ok, pure, Except.pure, Except.ok.injEq] at hr ⊢
    obtain ⟨p1, hp1, hr⟩ := hr
    subst hr
    simp only [ProcessState.addKnownMemory] at hp1 ⊢
    cases hk : r.Parent.KnownMemory Address with
    | some x => simp [hk] at hp1
    | none =>
      have hks : s.Parent.KnownMemory Address = none := by rw [h9, hk]
      simp only [hk, Except.ok.injEq] at hp1
      subst hp1
      simp only [hks]
      refine ⟨_, ⟨_, rfl, rfl⟩, ⟨h1, h2, h3, h4, h5, h6, h7, h8, ?_⟩, rfl⟩
      simp only [h9]
  case FileOpen FileAddress a b t =>
    simp only [removeEvent, Except.ok.injEq, restoreProcessTimes_eq] at hr ⊢
    subst hr
    refine ⟨_, rfl, ⟨h1, h2, h3, h4, h5, ?_, h7, h8, h9⟩, rfl⟩
    simp only [ProcessState.removeStream, h6]
  case FileWrite FileAddress a DataSize t =>
    simp only [removeEvent, ProcessState.getStream] at hr ⊢
    rw [h6]
    cases hst : r.Parent.Streams FileAddress with
    | none => simp [hst] at hr
    | some Stream =>
      simp only [hst, Except.ok.injEq, restoreProcessTimes_eq] at hr ⊢
      subst hr
      refine ⟨_, rfl, ⟨h1, h2, h3, h4, h5, ?_, h7, h8, h9⟩, rfl⟩
      simp only [ProcessState.setStream, h6]
  case FileWriteFromMemory FileAddress a DataSize t =>
    simp only [removeEvent, ProcessState.getStream] at hr ⊢
    rw [h6]
    cases hst : r.Parent.Streams FileAddress with
    | none => simp [hst] at hr
    | some Stream =>
      simp only [hst, Except.ok.injEq, restoreProcessTimes_eq] at hr ⊢
      subst hr
      refine ⟨_, rfl, ⟨h1, h2, h3, h4, h5, ?_, h7, h8, h9⟩, rfl⟩
      simp only [ProcessState.setStream, h6]
  case FileClose FileAddress t =>
    simp only [removeEvent, ProcessState.restoreStream] at hr ⊢
    rw [h7]
    cases hcl : r.Parent.StreamsClosed with
    | nil => simp [hcl] at hr
    | cons x rest =>
      obtain ⟨Handle, st⟩ := x
      simp only [hcl] at hr ⊢
      by_cases hh : Handle = FileAddress
      · simp only [hh, if_true, Except.ok.injEq, restoreProcessTimes_eq] at hr ⊢
        subst hr
        refine ⟨_, rfl, ⟨h1, h2, h3, h4, h5, ?_, rfl, h8, h9⟩, rfl⟩
        simp only [h6]
      · simp [hh] at hr
  case DirOpen DirAddress a t =>
    simp only [removeEvent, Except.ok.injEq, restoreProcessTimes_eq] at hr ⊢
    subst hr
    refine ⟨_, rfl, ⟨h1, h2, h3, h4, h5, h6, h7, ?_, h9⟩, rfl⟩
    simp only [ProcessState.removeDir, h8]
  case DirClose DirAddress DirnameOffset t =>
    simp only [removeEvent, bind_eq_ok, pure, Except.pure, Except.ok.injEq] at hr ⊢
    obtain ⟨p1, hp1, hr⟩ := hr
    subst hr
    simp only [ProcessState.addDir] at hp1 ⊢
    cases hk : r.Parent.Dirs DirAddress with
    | some x => simp [hk] at hp1
    | none =>
      have hks : s.Parent.Dirs DirAddress = none := by rw [h8, hk]
      simp only [hk, Except.ok.injEq] at hp1
      subst hp1
      simp only [hks, restoreProcessTimes_eq]
      refine ⟨_, ⟨_, rfl, rfl⟩, ⟨h1, h2, h3, h4, h5, h6, h7, ?_, h9⟩, rfl⟩
      simp only [h8]

/-- The number of runtime errors that `readdRuntimeErrors` attaches depends on
the log and the positions only. -/
theorem readdRuntimeErrors_length (T : ThreadTrace) (l : List Nat) :
    ∃ d : Nat, ∀ (s : State) (top : FunctionState) (rest : List FunctionState),
      s.Thread.CallStack = top :: rest →
      ∃ errs, errs.length = top.RuntimeErrors.length + d ∧
        readdRuntimeErrors T s l
          = .ok { s with Thread := { s.Thread with
                    CallStack := { top with RuntimeErrors := errs } :: rest } } := by
  induction l with
  | nil =>
    refine ⟨0, fun s top rest hcs => ⟨top.RuntimeErrors, rfl, ?_⟩⟩
    simp only [readdRuntimeErrors, ← hcs]
  | cons j l ih =>
    obtain ⟨d, hd⟩ := ih
    cases hev : T.events[j]? with
    | none =>
      refine ⟨d, fun s top rest hcs => ?_⟩
      unfold readdRuntimeErrors
      simp only [hev]
      exact hd s top rest hcs
    | some e =>
      by_cases htop : e = .RuntimeError true
      · subst htop
        refine ⟨d + 1, fun s top rest hcs => ?_⟩
        unfold readdRuntimeErrors
        simp only [hev, addRuntimeErrorEvent, Bool.not_true, Bool.false_eq_true, if_false,
          State.withTop, hcs]
        obtain ⟨errs, hlen, he⟩ := hd
          { s with Thread := { s.Thread with CallStack :=
              (top.addRuntimeError (deserializeRuntimeError T.events j) :: rest) } }
          (top.addRuntimeError (deserializeRuntimeError T.events j)) rest rfl
        refine ⟨errs, ?_, he⟩
        rw [hlen]
        simp only [FunctionState.addRuntimeError, List.length_append, List.length_singleton]
        omega
      · refine ⟨d, fun s top rest hcs => ?_⟩
        unfold readdRuntimeErrors
        simp only [hev]
        split
        · rename_i b hb
          simp only [Option.some.injEq] at hb
          cases b with
          | false =>
            simp only [addRuntimeErrorEvent, Bool.not_false, if_true]
            exact hd s top rest hcs
          | true => exact absurd hb htop
        · exact hd s top rest hcs

/-- What `makePreviousInstructionActive` does to the top frame: it sets the
active instruction and attaches a number of runtime errors that depends on the
log and the position only. -/
theorem makePreviousInstructionActive_length (T : ThreadTrace) (k : Nat) :
    ∃ d : Nat, ∀ (s : State) (top : FunctionState) (rest : List FunctionState),
      s.Thread.CallStack = top :: rest →
      ∃ a c errs, errs.length = top.RuntimeErrors.length + d ∧
        makePreviousInstructionActive T s k
          = .ok { s with Thread := { s.Thread with
                    CallStack := { top with ActiveInstruction := a,
                                            ActiveInstructionComplete := c,
                                            RuntimeErrors := errs } :: rest } } := by
  cases hfind : rfindInFunction Event.isInstruction T.events k with
  | none =>
    refine ⟨0, fun s top rest hcs => ⟨none, top.ActiveInstructionComplete, top.RuntimeErrors,
      rfl, ?_⟩⟩
    unfold makePreviousInstructionActive
    simp [hcs, hfind, State.withTop, FunctionState.clearActiveInstruction]
  | some Ref =>
    obtain ⟨-, e, he, hp⟩ := rfindInFunctionAux_some hfind
    simp only [Event.isInstruction, Option.isSome_iff_exists] at hp
    obtain ⟨Index, hIndex⟩ := hp
    obtain ⟨d, hd⟩ := readdRuntimeErrors_length T (List.range' Ref (k - Ref))
    refine ⟨d, fun s top rest hcs => ?_⟩
    unfold makePreviousInstructionActive
    simp only [hcs, hfind, he, hIndex, bind, Except.bind, State.withTop]
    cases hpre : e.isPreInstruction with
    | true =>
      simp only [Bool.not_true, Bool.false_eq_true, if_false]
      obtain ⟨errs, hlen, herr⟩ := hd
        { s with Thread := { s.Thread with CallStack :=
            ((top.rewindingToInstruction Index).setActiveInstructionIncomplete Index :: rest) } }
        _ rest rfl
      exact ⟨some Index, false, errs, hlen, herr⟩
    | false =>
      simp only [Bool.not_false, if_true]
      obtain ⟨errs, hlen, herr⟩ := hd
        { s with Thread := { s.Thread with CallStack :=
            ((top.rewindingToInstruction Index).setActiveInstructionComplete Index :: rest) } }
        _ rest rfl
      exact ⟨some Index, true, errs, hlen, herr⟩

/-- The retraction of a record that reads the call stack. -/
theorem removeEvent_sim_frame {P : ProcessTrace} {T : ThreadTrace} {n : Nat} {s r r2 : State}
    {Ev : Event} (h : Sim s r) (hr : removeEvent P T n r Ev = .ok r2)
    (hkind : (∃ a b c d, Ev = .FunctionStart a b c d) ∨ (∃ a, Ev = .FunctionEnd a) ∨
      (∃ a, Ev = .StackRestore a) ∨ (∃ a b, Ev = .Alloca a b) ∨
      (∃ a b c, Ev = .ByValRegionAdd a b c) ∨ (∃ a, Ev = .RuntimeError a)) :
    ∃ s2, removeEvent P T n s Ev = .ok s2 ∧ Sim s2 r2 ∧
      s2.Parent.ProcessTime = s.Parent.ProcessTime := by
  obtain ⟨h1, h2, h3, h4, h5, h6, h7, h8, h9⟩ := h
  rcases hkind with ⟨a, b, c, d, rfl⟩ | ⟨a, rfl⟩ | ⟨a, rfl⟩ | ⟨a, b, rfl⟩ | ⟨a, b, c, rfl⟩ |
    ⟨a, rfl⟩
  · -- FunctionStart
    simp only [removeEvent] at hr ⊢
    cases hrc : r.Thread.CallStack with
    | nil => simp [hrc] at hr
    | cons top rest =>
      rw [hrc] at h3
      cases hsc : s.Thread.CallStack with
      | nil => rw [hsc] at h3; cases h3
      | cons tops rests =>
        rw [hsc] at h3
        cases h3 with
        | cons hf htl =>
          simp only [hrc, bind_eq_ok, assert_eq_ok, pure, Except.pure, Except.ok.injEq,
            exists_prop, exists_const] at hr ⊢
          obtain ⟨hidx, hr⟩ := hr
          subst hr
          refine ⟨_, ⟨by rw [hf.Index]; exact hidx, rfl⟩,
            ⟨h1, h2, htl, h4, h5, h6, h7, h8, h9⟩, rfl⟩
  · -- FunctionEnd
    simp only [removeEvent] at hr ⊢
    rw [h2]
    cases hcomp : r.Thread.m_CompletedFunctions with
    | nil => simp [hcomp] at hr
    | cons StateRef rest =>
      simp only [hcomp, Except.ok.injEq] at hr ⊢
      subst hr
      exact ⟨_, rfl, ⟨h1, rfl, .cons (frameSim_refl _) h3, h4, h5, h6, h7, h8, h9⟩, rfl⟩
  · -- StackRestore
    simp only [removeEvent] at hr ⊢
    cases hrc : r.Thread.CallStack with
    | nil => simp [hrc] at hr
    | cons top rest =>
      rw [hrc] at h3
      cases hsc : s.Thread.CallStack with
      | nil => rw [hsc] at h3; cases h3
      | cons tops rests =>
        rw [hsc] at h3
        cases h3 with
        | cons hf htl =>
          simp only [hrc, FunctionState.unremoveAllocas] at hr ⊢
          rw [hf.ClearedAllocas, hf.Allocas]
          by_cases hcount : a ≤ top.ClearedAllocas.length
          · simp only [hcount, if_true, bind, Except.bind, pure, Except.pure,
              Except.ok.injEq] at hr ⊢
            subst hr
            exact ⟨_, rfl, ⟨h1, h2, .cons ⟨hf.Index, rfl, rfl, hf.Errors⟩ htl, h4, h5, h6, h7,
              h8, h9⟩, rfl⟩
          · simp [hcount, bind, Except.bind] at hr
  · -- Alloca
    simp only [removeEvent] at hr ⊢
    cases hrc : r.Thread.CallStack with
    | nil => simp [hrc] at hr
    | cons top rest =>
      rw [hrc] at h3
      cases hsc : s.Thread.CallStack with
      | nil => rw [hsc] at h3; cases h3
      | cons tops rests =>
        rw [hsc] at h3
        cases h3 with
        | cons hf htl =>
          simp only [hrc] at hr ⊢
          rw [hf.Allocas]
          cases hlast : top.Allocas.getLast? with
          | none => simp [hlast] at hr
          | some Alloca =>
            simp only [hlast, Except.ok.injEq] at hr ⊢
            subst hr
            exact ⟨_, rfl, ⟨h1, h2, .cons ⟨hf.Index, rfl, hf.ClearedAllocas, hf.Errors⟩ htl, h4, h5,
              h6, h7, h8, h9⟩, rfl⟩
  · -- ByValRegionAdd
    simp only [removeEvent, State.withTop] at hr ⊢
    cases hrc : r.Thread.CallStack with
    | nil => simp [hrc, bind, Except.bind] at hr
    | cons top rest =>
      rw [hrc] at h3
      cases hsc : s.Thread.CallStack with
      | nil => rw [hsc] at h3; cases h3
      | cons tops rests =>
        rw [hsc] at h3
        cases h3 with
        | cons hf htl =>
          simp only [hrc, bind, Except.bind, pure, Except.pure, Except.ok.injEq] at hr ⊢
          subst hr
          exact ⟨_, rfl, ⟨h1, h2, .cons ⟨hf.Index, hf.Allocas, hf.ClearedAllocas, hf.Errors⟩ htl,
            h4, h5, h6, h7, h8, h9⟩, rfl⟩
  · -- RuntimeError
    simp only [removeEvent] at hr ⊢
    cases a with
    | false =>
      simp only [Bool.not_false, if_true, Except.ok.injEq] at hr ⊢
      subst hr
      exact ⟨_, rfl, ⟨h1, h2, h3, h4, h5, h6, h7, h8, h9⟩, rfl⟩
    | true =>
      simp only [Bool.not_true, Bool.false_eq_true, if_false, State.withTop] at hr ⊢
      cases hrc : r.Thread.CallStack with
      | nil => simp [hrc] at hr
      | cons top rest =>
        rw [hrc] at h3
        cases hsc : s.Thread.CallStack with
        | nil => rw [hsc] at h3; cases h3
        | cons tops rests =>
          rw [hsc] at h3
          cases h3 with
          | cons hf htl =>
            simp only [hrc, FunctionState.removeLastRuntimeError] at hr ⊢
            by_cases hempty : top.RuntimeErrors = []
            · simp [hempty] at hr
            · have hlen : 0 < top.RuntimeErrors.length := List.length_pos.mpr hempty
              have hle := hf.Errors
              have hs : tops.RuntimeErrors ≠ [] := by
                intro he
                rw [he, List.length_nil] at hle
                omega
              simp only [hempty, hs, if_false, Except.ok.injEq] at hr ⊢
              subst hr
              refine ⟨_, rfl, ⟨h1, h2, .cons ⟨hf.Index, hf.Allocas, hf.ClearedAllocas, ?_⟩ htl,
                h4, h5, h6, h7, h8, h9⟩, rfl⟩
              simp only [List.length_dropLast]
              omega

/-- The retraction of an instruction record. -/
theorem removeInstruction_sim {T : ThreadTrace} {n : Nat} {s r r2 : State}
    (h : Sim s r) (hr : removeInstruction T n r = .ok r2) :
    ∃ s2, removeInstruction T n s = .ok s2 ∧ Sim s2 r2 ∧
      s2.Parent.ProcessTime = s.Parent.ProcessTime := by
  obtain ⟨h1, h2, h3, h4, h5, h6, h7, h8, h9⟩ := h
  obtain ⟨d, hd⟩ := makePreviousInstructionActive_length T n
  cases hrc : r.Thread.CallStack with
  | nil => simp [removeInstruction, makePreviousInstructionActive, hrc, bind, Except.bind] at hr
  | cons top rest =>
    rw [hrc] at h3
    cases hsc : s.Thread.CallStack with
    | nil => rw [hsc] at h3; cases h3
    | cons tops rests =>
      rw [hsc] at h3
      cases h3 with
      | cons hf htl =>
        obtain ⟨ar, cr, er, hlr, hokr⟩ := hd r top rest hrc
        obtain ⟨as, cs, es, hls, hoks⟩ := hd s tops rests hsc
        simp only [removeInstruction, hokr, hoks, bind, Except.bind, pure, Except.pure,
          Except.ok.injEq] at hr ⊢
        subst hr
        refine ⟨_, rfl, ⟨h1, h2, .cons ⟨hf.Index, hf.Allocas, hf.ClearedAllocas, ?_⟩ htl,
          h4, h5, h6, h7, h8, h9⟩, rfl⟩
        have hle := hf.Errors
        show er.length ≤ es.length
        omega

theorem removeEvent_sim {P : ProcessTrace} {T : ThreadTrace} {n : Nat} {s r r2 : State}
    {Ev : Event} (h : Sim s r) (hr : removeEvent P T n r Ev = .ok r2) :
    ∃ s2, removeEvent P T n s Ev = .ok s2 ∧ Sim s2 r2 ∧
      s2.Parent.ProcessTime =
        (match Ev.sharedProcessTime with
         | some t => sub1 t
         | none => s.Parent.ProcessTime) := by
  by_cases hi : Ev.isInstruction = true
  · rw [removeEvent_instruction hi] at hr ⊢
    rw [sharedProcessTime_instruction hi]
    exact removeInstruction_sim h hr
  · simp only [Bool.not_eq_true] at hi
    by_cases hkind : (∃ a b c d, Ev = .FunctionStart a b c d) ∨ (∃ a, Ev = .FunctionEnd a) ∨
      (∃ a, Ev = .StackRestore a) ∨ (∃ a b, Ev = .Alloca a b) ∨
      (∃ a b c, Ev = .ByValRegionAdd a b c) ∨ (∃ a, Ev = .RuntimeError a)
    · obtain ⟨s2, g1, g2, g3⟩ := removeEvent_sim_frame h hr hkind
      refine ⟨s2, g1, g2, ?_⟩
      rw [g3]
      rcases hkind with ⟨a, b, c, d, rfl⟩ | ⟨a, rfl⟩ | ⟨a, rfl⟩ | ⟨a, b, rfl⟩ | ⟨a, b, c, rfl⟩ |
        ⟨a, rfl⟩ <;> rfl
    · simp only [not_or, not_exists] at hkind
      obtain ⟨k1, k2, k3, k4, k5, k6⟩ := hkind
      exact removeEvent_sim_parent h hr hi k1 k2 k3 k4 k5 k6

/-- A retraction from a state that shares with a replayed state what
retractions read returns when the retraction from the replayed state does,
and the two results share it again; the shared process time afterwards is one
below the stamp of the record when the record writes the shared process time,
and is unchanged otherwise. -/
theorem removePreviousEvent_sim {P : ProcessTrace} {T : ThreadTrace} {s r r2 : State}
    (h : Sim s r) (hr : removePreviousEvent P T r = .ok r2) :
    ∃ s2 n Ev, removePreviousEvent P T s = .ok s2 ∧ Sim s2 r2 ∧
      s.Thread.NextEvent = n + 1 ∧ T.events[n]? = some Ev ∧
      s2.Parent.ProcessTime =
        (match Ev.sharedProcessTime with
         | some t => sub1 t
         | none => s.Parent.ProcessTime) := by
  obtain ⟨n, Ev, hn, hev, hrest⟩ := removePreviousEvent_eq_ok hr
  have hns : s.Thread.NextEvent = n + 1 := by rw [h.NextEvent, hn]
  have hsim1 : Sim { s with Thread := { s.Thread with NextEvent := n } }
      { r with Thread := { r.Thread with NextEvent := n } } :=
    ⟨rfl, h.Completed, h.Frames, h.MallocSizes, h.PreviousMallocs, h.Streams, h.StreamsClosed,
      h.Dirs, h.KnownMemory⟩
  cases hsub : Ev.isSubservient with
  | true =>
    simp only [hsub, if_true] at hrest
    subst hrest
    refine ⟨_, n, Ev, ?_, hsim1, hns, hev, ?_⟩
    · simp only [removePreviousEvent, hns, hev, hsub, if_true]
    · cases Ev <;> simp only [Event.isSubservient, Bool.false_eq_true] at hsub
      rfl
  | false =>
    simp only [hsub, Bool.false_eq_true, if_false] at hrest
    obtain ⟨s2, g1, g2, g3⟩ := removeEvent_sim hsim1 hrest
    refine ⟨s2, n, Ev, ?_, g2, hns, hev, g3⟩
    simp only [removePreviousEvent, hns, hev, hsub, Bool.false_eq_true, if_false]
    exact g1

theorem setValue_errors {f f2 : FunctionState} {i : Option Nat} {v : RuntimeValue}
    (h : f.setValue i v = .ok f2) : f2.RuntimeErrors = f.RuntimeErrors := by
  unfold FunctionState.setValue at h
  split at h
  · simp at h
  · simp only [Except.ok.injEq] at h
    subst h
    rfl

theorem addInstructionWithValue_errors {T : ThreadTrace} {s sA : State} {Index : Nat}
    {v : RuntimeValue} (h : addInstructionWithValue T s Index v = .ok sA) :
    ∃ top rest top1, s.Thread.CallStack = top :: rest ∧ top1.layout = top.layout ∧
      top1.RuntimeErrors = top.RuntimeErrors ∧
      sA = incrementThreadTime T { s with Thread := { s.Thread with CallStack := top1 :: rest } } := by
  simp only [addInstructionWithValue, bind_eq_ok, pure, Except.pure, Except.ok.injEq] at h
  obtain ⟨s1, hs1, h⟩ := h
  obtain ⟨top, rest, top1, hcs, hg, hs1⟩ := withTop_eq_ok hs1
  simp only [bind_eq_ok, pure, Except.pure, Except.ok.injEq] at hg
  obtain ⟨f2, hf2, hg⟩ := hg
  subst hg
  subst hs1
  refine ⟨top, rest, _, hcs, ?_, ?_, h.symm⟩
  · have := setValue_layout hf2
    simpa [FunctionState.layout, FunctionState.setActiveInstructionComplete,
      FunctionState.forwardingToInstruction] using this
  · have := setValue_errors hf2
    simpa [FunctionState.setActiveInstructionComplete,
      FunctionState.forwardingToInstruction] using this

/-- Applying an instruction record changes the top frame only, and neither
its layout nor the runtime errors attached to it. -/
theorem addEvent_instruction_errors {P : ProcessTrace} {T : ThreadTrace} {k : Nat}
    {s sA : State} {Ev : Event} (hi : Ev.isInstruction = true)
    (h : addEvent P T k s Ev = .ok sA) :
    ∃ top rest top1, s.Thread.CallStack = top :: rest ∧ top1.layout = top.layout ∧
      top1.RuntimeErrors = top.RuntimeErrors ∧
      sA = incrementThreadTime T { s with Thread := { s.Thread with CallStack := top1 :: rest } } := by
  cases Ev <;> simp only [Event.isInstruction, Event.getIndex, Option.isSome_none,
    Bool.false_eq_true] at hi
  case PreInstruction Index =>
    simp only [addEvent, bind_eq_ok, pure, Except.pure, Except.ok.injEq] at h
    obtain ⟨s1, hs1, h⟩ := h
    obtain ⟨top, rest, top1, hcs, hg, hs1⟩ := withTop_eq_ok hs1
    simp only [Except.ok.injEq] at hg
    subst hg
    subst hs1
    refine ⟨top, rest, _, hcs, ?_, ?_, h.symm⟩
    · simp [FunctionState.layout, FunctionState.setActiveInstructionIncomplete,
        FunctionState.forwardingToInstruction]
    · rfl
  case Instruction Index =>
    simp only [addEvent, bind_eq_ok, pure, Except.pure, Except.ok.injEq] at h
    obtain ⟨s1, hs1, h⟩ := h
    obtain ⟨top, rest, top1, hcs, hg, hs1⟩ := withTop_eq_ok hs1
    simp only [Except.ok.injEq] at hg
    subst hg
    subst hs1
    refine ⟨top, rest, _, hcs, ?_, ?_, h.symm⟩
    · simp [FunctionState.layout, FunctionState.setActiveInstructionComplete,
        FunctionState.forwardingToInstruction]
    · rfl
  case InstructionWithUInt8 => exact addInstructionWithValue_errors h
  case InstructionWithUInt16 => exact addInstructionWithValue_errors h
  case InstructionWithUInt32 => exact addInstructionWithValue_errors h
  case InstructionWithUInt64 => exact addInstructionWithValue_errors h
  case InstructionWithPtr => exact addInstructionWithValue_errors h
  case InstructionWithFloat => exact addInstructionWithValue_errors h
  case InstructionWithDouble => exact addInstructionWithValue_errors h
  case InstructionWithLongDouble Index w1 w2 =>
    simp only [addEvent, bind_eq_ok, pure, Except.pure, Except.ok.injEq] at h
    obtain ⟨s1, hs1, h⟩ := h
    obtain ⟨top, rest, top1, hcs, hg, hs1⟩ := withTop_eq_ok hs1
    subst hs1
    refine ⟨top, rest, top1, hcs, ?_, ?_, h.symm⟩
    · split at hg
      · split at hg
        · simp only [bind_eq_ok, pure, Except.pure, Except.ok.injEq] at hg
          obtain ⟨f2, hf2, hg⟩ := hg
          subst hg
          have := setValue_layout hf2
          simpa [FunctionState.layout, FunctionState.setActiveInstructionComplete,
            FunctionState.forwardingToInstruction] using this
        · simp at hg
      · simp at hg
    · split at hg
      · split at hg
        · simp only [bind_eq_ok, pure, Except.pure, Except.ok.injEq] at hg
          obtain ⟨f2, hf2, hg⟩ := hg
          subst hg
          have := setValue_errors hf2
          simpa [FunctionState.setActiveInstructionComplete,
            FunctionState.forwardingToInstruction] using this
        · simp at hg
      · simp at hg

/-- In a well-formed log, the state that the retraction of the record at
position `k` gives shares with the replayed state at `k` what retractions
read. -/
theorem roundTrip_sim {P : ProcessTrace} {T : ThreadTrace} {Parent : ProcessState}
    (hwf : WellFormed P T Parent) {k : Nat} (hk : k < T.events.length) :
    ∃ s s1 s2, replay P T Parent k = .ok s ∧ replay P T Parent (k + 1) = .ok s1 ∧
      removePreviousEvent P T s1 = .ok s2 ∧ Sim s2 s := by
  obtain ⟨s, Ev, s1, s2, hs, hev, hc, hadd, hs1, hrem, hres⟩ := wellFormed_roundTrip hwf hk
  refine ⟨s, s1, s2, hs, hs1, hrem, ?_⟩
  have hn := replay_nextEvent hs
  cases hi : Ev.isInstruction with
  | false =>
    refine ⟨hres.NextEvent, hres.Completed, ?_, hres.MallocSizes, hres.PreviousMallocs,
      hres.Streams, hres.StreamsClosed, hres.Dirs, hres.KnownMemory⟩
    rw [hres.CallStack hi]
    exact forall₂_frameSim_refl _
  | true =>
    refine ⟨hres.NextEvent, hres.Completed, ?_, hres.MallocSizes, hres.PreviousMallocs,
      hres.Streams, hres.StreamsClosed, hres.Dirs, hres.KnownMemory⟩
    obtain ⟨Ev2, sA, hev2, -, hadd2, hs1eq⟩ := addNextEvent_eq_ok hadd
    rw [hn, hev] at hev2
    simp only [Option.some.injEq] at hev2
    subst hev2
    have hsub : Ev.isSubservient = false := by
      cases Ev <;> first
        | rfl
        | (simp [Event.isInstruction, Event.getIndex] at hi)
    simp only [hsub, Bool.false_eq_true, if_false] at hadd2
    obtain ⟨top, rest, top1, hcs, hlay, herrs, hsA⟩ := addEvent_instruction_errors hi hadd2
    obtain ⟨n, Ev3, hn3, hev3, hrest⟩ := removePreviousEvent_eq_ok hrem
    have hs1n : s1.Thread.NextEvent = k + 1 := replay_nextEvent hs1
    have hnk : n = k := by omega
    subst hnk
    rw [hev] at hev3
    simp only [Option.some.injEq] at hev3
    subst hev3
    simp only [hsub, Bool.false_eq_true, if_false] at hrest
    rw [removeEvent_instruction hi] at hrest
    obtain ⟨d, hd⟩ := makePreviousInstructionActive_length T n
    have hcs1 : ({ s1 with Thread := { s1.Thread with NextEvent := n } } : State).Thread.CallStack
        = top1 :: rest := by
      rw [hs1eq, hsA]
      rfl
    obtain ⟨a, c, errs, hlen, hok⟩ := hd _ top1 rest hcs1
    simp only [removeInstruction, hok, bind, Except.bind, pure, Except.pure,
      Except.ok.injEq] at hrest
    subst hrest
    rw [hcs]
    refine .cons ⟨?_, ?_, ?_, ?_⟩ (forall₂_frameSim_refl _)
    · show top1.Index = top.Index
      exact (congrArg FunctionState.Index hlay : top1.layout.Index = top.layout.Index)
    · show top1.Allocas = top.Allocas
      exact (congrArg FunctionState.Allocas hlay : top1.layout.Allocas = top.layout.Allocas)
    · show top1.ClearedAllocas = top.ClearedAllocas
      exact (congrArg FunctionState.ClearedAllocas hlay :
        top1.layout.ClearedAllocas = top.layout.ClearedAllocas)
    · show top.RuntimeErrors.length ≤ errs.length
      rw [hlen, herrs]
      omega

/-! ## Movement to a process time -/

theorem stampLog_wellFormed : WellFormed exampleProcess stampLog ProcessState.empty := by
  decide

/-- C29 (counterexample): the log has the stamps 1, 2, 5, 8, so that with the
time 0 of the initial state the stamps are 0, 1, 2, 5, 8. From the state at
the end of the log, at time 8, `moveToTime(4)` returns true and leaves the
state before the third record with the process time 4, which is no stamp, and
not at time 2; one forward step from there reaches 5. `moveToTime(5)` from the
end leaves the process time 4 as well, although 5 is a stamp. From the state at
time 1, `moveToTime(4)` reaches 2. -/
theorem moveToTime_between_stamps :
    movedTo (replay exampleProcess stampLog ProcessState.empty 4
        >>= fun s => moveToTime exampleProcess stampLog s 4) = some (true, 2, 4) ∧
    movedTo (replay exampleProcess stampLog ProcessState.empty 4
        >>= fun s => moveToTime exampleProcess stampLog s 4
        >>= fun r => moveForward exampleProcess stampLog r.2) = some (true, 3, 5) ∧
    movedTo (replay exampleProcess stampLog ProcessState.empty 4
        >>= fun s => moveToTime exampleProcess stampLog s 5) = some (true, 2, 4) ∧
    movedTo (replay exampleProcess stampLog ProcessState.empty 1
        >>= fun s => moveToTime exampleProcess stampLog s 4) = some (true, 2, 2) := by
  refine ⟨by decide, by decide, by decide, by decide⟩

theorem nextSharedFrom_some {l : List Event} {j i p : Nat}
    (h : nextSharedFrom l j = some (i, p)) :
    j ≤ i ∧ ∃ e, l[i - j]? = some e ∧ e.sharedProcessTime = some p ∧
      ∀ i2 e2, i2 < i - j → l[i2]? = some e2 → e2.sharedProcessTime = none := by
  induction l generalizing j with
  | nil => simp [nextSharedFrom] at h
  | cons e rest ih =>
    unfold nextSharedFrom at h
    cases hs : e.sharedProcessTime with
    | some q =>
      simp only [hs, Option.some.injEq, Prod.mk.injEq] at h
      obtain ⟨rfl, rfl⟩ := h
      refine ⟨le_refl _, e, by simp, hs, ?_⟩
      intro i2 e2 hi2
      omega
    | none =>
      simp only [hs] at h
      obtain ⟨hle, e1, he1, hp, hbefore⟩ := ih h
      refine ⟨by omega, e1, ?_, hp, ?_⟩
      · have : i - j = (i - (j + 1)) + 1 := by omega
        rw [this, List.getElem?_cons_succ]
        exact he1
      · intro i2 e2 hi2 he2
        cases i2 with
        | zero =>
          simp only [List.getElem?_cons_zero, Option.some.injEq] at he2
          subst he2
          exact hs
        | succ i3 =>
          rw [List.getElem?_cons_succ] at he2
          exact hbefore i3 e2 (by omega) he2

theorem nextSharedFrom_none {l : List Event} {j : Nat} (h : nextSharedFrom l j = none) :
    ∀ (i2 : Nat) (e2 : Event), l[i2]? = some e2 → e2.sharedProcessTime = none := by
  induction l generalizing j with
  | nil => intro i2 e2 he2; simp at he2
  | cons e rest ih =>
    unfold nextSharedFrom at h
    cases hs : e.sharedProcessTime with
    | some q => simp [hs] at h
    | none =>
      simp only [hs] at h
      intro i2 e2 he2
      cases i2 with
      | zero =>
        simp only [List.getElem?_cons_zero, Option.some.injEq] at he2
        subst he2
        exact hs
      | succ i3 =>
        rw [List.getElem?_cons_succ] at he2
        exact ih h i3 e2 he2

/-- What `nextShared` finds: the first record at or after `k` that writes the
shared process time. -/
theorem nextShared_some {events : List Event} {k i p : Nat}
    (h : nextShared events k = some (i, p)) :
    k ≤ i ∧ i < events.length ∧ ∃ e, events[i]? = some e ∧ e.sharedProcessTime = some p ∧
      ∀ i2 e2, k ≤ i2 → i2 < i → events[i2]? = some e2 → e2.sharedProcessTime = none := by
  obtain ⟨hle, e, he, hp, hbefore⟩ := nextSharedFrom_some h
  rw [List.getElem?_drop] at he
  have hki : k + (i - k) = i := by omega
  rw [hki] at he
  refine ⟨hle, ?_, e, he, hp, ?_⟩
  · by_contra hlen
    rw [List.getElem?_eq_none (by omega)] at he
    cases he
  · intro i2 e2 h1 h2 he2
    apply hbefore (i2 - k) e2 (by omega)
    rw [List.getElem?_drop]
    have : k + (i2 - k) = i2 := by omega
    rw [this]
    exact he2

theorem nextShared_none {events : List Event} {k : Nat} (h : nextShared events k = none) :
    ∀ i2 e2, k ≤ i2 → events[i2]? = some e2 → e2.sharedProcessTime = none := by
  intro i2 e2 h1 he2
  apply nextSharedFrom_none h (i2 - k) e2
  rw [List.getElem?_drop]
  have : k + (i2 - k) = i2 := by omega
  rw [this]
  exact he2

theorem advance_succ_left (P : ProcessTrace) (T : ThreadTrace) (d : Nat) (s : State) :
    advance P T (d + 1) s =
      match addNextEvent P T s with
      | .error e => .error e
      | .ok s1 => advance P T d s1 := by
  induction d with
  | zero =>
    simp only [advance]
    cases addNextEvent P T s <;> rfl
  | succ d ih =>
    rw [advance, ih]
    cases h : addNextEvent P T s with
    | error e => rfl
    | ok s1 => simp only [advance]

/-- Advancing from a replayed state gives the replayed state further on. -/
theorem advance_replay {P : ProcessTrace} {T : ThreadTrace} {Parent : ProcessState} {m : Nat}
    {s : State} (hs : replay P T Parent m = .ok s) (d : Nat) :
    advance P T d s = replay P T Parent (m + d) := by
  induction d with
  | zero => simp only [advance, Nat.add_zero, hs]
  | succ d ih =>
    rw [advance, ih]
    rfl

/-- The shared stamps of a well-formed log do not decrease with the
position. -/
theorem shared_mono {events : List Event} (hmono : stampsFrom 1 (stamps events) = true)
    {i j : Nat} {e1 e2 : Event} {q p : Nat} (hij : i ≤ j)
    (h1 : events[i]? = some e1) (hq : e1.sharedProcessTime = some q)
    (h2 : events[j]? = some e2) (hp : e2.sharedProcessTime = some p) : q ≤ p := by
  rcases Nat.lt_or_eq_of_le hij with hlt | heq
  · have a1 := shared_le_lastShared hmono hlt h1 hq
    have a2 := (lastShared_le_stamp hmono h2 (sharedProcessTime_eq_some hp)).2
    exact le_trans a1 a2
  · subst heq
    rw [h1] at h2
    simp only [Option.some.injEq] at h2
    subst h2
    rw [hq] at hp
    simp only [Option.some.injEq] at hp
    exact le_of_eq hp

/-- The advances of `moveToTime` from a replayed state of a well-formed log:
they return the replayed state at the position after the last record whose
shared stamp is not above `t`. -/
theorem moveForwardTo_replay {P : ProcessTrace} {T : ThreadTrace} {Parent : ProcessState}
    (hwf : WellFormed P T Parent) (t : Nat) (fuel : Nat) :
    ∀ (m : Nat) (s : State), m ≤ T.events.length → replay P T Parent m = .ok s →
      T.events.length - m ≤ fuel → s.Parent.ProcessTime ≤ t →
      ∃ b s2, moveForwardTo P T t fuel s = .ok (b, s2) ∧
        m ≤ s2.Thread.NextEvent ∧ s2.Thread.NextEvent ≤ T.events.length ∧
        replay P T Parent s2.Thread.NextEvent = .ok s2 ∧
        (b = true ↔ s2.Thread.NextEvent ≠ m) ∧ (b = false → s2 = s) ∧
        s2.Parent.ProcessTime ≤ t ∧
        (∀ i e p, s2.Thread.NextEvent ≤ i → T.events[i]? = some e →
          e.sharedProcessTime = some p → t < p) := by
  induction fuel with
  | zero =>
    intro m s hm hs hfuel hpt
    have hmlen : m = T.events.length := by omega
    refine ⟨false, s, rfl, ?_, ?_, ?_, ?_, fun _ => rfl, hpt, ?_⟩
    · rw [replay_nextEvent hs]
    · rw [replay_nextEvent hs]; exact hm
    · rw [replay_nextEvent hs]; exact hs
    · rw [replay_nextEvent hs]; simp
    · intro i e p hi he
      rw [replay_nextEvent hs] at hi
      rw [List.getElem?_eq_none (by omega)] at he
      cases he
  | succ fuel ih =>
    intro m s hm hs hfuel hpt
    have hn := replay_nextEvent hs
    unfold moveForwardTo
    rw [hn]
    cases hnext : nextShared T.events m with
    | none =>
      refine ⟨false, s, rfl, by rw [hn], by rw [hn]; exact hm, by rw [hn]; exact hs,
        by rw [hn]; simp, fun _ => rfl, hpt, ?_⟩
      intro i e p hi he hp
      rw [hn] at hi
      have := nextShared_none hnext i e hi he
      rw [this] at hp
      cases hp
    | some jp =>
      obtain ⟨j, p⟩ := jp
      obtain ⟨hkj, hjlen, e, he, hp, hbefore⟩ := nextShared_some hnext
      by_cases hpt2 : p ≤ t
      · simp only [hpt2, if_true]
        have hadv := advance_replay hs (j + 1 - m)
        have hmj : m + (j + 1 - m) = j + 1 := by omega
        rw [hmj] at hadv
        obtain ⟨s1, hs1⟩ := @wellFormed_replay P T Parent hwf (j + 1) (by omega)
        rw [hadv, hs1]
        obtain ⟨-, -, hshared, -⟩ := replay_invariant hwf (by omega) hs1
        have hs1pt : s1.Parent.ProcessTime = p := by
          rw [hshared, lastShared_succ T.events j e he, hp]
          rfl
        obtain ⟨b, s2, hmv, g1, g2, g3, g4, g5, g6, g7⟩ :=
          ih (j + 1) s1 (by omega) hs1 (by omega) (by rw [hs1pt]; exact hpt2)
        simp only [hmv]
        refine ⟨true, s2, rfl, by omega, g2, g3, ?_, ?_, g6, g7⟩
        · simp only [true_iff]
          omega
        · intro hb
          cases hb
      · simp only [hpt2, if_false]
        refine ⟨false, s, rfl, by rw [hn], by rw [hn]; exact hm, by rw [hn]; exact hs,
          by rw [hn]; simp, fun _ => rfl, hpt, ?_⟩
        intro i e2 p2 hi he2 hp2
        rw [hn] at hi
        by_cases hij : i < j
        · have := hbefore i e2 hi hij he2
          rw [this] at hp2
          cases hp2
        · have := shared_mono hwf.2.2.1 (Nat.le_of_not_lt hij) he hp he2 hp2
          omega

/-- The retractions of `moveToTime` from a state that shares with the replayed
state at position `m` of a well-formed log what retractions read: they return,
and stop at the first position from which the shared process time is not above
`t`, or at position 0. -/
theorem moveBackwardTo_sim {P : ProcessTrace} {T : ThreadTrace} {Parent : ProcessState}
    (hwf : WellFormed P T Parent) (t : Nat) (fuel : Nat) :
    ∀ (m : Nat) (s r : State), m ≤ T.events.length → replay P T Parent m = .ok r →
      Sim s r → m ≤ fuel →
      ∃ b s2 r2, moveBackwardTo P T t fuel s = .ok (b, s2) ∧
        s2.Thread.NextEvent ≤ m ∧ replay P T Parent s2.Thread.NextEvent = .ok r2 ∧ Sim s2 r2 ∧
        (b = true ↔ s2.Thread.NextEvent ≠ m) ∧ (b = false → s2 = s) ∧
        (b = true → t < s.Parent.ProcessTime) ∧
        (s2.Parent.ProcessTime ≤ t ∨ s2.Thread.NextEvent = 0) ∧
        (∀ i e q, s2.Thread.NextEvent < i → i < m → T.events[i]? = some e →
          e.sharedProcessTime = some q → t < sub1 q) ∧
        s2.Parent.ProcessTime =
          (match nextShared T.events s2.Thread.NextEvent with
           | some (i, p) => if i < m then sub1 p else s.Parent.ProcessTime
           | none => s.Parent.ProcessTime) ∧
        (b = true → s2.Parent.ProcessTime ≤ t →
          ∃ e p, T.events[s2.Thread.NextEvent]? = some e ∧ e.sharedProcessTime = some p) := by
  have hstay : ∀ (m : Nat) (s r : State), replay P T Parent m = .ok r → Sim s r →
      (s.Parent.ProcessTime ≤ t ∨ s.Thread.NextEvent = 0) →
      s.Thread.NextEvent ≤ m ∧ replay P T Parent s.Thread.NextEvent = .ok r ∧ Sim s r ∧
        (false = true ↔ s.Thread.NextEvent ≠ m) ∧ (false = false → s = s) ∧
        (false = true → t < s.Parent.ProcessTime) ∧
        (s.Parent.ProcessTime ≤ t ∨ s.Thread.NextEvent = 0) ∧
        (∀ i e q, s.Thread.NextEvent < i → i < m → T.events[i]? = some e →
          e.sharedProcessTime = some q → t < sub1 q) ∧
        s.Parent.ProcessTime =
          (match nextShared T.events s.Thread.NextEvent with
           | some (i, p) => if i < m then sub1 p else s.Parent.ProcessTime
           | none => s.Parent.ProcessTime) ∧
        (false = true → s.Parent.ProcessTime ≤ t →
          ∃ e p, T.events[s.Thread.NextEvent]? = some e ∧ e.sharedProcessTime = some p) := by
    intro m s r hr hsim hstop
    have hn : s.Thread.NextEvent = m := by rw [hsim.NextEvent, replay_nextEvent hr]
    refine ⟨by omega, ?_, hsim, ?_, fun _ => rfl, ?_, hstop, ?_, ?_, ?_⟩
    · rw [hn]; exact hr
    · simp [hn]
    · intro h; cases h
    · intro i e q h1 h2
      omega
    rotate_left
    · intro h; cases h
    · rw [hn]
      cases hnext : nextShared T.events m with
      | none => rfl
      | some ip =>
        obtain ⟨i, p⟩ := ip
        have := (nextShared_some hnext).1
        simp only [if_neg (Nat.not_lt.mpr this)]
  induction fuel with
  | zero =>
    intro m s r hm hr hsim hfuel
    have hn : s.Thread.NextEvent = m := by rw [hsim.NextEvent, replay_nextEvent hr]
    exact ⟨false, s, r, rfl, hstay m s r hr hsim (Or.inr (by omega))⟩
  | succ fuel ih =>
    intro m s r hm hr hsim hfuel
    have hn : s.Thread.NextEvent = m := by rw [hsim.NextEvent, replay_nextEvent hr]
    unfold moveBackwardTo
    by_cases hstop : s.Parent.ProcessTime ≤ t ∨ s.Thread.NextEvent = 0
    · simp only [hstop, if_true]
      exact ⟨false, s, r, rfl, hstay m s r hr hsim hstop⟩
    · simp only [hstop, if_false]
      obtain ⟨hpt, hne⟩ := not_or.mp hstop
      have hm1 : m - 1 < T.events.length := by omega
      obtain ⟨r0, r1, r2p, hr0, hr1, hrem, hsim0⟩ := roundTrip_sim hwf hm1
      have hmm : m - 1 + 1 = m := by omega
      rw [hmm, hr] at hr1
      simp only [Except.ok.injEq] at hr1
      subst hr1
      obtain ⟨s1, n, Ev, hrems, hsim1, hns, hev, hpt1⟩ := removePreviousEvent_sim hsim hrem
      have hnm : n = m - 1 := by omega
      subst hnm
      have hsim10 := sim_trans hsim1 hsim0
      have hn1 : s1.Thread.NextEvent = m - 1 := by
        rw [hsim10.NextEvent, replay_nextEvent hr0]
      obtain ⟨b, s2, r2, hmv, g1, g2, g3, g4, g5, g6, g7, g8, g9, g10⟩ :=
        ih (m - 1) s1 r0 (by omega) hr0 hsim10 (by omega)
      simp only [hrems, hmv]
      refine ⟨true, s2, r2, rfl, by omega, g2, g3, ?_, ?_,
        fun _ => Nat.lt_of_not_le hpt, g7, ?_, ?_, ?_⟩
      · simp only [true_iff]
        omega
      · intro h; cases h
      · intro i e q h1 h2 he hq
        by_cases hi : i < m - 1
        · exact g8 i e q h1 hi he hq
        · have him : i = m - 1 := by omega
          subst him
          rw [hev] at he
          simp only [Option.some.injEq] at he
          subst he
          have hb : b = true := g4.mpr (by omega)
          have := g6 hb
          rw [hpt1, hq] at this
          exact this
      · rw [g9]
        cases hnext : nextShared T.events s2.Thread.NextEvent with
        | none =>
          have hnone := nextShared_none hnext (m - 1) Ev g1 hev
          simp only [hpt1, hnone]
        | some ip =>
          obtain ⟨i, p⟩ := ip
          obtain ⟨hki, hilen, e, he, hp, hbefore⟩ := nextShared_some hnext
          simp only
          by_cases hi : i < m - 1
          · have hi2 : i < m := by omega
            simp only [hi, hi2, if_true]
          · simp only [hi, if_false]
            by_cases him : i = m - 1
            · subst him
              rw [hev] at he
              simp only [Option.some.injEq] at he
              subst he
              have hi2 : m - 1 < m := by omega
              simp only [hi2, if_true, hpt1, hp]
            · have hi2 : ¬ i < m := by omega
              have hnone := hbefore (m - 1) Ev g1 (by omega) hev
              simp only [hi2, if_false, hpt1, hnone]
      · intro _ hle
        cases hb : b with
        | true => exact g10 hb hle
        | false =>
          have hs2 := g5 hb
          subst hs2
          rw [hn1]
          cases hsh : Ev.sharedProcessTime with
          | some p => exact ⟨Ev, p, hev, hsh⟩
          | none =>
            rw [hpt1, hsh] at hle
            exact absurd hle hpt

theorem lastShared_eq_zero {events : List Event} {k : Nat} (hk : k ≤ events.length)
    (h : ∀ i e, i < k → events[i]? = some e → e.sharedProcessTime = none) :
    lastShared events k = 0 := by
  induction k with
  | zero => exact lastShared_zero events
  | succ k ih =>
    have hlt : k < events.length := by omega
    have hev : events[k]? = some events[k] := List.getElem?_eq_getElem hlt
    rw [lastShared_succ events k _ hev, h k _ (by omega) hev]
    exact ih (by omega) (fun i e hi he => h i e (by omega) he)

/-- C29 (as the code has it): take the state after the first `k` records of a
well-formed thread log and a target time `t`. `moveToTime` (modelled from the
spec over `addNextEvent` and `removePreviousEvent`) returns, and returns true
exactly when the state was moved. When the process time is not above `t`, the
state afterwards is a replayed state further on, its process time is at most
`t`, is at least every stamp of the log that is not above `t`, and so is `t`
when `t` is a stamp. When the process time is above `t`, records are
retracted, and since the retraction of a record stamped `p` leaves the process
time `p - 1`, the process time afterwards is `p - 1` for a retracted record,
the one retracted last when it is not above `t`; it is the closest such time
not above `t` when there is one (`t` itself when `t + 1` is a stamp), and need
not be a stamp. -/
theorem moveToTime_closest (P : ProcessTrace) (T : ThreadTrace) (Parent : ProcessState)
    (k t : Nat) (hwf : WellFormed P T Parent) (hk : k ≤ T.events.length) :
    ∃ s b s2, replay P T Parent k = .ok s ∧ moveToTime P T s t = .ok (b, s2) ∧
      (b = true ↔ s2.Thread.NextEvent ≠ s.Thread.NextEvent) ∧ (b = false → s2 = s) ∧
      (s.Parent.ProcessTime ≤ t →
        k ≤ s2.Thread.NextEvent ∧ replay P T Parent s2.Thread.NextEvent = .ok s2 ∧
        s2.Parent.ProcessTime ≤ t ∧
        (∀ (i : Nat) (e : Event) (p : Nat), T.events[i]? = some e →
          e.sharedProcessTime = some p → p ≤ t → p ≤ s2.Parent.ProcessTime) ∧
        (∀ (i : Nat) (e : Event), T.events[i]? = some e → e.sharedProcessTime = some t →
          s2.Parent.ProcessTime = t)) ∧
      (t < s.Parent.ProcessTime →
        s2.Thread.NextEvent < k ∧
        (∃ i e p, s2.Thread.NextEvent ≤ i ∧ i < k ∧ T.events[i]? = some e ∧
          e.sharedProcessTime = some p ∧ s2.Parent.ProcessTime = p - 1 ∧
          (s2.Parent.ProcessTime ≤ t → i = s2.Thread.NextEvent)) ∧
        (∀ (i : Nat) (e : Event) (q : Nat), i < k → T.events[i]? = some e →
          e.sharedProcessTime = some q → q - 1 ≤ t →
          q - 1 ≤ s2.Parent.ProcessTime ∧ s2.Parent.ProcessTime ≤ t)) := by
  obtain ⟨s, hs⟩ := @wellFormed_replay P T Parent hwf k hk
  have hn := replay_nextEvent hs
  obtain ⟨-, -, hshared, -⟩ := replay_invariant hwf hk hs
  have hmono := hwf.2.2.1
  rcases Nat.lt_trichotomy s.Parent.ProcessTime t with hlt | heq | hgt
  · -- advances
    obtain ⟨b, s2, hmv, g1, g2, g3, g4, g5, g6, g7⟩ :=
      moveForwardTo_replay hwf t (T.events.length - k) k s hk hs (le_refl _) (Nat.le_of_lt hlt)
    have hmax : ∀ (i : Nat) (e : Event) (p : Nat), T.events[i]? = some e →
        e.sharedProcessTime = some p → p ≤ t → p ≤ s2.Parent.ProcessTime := by
      intro i e p he hp hpt
      by_cases hi : i < s2.Thread.NextEvent
      · obtain ⟨-, -, hshared2, -⟩ := replay_invariant hwf g2 g3
        rw [hshared2]
        exact shared_le_lastShared hmono hi he hp
      · have := g7 i e p (Nat.le_of_not_lt hi) he hp
        omega
    refine ⟨s, b, s2, hs, ?_, by rw [hn]; exact g4, g5, ?_, ?_⟩
    · simp only [moveToTime, hlt, if_true, hn]
      exact hmv
    · intro _
      refine ⟨g1, g3, g6, hmax, ?_⟩
      intro i e he hp
      exact le_antisymm g6 (hmax i e t he hp (le_refl t))
    · intro h
      omega
  · -- the state has the target time
    refine ⟨s, false, s, hs, ?_, by simp, fun _ => rfl, ?_, ?_⟩
    · simp only [moveToTime, heq, lt_irrefl, if_false]
    · intro _
      refine ⟨by omega, by rw [hn]; exact hs, by omega, ?_, fun _ _ _ _ => heq⟩
      intro i e p he hp hpt
      omega
    · intro h
      omega
  · -- retractions
    obtain ⟨b, s2, r2, hmv, g1, g2, g3, g4, g5, g6, g7, g8, g9, g10⟩ :=
      moveBackwardTo_sim hwf t k k s s hk hs (sim_refl s) (le_refl _)
    have hb : b = true := by
      cases hbb : b with
      | true => rfl
      | false =>
        have := g5 hbb
        subst this
        rcases g7 with h1 | h1
        · omega
        · rw [hn] at h1
          subst h1
          rw [hshared, lastShared_zero] at hgt
          omega
    have hmoved : s2.Thread.NextEvent ≠ k := g4.mp hb
    have hltk : s2.Thread.NextEvent < k := by omega
    -- the record whose retraction set the process time
    have hrec : ∃ i e p, s2.Thread.NextEvent ≤ i ∧ i < k ∧ T.events[i]? = some e ∧
        e.sharedProcessTime = some p ∧ s2.Parent.ProcessTime = p - 1 ∧ 1 ≤ p ∧
        ∀ i2 e2, s2.Thread.NextEvent ≤ i2 → i2 < i → T.events[i2]? = some e2 →
          e2.sharedProcessTime = none := by
      have hunshared : (∀ i e, s2.Thread.NextEvent ≤ i → i < k → T.events[i]? = some e →
          e.sharedProcessTime = none) → False := by
        intro hall
        have hpt2 : s2.Parent.ProcessTime = s.Parent.ProcessTime := by
          rw [g9]
          cases hnext : nextShared T.events s2.Thread.NextEvent with
          | none => rfl
          | some ip =>
            obtain ⟨i, p⟩ := ip
            obtain ⟨hki, -, e, he, hp, -⟩ := nextShared_some hnext
            by_cases hik : i < k
            · have := hall i e hki hik he
              rw [this] at hp
              cases hp
            · simp only [hik, if_false]
        rcases g7 with h1 | h1
        · omega
        · have hz : lastShared T.events k = 0 :=
            lastShared_eq_zero hk (fun i e hi he => hall i e (by omega) hi he)
          omega
      cases hnext : nextShared T.events s2.Thread.NextEvent with
      | none =>
        exact absurd (fun i e hi _ he => nextShared_none hnext i e hi he) hunshared
      | some ip =>
        obtain ⟨i, p⟩ := ip
        obtain ⟨hki, -, e, he, hp, hbefore⟩ := nextShared_some hnext
        by_cases hik : i < k
        · have h1p := (lastShared_le_stamp hmono he (sharedProcessTime_eq_some hp)).1
          refine ⟨i, e, p, hki, hik, he, hp, ?_, h1p, hbefore⟩
          rw [g9, hnext]
          simp only [hik, if_true]
          exact sub1_eq h1p
        · exfalso
          apply hunshared
          intro i2 e2 h1 h2 he2
          exact hbefore i2 e2 h1 (by omega) he2
    obtain ⟨i, e, p, hki, hik, he, hp, hpt2, h1p, hbefore⟩ := hrec
    refine ⟨s, b, s2, hs, ?_, by rw [hn]; exact g4, g5, ?_, ?_⟩
    · have h1 : ¬ s.Parent.ProcessTime < t := by omega
      simp only [moveToTime, h1, hgt, if_true, if_false, hn]
      exact hmv
    · intro h
      omega
    · intro _
      refine ⟨hltk, ⟨i, e, p, hki, hik, he, hp, hpt2, ?_⟩, ?_⟩
      · intro hle
        obtain ⟨e0, p0, he0, hp0⟩ := g10 hb hle
        by_contra hne
        have := hbefore s2.Thread.NextEvent e0 (le_refl _) (by omega) he0
        rw [this] at hp0
        cases hp0
      · intro i2 e2 q hi2 he2 hq hqt
        have h1q := (lastShared_le_stamp hmono he2 (sharedProcessTime_eq_some hq)).1
        have hi2le : i2 ≤ s2.Thread.NextEvent := by
          by_contra hgt2
          have := g8 i2 e2 q (by omega) hi2 he2 hq
          rw [sub1_eq h1q] at this
          omega
        have hi2i : i2 ≤ i := by omega
        have hqp := shared_mono hmono hi2i he2 hq he hp
        refine ⟨by omega, ?_⟩
        rcases g7 with h1 | h1
        · exact h1
        · have hi20 : i2 = s2.Thread.NextEvent := by omega
          have hii : i = i2 := by
            by_contra hne
            have := hbefore i2 e2 (by omega) (by omega) he2
            rw [this] at hq
            cases hq
          subst hii
          rw [he] at he2
          simp only [Option.some.injEq] at he2
          subst he2
          rw [hp] at hq
          simp only [Option.some.injEq] at hq
          omega

/-- Witness for C29 (as the code has it): the state at the end of the log with
the stamps 1, 2, 5, 8, moved to the time 4. -/
theorem moveToTime_closest_witness :
    ∃ s b s2, replay exampleProcess stampLog ProcessState.empty 4 = .ok s ∧
      moveToTime exampleProcess stampLog s 4 = .ok (b, s2) ∧
      (b = true ↔ s2.Thread.NextEvent ≠ s.Thread.NextEvent) := by
  obtain ⟨s, b, s2, h1, h2, h3, -⟩ :=
    moveToTime_closest exampleProcess stampLog ProcessState.empty 4 4 stampLog_wellFormed
      (by decide)
  exact ⟨s, b, s2, h1, h2, h3⟩

end trace

namespace cm

/-! ## The value store -/

theorem getShared_add_of_some {t : TypedValueSet} {M M2 : MatchType} {N N2 : Node}
    (h : t.getShared M = some N) : (t.add M2 N2).getShared M = some N := by
  simp only [TypedValueSet.getShared, TypedValueSet.add, List.find?_append] at h ⊢
  cases hf : t.Items.find? (fun Pair => Pair.1 == M) with
  | none => simp [hf] at h
  | some x =>
    rw [hf] at h
    simpa using h

theorem getShared_add_self {t : TypedValueSet} {M : MatchType} {N : Node}
    (h : t.getShared M = none) : (t.add M N).getShared M = some N := by
  simp only [TypedValueSet.getShared, TypedValueSet.add, List.find?_append] at h ⊢
  cases hf : t.Items.find? (fun Pair => Pair.1 == M) with
  | none => simp
  | some x => simp [hf] at h

theorem getValue_eq_ok {S S1 : ValueStoreImpl} {AST : ASTContext} {T : QualType}
    {Address : Nat} {ProcessState : trace.ProcessState}
    {OwningFunction : Option trace.FunctionState} {R : Option Node}
    (h : getValue S T AST Address ProcessState OwningFunction = .ok (R, S1)) :
    (∀ N, R = some N →
      T.getCanonicalType.isNull = false ∧
      (S1.Store Address).getShared ⟨T.getCanonicalType⟩ = some N) ∧
    ∀ A M N, (S.Store A).getShared M = some N → (S1.Store A).getShared M = some N := by
  simp only [getValue, ValueStoreImpl.getValue] at h
  split at h
  · simp only [Except.ok.injEq, Prod.mk.injEq] at h
    obtain ⟨rfl, rfl⟩ := h
    exact ⟨(by intro N hN; cases hN), fun A M N hA => hA⟩
  · rename_i hnull
    split at h
    · rename_i Existing hex
      simp only [Except.ok.injEq, Prod.mk.injEq] at h
      obtain ⟨rfl, rfl⟩ := h
      refine ⟨?_, fun A M N hA => hA⟩
      intro N hN
      simp only [Option.some.injEq] at hN
      subst hN
      exact ⟨by simpa using hnull, hex⟩
    · rename_i hex
      split at h
      · simp at h
      · simp only [Except.ok.injEq, Prod.mk.injEq] at h
        obtain ⟨rfl, rfl⟩ := h
        exact ⟨(by intro N hN; cases hN), fun A M N hA => hA⟩
      · rename_i V hV
        simp only [Except.ok.injEq, Prod.mk.injEq] at h
        obtain ⟨rfl, rfl⟩ := h
        refine ⟨?_, ?_⟩
        · intro N hN
          simp only [Option.some.injEq] at hN
          subst hN
          exact ⟨by simpa using hnull, by simp [getShared_add_self hex]⟩
        · intro A M N hA
          by_cases hAA : A = Address
          · subst hAA
            simp [getShared_add_of_some hA]
          · simp [Function.update, hAA, hA]

theorem getValue_of_shared {S : ValueStoreImpl} {AST : ASTContext} {T : QualType}
    {Address : Nat} {ProcessState : trace.ProcessState}
    {OwningFunction : Option trace.FunctionState} {N : Node}
    (hnull : T.getCanonicalType.isNull = false)
    (h : (S.Store Address).getShared ⟨T.getCanonicalType⟩ = some N) :
    getValue S T AST Address ProcessState OwningFunction = .ok (some N, S) := by
  simp [getValue, ValueStoreImpl.getValue, hnull, h]

theorem after_preserves_shared {AST : ASTContext} {ProcessState : trace.ProcessState}
    (qs : List Query) (S : ValueStoreImpl) {A : Nat} {M : MatchType} {N : Node}
    (h : (S.Store A).getShared M = some N) :
    ((S.after AST ProcessState qs).Store A).getShared M = some N := by
  induction qs generalizing S with
  | nil => exact h
  | cons q rest ih =>
    simp only [ValueStoreImpl.after]
    split
    · rename_i R S1 hq
      exact ih S1 ((getValue_eq_ok hq).2 A M N h)
    · exact ih S h

/-- C17: in one state view, when a `getValue` call for an address and a type
returns a node, every later `getValue` call for the same address and a type
with the same canonical type returns that same node (the same object, with the
same identity) and leaves the store as it is, whether it follows immediately
or after any other `getValue` calls, and also when the two requested types are
written differently. -/
theorem getValue_same_node (S S1 : ValueStoreImpl) (AST : ASTContext) (T1 T2 : QualType)
    (Address : Nat) (ProcessState : trace.ProcessState)
    (O1 O2 : Option trace.FunctionState) (N : Node)
    (hcanonical : T1.getCanonicalType = T2.getCanonicalType)
    (hfirst : getValue S T1 AST Address ProcessState O1 = .ok (some N, S1)) :
    getValue S1 T2 AST Address ProcessState O2 = .ok (some N, S1) ∧
    ∀ qs : List Query,
      getValue (S1.after AST ProcessState qs) T2 AST Address ProcessState O2
        = .ok (some N, S1.after AST ProcessState qs) := by
  obtain ⟨hnull, hshared⟩ := (getValue_eq_ok hfirst).1 N rfl
  rw [hcanonical] at hnull hshared
  exact ⟨getValue_of_shared hnull hshared,
    fun qs => getValue_of_shared hnull (after_preserves_shared qs S1 hshared)⟩

/-- Witness for C17: an `int` at `0x1000` is requested through a typedef and
then as `int`; both requests return the first object the store created. -/
theorem getValue_same_node_witness :
    (QualType.TypedefType "myint" (.Builtin 0)).getCanonicalType
      = (QualType.Builtin 0).getCanonicalType ∧
    getValue ValueStoreImpl.empty (.TypedefType "myint" (.Builtin 0)) exampleAST 0x1000
      exampleMemory none
      = .ok (some ⟨0, .Scalar ⟨.Builtin 0, 0x1000, 4⟩⟩,
          storeOf (getValue ValueStoreImpl.empty (.TypedefType "myint" (.Builtin 0)) exampleAST 0x1000
            exampleMemory none)) ∧
    getValue
      (storeOf (getValue ValueStoreImpl.empty (.TypedefType "myint" (.Builtin 0)) exampleAST 0x1000
        exampleMemory none))
      (.Builtin 0) exampleAST 0x1000 exampleMemory none
      = .ok (some ⟨0, .Scalar ⟨.Builtin 0, 0x1000, 4⟩⟩,
          storeOf (getValue ValueStoreImpl.empty (.TypedefType "myint" (.Builtin 0)) exampleAST 0x1000
            exampleMemory none)) :=
  ⟨rfl, rfl,
    (getValue_same_node ValueStoreImpl.empty _ exampleAST (.TypedefType "myint" (.Builtin 0))
      (.Builtin 0) 0x1000 exampleMemory none none ⟨0, .Scalar ⟨.Builtin 0, 0x1000, 4⟩⟩ rfl rfl).1⟩

/-! ## Pointers -/

theorem createValue_scalar {AST : ASTContext} {T : QualType} {Address : Nat}
    {ProcessState : trace.ProcessState} {O : Option trace.FunctionState}
    (hscalar : T.getCanonicalType.isScalarClass = true)
    (hcomplete : AST.isIncompleteType T.getCanonicalType = false) :
    createValue AST T Address ProcessState O
      = .ok (some (.Scalar ⟨T.getCanonicalType, Address,
          scalarTypeSize AST T.getCanonicalType⟩)) := by
  have hTnull : T.isNull = false := by
    cases T <;> simp [QualType.isNull, QualType.getCanonicalType, QualType.isScalarClass]
      at hscalar ⊢
  simp only [createValue, hTnull, hcomplete, Bool.false_eq_true, if_false]
  generalize T.getCanonicalType = C at hscalar
  cases C <;> simp [QualType.isScalarClass] at hscalar <;> rfl

theorem getValue_scalar {S : ValueStoreImpl} {AST : ASTContext} {T : QualType}
    {Address : Nat} {ProcessState : trace.ProcessState}
    (hscalar : T.getCanonicalType.isScalarClass = true)
    (hcomplete : AST.isIncompleteType T.getCanonicalType = false) :
    ∃ N S1, getValue S T AST Address ProcessState none = .ok (some N, S1) := by
  have hnull : T.getCanonicalType.isNull = false := by
    cases hc : T.getCanonicalType <;> simp [hc, QualType.isScalarClass, QualType.isNull] at hscalar ⊢
  cases hex : (S.Store Address).getShared ⟨T.getCanonicalType⟩ with
  | some Existing => exact ⟨Existing, S, getValue_of_shared hnull hex⟩
  | none =>
    exact ⟨_, _, by
      simp only [getValue, ValueStoreImpl.getValue, hnull, hex, Bool.false_eq_true, if_false,
        createValue_scalar hscalar hcomplete]
      rfl⟩

theorem map_getValue (r : Except trace.Fatal (Option Node × ValueStoreImpl)) :
    (match r with
      | .error e => (Except.error e : Except trace.Fatal (Option Node × Option ValueStoreImpl))
      | .ok (V, S) => .ok (V, some S)) = r.map (fun x => (x.1, some x.2)) := by
  cases r with
  | error e => rfl
  | ok x => rfl

/-- C18 (as amended): `getDereferenced(i)` does not consult
`getDereferenceIndexLimit()`. For a pointer in memory and for a pointer in a
register alike, while the store exists, it returns for every index `i` what
`getValue` returns for the pointee type at the address
`raw + i * pointee size` (in unsigned 64-bit arithmetic); in particular it
yields a value for every `i`, below the limit or not, when the pointee is a
complete builtin, atomic or enum type. -/
theorem getDereferenced_unchecked (AST : ASTContext) (ProcessState : trace.ProcessState)
    (S : ValueStoreImpl) (Index : Nat) :
    (∀ (p : ValueByMemoryForPointer) (Pointee : QualType),
      p.CanonicalType.getPointeeType = some Pointee →
      p.getDereferenced AST ProcessState (some S) Index
        = (getValue S Pointee AST ((p.RawValue + Index * p.PointeeSize) % trace.U64)
            ProcessState none).map (fun x => (x.1, some x.2)) ∧
      (Pointee.getCanonicalType.isScalarClass = true →
        AST.isIncompleteType Pointee.getCanonicalType = false →
        ∃ N S1, p.getDereferenced AST ProcessState (some S) Index = .ok (some N, some S1))) ∧
    (∀ (p : ValueByRuntimeValueForPointer) (Pointee : QualType),
      p.Expression.getPointeeType = some Pointee →
      p.getDereferenced AST ProcessState (some S) Index
        = (getValue S Pointee AST ((p.PtrValue + Index * p.PointeeSize) % trace.U64)
            ProcessState none).map (fun x => (x.1, some x.2)) ∧
      (Pointee.getCanonicalType.isScalarClass = true →
        AST.isIncompleteType Pointee.getCanonicalType = false →
        ∃ N S1, p.getDereferenced AST ProcessState (some S) Index = .ok (some N, some S1))) := by
  constructor
  · intro p Pointee hp
    have h1 : p.getDereferenced AST ProcessState (some S) Index
        = (getValue S Pointee AST ((p.RawValue + Index * p.PointeeSize) % trace.U64)
            ProcessState none).map (fun x => (x.1, some x.2)) := by
      simp only [ValueByMemoryForPointer.getDereferenced, hp]
      exact map_getValue _
    refine ⟨h1, ?_⟩
    intro hs hc
    obtain ⟨N, S1, hv⟩ := @getValue_scalar S AST Pointee
      ((p.RawValue + Index * p.PointeeSize) % trace.U64) ProcessState hs hc
    exact ⟨N, S1, by rw [h1, hv]; rfl⟩
  · intro p Pointee hp
    have h1 : p.getDereferenced AST ProcessState (some S) Index
        = (getValue S Pointee AST ((p.PtrValue + Index * p.PointeeSize) % trace.U64)
            ProcessState none).map (fun x => (x.1, some x.2)) := by
      simp only [ValueByRuntimeValueForPointer.getDereferenced, hp]
      exact map_getValue _
    refine ⟨h1, ?_⟩
    intro hs hc
    obtain ⟨N, S1, hv⟩ := @getValue_scalar S AST Pointee
      ((p.PtrValue + Index * p.PointeeSize) % trace.U64) ProcessState hs hc
    exact ⟨N, S1, by rw [h1, hv]; rfl⟩

/-- C18 (counterexample): in the example process, an `int *` register value
`0x1000` points into a 4-byte allocation, so its dereference limit is 1, and
`getDereferenced(1)` and `getDereferenced(5)` yield values, at `0x1004` and
`0x1014`; a register pointer `0x3000` to an unhandled type of 16 bytes has the
limit 1, and `getDereferenced(0)` yields nothing. -/
theorem getDereferenced_beyond_limit :
    (ValueByRuntimeValueForPointer.mk (.Pointer (.Builtin 0)) 0x1000 4).getDereferenceIndexLimit
      exampleAST exampleMemory = 1 ∧
    resultOf ((ValueByRuntimeValueForPointer.mk (.Pointer (.Builtin 0)) 0x1000 4).getDereferenced
      exampleAST exampleMemory (some ValueStoreImpl.empty) 1)
      = some (some ⟨0, .Scalar ⟨.Builtin 0, 0x1004, 4⟩⟩) ∧
    resultOf ((ValueByRuntimeValueForPointer.mk (.Pointer (.Builtin 0)) 0x1000 4).getDereferenced
      exampleAST exampleMemory (some ValueStoreImpl.empty) 5)
      = some (some ⟨0, .Scalar ⟨.Builtin 0, 0x1014, 4⟩⟩) ∧
    (ValueByRuntimeValueForPointer.mk (.Pointer (.Unhandled 0)) 0x3000 16).getDereferenceIndexLimit
      exampleAST exampleMemory = 1 ∧
    resultOf ((ValueByRuntimeValueForPointer.mk (.Pointer (.Unhandled 0)) 0x3000 16).getDereferenced
      exampleAST exampleMemory (some ValueStoreImpl.empty) 0) = some none := by
  refine ⟨by decide, by decide, by decide, by decide, by decide⟩

theorem getContainingMemoryArea_eq {p : trace.ProcessState} {Address : Nat}
    {A : trace.MemoryArea} (hA : A ∈ p.Memory.Allocations) (hc : A.contains Address = true)
    (huniq : ∀ B ∈ p.Memory.Allocations, B.contains Address = true → B = A) :
    p.getContainingMemoryArea Address = some A := by
  have hs : p.Memory.Allocations.filter (fun a => a.contains Address) = {A} := by
    ext B
    simp only [Finset.mem_filter, Finset.mem_singleton]
    constructor
    · rintro ⟨h1, h2⟩
      exact huniq B h1 h2
    · rintro rfl
      exact ⟨hA, hc⟩
  simp only [trace.ProcessState.getContainingMemoryArea, hs, Finset.image_singleton,
    Finset.min_singleton]
  have h2 : (({A} : Finset trace.MemoryArea).filter (fun a => a.Address = A.Address)) = {A} := by
    ext B
    simp only [Finset.mem_filter, Finset.mem_singleton]
    constructor
    · rintro ⟨h1, -⟩
      exact h1
    · rintro rfl
      exact ⟨rfl, rfl⟩
  show (match ((({A} : Finset trace.MemoryArea).filter (fun a => a.Address = A.Address)).image
      (fun a => a.Length)).max with
    | none => none
    | some Length => some (trace.MemoryArea.mk A.Address Length)) = some A
  rw [h2, Finset.image_singleton, Finset.max_singleton]

theorem getContainingMemoryArea_none {p : trace.ProcessState} {Address : Nat}
    (h : ∀ B ∈ p.Memory.Allocations, B.contains Address = false) :
    p.getContainingMemoryArea Address = none := by
  have hs : p.Memory.Allocations.filter (fun a => a.contains Address) = ∅ := by
    ext B
    simp only [Finset.mem_filter, Finset.not_mem_empty, iff_false, not_and]
    intro hB
    rw [h B hB]
    simp
  simp only [trace.ProcessState.getContainingMemoryArea, hs, Finset.image_empty, Finset.min_empty]

/-- C19 (as amended): let a pointer value have the raw value `r` and the
pointee size `s`. `getDereferenceIndexLimit()` is 0 when no live allocation
holds `r`, when `s = 0`, and, for a pointer in memory, when the bytes of the
pointer are not completely initialized. Otherwise, with `[a, a + len)` the one
live allocation that holds `r`, it is 1 when the pointee is a record whose
definition has a flexible array member, whatever the allocation leaves room
for, and else `(a + len - r) / s` truncated to 32 bits. -/
theorem getDereferenceIndexLimit_value (AST : ASTContext) (ProcessState : trace.ProcessState) :
    (∀ p : ValueByRuntimeValueForPointer,
      ((∀ B ∈ ProcessState.Memory.Allocations, B.contains p.PtrValue = false) →
        p.getDereferenceIndexLimit AST ProcessState = 0) ∧
      (p.PointeeSize = 0 → p.getDereferenceIndexLimit AST ProcessState = 0) ∧
      (∀ A, A ∈ ProcessState.Memory.Allocations → A.contains p.PtrValue = true →
        (∀ B ∈ ProcessState.Memory.Allocations, B.contains p.PtrValue = true → B = A) →
        0 < p.PointeeSize →
        p.getDereferenceIndexLimit AST ProcessState =
          if pointeeHasFlexibleArrayMember AST p.Expression = true then 1
          else ((A.Address + A.Length - p.PtrValue) / p.PointeeSize) % U32)) ∧
    (∀ p : ValueByMemoryForPointer,
      (p.isCompletelyInitialized ProcessState = false →
        p.getDereferenceIndexLimit AST ProcessState = 0) ∧
      ((∀ B ∈ ProcessState.Memory.Allocations, B.contains p.RawValue = false) →
        p.getDereferenceIndexLimit AST ProcessState = 0) ∧
      (p.PointeeSize = 0 → p.getDereferenceIndexLimit AST ProcessState = 0) ∧
      (∀ A, p.isCompletelyInitialized ProcessState = true →
        A ∈ ProcessState.Memory.Allocations → A.contains p.RawValue = true →
        (∀ B ∈ ProcessState.Memory.Allocations, B.contains p.RawValue = true → B = A) →
        0 < p.PointeeSize →
        p.getDereferenceIndexLimit AST ProcessState =
          if pointeeHasFlexibleArrayMember AST p.CanonicalType = true then 1
          else ((A.Address + A.Length - p.RawValue) / p.PointeeSize) % U32)) := by
  constructor
  · intro p
    refine ⟨?_, ?_, ?_⟩
    · intro h
      simp [ValueByRuntimeValueForPointer.getDereferenceIndexLimit,
        getContainingMemoryArea_none h]
    · intro h
      simp only [ValueByRuntimeValueForPointer.getDereferenceIndexLimit, h]
      split <;> simp
    · intro A hA hc hu hs
      have hne : p.PointeeSize ≠ 0 := by omega
      simp only [ValueByRuntimeValueForPointer.getDereferenceIndexLimit,
        getContainingMemoryArea_eq hA hc hu, hne, if_false, trace.MemoryArea.withStart]
  · intro p
    refine ⟨?_, ?_, ?_, ?_⟩
    · intro h
      simp [ValueByMemoryForPointer.getDereferenceIndexLimit, h]
    · intro h
      simp only [ValueByMemoryForPointer.getDereferenceIndexLimit,
        getContainingMemoryArea_none h]
      split <;> rfl
    · intro h
      simp only [ValueByMemoryForPointer.getDereferenceIndexLimit, h]
      split
      · rfl
      · split <;> simp
    · intro A hi hA hc hu hs
      have hne : p.PointeeSize ≠ 0 := by omega
      simp only [ValueByMemoryForPointer.getDereferenceIndexLimit, hi,
        getContainingMemoryArea_eq hA hc hu, hne, if_false, trace.MemoryArea.withStart,
        Bool.not_true, Bool.false_eq_true]

/-- C19 (counterexample): in the example process a register pointer `0x5000`
to `struct Flex` (4 bytes, with a flexible array member) lies in the 2-byte
allocation at `0x5000`, so `(a + len - r) / s = 0` and the minimum of that and
1 is 0, yet the limit is 1; and a `char *` register value `0x100000000` lies at
the start of an allocation of `2 ^ 32` bytes, so `(a + len - r) / s = 2 ^ 32`,
yet the limit is 0. -/
theorem getDereferenceIndexLimit_not_quotient :
    exampleMemory.getContainingMemoryArea 0x5000 = some ⟨0x5000, 2⟩ ∧
    (0x5000 + 2 - 0x5000) / 4 = 0 ∧
    (ValueByRuntimeValueForPointer.mk (.Pointer (.Record 1)) 0x5000 4).getDereferenceIndexLimit
      exampleAST exampleMemory = 1 ∧
    exampleMemory.getContainingMemoryArea 0x100000000 = some ⟨0x100000000, 4294967296⟩ ∧
    (0x100000000 + 4294967296 - 0x100000000) / 1 = 4294967296 ∧
    (ValueByRuntimeValueForPointer.mk (.Pointer (.Builtin 1)) 0x100000000 1).getDereferenceIndexLimit
      exampleAST exampleMemory = 0 := by
  refine ⟨by decide, by decide, by decide, by decide, by decide, by decide⟩

/-! ## Records -/

theorem findField_eq (Fields : List FieldDecl) (k i : Nat) :
    ValueByMemoryForRecord.findField Fields k (k + i) = Fields[i]? := by
  induction Fields generalizing k i with
  | nil => simp [ValueByMemoryForRecord.findField]
  | cons F rest ih =>
    cases i with
    | zero => simp [ValueByMemoryForRecord.findField]
    | succ j =>
      have hne : ¬ k = k + (j + 1) := by omega
      simp only [ValueByMemoryForRecord.findField, hne, if_false, List.getElem?_cons_succ]
      have := ih (k + 1) j
      rw [show k + 1 + j = k + (j + 1) by omega] at this
      exact this

/-- C20: for a record value in memory at address `A` whose store exists, and a
field index `i` below `getChildCount()` that names the `i`-th declared field:
`getChildAt(i)` is absent when the field offset of the layout is not a
multiple of 8 bits, and otherwise is what `getValue` gives for the type of the
`i`-th declared field at the address `A + offset / 8` (in unsigned 64-bit
arithmetic, so at exactly that address when it is below `2 ^ 64`). -/
theorem getChildAt_field (r : ValueByMemoryForRecord) (AST : ASTContext)
    (ProcessState : trace.ProcessState) (S : ValueStoreImpl) (i DeclId : Nat)
    (Decl : RecordDecl) (Field : FieldDecl)
    (hi : i < r.getChildCount)
    (hrecord : r.CanonicalType.getAsRecordDecl = some DeclId)
    (hdefinition : AST.getDefinition DeclId = some Decl)
    (hfield : Decl.Fields[i]? = some Field) :
    (r.Layout.getD i 0 % 8 ≠ 0 →
      r.getChildAt AST ProcessState (some S) i = .ok (none, some S)) ∧
    (r.Layout.getD i 0 % 8 = 0 →
      r.getChildAt AST ProcessState (some S) i
        = (getValue S Field.FieldType AST ((r.Address + r.Layout.getD i 0 / 8) % trace.U64)
            ProcessState none).map (fun x => (x.1, some x.2))) ∧
    (r.Layout.getD i 0 % 8 = 0 → r.Address + r.Layout.getD i 0 / 8 < trace.U64 →
      r.getChildAt AST ProcessState (some S) i
        = (getValue S Field.FieldType AST (r.Address + r.Layout.getD i 0 / 8)
            ProcessState none).map (fun x => (x.1, some x.2))) := by
  have hfind : ValueByMemoryForRecord.findField Decl.Fields 0 i = some Field := by
    have := findField_eq Decl.Fields 0 i
    rw [Nat.zero_add] at this
    rw [this, hfield]
  have haligned : r.Layout.getD i 0 % 8 = 0 →
      r.getChildAt AST ProcessState (some S) i
        = (getValue S Field.FieldType AST ((r.Address + r.Layout.getD i 0 / 8) % trace.U64)
            ProcessState none).map (fun x => (x.1, some x.2)) := by
    intro h
    simp only [ValueByMemoryForRecord.getChildAt, hi, not_true_eq_false, if_false, hrecord,
      hdefinition, hfind, h, ne_eq]
    exact map_getValue _
  refine ⟨?_, haligned, ?_⟩
  · intro h
    simp only [ValueByMemoryForRecord.getChildAt, hi, not_true_eq_false, if_false, hrecord,
      hdefinition, hfind, h, ne_eq, not_false_eq_true, if_true]
  · intro h hlt
    rw [haligned h, Nat.mod_eq_of_lt hlt]

/-- Witness for C20: `struct Foo` at `0x3000`: field 1 (`b`, at bit 64) is a
`double` at `0x3008`; and `struct Bits` at `0x3000`: field 1 (`b`, at bit 3) is
absent. -/
theorem getChildAt_field_witness :
    resultOf ((ValueByMemoryForRecord.mk [0, 64, 128] (.Record 0) 0x3000).getChildAt exampleAST
      exampleMemory (some ValueStoreImpl.empty) 1)
      = some (some ⟨0, .Scalar ⟨.Builtin 2, 0x3008, 8⟩⟩) ∧
    (ValueByMemoryForRecord.mk [0, 3, 32] (.Record 2) 0x3000).getChildAt exampleAST
      exampleMemory (some ValueStoreImpl.empty) 1 = .ok (none, some ValueStoreImpl.empty) :=
  ⟨by decide,
    (getChildAt_field (ValueByMemoryForRecord.mk [0, 3, 32] (.Record 2) 0x3000) exampleAST
      exampleMemory ValueStoreImpl.empty 1 2 recordBits ⟨"b", .Builtin 0⟩ (by decide) rfl rfl
      rfl).1 (by decide)⟩

theorem isCompletelyInitializedLoop_iff (getChildAt : Nat → Option ChildValue) (n i : Nat) :
    isCompletelyInitializedLoop getChildAt n i = true ↔
      ∀ j, i ≤ j → j < i + n → ∀ c, getChildAt j = some c → c.isCompletelyInitialized = true := by
  induction n generalizing i with
  | zero =>
    simp only [isCompletelyInitializedLoop, true_iff]
    intro j h1 h2
    omega
  | succ n ih =>
    have key : (∀ j, i ≤ j → j < i + (n + 1) →
          ∀ c, getChildAt j = some c → c.isCompletelyInitialized = true) ↔
        (∀ c, getChildAt i = some c → c.isCompletelyInitialized = true) ∧
        (∀ j, i + 1 ≤ j → j < i + 1 + n →
          ∀ c, getChildAt j = some c → c.isCompletelyInitialized = true) := by
      constructor
      · intro h
        exact ⟨h i (le_refl _) (by omega), fun j h1 h2 => h j (by omega) (by omega)⟩
      · rintro ⟨h0, h1⟩ j hj1 hj2
        by_cases hji : j = i
        · subst hji; exact h0
        · exact h1 j (by omega) (by omega)
    rw [key, ← ih (i + 1)]
    simp only [isCompletelyInitializedLoop]
    cases hc : getChildAt i with
    | none => simp
    | some c => cases hb : c.isCompletelyInitialized <;> simp [hb]

theorem isPartiallyInitializedLoop_iff (getChildAt : Nat → Option ChildValue) (n i : Nat) :
    isPartiallyInitializedLoop getChildAt n i = true ↔
      ∃ j, i ≤ j ∧ j < i + n ∧ ∃ c, getChildAt j = some c ∧ c.isPartiallyInitialized = true := by
  induction n generalizing i with
  | zero =>
    simp only [isPartiallyInitializedLoop, Bool.false_eq_true, false_iff]
    rintro ⟨j, h1, h2, -⟩
    omega
  | succ n ih =>
    have key : (∃ j, i ≤ j ∧ j < i + (n + 1) ∧
          ∃ c, getChildAt j = some c ∧ c.isPartiallyInitialized = true) ↔
        (∃ c, getChildAt i = some c ∧ c.isPartiallyInitialized = true) ∨
        (∃ j, i + 1 ≤ j ∧ j < i + 1 + n ∧
          ∃ c, getChildAt j = some c ∧ c.isPartiallyInitialized = true) := by
      constructor
      · rintro ⟨j, h1, h2, h3⟩
        by_cases hji : j = i
        · subst hji; exact Or.inl h3
        · exact Or.inr ⟨j, by omega, by omega, h3⟩
      · rintro (h | ⟨j, h1, h2, h3⟩)
        · exact ⟨i, le_refl _, by omega, h⟩
        · exact ⟨j, by omega, by omega, h3⟩
    rw [key, ← ih (i + 1)]
    simp only [isPartiallyInitializedLoop]
    cases hc : getChildAt i with
    | none => simp
    | some c => cases hb : c.isPartiallyInitialized <;> simp [hb]

/-- C21: for an in-memory record and an in-memory array alike,
`isCompletelyInitialized()` is true exactly when every present child is
completely initialized and `isPartiallyInitialized()` is true exactly when
some present child is partially initialized; an aggregate without a present
child is completely and not partially initialized. -/
theorem aggregate_initialized (r : ValueByMemoryForRecord) (a : ValueByMemoryForArray)
    (getChildAt : Nat → Option ChildValue) :
    (r.isCompletelyInitialized getChildAt = true ↔
      ∀ i, i < r.getChildCount → ∀ c, getChildAt i = some c → c.isCompletelyInitialized = true) ∧
    (r.isPartiallyInitialized getChildAt = true ↔
      ∃ i, i < r.getChildCount ∧ ∃ c, getChildAt i = some c ∧ c.isPartiallyInitialized = true) ∧
    (a.isCompletelyInitialized getChildAt = true ↔
      ∀ i, i < a.getChildCount → ∀ c, getChildAt i = some c → c.isCompletelyInitialized = true) ∧
    (a.isPartiallyInitialized getChildAt = true ↔
      ∃ i, i < a.getChildCount ∧ ∃ c, getChildAt i = some c ∧ c.isPartiallyInitialized = true) ∧
    ((∀ i, i < r.getChildCount → getChildAt i = none) →
      r.isCompletelyInitialized getChildAt = true ∧ r.isPartiallyInitialized getChildAt = false) ∧
    ((∀ i, i < a.getChildCount → getChildAt i = none) →
      a.isCompletelyInitialized getChildAt = true ∧
        a.isPartiallyInitialized getChildAt = false) := by
  have hc : ∀ n, (isCompletelyInitializedLoop getChildAt n 0 = true ↔
      ∀ i, i < n → ∀ c, getChildAt i = some c → c.isCompletelyInitialized = true) := by
    intro n
    rw [isCompletelyInitializedLoop_iff]
    constructor
    · intro h i hi; exact h i (Nat.zero_le _) (by omega)
    · intro h j _ hj; exact h j (by omega)
  have hp : ∀ n, (isPartiallyInitializedLoop getChildAt n 0 = true ↔
      ∃ i, i < n ∧ ∃ c, getChildAt i = some c ∧ c.isPartiallyInitialized = true) := by
    intro n
    rw [isPartiallyInitializedLoop_iff]
    constructor
    · rintro ⟨j, -, h2, h3⟩; exact ⟨j, by omega, h3⟩
    · rintro ⟨j, h2, h3⟩; exact ⟨j, Nat.zero_le _, by omega, h3⟩
  have hnone : ∀ n, (∀ i, i < n → getChildAt i = none) →
      isCompletelyInitializedLoop getChildAt n 0 = true ∧
        isPartiallyInitializedLoop getChildAt n 0 = false := by
    intro n hn
    refine ⟨(hc n).mpr (fun i hi c hci => ?_), ?_⟩
    · rw [hn i hi] at hci; cases hci
    · rw [Bool.eq_false_iff, ne_eq, hp n]
      rintro ⟨i, hi, c, hci, -⟩
      rw [hn i hi] at hci; cases hci
  exact ⟨hc _, hp _, hc _, hp _, hnone _, hnone _⟩

theorem commaSeparated_cons (a : String) (es : List String) :
    commaSeparated (a :: es) = a ++ (match es with | [] => "" | _ :: _ => "," ++ commaSeparated es) := by
  cases es with
  | nil => simp [commaSeparated]
  | cons b rest => simp [commaSeparated, String.append_assoc]

theorem getValueAsStringFullLoop_eq (getChildAt : Nat → Option ChildValue)
    (Fields : List FieldDecl) :
    ∀ (i : Nat) (First : Bool) (Stream : String),
      getValueAsStringFullLoop getChildAt Fields i First Stream =
        Stream ++ (match recordEntries getChildAt Fields i with
          | [] => ""
          | e :: es => (if First then "" else ",") ++ commaSeparated (e :: es)) := by
  induction Fields with
  | nil => intro i First Stream; simp [getValueAsStringFullLoop, recordEntries]
  | cons F rest ih =>
    intro i First Stream
    simp only [getValueAsStringFullLoop, recordEntries]
    cases hc : getChildAt i with
    | none => simp only [ih]
    | some c =>
      have hcomma : (", ." : String) = "," ++ " ." := rfl
      simp only [ih, commaSeparated_cons]
      cases hes : recordEntries getChildAt rest (i + 1) with
      | nil =>
        (cases First <;> simp [String.append_assoc])
        rw [hcomma, String.append_assoc]
      | cons e es =>
        (cases First <;> simp [String.append_assoc, commaSeparated_cons])
        rw [hcomma, String.append_assoc]

/-- C22: the full string of an in-memory record whose type has a definition
is what the specification words: an opening brace, then " .f = s" for each
field `f` (in declaration order) whose child is present with full string `s`,
consecutive entries separated by ",", then " " and a closing brace. For
`struct Foo` with the children "5", "10.000000" and "c" the record made at
`0x3000` has 3 children and the full string of the example. -/
theorem getValueAsStringFull_record (r : ValueByMemoryForRecord) (AST : ASTContext)
    (getChildAt : Nat → Option ChildValue) (DeclId : Nat) (Decl : RecordDecl)
    (hrecord : r.CanonicalType.getAsRecordDecl = some DeclId)
    (hdefinition : AST.getDefinition DeclId = some Decl) :
    r.getValueAsStringFull AST getChildAt
      = .ok (recordFullStringSpec Decl.Fields getChildAt) ∧
    (ValueByMemoryForRecord.create exampleAST (.Record 0) 0x3000).toOption.map
      (fun V => V.map (fun f => (f.getChildCount, f.getValueAsStringFull exampleAST fooChildren)))
      = some (some (3, .ok ("\x7b .a = 5, .b = 10.000000, .c = c \x7d"))) := by
  refine ⟨?_, rfl⟩
  simp only [ValueByMemoryForRecord.getValueAsStringFull, hrecord, hdefinition,
    getValueAsStringFullLoop_eq, recordFullStringSpec]
  cases recordEntries getChildAt Decl.Fields 0 with
  | nil => simp [commaSeparated]
  | cons e es => simp [String.append_assoc]

/-- Witness for C22: `struct Foo` at `0x3000` with its three children. -/
theorem getValueAsStringFull_record_witness :
    (ValueByMemoryForRecord.mk [0, 64, 128] (.Record 0) 0x3000).getValueAsStringFull
      exampleAST fooChildren = .ok (recordFullStringSpec recordFoo.Fields fooChildren) :=
  (getValueAsStringFull_record (ValueByMemoryForRecord.mk [0, 64, 128] (.Record 0) 0x3000)
    exampleAST fooChildren 0 recordFoo rfl rfl).1

theorem eq_ok_of_toOption {ε α : Type} {x : Except ε α} {v : α}
    (h : x.toOption = some v) : x = .ok v := by
  cases x with
  | error e => cases h
  | ok y =>
    simp only [Except.toOption, Option.some.injEq] at h
    rw [h]

theorem array_create_fields {AST : ASTContext} {C : QualType} {A : Nat}
    {ProcessState : trace.ProcessState} {OwningFunction : Option trace.FunctionState}
    {a : ValueByMemoryForArray}
    (h : ValueByMemoryForArray.create AST C A ProcessState OwningFunction = .ok (some a)) :
    a.CanonicalType = C ∧ a.Address = A ∧ a.ElementSize ≠ 0 ∧
      a.ElementCount = (match C with
        | .ConstantArray _ n => n
        | _ =>
          match ProcessState.getContainingMemoryArea A with
          | some Area => (Area.withStart A).Length / a.ElementSize
          | none => 0) % U32 := by
  cases C
  all_goals simp only [ValueByMemoryForArray.create] at h
  all_goals first
    | cases h
    | skip
  all_goals (repeat' split at h)
  all_goals first
    | (simp only [Except.ok.injEq, Option.some.injEq] at h
       subst h
       exact ⟨rfl, rfl, by assumption, rfl⟩)
    | cases h

/-- C24 (as the code has it): an array value created at address `A` has
`A` as its address and a positive element size `s`; its element count is the
declared size of a constant array, and for a variable or incomplete array the
number of elements that fill the rest of the known memory area containing `A`
(0 when no known area contains `A`), in each case truncated to the 32 bits of
`unsigned`; while `i * s` is below `2 ^ 32`, the `i`-th child is what
`getValue` returns for the element type at `A + i * s`. -/
theorem array_create_count (AST : ASTContext) (C : QualType) (A : Nat)
    (ProcessState : trace.ProcessState) (OwningFunction : Option trace.FunctionState)
    (a : ValueByMemoryForArray)
    (h : ValueByMemoryForArray.create AST C A ProcessState OwningFunction = .ok (some a)) :
    a.Address = A ∧ 0 < a.ElementSize ∧
    (∀ E n, C = .ConstantArray E n → a.ElementCount = n % U32) ∧
    (∀ E, C = .IncompleteArray E ∨ C = .VariableArray E →
      (∀ Area, ProcessState.getContainingMemoryArea A = some Area →
        a.ElementCount = ((Area.Address + Area.Length - A) / a.ElementSize) % U32) ∧
      (ProcessState.getContainingMemoryArea A = none → a.ElementCount = 0)) ∧
    (∀ (S : ValueStoreImpl) (i : Nat), i < a.ElementCount → i * a.ElementSize < U32 →
      ∃ E, C.getElementType = some E ∧
        a.getChildAt AST ProcessState OwningFunction (some S) i
          = (getValue S E AST ((A + i * a.ElementSize) % trace.U64) ProcessState
              OwningFunction).map (fun x => (x.1, some x.2))) := by
  have hchild : ∀ E, C.getElementType = some E → a.CanonicalType = C → a.Address = A →
      ∀ (S : ValueStoreImpl) (i : Nat), i < a.ElementCount → i * a.ElementSize < U32 →
      ∃ E, C.getElementType = some E ∧
        a.getChildAt AST ProcessState OwningFunction (some S) i
          = (getValue S E AST ((A + i * a.ElementSize) % trace.U64) ProcessState
              OwningFunction).map (fun x => (x.1, some x.2)) := by
    intro E hE hC hA S i hi hmul
    refine ⟨E, hE, ?_⟩
    simp only [ValueByMemoryForArray.getChildAt, hi, not_true_eq_false, if_false, hC, hE, hA,
      Nat.mod_eq_of_lt hmul]
    exact map_getValue _
  obtain ⟨k1, k2, k3, k4⟩ := array_create_fields h
  cases C with
  | ConstantArray E n =>
    refine ⟨k2, Nat.pos_of_ne_zero k3, ?_, ?_, hchild E rfl k1 k2⟩
    · intro E2 n2 heq
      cases heq
      exact k4
    · intro E2 heq
      rcases heq with heq | heq <;> cases heq
  | IncompleteArray E =>
    refine ⟨k2, Nat.pos_of_ne_zero k3, ?_, ?_, hchild E rfl k1 k2⟩
    · intro E2 n2 heq
      cases heq
    · intro E2 _
      refine ⟨?_, ?_⟩
      · intro Area hArea
        rw [k4]
        simp only [hArea, trace.MemoryArea.withStart]
      · intro hnone
        rw [k4]
        simp only [hnone, Nat.zero_mod]
  | VariableArray E =>
    refine ⟨k2, Nat.pos_of_ne_zero k3, ?_, ?_, hchild E rfl k1 k2⟩
    · intro E2 n2 heq
      cases heq
    · intro E2 _
      refine ⟨?_, ?_⟩
      · intro Area hArea
        rw [k4]
        simp only [hArea, trace.MemoryArea.withStart]
      · intro hnone
        rw [k4]
        simp only [hnone, Nat.zero_mod]
  | _ => simp [ValueByMemoryForArray.create] at h

/-- Witness for C24: `int[]` at `0x3000`, in the area of 24 bytes. -/
theorem array_create_count_witness :
    ∃ a, ValueByMemoryForArray.create exampleAST (.IncompleteArray (.Builtin 0)) 0x3000
        exampleMemory none = .ok (some a) ∧ a.Address = 0x3000 ∧ 0 < a.ElementSize :=
  ⟨⟨.IncompleteArray (.Builtin 0), 0x3000, 4, 6⟩, eq_ok_of_toOption (by decide),
    (array_create_count exampleAST (.IncompleteArray (.Builtin 0)) 0x3000 exampleMemory none
      ⟨.IncompleteArray (.Builtin 0), 0x3000, 4, 6⟩ (eq_ok_of_toOption (by decide))).1,
    (array_create_count exampleAST (.IncompleteArray (.Builtin 0)) 0x3000 exampleMemory none
      ⟨.IncompleteArray (.Builtin 0), 0x3000, 4, 6⟩ (eq_ok_of_toOption (by decide))).2.1⟩

/-- C24 (counterexample): `char[4294967297]` is created with the element
count 1, not its declared size, and `char[]` at the start of a known area of
`2 ^ 32` bytes is created with the element count 0, not `2 ^ 32`. -/
theorem array_count_truncated :
    (ValueByMemoryForArray.create exampleAST (.ConstantArray (.Builtin 1) 4294967297)
        0x100000000 exampleMemory none).toOption
      = some (some ⟨.ConstantArray (.Builtin 1) 4294967297, 0x100000000, 1, 1⟩) ∧
    exampleMemory.getContainingMemoryArea 0x100000000 = some ⟨0x100000000, 4294967296⟩ ∧
    (ValueByMemoryForArray.create exampleAST (.IncompleteArray (.Builtin 1))
        0x100000000 exampleMemory none).toOption
      = some (some ⟨.IncompleteArray (.Builtin 1), 0x100000000, 1, 0⟩) := by
  refine ⟨by decide, by decide, by decide⟩

/-- C24 (evaluation of the 32-bit product): in `int[]` filling a known area of
`2 ^ 32` bytes the child with index `2 ^ 30` is the value at the address of
the array itself, which is the child with index 0. -/
theorem array_child_address_wraps :
    resultOf ((ValueByMemoryForArray.mk (.IncompleteArray (.Builtin 0)) 0x100000000 4
        1073741825).getChildAt exampleAST exampleMemory none (some ValueStoreImpl.empty)
        1073741824)
      = some (some ⟨0, .Scalar ⟨.Builtin 0, 0x100000000, 4⟩⟩) := by
  decide

theorem getShared_add (t : TypedValueSet) (M M2 : MatchType) (N N2 : Node)
    (h : (t.add M N).getShared M2 = some N2) :
    t.getShared M2 = some N2 ∨ (t.getShared M2 = none ∧ M2 = M ∧ N2 = N) := by
  simp only [TypedValueSet.getShared, TypedValueSet.add, List.find?_append] at h ⊢
  cases hf : t.Items.find? (fun Pair => Pair.1 == M2) with
  | some x =>
    left
    simpa [hf] using h
  | none =>
    right
    simp only [hf, Option.none_or, List.find?_cons, List.find?_nil] at h
    split at h
    · rename_i hb
      simp only [Option.map_some', Option.some.injEq] at h
      simp only [beq_iff_eq] at hb
      exact ⟨by simp, hb.symm, h.symm⟩
    · simp at h

theorem createValue_key {AST : ASTContext} {T : QualType} {A : Nat}
    {ProcessState : trace.ProcessState} {O : Option trace.FunctionState} {V : Value}
    (h : createValue AST T A ProcessState O = .ok (some V)) :
    V.key = some (A, T.getCanonicalType) ∧
    V.getTypeSizeInChars AST = scalarTypeSize AST T.getCanonicalType ∧
    AST.isIncompleteType T.getCanonicalType = false := by
  simp only [createValue] at h
  split at h
  · cases h
  · split at h
    · cases h
    · rename_i hinc
      simp only [Bool.not_eq_true] at hinc
      generalize T.getCanonicalType = C at h hinc ⊢
      cases C with
      | Builtin K =>
        simp only [Except.ok.injEq, Option.some.injEq] at h
        subst h
        exact ⟨rfl, rfl, hinc⟩
      | Atomic X =>
        simp only [Except.ok.injEq, Option.some.injEq] at h
        subst h
        exact ⟨rfl, rfl, hinc⟩
      | Enum X =>
        simp only [Except.ok.injEq, Option.some.injEq] at h
        subst h
        exact ⟨rfl, rfl, hinc⟩
      | Pointer P =>
        simp only [ValueByMemoryForPointer.create, QualType.getPointeeType, Except.ok.injEq,
          Option.some.injEq] at h
        subst h
        exact ⟨rfl, rfl, hinc⟩
      | Record D =>
        simp only [ValueByMemoryForRecord.create, QualType.getAsRecordDecl] at h
        cases hd : AST.getDefinition D with
        | none => simp [hd] at h
        | some Decl =>
          simp only [hd, Option.map_some', Except.ok.injEq, Option.some.injEq] at h
          subst h
          exact ⟨rfl, rfl, hinc⟩
      | ConstantArray E n =>
        simp only at h
        split at h
        · cases h
        · rename_i V2 hV2
          cases V2 with
          | none => simp at h
          | some a =>
            simp only [Option.map_some', Except.ok.injEq, Option.some.injEq] at h
            subst h
            obtain ⟨k1, k2, -, -⟩ := array_create_fields hV2
            simp only [Value.key, Value.getTypeSizeInChars, k1, k2, scalarTypeSize]
            exact ⟨trivial, trivial, hinc⟩
      | IncompleteArray E =>
        simp only at h
        split at h
        · cases h
        · rename_i V2 hV2
          cases V2 with
          | none => simp at h
          | some a =>
            simp only [Option.map_some', Except.ok.injEq, Option.some.injEq] at h
            subst h
            obtain ⟨k1, k2, -, -⟩ := array_create_fields hV2
            simp only [Value.key, Value.getTypeSizeInChars, k1, k2, scalarTypeSize]
            exact ⟨trivial, trivial, hinc⟩
      | VariableArray E =>
        simp only at h
        split at h
        · cases h
        · rename_i V2 hV2
          cases V2 with
          | none => simp at h
          | some a =>
            simp only [Option.map_some', Except.ok.injEq, Option.some.injEq] at h
            subst h
            obtain ⟨k1, k2, -, -⟩ := array_create_fields hV2
            simp only [Value.key, Value.getTypeSizeInChars, k1, k2, scalarTypeSize]
            exact ⟨trivial, trivial, hinc⟩
      | _ => simp at h

theorem getValue_found {S S1 : ValueStoreImpl} {AST : ASTContext} {T : QualType}
    {A : Nat} {ProcessState : trace.ProcessState} {O : Option trace.FunctionState}
    {R : Option Node}
    (h : getValue S T AST A ProcessState O = .ok (R, S1)) :
    S.Created ≤ S1.Created ∧
    ∀ A2 M2 N2, (S1.Store A2).getShared M2 = some N2 →
      (S.Store A2).getShared M2 = some N2 ∨
      (A2 = A ∧ M2 = ⟨T.getCanonicalType⟩ ∧ N2.Id = S.Created ∧ S.Created < S1.Created ∧
        createValue AST T A ProcessState O = .ok (some N2.Val)) := by
  simp only [getValue, ValueStoreImpl.getValue] at h
  split at h
  · simp only [Except.ok.injEq, Prod.mk.injEq] at h
    obtain ⟨-, rfl⟩ := h
    exact ⟨le_refl _, fun A2 M2 N2 h2 => Or.inl h2⟩
  · split at h
    · simp only [Except.ok.injEq, Prod.mk.injEq] at h
      obtain ⟨-, rfl⟩ := h
      exact ⟨le_refl _, fun A2 M2 N2 h2 => Or.inl h2⟩
    · split at h
      · simp at h
      · simp only [Except.ok.injEq, Prod.mk.injEq] at h
        obtain ⟨-, rfl⟩ := h
        exact ⟨le_refl _, fun A2 M2 N2 h2 => Or.inl h2⟩
      · rename_i V hV
        simp only [Except.ok.injEq, Prod.mk.injEq] at h
        obtain ⟨-, rfl⟩ := h
        refine ⟨Nat.le_succ _, ?_⟩
        intro A2 M2 N2 h2
        by_cases hA : A2 = A
        · subst hA
          simp only [Function.update_same] at h2
          rcases getShared_add _ _ _ _ _ h2 with h3 | ⟨-, h4, h5⟩
          · exact Or.inl h3
          · subst h5
            exact Or.inr ⟨rfl, h4, rfl, Nat.lt_succ_self _, hV⟩
        · simp only [Function.update_noteq hA] at h2
          exact Or.inl h2

theorem getValue_coherent {S S1 : ValueStoreImpl} {AST : ASTContext} {T : QualType}
    {A : Nat} {ProcessState : trace.ProcessState} {O : Option trace.FunctionState}
    {R : Option Node} (hS : S.Coherent AST)
    (h : getValue S T AST A ProcessState O = .ok (R, S1)) : S1.Coherent AST := by
  obtain ⟨hle, hfound⟩ := getValue_found h
  refine ⟨?_, ?_⟩
  · intro A2 M2 N2 h2
    rcases hfound A2 M2 N2 h2 with h3 | ⟨rfl, rfl, h5, h6, h7⟩
    · obtain ⟨g1, g2, g3, g4⟩ := hS.1 A2 M2 N2 h3
      exact ⟨lt_of_lt_of_le g1 hle, g2, g3, g4⟩
    · obtain ⟨k1, k2, k3⟩ := createValue_key h7
      exact ⟨by omega, k1, k2, k3⟩
  · intro A2 M2 N2 A3 M3 N3 h2 h3 hid
    rcases hfound A2 M2 N2 h2 with g2 | ⟨rfl, rfl, i2, j2, c2⟩
    · rcases hfound A3 M3 N3 h3 with g3 | ⟨rfl, rfl, i3, j3, c3⟩
      · exact hS.2 A2 M2 N2 A3 M3 N3 g2 g3 hid
      · have := (hS.1 A2 M2 N2 g2).1
        omega
    · rcases hfound A3 M3 N3 h3 with g3 | ⟨-, -, i3, j3, c3⟩
      · have := (hS.1 A3 M3 N3 g3).1
        omega
      · rw [c2] at c3
        simp only [Except.ok.injEq, Option.some.injEq] at c3
        cases N2
        cases N3
        simp only at hid c3
        subst hid
        subst c3
        rfl

theorem coherent_empty (AST : ASTContext) : ValueStoreImpl.empty.Coherent AST := by
  refine ⟨?_, ?_⟩
  · intro A M N h
    simp [ValueStoreImpl.empty, TypedValueSet.getShared] at h
  · intro A M N A2 M2 N2 h
    simp [ValueStoreImpl.empty, TypedValueSet.getShared] at h

theorem getValue_same_id {S S3 : ValueStoreImpl} {AST : ASTContext} {P : QualType}
    {A X : Nat} {ProcessState : trace.ProcessState} {O : Option trace.FunctionState}
    {N NX : Node} {MX : MatchType} (hS : S.Coherent AST)
    (hfound : (S.Store X).getShared MX = some NX)
    (hget : getValue S P AST A ProcessState O = .ok (some N, S3)) (hid : N.Id = NX.Id) :
    A = X ∧ P.getCanonicalType = MX.CanonicalType := by
  have hS3 := getValue_coherent hS hget
  obtain ⟨h1, h2⟩ := getValue_eq_ok hget
  obtain ⟨-, hN⟩ := h1 N rfl
  have hNX := h2 X MX NX hfound
  have heq := hS3.2 _ _ _ _ _ _ hN hNX hid
  have k1 := (hS3.1 _ _ _ hN).2.1
  have k2 := (hS3.1 _ _ _ hNX).2.1
  rw [heq, k2] at k1
  simp only [Option.some.injEq, Prod.mk.injEq] at k1
  exact ⟨k1.1.symm, k1.2.symm⟩

theorem getDereferenced_eq {p : ValueOfPointer} {P : QualType} (hP : p.getPointeeType = some P)
    (AST : ASTContext) (ProcessState : trace.ProcessState) (S : ValueStoreImpl) (i : Nat) :
    p.getDereferenced AST ProcessState (some S) i
      = (getValue S P AST ((p.getRawValue + i * p.getPointeeSize) % trace.U64) ProcessState
          none).map (fun x => (x.1, some x.2)) := by
  cases p with
  | InMemory V =>
    simp only [ValueOfPointer.getPointeeType] at hP
    simp only [ValueOfPointer.getDereferenced, ValueByMemoryForPointer.getDereferenced, hP,
      ValueOfPointer.getRawValue, ValueOfPointer.getPointeeSize]
    exact map_getValue _
  | Runtime V =>
    simp only [ValueOfPointer.getPointeeType] at hP
    simp only [ValueOfPointer.getDereferenced, ValueByRuntimeValueForPointer.getDereferenced, hP,
      ValueOfPointer.getRawValue, ValueOfPointer.getPointeeSize]
    exact map_getValue _

theorem limit_pos_size {p : ValueOfPointer} {AST : ASTContext}
    {ProcessState : trace.ProcessState}
    (h : p.getDereferenceIndexLimit AST ProcessState ≠ 0) : p.getPointeeSize ≠ 0 := by
  intro hz
  apply h
  cases p with
  | InMemory V =>
    simp only [ValueOfPointer.getPointeeSize] at hz
    simp only [ValueOfPointer.getDereferenceIndexLimit,
      ValueByMemoryForPointer.getDereferenceIndexLimit, hz]
    split
    · rfl
    · split <;> simp
  | Runtime V =>
    simp only [ValueOfPointer.getPointeeSize] at hz
    simp only [ValueOfPointer.getDereferenceIndexLimit,
      ValueByRuntimeValueForPointer.getDereferenceIndexLimit, hz]
    split <;> simp

/-- The comparison at the end of `doReferenceSameValue`: dereferencing the
lower pointer at the offset of the higher one gives the object that the higher
one points to exactly when the pointee types have the same canonical type and
the higher raw value is the lower one plus that many pointee sizes. -/
theorem sameInstance_iff {S2 : ValueStoreImpl} {AST : ASTContext}
    {ProcessState : trace.ProcessState} {p : ValueOfPointer} {P PX : QualType}
    {X : Nat} {NX : Node} {D : Option Node} {S3 : Option ValueStoreImpl}
    (hS2 : S2.Coherent AST) (hfound : (S2.Store X).getShared ⟨PX.getCanonicalType⟩ = some NX)
    (hnull : PX.getCanonicalType.isNull = false)
    (hP : p.getPointeeType = some P) (hle : p.getRawValue ≤ X) (hX : X < trace.U64)
    (h : p.getDereferenced AST ProcessState (some S2) ((X - p.getRawValue) / p.getPointeeSize)
      = .ok (D, S3)) :
    sameInstance D NX = true ↔
      P.getCanonicalType = PX.getCanonicalType ∧
        X = p.getRawValue + (X - p.getRawValue) / p.getPointeeSize * p.getPointeeSize := by
  rw [getDereferenced_eq hP] at h
  have hmul : (X - p.getRawValue) / p.getPointeeSize * p.getPointeeSize ≤ X - p.getRawValue :=
    Nat.div_mul_le_self _ _
  have haddr : (p.getRawValue + (X - p.getRawValue) / p.getPointeeSize * p.getPointeeSize)
      % trace.U64
      = p.getRawValue + (X - p.getRawValue) / p.getPointeeSize * p.getPointeeSize :=
    Nat.mod_eq_of_lt (by omega)
  rw [haddr] at h
  generalize (X - p.getRawValue) / p.getPointeeSize * p.getPointeeSize = off at h hmul haddr ⊢
  cases hg : getValue S2 P AST (p.getRawValue + off) ProcessState none with
  | error e => simp [hg, Except.map] at h
  | ok r =>
    obtain ⟨D2, S4⟩ := r
    simp only [hg, Except.map, Except.ok.injEq, Prod.mk.injEq] at h
    obtain ⟨rfl, -⟩ := h
    constructor
    · intro hsame
      cases D2 with
      | none => simp [sameInstance] at hsame
      | some N =>
        simp only [sameInstance, beq_iff_eq] at hsame
        obtain ⟨k1, k2⟩ := getValue_same_id hS2 hfound hg hsame
        exact ⟨k2, k1.symm⟩
    · rintro ⟨ht, ha⟩
      rw [← ha, getValue_of_shared (by rw [ht]; exact hnull) (by rw [ht]; exact hfound)] at hg
      simp only [Except.ok.injEq, Prod.mk.injEq] at hg
      obtain ⟨rfl, -⟩ := hg
      simp [sameInstance]

theorem scalarTypeSize_eq {AST : ASTContext} {C : QualType}
    (h : AST.isX87DoubleExtended C = false) :
    scalarTypeSize AST C = AST.getTypeSizeInChars C := by
  cases C <;> simp [scalarTypeSize, h]

theorem offset_eq {L R s k : Nat} (hs : s ≠ 0) (h : R = L + k * s) : (R - L) / s = k := by
  subst h
  rw [Nat.add_sub_cancel_left]
  exact Nat.mul_div_cancel k (Nat.pos_of_ne_zero hs)

theorem raw_mod {p : ValueOfPointer} (h : p.getRawValue < trace.U64) :
    (p.getRawValue + 0 * p.getPointeeSize) % trace.U64 = p.getRawValue := by
  rw [Nat.zero_mul, Nat.add_zero]
  exact Nat.mod_eq_of_lt h

/-- What the value returned by `getDereferenced(0)` is like. -/
theorem deref_zero_facts {S S1 : ValueStoreImpl} {AST : ASTContext}
    {ProcessState : trace.ProcessState} {p : ValueOfPointer} {P : QualType} {N : Node}
    (hS : S.Coherent AST)
    (hsize : p.getPointeeSize = if AST.isIncompleteType P.getCanonicalType = true then 0
      else AST.getTypeSizeInChars P.getCanonicalType)
    (hx87 : AST.isX87DoubleExtended P.getCanonicalType = false)
    (hg : getValue S P AST p.getRawValue ProcessState none = .ok (some N, S1)) :
    S1.Coherent AST ∧ (S1.Store p.getRawValue).getShared ⟨P.getCanonicalType⟩ = some N ∧
      P.getCanonicalType.isNull = false ∧ N.Val.getTypeSizeInChars AST = p.getPointeeSize := by
  have hS1 := getValue_coherent hS hg
  obtain ⟨hnull, hfound⟩ := (getValue_eq_ok hg).1 N rfl
  obtain ⟨-, -, hsz, hinc⟩ := hS1.1 _ _ _ hfound
  simp only at hsz hinc
  rw [hinc] at hsize
  simp only [Bool.false_eq_true, if_false] at hsize
  exact ⟨hS1, hfound, hnull, by rw [hsz, scalarTypeSize_eq hx87, hsize]⟩

/-- C23 (as the code has it): let `L` and `R` be pointer values as they are
created (the pointee size is that of the canonical pointee type, 0 for an
incomplete one; the raw value is a 64-bit address) whose pointee types are not
`long double` of x87, in a state view whose store exists and is coherent.
`doReferenceSameValue(L, R)` returns false when one of the two dereference
index limits is 0. Whenever it returns, it returns true exactly when both
limits are not 0, the pointee sizes are equal, the pointee types have the same
canonical type, and the raw value of one pointer is the raw value of the other
plus `k` pointee sizes for some `k` below that other pointer's limit. It does
return when both pointees are complete builtin, atomic or enum types. -/
theorem doReferenceSameValue_iff (AST : ASTContext) (ProcessState : trace.ProcessState)
    (S : ValueStoreImpl) (LHS RHS : ValueOfPointer) (PL PR : QualType)
    (hS : S.Coherent AST)
    (hPL : LHS.getPointeeType = some PL) (hPR : RHS.getPointeeType = some PR)
    (hLsize : LHS.getPointeeSize = if AST.isIncompleteType PL.getCanonicalType = true then 0
      else AST.getTypeSizeInChars PL.getCanonicalType)
    (hRsize : RHS.getPointeeSize = if AST.isIncompleteType PR.getCanonicalType = true then 0
      else AST.getTypeSizeInChars PR.getCanonicalType)
    (hLraw : LHS.getRawValue < trace.U64) (hRraw : RHS.getRawValue < trace.U64)
    (hLx87 : AST.isX87DoubleExtended PL.getCanonicalType = false)
    (hRx87 : AST.isX87DoubleExtended PR.getCanonicalType = false) :
    ((LHS.getDereferenceIndexLimit AST ProcessState = 0 ∨
        RHS.getDereferenceIndexLimit AST ProcessState = 0) →
      doReferenceSameValue LHS RHS AST ProcessState (some S) = .ok (false, some S)) ∧
    (∀ b S1, doReferenceSameValue LHS RHS AST ProcessState (some S) = .ok (b, S1) →
      (b = true ↔
        LHS.getDereferenceIndexLimit AST ProcessState ≠ 0 ∧
        RHS.getDereferenceIndexLimit AST ProcessState ≠ 0 ∧
        LHS.getPointeeSize = RHS.getPointeeSize ∧
        PL.getCanonicalType = PR.getCanonicalType ∧
        ((LHS.getRawValue ≤ RHS.getRawValue ∧
            ∃ k, k < LHS.getDereferenceIndexLimit AST ProcessState ∧
              RHS.getRawValue = LHS.getRawValue + k * LHS.getPointeeSize) ∨
         (RHS.getRawValue < LHS.getRawValue ∧
            ∃ k, k < RHS.getDereferenceIndexLimit AST ProcessState ∧
              LHS.getRawValue = RHS.getRawValue + k * RHS.getPointeeSize)))) ∧
    (PL.getCanonicalType.isScalarClass = true → PR.getCanonicalType.isScalarClass = true →
      ∃ b S1, doReferenceSameValue LHS RHS AST ProcessState (some S) = .ok (b, some S1)) := by
  have hzero : (LHS.getDereferenceIndexLimit AST ProcessState = 0 ∨
        RHS.getDereferenceIndexLimit AST ProcessState = 0) →
      doReferenceSameValue LHS RHS AST ProcessState (some S) = .ok (false, some S) := by
    intro h
    simp only [doReferenceSameValue, h, if_true]
  refine ⟨hzero, ?_, ?_⟩
  · intro b Sb h
    simp only [doReferenceSameValue] at h
    split at h
    · rename_i hz
      simp only [Except.ok.injEq, Prod.mk.injEq] at h
      obtain ⟨rfl, -⟩ := h
      constructor
      · intro hb; cases hb
      · rintro ⟨h1, h2, -⟩
        rcases hz with hz | hz
        · exact absurd hz h1
        · exact absurd hz h2
    · rename_i hz
      obtain ⟨hzL, hzR⟩ := not_or.mp hz
      have hsL := limit_pos_size hzL
      have hsR := limit_pos_size hzR
      rw [getDereferenced_eq hPL AST ProcessState S 0, raw_mod hLraw] at h
      cases hg1 : getValue S PL AST LHS.getRawValue ProcessState none with
      | error e => simp [hg1, Except.map] at h
      | ok r1 =>
        obtain ⟨L0, S1⟩ := r1
        simp only [hg1, Except.map] at h
        rw [getDereferenced_eq hPR AST ProcessState S1 0, raw_mod hRraw] at h
        cases hg2 : getValue S1 PR AST RHS.getRawValue ProcessState none with
        | error e => simp [hg2, Except.map] at h
        | ok r2 =>
          obtain ⟨R0, S2⟩ := r2
          simp only [hg2, Except.map] at h
          cases L0 with
          | none => simp at h
          | some NL =>
            cases R0 with
            | none => simp at h
            | some NR =>
              simp only at h
              obtain ⟨hS1, hfoundL1, hnullL, eL⟩ := deref_zero_facts hS hLsize hLx87 hg1
              obtain ⟨hS2, hfoundR, hnullR, eR⟩ := deref_zero_facts hS1 hRsize hRx87 hg2
              have hfoundL := (getValue_eq_ok hg2).2 _ _ _ hfoundL1
              rw [eL, eR] at h
              split at h
              · rename_i hne
                simp only [Except.ok.injEq, Prod.mk.injEq] at h
                obtain ⟨rfl, -⟩ := h
                constructor
                · intro hb; cases hb
                · rintro ⟨-, -, h3, -⟩
                  exact absurd h3 hne
              · rename_i hne
                have hsize : LHS.getPointeeSize = RHS.getPointeeSize := not_not.mp hne
                split at h
                · rename_i hle
                  split at h
                  · rename_i hlt
                    cases hd : LHS.getDereferenced AST ProcessState (some S2)
                        ((RHS.getRawValue - LHS.getRawValue) / LHS.getPointeeSize) with
                    | error e => simp [hd] at h
                    | ok r3 =>
                      obtain ⟨D, S3⟩ := r3
                      simp only [hd, Except.ok.injEq, Prod.mk.injEq] at h
                      obtain ⟨rfl, -⟩ := h
                      rw [sameInstance_iff hS2 hfoundR hnullR hPL hle hRraw hd]
                      constructor
                      · rintro ⟨ht, ha⟩
                        exact ⟨hzL, hzR, hsize, ht, Or.inl ⟨hle, _, hlt, ha⟩⟩
                      · rintro ⟨-, -, -, ht, (⟨-, k, -, hk⟩ | ⟨hlt2, -⟩)⟩
                        · refine ⟨ht, ?_⟩
                          rw [offset_eq hsL hk]
                          exact hk
                        · omega
                  · rename_i hlt
                    simp only [Except.ok.injEq, Prod.mk.injEq] at h
                    obtain ⟨rfl, -⟩ := h
                    constructor
                    · intro hb; cases hb
                    · rintro ⟨-, -, -, -, (⟨-, k, hk1, hk⟩ | ⟨hlt2, -⟩)⟩
                      · rw [offset_eq hsL hk] at hlt
                        exact absurd hk1 hlt
                      · omega
                · rename_i hle
                  have hle2 : RHS.getRawValue ≤ LHS.getRawValue := by omega
                  split at h
                  · rename_i hlt
                    cases hd : RHS.getDereferenced AST ProcessState (some S2)
                        ((LHS.getRawValue - RHS.getRawValue) / RHS.getPointeeSize) with
                    | error e => simp [hd] at h
                    | ok r3 =>
                      obtain ⟨D, S3⟩ := r3
                      simp only [hd, Except.ok.injEq, Prod.mk.injEq] at h
                      obtain ⟨rfl, -⟩ := h
                      rw [sameInstance_iff hS2 hfoundL hnullL hPR hle2 hLraw hd]
                      constructor
                      · rintro ⟨ht, ha⟩
                        exact ⟨hzL, hzR, hsize, ht.symm, Or.inr ⟨by omega, _, hlt, ha⟩⟩
                      · rintro ⟨-, -, -, ht, (⟨hle3, -⟩ | ⟨-, k, -, hk⟩)⟩
                        · exact absurd hle3 hle
                        · refine ⟨ht.symm, ?_⟩
                          rw [offset_eq hsR hk]
                          exact hk
                  · rename_i hlt
                    simp only [Except.ok.injEq, Prod.mk.injEq] at h
                    obtain ⟨rfl, -⟩ := h
                    constructor
                    · intro hb; cases hb
                    · rintro ⟨-, -, -, -, (⟨hle3, -⟩ | ⟨-, k, hk1, hk⟩)⟩
                      · exact absurd hle3 hle
                      · rw [offset_eq hsR hk] at hlt
                        exact absurd hk1 hlt
  · intro hscL hscR
    by_cases hz : LHS.getDereferenceIndexLimit AST ProcessState = 0 ∨
        RHS.getDereferenceIndexLimit AST ProcessState = 0
    · exact ⟨false, S, hzero hz⟩
    · obtain ⟨hzL, hzR⟩ := not_or.mp hz
      have hsL := limit_pos_size hzL
      have hsR := limit_pos_size hzR
      have hcL : AST.isIncompleteType PL.getCanonicalType = false := by
        cases hc : AST.isIncompleteType PL.getCanonicalType with
        | false => rfl
        | true => rw [hc] at hLsize; exact absurd hLsize hsL
      have hcR : AST.isIncompleteType PR.getCanonicalType = false := by
        cases hc : AST.isIncompleteType PR.getCanonicalType with
        | false => rfl
        | true => rw [hc] at hRsize; exact absurd hRsize hsR
      obtain ⟨NL, S1, hg1⟩ := @getValue_scalar S AST PL LHS.getRawValue ProcessState hscL hcL
      obtain ⟨NR, S2, hg2⟩ := @getValue_scalar S1 AST PR RHS.getRawValue ProcessState hscR hcR
      obtain ⟨hS1, hfoundL1, hnullL, eL⟩ := deref_zero_facts hS hLsize hLx87 hg1
      obtain ⟨hS2, hfoundR, hnullR, eR⟩ := deref_zero_facts hS1 hRsize hRx87 hg2
      simp only [doReferenceSameValue, hz, if_false, getDereferenced_eq hPL AST ProcessState S 0,
        raw_mod hLraw, hg1, Except.map, getDereferenced_eq hPR AST ProcessState S1 0,
        raw_mod hRraw, hg2, eL, eR]
      split
      · exact ⟨false, S2, rfl⟩
      · split
        · split
          · rw [getDereferenced_eq hPL AST ProcessState S2]
            obtain ⟨N3, S3, hg3⟩ := @getValue_scalar S2 AST PL
              ((LHS.getRawValue + (RHS.getRawValue - LHS.getRawValue) / LHS.getPointeeSize
                * LHS.getPointeeSize) % trace.U64) ProcessState hscL hcL
            rw [hg3]
            exact ⟨_, S3, rfl⟩
          · exact ⟨false, S2, rfl⟩
        · split
          · rw [getDereferenced_eq hPR AST ProcessState S2]
            obtain ⟨N3, S3, hg3⟩ := @getValue_scalar S2 AST PR
              ((RHS.getRawValue + (LHS.getRawValue - RHS.getRawValue) / RHS.getPointeeSize
                * RHS.getPointeeSize) % trace.U64) ProcessState hscR hcR
            rw [hg3]
            exact ⟨_, S3, rfl⟩
          · exact ⟨false, S2, rfl⟩

/-- Witness for C23: two `int *` values into the area of 24 bytes at `0x3000`,
two elements apart. -/
theorem doReferenceSameValue_iff_witness :
    ∃ b S1, doReferenceSameValue (pointerToInt 0x3000) (pointerToInt 0x3008) exampleAST
      exampleMemory (some ValueStoreImpl.empty) = .ok (b, some S1) :=
  (doReferenceSameValue_iff exampleAST exampleMemory ValueStoreImpl.empty
    (pointerToInt 0x3000) (pointerToInt 0x3008) (.Builtin 0) (.Builtin 0)
    (coherent_empty exampleAST) rfl rfl rfl rfl (by decide) (by decide) rfl rfl).2.2 rfl rfl

/-- C23 (counterexample): a `double *` and a `char **` with the same raw value
`0x3000`, in a known area of 24 bytes: the pointee sizes are both 8, both
limits are 3, and the raw value of one is that of the other plus 0 pointee
sizes, yet `doReferenceSameValue` is false, as the two pointers dereference to
different objects. -/
theorem doReferenceSameValue_types_differ :
    (ValueOfPointer.Runtime ⟨.Pointer (.Builtin 2), 0x3000, 8⟩).getDereferenceIndexLimit
      exampleAST exampleMemory = 3 ∧
    (ValueOfPointer.Runtime ⟨.Pointer (.Pointer (.Builtin 1)), 0x3000, 8⟩).getDereferenceIndexLimit
      exampleAST exampleMemory = 3 ∧
    resultOf ((ValueOfPointer.Runtime ⟨.Pointer (.Builtin 2), 0x3000, 8⟩).getDereferenced
      exampleAST exampleMemory (some ValueStoreImpl.empty) 0)
      = some (some ⟨0, .Scalar ⟨.Builtin 2, 0x3000, 8⟩⟩) ∧
    (resultOf ((ValueOfPointer.Runtime ⟨.Pointer (.Pointer (.Builtin 1)), 0x3000, 8⟩).getDereferenced
      exampleAST exampleMemory (some ValueStoreImpl.empty) 0)).map
        (fun V => V.map (fun N => N.Val.getTypeSizeInChars exampleAST)) = some (some 8) ∧
    resultOf (doReferenceSameValue (.Runtime ⟨.Pointer (.Builtin 2), 0x3000, 8⟩)
      (.Runtime ⟨.Pointer (.Pointer (.Builtin 1)), 0x3000, 8⟩) exampleAST exampleMemory
      (some ValueStoreImpl.empty)) = some false := by
  refine ⟨by decide, by decide, by decide, by decide, by decide⟩

/-- C23 (evaluation for `long double` of x87): two `long double *` values two
elements apart in one known area, both with a limit above 2. The offset is
computed with the 10 used bytes and the address with the 16 bytes of the
pointee type, and the result is false. -/
theorem doReferenceSameValue_long_double :
    (ValueOfPointer.Runtime ⟨.Pointer (.Builtin 3), 0x100000000, 16⟩).getDereferenceIndexLimit
      exampleAST exampleMemory = 268435456 ∧
    resultOf ((ValueOfPointer.Runtime ⟨.Pointer (.Builtin 3), 0x100000000, 16⟩).getDereferenced
      exampleAST exampleMemory (some ValueStoreImpl.empty) 0)
      = some (some ⟨0, .Scalar ⟨.Builtin 3, 0x100000000, 10⟩⟩) ∧
    resultOf (doReferenceSameValue (.Runtime ⟨.Pointer (.Builtin 3), 0x100000000, 16⟩)
      (.Runtime ⟨.Pointer (.Builtin 3), 0x100000020, 16⟩) exampleAST exampleMemory
      (some ValueStoreImpl.empty)) = some false := by
  refine ⟨by decide, by decide, by decide⟩

/-! ## The string of a `char` -/

theorem charOfByte_lt {s : Bool} {c : Nat} (h : c < 128) : charOfByte s c = (c : Int) := by
  have h1 : c % 256 = c := Nat.mod_eq_of_lt (by omega)
  have h2 : ¬ 128 ≤ c := by omega
  simp [charOfByte, h1, h2]

/-- C33: let an in-memory value of type `char` (one byte) be completely
initialized and hold the byte `c`, read as the `char` value `ch` of the host
(`c` itself for `c < 128`). Its value string is the single character `c` when
`isprint(ch)`; otherwise it is a backslash followed by `t`, `f`, `v`, `n` or
`r` when `c` is the tab (9), form feed (12), vertical tab (11), newline (10)
or carriage return (13), and in every other case a backslash followed by the
decimal of `ch`. The value string of a scalar that is not completely
initialized is "<uninitialized>", whatever its type. The full string is the
short one. -/
theorem char_value_string (Host : HostLibrary) (Memory : trace.MemoryState)
    (v : ValueByMemoryForScalar) (Kind c : Nat)
    (htype : v.CanonicalType = .Builtin Kind) (hkind : Kind = Char_S ∨ Kind = Char_U)
    (hsize : v.Size = 1)
    (hinit : v.isCompletelyInitialized Memory = true)
    (hbyte : Memory.Value v.Address = c) (hc : c < 256) :
    (Host.isprint (charOfByte Host.CharIsSigned c) = true →
      v.getValueAsStringShort Host Memory = String.singleton (Char.ofNat c)) ∧
    (Host.isprint (charOfByte Host.CharIsSigned c) = false →
      (c = 9 → v.getValueAsStringShort Host Memory = "\\t") ∧
      (c = 12 → v.getValueAsStringShort Host Memory = "\\f") ∧
      (c = 11 → v.getValueAsStringShort Host Memory = "\\v") ∧
      (c = 10 → v.getValueAsStringShort Host Memory = "\\n") ∧
      (c = 13 → v.getValueAsStringShort Host Memory = "\\r") ∧
      (c ≠ 9 → c ≠ 12 → c ≠ 11 → c ≠ 10 → c ≠ 13 →
        v.getValueAsStringShort Host Memory
          = "\\" ++ toString (charOfByte Host.CharIsSigned c))) ∧
    (c < 128 → charOfByte Host.CharIsSigned c = (c : Int)) ∧
    v.getValueAsStringFull Host Memory = v.getValueAsStringShort Host Memory ∧
    (∀ (w : ValueByMemoryForScalar) (M : trace.MemoryState),
      w.isCompletelyInitialized M = false →
        w.getValueAsStringShort Host M = "<uninitialized>" ∧
        w.getValueAsStringFull Host M = "<uninitialized>") := by
  have hmod : c % 256 = c := Nat.mod_eq_of_lt hc
  have hvalues : Memory.getValues ⟨v.Address, 1⟩ = [c] := by
    simp [trace.MemoryState.getValues, List.range_succ, hbyte]
  have hk : (Kind = Char_U ∨ Kind = Char_S) := hkind.symm
  have hstr : v.getValueAsStringShort Host Memory
      = GetMemoryOfBuiltinAsString.char Host 1 [c] := by
    simp only [ValueByMemoryForScalar.getValueAsStringShort, hinit, Bool.not_true,
      Bool.false_eq_true, if_false, hsize, hvalues, htype, getScalarValueAsString,
      QualType.getCanonicalType, getScalarValueAsStringCanonical,
      getScalarValueAsStringBuiltin, hk, if_true]
  have hch : ∀ n : Nat, n < 128 → (charOfByte Host.CharIsSigned c = (n : Int) ↔ c = n) := by
    intro n hn
    unfold charOfByte
    rw [hmod]
    simp only
    split
    · rename_i h
      simp only [Bool.and_eq_true, decide_eq_true_eq] at h
      omega
    · omega
  refine ⟨?_, ?_, fun h => charOfByte_lt h, rfl, ?_⟩
  · intro hp
    rw [hstr]
    simp [GetMemoryOfBuiltinAsString.char, hp, hmod]
  · intro hp
    have h9 := hch 9 (by omega)
    have h12 := hch 12 (by omega)
    have h11 := hch 11 (by omega)
    have h10 := hch 10 (by omega)
    have h13 := hch 13 (by omega)
    simp only [Nat.cast_ofNat] at h9 h12 h11 h10 h13
    rw [hstr]
    simp only [GetMemoryOfBuiltinAsString.char, ne_eq, not_true_eq_false, if_false, hp,
      Bool.false_eq_true, h9, h12, h11, h10, h13]
    refine ⟨?_, ?_, ?_, ?_, ?_, ?_⟩
    · intro h; subst h; rfl
    · intro h; subst h; rfl
    · intro h; subst h; rfl
    · intro h; subst h; rfl
    · intro h; subst h; rfl
    · intro a b c d e
      simp [a, b, c, d, e]
  · intro w M hw
    have : w.getValueAsStringShort Host M = "<uninitialized>" := by
      simp [ValueByMemoryForScalar.getValueAsStringShort, hw]
    exact ⟨this, this⟩

/-- Witness for C33: the byte 65 in a `char` at `0x1000`, on a host with the
"C" locale. -/
theorem char_value_string_witness :
    (ValueByMemoryForScalar.mk (.Builtin 1) 0x1000 1).getValueAsStringShort hostC
      (memoryWithByte 65) = "A" :=
  (char_value_string hostC (memoryWithByte 65) ⟨.Builtin 1, 0x1000, 1⟩ 1 65 rfl (Or.inl rfl) rfl
    (by decide) rfl (by decide)).1 (by decide)

/-- The strings of four bytes in a `char` on a host with a signed `char` and
the "C" locale: a newline, the bell, the byte 200 (the `char` value -56) and a
byte that is not initialized. -/
theorem char_value_string_examples :
    (ValueByMemoryForScalar.mk (.Builtin 1) 0x1000 1).getValueAsStringShort hostC
      (memoryWithByte 10) = "\\n" ∧
    (ValueByMemoryForScalar.mk (.Builtin 1) 0x1000 1).getValueAsStringShort hostC
      (memoryWithByte 7) = "\\7" ∧
    (ValueByMemoryForScalar.mk (.Builtin 1) 0x1000 1).getValueAsStringShort hostC
      (memoryWithByte 200) = "\\-56" ∧
    (ValueByMemoryForScalar.mk (.Builtin 1) 0x2000 1).getValueAsStringShort hostC
      (memoryWithByte 200) = "<uninitialized>" := by
  refine ⟨by decide, by decide, by decide, by decide⟩

/-! ## The field of a child -/

/-- C39 (evaluation at the failing input): the record value for `struct Foo`
has 3 children. `getChildField(3)` passes the guard `Index > getFieldCount()`,
advances the field iterator by 3, to the end of the fields, and reads the
field there, which is undefined; `getChildField(4)` returns null and
`getChildField(1)` the field `b`. In general, for a record whose layout has as
many fields as its definition, `getChildField(i)` returns the `i`-th declared
field for `i` below the child count, returns null for `i` above it, and is
undefined for `i` equal to it. -/
theorem getChildField_at_count :
    (ValueByMemoryForRecord.mk [0, 64, 128] (.Record 0) 0x3000).getChildCount = 3 ∧
    (ValueByMemoryForRecord.mk [0, 64, 128] (.Record 0) 0x3000).getChildField exampleAST 3
      = .error .undefined ∧
    (ValueByMemoryForRecord.mk [0, 64, 128] (.Record 0) 0x3000).getChildField exampleAST 4
      = .ok none ∧
    (ValueByMemoryForRecord.mk [0, 64, 128] (.Record 0) 0x3000).getChildField exampleAST 1
      = .ok (some ⟨"b", .TypedefType "real" (.Builtin 2)⟩) ∧
    (∀ (r : ValueByMemoryForRecord) (AST : ASTContext) (DeclId : Nat) (Decl : RecordDecl)
      (i : Nat), r.CanonicalType.getAsRecordDecl = some DeclId →
      AST.getDefinition DeclId = some Decl → Decl.Fields.length = r.getChildCount →
      (i < r.getChildCount → r.getChildField AST i = .ok Decl.Fields[i]?) ∧
      (i = r.getChildCount → r.getChildField AST i = .error .undefined) ∧
      (r.getChildCount < i → r.getChildField AST i = .ok none)) := by
  refine ⟨rfl, rfl, rfl, rfl, ?_⟩
  intro r AST DeclId Decl i hrec hdef hlen
  simp only [ValueByMemoryForRecord.getChildCount] at hlen ⊢
  refine ⟨?_, ?_, ?_⟩
  · intro hi
    have hn : ¬ i > r.Layout.length := by omega
    have hget : Decl.Fields[i]? = some (Decl.Fields[i]) :=
      List.getElem?_eq_getElem (by omega)
    simp only [ValueByMemoryForRecord.getChildField, hn, if_false, hrec, hdef, hget]
  · intro hi
    have hn : ¬ i > r.Layout.length := by omega
    have hget : Decl.Fields[i]? = none := List.getElem?_eq_none (by omega)
    simp only [ValueByMemoryForRecord.getChildField, hn, if_false, hrec, hdef, hget]
  · intro hi
    simp only [ValueByMemoryForRecord.getChildField, gt_iff_lt, hi, if_true]

/-! ## Symmetry of `doReferenceSameValue` -/

theorem isNull_of_canonical {T : QualType} (h : T.getCanonicalType.isNull = false) :
    T.isNull = false := by
  cases T <;> simp [QualType.isNull, QualType.getCanonicalType] at h ⊢

theorem createValue_canonical {AST : ASTContext} {T T2 : QualType} {A : Nat}
    {ProcessState : trace.ProcessState} {O : Option trace.FunctionState}
    (hc : T.getCanonicalType = T2.getCanonicalType)
    (hnull : T.getCanonicalType.isNull = false) :
    createValue AST T A ProcessState O = createValue AST T2 A ProcessState O := by
  have h1 := isNull_of_canonical hnull
  have h2 : T2.isNull = false := isNull_of_canonical (by rw [← hc]; exact hnull)
  simp only [createValue, h1, h2, hc]

theorem getShared_add_ne {t : TypedValueSet} {M M2 : MatchType} {N : Node} (h : M2 ≠ M) :
    (t.add M N).getShared M2 = t.getShared M2 := by
  simp only [TypedValueSet.getShared, TypedValueSet.add, List.find?_append]
  cases hf : t.Items.find? (fun Pair => Pair.1 == M2) with
  | some x => simp
  | none =>
    have : (M == M2) = false := by
      simp only [beq_eq_false_iff_ne, ne_eq]
      exact fun e => h e.symm
    simp [List.find?_cons, this]

/-- A `getValue` call (without an owning function) does not change what any
`getValue` call returns, apart from the identity of a value that the later
call has to make. -/
theorem valOf_getValue_step {S S1 : ValueStoreImpl} {AST : ASTContext} {T2 : QualType}
    {A2 : Nat} {ProcessState : trace.ProcessState} {R2 : Option Node}
    (hstep : getValue S T2 AST A2 ProcessState none = .ok (R2, S1)) (T : QualType) (A : Nat) :
    valOf (getValue S1 T AST A ProcessState none)
      = valOf (getValue S T AST A ProcessState none) := by
  simp only [getValue, ValueStoreImpl.getValue] at hstep
  split at hstep
  · simp only [Except.ok.injEq, Prod.mk.injEq] at hstep
    obtain ⟨-, rfl⟩ := hstep
    rfl
  · rename_i hnull2
    split at hstep
    · simp only [Except.ok.injEq, Prod.mk.injEq] at hstep
      obtain ⟨-, rfl⟩ := hstep
      rfl
    · rename_i hex
      split at hstep
      · simp at hstep
      · simp only [Except.ok.injEq, Prod.mk.injEq] at hstep
        obtain ⟨-, rfl⟩ := hstep
        rfl
      · rename_i V hV
        simp only [Except.ok.injEq, Prod.mk.injEq] at hstep
        obtain ⟨-, rfl⟩ := hstep
        simp only [Bool.not_eq_true] at hnull2
        simp only [getValue, ValueStoreImpl.getValue]
        by_cases hnull : T.getCanonicalType.isNull = true
        · simp [hnull, valOf]
        · simp only [hnull, Bool.false_eq_true, if_false]
          simp only [Bool.not_eq_true] at hnull
          by_cases hkey : A = A2 ∧ T.getCanonicalType = T2.getCanonicalType
          · obtain ⟨rfl, hT⟩ := hkey
            rw [← hT] at hex
            have hcv : createValue AST T A ProcessState none = .ok (some V) := by
              rw [createValue_canonical hT hnull]
              exact hV
            simp only [Function.update_same, hT, getShared_add_self (hT ▸ hex)]
            simp only [← hT, hex, hcv, valOf, Option.map_some']
          · have hsame : (Function.update S.Store A2
                ((S.Store A2).add ⟨T2.getCanonicalType⟩ ⟨S.Created, V⟩) A).getShared
                  ⟨T.getCanonicalType⟩
                = (S.Store A).getShared ⟨T.getCanonicalType⟩ := by
              by_cases hA : A = A2
              · subst hA
                have hT : T.getCanonicalType ≠ T2.getCanonicalType := fun e => hkey ⟨rfl, e⟩
                rw [Function.update_same]
                exact getShared_add_ne (fun e => hT (by simpa using e))
              · rw [Function.update_noteq hA]
            rw [hsame]
            cases hf : (S.Store A).getShared ⟨T.getCanonicalType⟩ with
            | some N => simp [valOf]
            | none =>
              simp only
              cases hcv : createValue AST T A ProcessState none with
              | error e => simp [valOf]
              | ok r =>
                cases r with
                | none => simp [valOf]
                | some W => simp [valOf]

theorem valOf_map {σ τ : Type} (r : Except trace.Fatal (Option Node × σ))
    (g : Option Node × σ → Option Node × τ) (hg : ∀ x, (g x).1 = x.1) :
    valOf (r.map g) = valOf r := by
  cases r with
  | error e => rfl
  | ok x => simp [valOf, Except.map, hg]

/-- A dereference does not change what a later dereference returns, apart from
the identity of a value that has to be made. -/
theorem valOf_deref_step {S S1 : ValueStoreImpl} {AST : ASTContext} {T2 : QualType}
    {A2 : Nat} {ProcessState : trace.ProcessState} {R2 : Option Node}
    (hstep : getValue S T2 AST A2 ProcessState none = .ok (R2, S1))
    {p : ValueOfPointer} {P : QualType} (hP : p.getPointeeType = some P) (i : Nat) :
    valOf (p.getDereferenced AST ProcessState (some S1) i)
      = valOf (p.getDereferenced AST ProcessState (some S) i) := by
  rw [getDereferenced_eq hP, getDereferenced_eq hP,
    valOf_map _ (fun x : Option Node × ValueStoreImpl => (x.1, some x.2)) (fun _ => rfl),
    valOf_map _ (fun x : Option Node × ValueStoreImpl => (x.1, some x.2)) (fun _ => rfl)]
  exact valOf_getValue_step hstep _ _

theorem sameInstance_index {S2 : ValueStoreImpl} {AST : ASTContext}
    {ProcessState : trace.ProcessState} {p : ValueOfPointer} {P PX : QualType}
    {X i : Nat} {NX : Node} {D : Option Node} {S3 : Option ValueStoreImpl}
    (hS2 : S2.Coherent AST) (hfound : (S2.Store X).getShared ⟨PX.getCanonicalType⟩ = some NX)
    (hnull : PX.getCanonicalType.isNull = false)
    (hP : p.getPointeeType = some P)
    (h : p.getDereferenced AST ProcessState (some S2) i = .ok (D, S3)) :
    sameInstance D NX = true ↔
      P.getCanonicalType = PX.getCanonicalType ∧
        (p.getRawValue + i * p.getPointeeSize) % trace.U64 = X := by
  rw [getDereferenced_eq hP] at h
  generalize (p.getRawValue + i * p.getPointeeSize) % trace.U64 = addr at h ⊢
  cases hg : getValue S2 P AST addr ProcessState none with
  | error e => simp [hg, Except.map] at h
  | ok r =>
    obtain ⟨D2, S4⟩ := r
    simp only [hg, Except.map, Except.ok.injEq, Prod.mk.injEq] at h
    obtain ⟨rfl, -⟩ := h
    constructor
    · intro hsame
      cases D2 with
      | none => simp [sameInstance] at hsame
      | some N =>
        simp only [sameInstance, beq_iff_eq] at hsame
        obtain ⟨k1, k2⟩ := getValue_same_id hS2 hfound hg hsame
        exact ⟨k2, k1⟩
    · rintro ⟨ht, ha⟩
      subst ha
      rw [getValue_of_shared (by rw [ht]; exact hnull) (by rw [ht]; exact hfound)] at hg
      simp only [Except.ok.injEq, Prod.mk.injEq] at hg
      obtain ⟨rfl, -⟩ := hg
      simp [sameInstance]

/-- What `doReferenceSameValue` returns is determined by the store before the
call, as `sameValueOutcome` has it. -/
theorem doReferenceSameValue_outcome {AST : ASTContext} {ProcessState : trace.ProcessState}
    {S : ValueStoreImpl} {LHS RHS : ValueOfPointer} {PL PR : QualType}
    (hS : S.Coherent AST)
    (hPL : LHS.getPointeeType = some PL) (hPR : RHS.getPointeeType = some PR)
    (hLraw : LHS.getRawValue < trace.U64) (hRraw : RHS.getRawValue < trace.U64) :
    resultOf (doReferenceSameValue LHS RHS AST ProcessState (some S))
      = sameValueOutcome LHS RHS AST ProcessState S := by
  simp only [doReferenceSameValue, sameValueOutcome]
  by_cases hz : LHS.getDereferenceIndexLimit AST ProcessState = 0 ∨
      RHS.getDereferenceIndexLimit AST ProcessState = 0
  · simp only [hz, if_true, resultOf]
  · simp only [hz, if_false]
    have hvL : ∀ S0 : ValueStoreImpl, valOf (LHS.getDereferenced AST ProcessState (some S0) 0)
        = valOf (getValue S0 PL AST LHS.getRawValue ProcessState none) := by
      intro S0
      rw [getDereferenced_eq hPL, raw_mod hLraw,
        valOf_map _ (fun x : Option Node × ValueStoreImpl => (x.1, some x.2)) (fun _ => rfl)]
    have hvR : ∀ S0 : ValueStoreImpl, valOf (RHS.getDereferenced AST ProcessState (some S0) 0)
        = valOf (getValue S0 PR AST RHS.getRawValue ProcessState none) := by
      intro S0
      rw [getDereferenced_eq hPR, raw_mod hRraw,
        valOf_map _ (fun x : Option Node × ValueStoreImpl => (x.1, some x.2)) (fun _ => rfl)]
    rw [hvL, hvR]
    rw [getDereferenced_eq hPL AST ProcessState S 0, raw_mod hLraw]
    cases hg1 : getValue S PL AST LHS.getRawValue ProcessState none with
    | error e => simp [Except.map, valOf, resultOf]
    | ok r1 =>
      obtain ⟨L0, S1⟩ := r1
      simp only [Except.map]
      rw [← valOf_getValue_step hg1 PR RHS.getRawValue]
      rw [getDereferenced_eq hPR AST ProcessState S1 0, raw_mod hRraw]
      cases hg2 : getValue S1 PR AST RHS.getRawValue ProcessState none with
      | error e => cases L0 <;> simp [Except.map, valOf, resultOf]
      | ok r2 =>
        obtain ⟨R0, S2⟩ := r2
        simp only [Except.map]
        cases L0 with
        | none => simp [valOf, resultOf]
        | some NL =>
          cases R0 with
          | none => simp [valOf, resultOf]
          | some NR =>
            simp only [valOf, Option.map_some']
            have hS1 := getValue_coherent hS hg1
            have hS2 := getValue_coherent hS1 hg2
            obtain ⟨hnullL, hfoundL1⟩ := (getValue_eq_ok hg1).1 NL rfl
            obtain ⟨hnullR, hfoundR⟩ := (getValue_eq_ok hg2).1 NR rfl
            have hfoundL := (getValue_eq_ok hg2).2 _ _ _ hfoundL1
            have hstepL : ∀ i, valOf (LHS.getDereferenced AST ProcessState (some S2) i)
                = valOf (LHS.getDereferenced AST ProcessState (some S) i) := fun i =>
              (valOf_deref_step hg2 hPL i).trans (valOf_deref_step hg1 hPL i)
            have hstepR : ∀ i, valOf (RHS.getDereferenced AST ProcessState (some S2) i)
                = valOf (RHS.getDereferenced AST ProcessState (some S) i) := fun i =>
              (valOf_deref_step hg2 hPR i).trans (valOf_deref_step hg1 hPR i)
            by_cases hsz : NL.Val.getTypeSizeInChars AST ≠ NR.Val.getTypeSizeInChars AST
            · simp only [hsz, if_true, resultOf, ne_eq, not_false_eq_true]
            · simp only [hsz, if_false]
              by_cases hle : LHS.getRawValue ≤ RHS.getRawValue
              · simp only [hle, if_true]
                by_cases h0 : NL.Val.getTypeSizeInChars AST = 0
                · simp only [h0, if_true, resultOf]
                · simp only [h0, if_false]
                  split
                  · have hv := hstepL
                      ((RHS.getRawValue - LHS.getRawValue) / NL.Val.getTypeSizeInChars AST)
                    simp only [valOf] at hv
                    rw [← hv]
                    cases hd : LHS.getDereferenced AST ProcessState (some S2)
                      ((RHS.getRawValue - LHS.getRawValue) / NL.Val.getTypeSizeInChars AST) with
                    | error e => simp only [resultOf, valOf]
                    | ok r3 =>
                      obtain ⟨D, S3⟩ := r3
                      have hiff := sameInstance_index hS2 hfoundR hnullR hPL hd
                      simp only [resultOf, valOf, hPL, hPR, Option.map_some',
                        Option.some.injEq]
                      rw [Bool.eq_iff_iff, hiff]
                      simp only [decide_eq_true_eq]
                  · simp only [resultOf]
              · simp only [hle, if_false]
                by_cases h0 : NR.Val.getTypeSizeInChars AST = 0
                · simp only [h0, if_true, resultOf]
                · simp only [h0, if_false]
                  split
                  · have hv := hstepR
                      ((LHS.getRawValue - RHS.getRawValue) / NR.Val.getTypeSizeInChars AST)
                    simp only [valOf] at hv
                    rw [← hv]
                    cases hd : RHS.getDereferenced AST ProcessState (some S2)
                      ((LHS.getRawValue - RHS.getRawValue) / NR.Val.getTypeSizeInChars AST) with
                    | error e => simp only [resultOf, valOf]
                    | ok r3 =>
                      obtain ⟨D, S3⟩ := r3
                      have hiff := sameInstance_index hS2 hfoundL hnullL hPR hd
                      simp only [resultOf, valOf, hPL, hPR, Option.map_some',
                        Option.some.injEq]
                      rw [Bool.eq_iff_iff, hiff]
                      simp only [decide_eq_true_eq]
                  · simp only [resultOf]

theorem sameValueOutcome_comm {AST : ASTContext} {ProcessState : trace.ProcessState}
    {S : ValueStoreImpl} {LHS RHS : ValueOfPointer} (hRraw : RHS.getRawValue < trace.U64) :
    sameValueOutcome LHS RHS AST ProcessState S = sameValueOutcome RHS LHS AST ProcessState S := by
  simp only [sameValueOutcome]
  by_cases hz : LHS.getDereferenceIndexLimit AST ProcessState = 0 ∨
      RHS.getDereferenceIndexLimit AST ProcessState = 0
  · have hz2 := Or.symm hz
    simp only [hz, hz2, if_true]
  · have hz2 : ¬ (RHS.getDereferenceIndexLimit AST ProcessState = 0 ∨
        LHS.getDereferenceIndexLimit AST ProcessState = 0) := fun h => hz (Or.symm h)
    obtain ⟨hzL, hzR⟩ := not_or.mp hz
    simp only [hz, hz2, if_false]
    cases hvL : valOf (LHS.getDereferenced AST ProcessState (some S) 0) with
    | none => cases hvR : valOf (RHS.getDereferenced AST ProcessState (some S) 0) with
      | none => rfl
      | some R0 => cases R0 <;> rfl
    | some L0 =>
      cases L0 with
      | none => cases hvR : valOf (RHS.getDereferenced AST ProcessState (some S) 0) with
        | none => rfl
        | some R0 => cases R0 <;> rfl
      | some VL =>
        cases hvR : valOf (RHS.getDereferenced AST ProcessState (some S) 0) with
        | none => rfl
        | some R0 =>
          cases R0 with
          | none => rfl
          | some VR =>
            simp only
            by_cases hsz : VL.getTypeSizeInChars AST = VR.getTypeSizeInChars AST
            · have hsz2 := hsz.symm
              simp only [hsz, ne_eq, not_true_eq_false, if_false]
              rcases lt_trichotomy LHS.getRawValue RHS.getRawValue with hlt | heq | hgt
              · have h1 : LHS.getRawValue ≤ RHS.getRawValue := le_of_lt hlt
                have h2 : ¬ RHS.getRawValue ≤ LHS.getRawValue := not_le.mpr hlt
                simp only [h1, h2, if_true, if_false, hsz2]
              · have h1 : LHS.getRawValue ≤ RHS.getRawValue := le_of_eq heq
                have h2 : RHS.getRawValue ≤ LHS.getRawValue := le_of_eq heq.symm
                simp only [h1, h2, if_true]
                by_cases h0 : VR.getTypeSizeInChars AST = 0
                · simp only [h0, if_true]
                · have hL0 : 0 < LHS.getDereferenceIndexLimit AST ProcessState :=
                    Nat.pos_of_ne_zero hzL
                  have hR0 : 0 < RHS.getDereferenceIndexLimit AST ProcessState :=
                    Nat.pos_of_ne_zero hzR
                  simp only [h0, if_false, heq, Nat.sub_self, Nat.zero_div, hL0, hR0, if_true,
                    hvL, hvR, Nat.zero_mul, Nat.add_zero, Nat.mod_eq_of_lt hRraw, and_true]
                  congr 1
                  rw [Bool.eq_iff_iff]
                  simp only [decide_eq_true_eq]
                  exact eq_comm
              · have h1 : ¬ LHS.getRawValue ≤ RHS.getRawValue := not_le.mpr hgt
                have h2 : RHS.getRawValue ≤ LHS.getRawValue := le_of_lt hgt
                simp only [h1, h2, if_true, if_false, hsz]
            · have hsz2 : ¬ VR.getTypeSizeInChars AST = VL.getTypeSizeInChars AST :=
                fun h => hsz h.symm
              simp only [hsz, hsz2, ne_eq, not_false_eq_true, if_true]

/-- The value that `getDereferenced(0)` returns for a pointer as it is
created, with a dereference index limit that is not 0, has a size that is not
0. -/
theorem deref_zero_size_ne {S0 : ValueStoreImpl} {AST : ASTContext}
    {ProcessState : trace.ProcessState} {p : ValueOfPointer} {P : QualType} {N : Node}
    {S1 : Option ValueStoreImpl}
    (hS : S0.Coherent AST) (hP : p.getPointeeType = some P)
    (hsize : p.getPointeeSize = if AST.isIncompleteType P.getCanonicalType = true then 0
      else AST.getTypeSizeInChars P.getCanonicalType)
    (hlim : p.getDereferenceIndexLimit AST ProcessState ≠ 0)
    (h : p.getDereferenced AST ProcessState (some S0) 0 = .ok (some N, S1)) :
    N.Val.getTypeSizeInChars AST ≠ 0 := by
  rw [getDereferenced_eq hP] at h
  cases hg : getValue S0 P AST ((p.getRawValue + 0 * p.getPointeeSize) % trace.U64)
      ProcessState none with
  | error e => rw [hg] at h; simp [Except.map] at h
  | ok r =>
    obtain ⟨D, S2⟩ := r
    rw [hg] at h
    simp only [Except.map, Except.ok.injEq, Prod.mk.injEq] at h
    obtain ⟨rfl, -⟩ := h
    have hS2 := getValue_coherent hS hg
    obtain ⟨-, hfound⟩ := (getValue_eq_ok hg).1 N rfl
    obtain ⟨-, -, hsz, hinc⟩ := hS2.1 _ _ _ hfound
    simp only at hsz hinc
    have hps := limit_pos_size hlim
    rw [hsize, hinc] at hps
    simp only [Bool.false_eq_true, if_false] at hps
    rw [hsz]
    cases hc : P.getCanonicalType <;> simp only [scalarTypeSize, hc] at hps ⊢
    all_goals first
      | exact hps
      | (split
         · decide
         · exact hps)

/-- C40: let `L` and `R` be pointer values as they are created (the pointee
size is that of the canonical pointee type, 0 for an incomplete one; the raw
value is a 64-bit address), in a state view whose store exists and is
coherent. `doReferenceSameValue(L, R)` and `doReferenceSameValue(R, L)` return
the same: one aborts exactly when the other does, and if they return they
return the same truth value. In either call, whenever the two limits are not 0
and the two `getDereferenced(0)` calls have returned their values, the sizes
of those values, of which one is the divisor of the offset, are not 0. -/
theorem doReferenceSameValue_symmetric (AST : ASTContext) (ProcessState : trace.ProcessState)
    (S : ValueStoreImpl) (LHS RHS : ValueOfPointer) (PL PR : QualType)
    (hS : S.Coherent AST)
    (hPL : LHS.getPointeeType = some PL) (hPR : RHS.getPointeeType = some PR)
    (hLsize : LHS.getPointeeSize = if AST.isIncompleteType PL.getCanonicalType = true then 0
      else AST.getTypeSizeInChars PL.getCanonicalType)
    (hRsize : RHS.getPointeeSize = if AST.isIncompleteType PR.getCanonicalType = true then 0
      else AST.getTypeSizeInChars PR.getCanonicalType)
    (hLraw : LHS.getRawValue < trace.U64) (hRraw : RHS.getRawValue < trace.U64) :
    resultOf (doReferenceSameValue LHS RHS AST ProcessState (some S))
      = resultOf (doReferenceSameValue RHS LHS AST ProcessState (some S)) ∧
    (∀ b S1, doReferenceSameValue LHS RHS AST ProcessState (some S) = .ok (b, S1) →
      ∃ S2, doReferenceSameValue RHS LHS AST ProcessState (some S) = .ok (b, S2)) ∧
    (LHS.getDereferenceIndexLimit AST ProcessState ≠ 0 →
      RHS.getDereferenceIndexLimit AST ProcessState ≠ 0 →
      (∀ L0 S1 R0 S2, LHS.getDereferenced AST ProcessState (some S) 0 = .ok (some L0, some S1) →
        RHS.getDereferenced AST ProcessState (some S1) 0 = .ok (some R0, S2) →
        L0.Val.getTypeSizeInChars AST ≠ 0 ∧ R0.Val.getTypeSizeInChars AST ≠ 0) ∧
      (∀ R0 S1 L0 S2, RHS.getDereferenced AST ProcessState (some S) 0 = .ok (some R0, some S1) →
        LHS.getDereferenced AST ProcessState (some S1) 0 = .ok (some L0, S2) →
        R0.Val.getTypeSizeInChars AST ≠ 0 ∧ L0.Val.getTypeSizeInChars AST ≠ 0)) := by
  have hsym : resultOf (doReferenceSameValue LHS RHS AST ProcessState (some S))
      = resultOf (doReferenceSameValue RHS LHS AST ProcessState (some S)) := by
    rw [doReferenceSameValue_outcome hS hPL hPR hLraw hRraw,
      doReferenceSameValue_outcome hS hPR hPL hRraw hLraw]
    exact sameValueOutcome_comm hRraw
  have hstore : ∀ (p : ValueOfPointer) (P : QualType) (N : Option Node) (S1 : ValueStoreImpl),
      p.getPointeeType = some P →
      p.getDereferenced AST ProcessState (some S) 0 = .ok (N, some S1) → S1.Coherent AST := by
    intro p P N S1 hP h
    rw [getDereferenced_eq hP] at h
    cases hg : getValue S P AST ((p.getRawValue + 0 * p.getPointeeSize) % trace.U64)
        ProcessState none with
    | error e => rw [hg] at h; simp [Except.map] at h
    | ok r =>
      obtain ⟨D, S2⟩ := r
      rw [hg] at h
      simp only [Except.map, Except.ok.injEq, Prod.mk.injEq, Option.some.injEq] at h
      obtain ⟨-, rfl⟩ := h
      exact getValue_coherent hS hg
  refine ⟨hsym, ?_, ?_⟩
  · intro b S1 h
    rw [h] at hsym
    cases h2 : doReferenceSameValue RHS LHS AST ProcessState (some S) with
    | error e => rw [h2] at hsym; simp [resultOf] at hsym
    | ok r =>
      obtain ⟨b2, S2⟩ := r
      rw [h2] at hsym
      simp only [resultOf, Option.some.injEq] at hsym
      exact ⟨S2, by rw [hsym]⟩
  · intro hzL hzR
    refine ⟨?_, ?_⟩
    · intro L0 S1 R0 S2 h1 h2
      exact ⟨deref_zero_size_ne hS hPL hLsize hzL h1,
        deref_zero_size_ne (hstore _ _ _ _ hPL h1) hPR hRsize hzR h2⟩
    · intro R0 S1 L0 S2 h1 h2
      exact ⟨deref_zero_size_ne hS hPR hRsize hzR h1,
        deref_zero_size_ne (hstore _ _ _ _ hPR h1) hPL hLsize hzL h2⟩

/-- C40 (witness): the `int *` values `0x3000` and `0x3008` into a known area
of 24 bytes, with an empty store. -/
theorem doReferenceSameValue_symmetric_witness :
    resultOf (doReferenceSameValue (pointerToInt 0x3000) (pointerToInt 0x3008) exampleAST
        exampleMemory (some ValueStoreImpl.empty))
      = resultOf (doReferenceSameValue (pointerToInt 0x3008) (pointerToInt 0x3000) exampleAST
        exampleMemory (some ValueStoreImpl.empty)) :=
  (doReferenceSameValue_symmetric exampleAST exampleMemory ValueStoreImpl.empty
    (pointerToInt 0x3000) (pointerToInt 0x3008) (.Builtin 0) (.Builtin 0)
    (coherent_empty exampleAST) rfl rfl rfl rfl (by decide) (by decide)).1

end cm
end seec
